import Mathlib

/-!
# hdlib.c : hypervectors, their algebra and the named vector space

A shallow embedding of `src/hdlib/arithmetic.c`, `src/hdlib/space.c`,
`src/hdlib/graph.c`, `src/hdlib/model.c` and `src/hdlib/parser.c`.

Conventions of the embedding

* A C `int` is an `Int`; an arithmetic result outside `[INT_MIN, INT_MAX]` is
  undefined behaviour and the call ends in `Fault.undefined`.
* `fprintf(stderr, ...); exit(EXIT_FAILURE);` ends the call in `Fault.exit`.
* The pair `(int *vector, int size)` of a `Vector` is one list; `size` is its
  length (create_vector allocates exactly `size` elements and nothing in the
  library changes either of them afterwards).  In the same way the pair
  `(Vector **vectors, int vector_count)` of a `Space` is one list.
* `srand`/`rand` are a deterministic stream: the n-th value drawn after
  `srand(s)` is `Env.stream s n`.  `time(NULL)` is an input: its k-th reading
  is `Env.clock k`.  The process-wide generator state and the number of clock
  readings are threaded through every call as a `World`.
* `malloc`/`realloc`/`strdup` succeed.
* A `double` is read as its exact real value; the statements that depend on
  this reading say so.  The rounding of the cosine formula is followed by
  `cosine_double`.
* A file is the list of its characters; `fopen` on a missing file is the
  input `none`.
-/

namespace Hdlib

/-! ## Outcomes, machine integers, process-wide state -/

/-- Ways a call ends without returning to its caller. -/
inductive Fault where
  | exit (msg : String)
  | undefined (what : String)
  deriving DecidableEq, Repr

def INT_MAX : Int := 2147483647

def INT_MIN : Int := -2147483648

/-- Whether a mathematical integer is representable in a C int. -/
def in_int (x : Int) : Prop := INT_MIN ≤ x ∧ x ≤ INT_MAX

instance (x : Int) : Decidable (in_int x) := by
  unfold in_int; infer_instance

/-- Decides `a < b` on ints through `b ≤ a`; the library instance unfolds a
literal bound in unary when the other side is the length of a list. -/
instance int_lt_dec (a b : Int) : Decidable (a < b) :=
  decidable_of_iff (¬ b ≤ a) Int.not_le

/-- The value of an int expression: undefined behaviour when it overflows. -/
def checked (x : Int) : Except Fault Int :=
  if in_int x then .ok x else .error (.undefined "signed integer overflow")

def add_int (a b : Int) : Except Fault Int := checked (a + b)

def sub_int (a b : Int) : Except Fault Int := checked (a - b)

def mul_int (a b : Int) : Except Fault Int := checked (a * b)

/-- The random stream and the wall clock, inputs of a run. -/
structure Env where
  stream : Int → Nat → Nat
  clock : Nat → Int

/-- The process-wide state: the generator (last seed, values drawn since) and
the number of readings of the clock so far. -/
structure World where
  rng_seed : Int
  rng_drawn : Nat
  clock_reads : Nat
  deriving DecidableEq, Repr

def srand (w : World) (seed : Int) : World :=
  { w with rng_seed := seed, rng_drawn := 0 }

def rand (E : Env) (w : World) : Nat × World :=
  (E.stream w.rng_seed w.rng_drawn, { w with rng_drawn := w.rng_drawn + 1 })

def time_null (E : Env) (w : World) : Int × World :=
  (E.clock w.clock_reads, { w with clock_reads := w.clock_reads + 1 })

/-! ## Vector -/

/-- The struct Vector; `size` is the length of `vector`. -/
structure Vector where
  name : String
  vector : List Int
  vtype : String
  tags : List String
  seed : Int
  warning : Bool
  deriving DecidableEq, Repr

def Vector.size (v : Vector) : Int := v.vector.length

/-- One iteration of the generating loop of create_vector. -/
def random_element (E : Env) (vtype : String) (w : World) : Except Fault (Int × World) :=
  let rw := rand E w
  let rand_value : Int := (rw.1 % 2 : Nat)
  if vtype = "binary" then .ok (rand_value, rw.2)
  else if vtype = "bipolar" then .ok (if rand_value = 0 then -1 else 1, rw.2)
  else .error (.exit "Vector type can be binary or bipolar only")

/-- The generating loop of create_vector, `n` iterations. -/
def fill_random (E : Env) (vtype : String) : Nat → World → Except Fault (List Int × World)
  | 0, w => .ok ([], w)
  | n + 1, w =>
    match random_element E vtype w with
    | .error f => .error f
    | .ok (x, w1) =>
      match fill_random E vtype n w1 with
      | .error f => .error f
      | .ok (xs, w2) => .ok (x :: xs, w2)

/-- create_vector, identical in arithmetic.c and space.c. -/
def create_vector (E : Env) (w : World) (name : String) (size : Int) (vtype : String)
    (seed : Int) (warning : Bool) : Except Fault (Vector × World) :=
  if size < 10000 then .error (.exit "Vector size must be greater than or equal to 10000")
  else
    let w1 := if seed ≠ -1 then srand w seed else srand (time_null E w).2 (time_null E w).1
    match fill_random E vtype size.toNat w1 with
    | .error f => .error f
    | .ok (elems, w2) =>
      .ok ({ name := name, vector := elems, vtype := vtype, tags := [], seed := seed,
             warning := warning }, w2)

/-- The loop `for i < size: result[i] = vec1[i] op vec2[i]` over two arrays of
the same size. -/
def elementwise (op : Int → Int → Except Fault Int) : List Int → List Int → Except Fault (List Int)
  | a :: as, b :: bs =>
    match op a b with
    | .error f => .error f
    | .ok c =>
      match elementwise op as bs with
      | .error f => .error f
      | .ok cs => .ok (c :: cs)
  | _, _ => .ok []

/-- The buffer after all cells were assigned: reading a cell never written is
reading an indeterminate value. -/
def collect : List (Option Int) → Except Fault (List Int)
  | [] => .ok []
  | none :: _ => .error (.undefined "read of an indeterminate value")
  | some x :: rest =>
    match collect rest with
    | .error f => .error f
    | .ok xs => .ok (x :: xs)

/-- One iteration of the loop of permute_vector:
`temp[(i + rotate_by) % size] = vec->vector[i]`; the second component logs the
index written. -/
def permute_step (src : List Int) (rotate_by : Int) (i : Nat)
    (st : List (Option Int) × List Nat) : Except Fault (List (Option Int) × List Nat) :=
  match add_int i rotate_by with
  | .error f => .error f
  | .ok s =>
    let new_index := Int.tmod s src.length
    if 0 ≤ new_index ∧ new_index < src.length then
      .ok (st.1.set new_index.toNat src[i]?, st.2 ++ [new_index.toNat])
    else .error (.undefined "write outside the array")

/-- The loop of permute_vector from index `i`, `fuel` iterations left. -/
def permute_loop (src : List Int) (rotate_by : Int) :
    Nat → Nat → List (Option Int) × List Nat → Except Fault (List (Option Int) × List Nat)
  | 0, _, st => .ok st
  | fuel + 1, i, st =>
    match permute_step src rotate_by i st with
    | .error f => .error f
    | .ok st1 => permute_loop src rotate_by fuel (i + 1) st1

/-! ## arithmetic.c -/

namespace ArithmeticC

def bind_vectors (E : Env) (w : World) (vec1 vec2 : Vector) : Except Fault (Vector × World) :=
  if vec1.size ≠ vec2.size then .error (.exit "Vectors must have the same size")
  else if vec1.vtype ≠ vec2.vtype then .error (.exit "Vector types are not compatible")
  else
    match create_vector E w "BindResult" vec1.size vec1.vtype (-1) false with
    | .error f => .error f
    | .ok (result, w1) =>
      match elementwise mul_int vec1.vector vec2.vector with
      | .error f => .error f
      | .ok elems => .ok ({ result with vector := elems }, w1)

def bundle_vectors (E : Env) (w : World) (vec1 vec2 : Vector) : Except Fault (Vector × World) :=
  if vec1.size ≠ vec2.size then .error (.exit "Vectors must have the same size")
  else if vec1.vtype ≠ vec2.vtype then .error (.exit "Vector types are not compatible")
  else
    match create_vector E w "BundleResult" vec1.size vec1.vtype (-1) false with
    | .error f => .error f
    | .ok (result, w1) =>
      match elementwise add_int vec1.vector vec2.vector with
      | .error f => .error f
      | .ok elems => .ok ({ result with vector := elems }, w1)

def subtract_vectors (E : Env) (w : World) (vec1 vec2 : Vector) : Except Fault (Vector × World) :=
  if vec1.size ≠ vec2.size then .error (.exit "Vectors must have the same size")
  else if vec1.vtype ≠ vec2.vtype then .error (.exit "Vector types are not compatible")
  else
    match create_vector E w "SubtractResult" vec1.size vec1.vtype (-1) false with
    | .error f => .error f
    | .ok (result, w1) =>
      match elementwise sub_int vec1.vector vec2.vector with
      | .error f => .error f
      | .ok elems => .ok ({ result with vector := elems }, w1)

/-- The loop of permute_vector run on the freshly created result, with the log
of the indices written. -/
def permute_run (E : Env) (w : World) (vec : Vector) (rotate_by : Int) :
    Except Fault ((Vector × List (Option Int) × List Nat) × World) :=
  match create_vector E w "PermuteResult" vec.size vec.vtype (-1) false with
  | .error f => .error f
  | .ok (result, w1) =>
    match permute_loop vec.vector rotate_by vec.size.toNat 0 (result.vector.map some, []) with
    | .error f => .error f
    | .ok (buf, log) => .ok ((result, buf, log), w1)

def permute_vector (E : Env) (w : World) (vec : Vector) (rotate_by : Int) :
    Except Fault (Vector × World) :=
  match permute_run E w vec rotate_by with
  | .error f => .error f
  | .ok ((result, buf, _), w1) =>
    match collect buf with
    | .error f => .error f
    | .ok elems => .ok ({ result with vector := elems }, w1)

end ArithmeticC

/-! ## space.c -/

/-- The struct Space; `vector_count` is the length of `vectors`. -/
structure Space where
  vectors : List Vector
  size : Int
  vtype : String
  tags : List String
  deriving DecidableEq, Repr

def Space.vector_count (s : Space) : Int := s.vectors.length

/-- The value returned by vector_distance, kept as the integer sums the loops
accumulate: `cosine` stands for
`1.0 - dot_product / (sqrt norm_a * sqrt norm_b)`, `hamming` for `(double)count`
and `euclidean` for `sqrt sum`. -/
inductive DistValue where
  | cosine (dot_product norm_a norm_b : Int)
  | hamming (count : Int)
  | euclidean (sum : Int)
  deriving DecidableEq, Repr

/-- The real number a returned value denotes over exact real arithmetic; a
quotient with divisor zero denotes none.  The double the program returns is this
real rounded in every operation (`cosine_double`). -/
def DistValue.IsReal : DistValue → ℝ → Prop
  | .cosine dot_product norm_a norm_b, r =>
    Real.sqrt norm_a * Real.sqrt norm_b ≠ 0 ∧
      r = 1 - (dot_product : ℝ) / (Real.sqrt norm_a * Real.sqrt norm_b)
  | .hamming count, r => r = count
  | .euclidean sum, r => r = Real.sqrt sum

/-- The cosine loop; the accumulator is (dot_product, norm_a, norm_b). -/
def cosine_loop : List Int → List Int → Int × Int × Int → Except Fault (Int × Int × Int)
  | a :: as, b :: bs, acc =>
    match mul_int a b with
    | .error f => .error f
    | .ok ab =>
      match mul_int a a with
      | .error f => .error f
      | .ok aa =>
        match mul_int b b with
        | .error f => .error f
        | .ok bb => cosine_loop as bs (acc.1 + ab, acc.2.1 + aa, acc.2.2 + bb)
  | _, _, acc => .ok acc

/-- The hamming loop; the accumulator is count. -/
def hamming_loop : List Int → List Int → Int → Int
  | a :: as, b :: bs, count => hamming_loop as bs (if a ≠ b then count + 1 else count)
  | _, _, count => count

/-- The euclidean loop; the accumulator is sum. -/
def euclidean_loop : List Int → List Int → Int → Except Fault Int
  | a :: as, b :: bs, sum =>
    match sub_int a b with
    | .error f => .error f
    | .ok diff => euclidean_loop as bs (sum + diff * diff)
  | _, _, sum => .ok sum

/-- The sum of the products of corresponding elements, the value the cosine
loop accumulates in dot_product. -/
def dot : List Int → List Int → Int
  | a :: as, b :: bs => a * b + dot as bs
  | _, _ => 0

/-- The sum of the squares of the elements, the value the cosine loop
accumulates in norm_a and norm_b. -/
def sum_sq : List Int → Int
  | [] => 0
  | a :: as => a * a + sum_sq as

/-- The largest absolute value whose square fits in an int. -/
def SQRT_INT_MAX : Int := 46340

/-- A bound on absolute values under which the sum of two ints fits in an int. -/
def HALF_INT_MAX : Int := 1073741823

/-- Every element has absolute value at most HALF_INT_MAX. -/
def half_elements (xs : List Int) : Prop := ∀ x ∈ xs, -HALF_INT_MAX ≤ x ∧ x ≤ HALF_INT_MAX

/-- Every element is small enough for its products and differences with other
such elements to fit in an int. -/
def small_elements (xs : List Int) : Prop := ∀ x ∈ xs, -SQRT_INT_MAX ≤ x ∧ x ≤ SQRT_INT_MAX

namespace SpaceC

def create_space (size : Int) (vtype : String) : Except Fault Space :=
  if size < 10000 then
    .error (.exit "Size of vectors in space must be greater than or equal to 10000")
  else .ok { vectors := [], size := size, vtype := vtype, tags := [] }

/-- The loop of insert_vector that looks for the name among the vectors. -/
def name_in : List Vector → String → Bool
  | [], _ => false
  | v :: rest, name => if v.name = name then true else name_in rest name

/-- insert_vector: the outcome of the call and the space as the call leaves it. -/
def insert_vector (space : Space) (vec : Vector) : Except Fault Unit × Space :=
  if space.size ≠ vec.size then
    (.error (.exit "Space and vectors with different size are not compatible"), space)
  else if space.vtype ≠ vec.vtype then
    (.error (.exit "Attempting to insert a vector into a space of another type: failed"), space)
  else if name_in space.vectors vec.name then
    (.error (.exit "Vector already in space"), space)
  else (.ok (), { space with vectors := space.vectors ++ [vec] })

/-- A run of insert_vector calls, one per listed vector, stopping at the first
call that does not return. -/
def insert_each : Space → List Vector → Except Fault Unit × Space
  | space, [] => (.ok (), space)
  | space, vec :: rest =>
    match insert_vector space vec with
    | (.error f, space1) => (.error f, space1)
    | (.ok _, space1) => insert_each space1 rest

def vector_distance (vec1 vec2 : Vector) (method : String) : Except Fault DistValue :=
  if vec1.size ≠ vec2.size then .error (.exit "Vectors must have the same size")
  else if vec1.vtype ≠ vec2.vtype then .error (.exit "Vectors must be of the same type")
  else if method = "cosine" then
    match cosine_loop vec1.vector vec2.vector (0, 0, 0) with
    | .error f => .error f
    | .ok acc => .ok (.cosine acc.1 acc.2.1 acc.2.2)
  else if method = "hamming" then
    .ok (.hamming (hamming_loop vec1.vector vec2.vector 0))
  else if method = "euclidean" then
    match euclidean_loop vec1.vector vec2.vector 0 with
    | .error f => .error f
    | .ok sum => .ok (.euclidean sum)
  else .error (.exit "Distance method is not supported")

def normalize_vector (vec : Vector) : Except Fault Vector :=
  if vec.vtype ≠ "binary" ∧ vec.vtype ≠ "bipolar" then
    .error (.exit "Vector type is not supported")
  else
    .ok { vec with vector := vec.vector.map fun x =>
            if x > 0 then 1 else if vec.vtype = "binary" then 0 else -1 }

def bind_vectors (E : Env) (w : World) (vec1 vec2 : Vector) : Except Fault (Vector × World) :=
  if vec1.size ≠ vec2.size then .error (.exit "Vectors must have the same size")
  else
    match create_vector E w vec1.name vec1.size vec1.vtype (-1) false with
    | .error f => .error f
    | .ok (result, w1) =>
      match elementwise mul_int vec1.vector vec2.vector with
      | .error f => .error f
      | .ok elems => .ok ({ result with vector := elems }, w1)

def bundle_vectors (E : Env) (w : World) (vec1 vec2 : Vector) : Except Fault (Vector × World) :=
  if vec1.size ≠ vec2.size then .error (.exit "Vectors must have the same size")
  else
    match create_vector E w vec1.name vec1.size vec1.vtype (-1) false with
    | .error f => .error f
    | .ok (result, w1) =>
      match elementwise add_int vec1.vector vec2.vector with
      | .error f => .error f
      | .ok elems => .ok ({ result with vector := elems }, w1)

def subtract_vectors (E : Env) (w : World) (vec1 vec2 : Vector) : Except Fault (Vector × World) :=
  if vec1.size ≠ vec2.size then .error (.exit "Vectors must have the same size")
  else
    match create_vector E w vec1.name vec1.size vec1.vtype (-1) false with
    | .error f => .error f
    | .ok (result, w1) =>
      match elementwise sub_int vec1.vector vec2.vector with
      | .error f => .error f
      | .ok elems => .ok ({ result with vector := elems }, w1)

/-- The loop of permute_vector run on the uninitialised `temp`, with the log of
the indices written. -/
def permute_run (vec : Vector) (rotate_by : Int) :
    Except Fault (List (Option Int) × List Nat) :=
  permute_loop vec.vector rotate_by vec.size.toNat 0 (List.replicate vec.size.toNat none, [])

/-- permute_vector, in place: the vector as the call leaves it. -/
def permute_vector (vec : Vector) (rotate_by : Int) : Except Fault Vector :=
  match permute_run vec rotate_by with
  | .error f => .error f
  | .ok (temp, _) =>
    match collect temp with
    | .error f => .error f
    | .ok elems => .ok { vec with vector := elems }

end SpaceC

/-! ## graph.c -/

namespace GraphC

/-- get_vector_from_space: the first vector of that name, `none` for NULL. -/
def get_vector_from_space_loop : List Vector → String → Option Vector
  | [], _ => none
  | v :: rest, name => if v.name = name then some v else get_vector_from_space_loop rest name

def get_vector_from_space (space : Space) (name : String) : Option Vector :=
  get_vector_from_space_loop space.vectors name

end GraphC

/-! ## graph.c: the graph engine

graph.c is compiled against the Vector and Space of space.c: permute_vector is
called as a statement that rotates in place, and bind_vectors names its result
after its first operand.  A weight and a threshold are the exact rational value
of their double.  The name `__weight__%.2f` that sprintf prints for a weight is
a parameter `fmt` of the functions that build or look up weight vectors. -/

/-- The struct Edge; the weight is -1 for an edge of an unweighted graph. -/
structure Edge where
  node1_name : String
  node2_name : String
  weight : Rat
  deriving DecidableEq, Repr

/-- Modelled from the spec: the neighbour list, the weights and the memory of a
node.  graph.c reads them as fields of its Vector (`children`,
`children_count`, `memory`) and through add_child, add_weight, get_weight and
has_child, none of which is declared or defined in src/. -/
structure NodeFields where
  children : List String
  weights : List (String × Rat)
  memory : Option Vector
  deriving DecidableEq, Repr

/-- The struct Graph; `nodes` holds, per node name, the fields of the node
vector that the struct Vector of src/ does not declare. -/
structure Graph where
  size : Int
  vtype : String
  directed : Bool
  weighted : Bool
  nodes_counter : Int
  edges_counter : Int
  space : Space
  seed : Int
  nodes : String → NodeFields

/-- Whether `*distance < threshold` holds over exact real arithmetic, decided on
the integer sums.  A quotient with divisor zero is NaN and compares false. -/
def DistValue.lt : DistValue → Rat → Bool
  | .cosine dot_product norm_a norm_b, t =>
    if norm_a ≤ 0 ∨ norm_b ≤ 0 then false
    else if 0 ≤ dot_product then
      if 1 - t < 0 then true
      else decide ((1 - t) * (1 - t) * (norm_a * norm_b : Int) < (dot_product * dot_product : Int))
    else
      if 0 ≤ 1 - t then false
      else decide ((dot_product * dot_product : Int) < (1 - t) * (1 - t) * (norm_a * norm_b : Int))
  | .hamming count, t => decide ((count : Rat) < t)
  | .euclidean sum, t => decide (0 < t ∧ (sum : Rat) < t * t)

/-- The loop `for j < size: acc[j] += temp[j]`, `size` iterations. -/
def accumulate : Nat → List Int → List Int → Except Fault (List Int)
  | 0, acc, _ => .ok acc
  | n + 1, a :: acc, t :: temp =>
    match add_int a t with
    | .error f => .error f
    | .ok c =>
      match accumulate n acc temp with
      | .error f => .error f
      | .ok cs => .ok (c :: cs)
  | _ + 1, _, _ => .error (.undefined "access outside the array")

namespace GraphC

def Graph.set_node (graph : Graph) (name : String) (fields : NodeFields) : Graph :=
  { graph with nodes := fun n => if n = name then fields else graph.nodes n }

/-- Modelled from the spec: add_child(node, name) records `name` as one more
neighbour of the node, after those already recorded. -/
def add_child (graph : Graph) (node_name child_name : String) : Graph :=
  Graph.set_node graph node_name
    { graph.nodes node_name with
      children := (graph.nodes node_name).children ++ [child_name] }

/-- Modelled from the spec: add_weight(node, name, weight) records the weight of
the edge from the node to `name`. -/
def add_weight (graph : Graph) (node_name child_name : String) (weight : Rat) : Graph :=
  Graph.set_node graph node_name
    { graph.nodes node_name with
      weights := (child_name, weight) :: (graph.nodes node_name).weights }

/-- Modelled from the spec: get_weight(node, name) is the weight w(node, name)
recorded last for that edge, the unweighted sentinel -1 when there is none. -/
def get_weight (graph : Graph) (node_name child_name : String) : Rat :=
  match (graph.nodes node_name).weights.find? (fun p => p.1 = child_name) with
  | some p => p.2
  | none => -1

/-- Modelled from the spec: has_child(node, name) tells whether `name` is a
recorded neighbour of the node. -/
def has_child (graph : Graph) (node_name child_name : String) : Bool :=
  decide (child_name ∈ (graph.nodes node_name).children)

/-- The test `strncmp(name, "__weight__", 9) == 0`. -/
def is_weight_name (name : String) : Bool :=
  decide (name.data.take 9 = "__weight_".data)

def create_graph (E : Env) (w : World) (size : Int) (directed weighted : Bool) (seed : Int) :
    Except Fault (Graph × World) :=
  if size < 10000 then .error (.exit "Vectors size must be greater than or equal to 10000")
  else
    match SpaceC.create_space size "bipolar" with
    | .error f => .error f
    | .ok space =>
      .ok ({ size := size, vtype := "bipolar", directed := directed, weighted := weighted,
             nodes_counter := 0, edges_counter := 0, space := space, seed := seed,
             nodes := fun _ => { children := [], weights := [], memory := none } },
           if seed ≠ -1 then srand w seed else srand (time_null E w).2 (time_null E w).1)

/-- The lookup of a node in add_edge: the node is created and inserted when the
space has no vector of that name. -/
def find_or_create (E : Env) (w : World) (graph : Graph) (node_name : String) :
    Except Fault (Graph × World) :=
  match get_vector_from_space graph.space node_name with
  | some _ => .ok (graph, w)
  | none =>
    match create_vector E w node_name graph.size graph.vtype (-1) false with
    | .error f => .error f
    | .ok (node, w1) =>
      match SpaceC.insert_vector graph.space node with
      | (.error f, _) => .error f
      | (.ok _, space1) =>
        .ok ({ graph with space := space1, nodes_counter := graph.nodes_counter + 1 }, w1)

def add_edge (E : Env) (w : World) (graph : Graph) (node1_name node2_name : String)
    (weight : Rat) : Except Fault (Graph × World) :=
  match find_or_create E w graph node1_name with
  | .error f => .error f
  | .ok (g1, w1) =>
    match find_or_create E w1 g1 node2_name with
    | .error f => .error f
    | .ok (g2, w2) =>
      let g3 := add_child g2 node1_name node2_name
      let g4 := if g3.weighted then add_weight g3 node1_name node2_name weight else g3
      let g5 := { g4 with edges_counter := g4.edges_counter + 1 }
      if ¬ g5.directed then
        let g6 := add_child g5 node2_name node1_name
        let g7 := if g6.weighted then add_weight g6 node2_name node1_name weight else g6
        .ok ({ g7 with edges_counter := g7.edges_counter + 1 }, w2)
      else .ok (g5, w2)

/-- The vector `temp_vector` that build_node_memory adds for one neighbour. -/
def neighbor_contribution (fmt : Rat → String) (E : Env) (w : World) (graph : Graph)
    (node_name neighbor_name : String) : Except Fault (Vector × World) :=
  match get_vector_from_space graph.space neighbor_name with
  | none => .error (.undefined "null pointer dereference")
  | some neighbor =>
    if graph.weighted then
      match get_vector_from_space graph.space (fmt (get_weight graph node_name neighbor_name)) with
      | none => .error (.exit "Weight vector not found")
      | some weight_vector => SpaceC.bind_vectors E w weight_vector neighbor
    else .ok (neighbor, w)

/-- The loop of build_node_memory over the children of the node. -/
def build_node_memory_loop (fmt : Rat → String) (E : Env) (graph : Graph) (node_name : String) :
    List String → Vector × World → Except Fault (Vector × World)
  | [], st => .ok st
  | neighbor_name :: rest, (node_memory, w) =>
    match neighbor_contribution fmt E w graph node_name neighbor_name with
    | .error f => .error f
    | .ok (temp_vector, w1) =>
      match accumulate graph.size.toNat node_memory.vector temp_vector.vector with
      | .error f => .error f
      | .ok elems =>
        build_node_memory_loop fmt E graph node_name rest
          ({ node_memory with vector := elems }, w1)

def build_node_memory (fmt : Rat → String) (E : Env) (w : World) (graph : Graph)
    (node_name : String) : Except Fault (Graph × World) :=
  match get_vector_from_space graph.space node_name with
  | none => .error (.exit "Node is not in the graph space")
  | some _ =>
    match create_vector E w "NodeMemory" graph.size graph.vtype (-1) false with
    | .error f => .error f
    | .ok (node_memory, w1) =>
      match build_node_memory_loop fmt E graph node_name (graph.nodes node_name).children
          (node_memory, w1) with
      | .error f => .error f
      | .ok (node_memory1, w2) =>
        .ok (Graph.set_node graph node_name
              { graph.nodes node_name with memory := some node_memory1 }, w2)

/-- The flips of one level of build_weight_memory: `count` times
`index = rand() % size; base_vector[index] *= -1`. -/
def flip_random (E : Env) (size : Int) : Nat → List Int × World → Except Fault (List Int × World)
  | 0, st => .ok st
  | n + 1, (base_vector, w) =>
    if size = 0 then .error (.undefined "division by zero")
    else
      let index := Int.tmod ((rand E w).1 : Int) size
      match base_vector[index.toNat]? with
      | none => .error (.undefined "access outside the array")
      | some x =>
        match mul_int x (-1) with
        | .error f => .error f
        | .ok y => flip_random E size n (base_vector.set index.toNat y, (rand E w).2)

/-- The loop `for (w = start; w < end; w += step)` of build_weight_memory, at
most `fuel` iterations. -/
def build_weight_memory_loop (fmt : Rat → String) (E : Env) (end_ step : Rat) (next_level : Int) :
    Nat → Rat → (Graph × List Int) × World → Except Fault (Graph × World)
  | 0, _, ((graph, _), w) => .ok (graph, w)
  | fuel + 1, weight, ((graph, base_vector), w) =>
    if weight < end_ then
      match create_vector E w (fmt weight) graph.size graph.vtype (-1) false with
      | .error f => .error f
      | .ok (weight_vector, w1) =>
        match flip_random E graph.size next_level.toNat (base_vector, w1) with
        | .error f => .error f
        | .ok (base1, w2) =>
          match SpaceC.insert_vector graph.space { weight_vector with vector := base1 } with
          | (.error f, _) => .error f
          | (.ok _, space1) =>
            build_weight_memory_loop fmt E end_ step next_level fuel (weight + step)
              (({ graph with space := space1 }, base1), w2)
    else .ok (graph, w)

/-- build_weight_memory.  The loop over the weights ends when `step > 0`, after
the least n with start + n * step ≥ end iterations; with `step ≤ 0` and
`start < end` it does not end and the model stops. -/
def build_weight_memory (fmt : Rat → String) (E : Env) (w : World) (graph : Graph)
    (start end_ step : Rat) : Except Fault (Graph × World) :=
  if step = 0 then .error (.undefined "conversion of a non-finite double to int")
  else
    match checked (Int.tdiv ((end_ - start) / step).num ((end_ - start) / step).den) with
    | .error f => .error f
    | .ok levels =>
      match mul_int 2 levels with
      | .error f => .error f
      | .ok twice =>
        if twice = 0 then .error (.undefined "division by zero")
        else if step < 0 ∧ start < end_ then .error (.undefined "the loop does not end")
        else
          build_weight_memory_loop fmt E end_ step (Int.tdiv graph.size twice)
            (Rat.ceil ((end_ - start) / step)).toNat start
            ((graph, List.replicate graph.size.toNat (-1)), w)

/-- The loop of fit_graph that adds the edges. -/
def add_edges (E : Env) : List Edge → Graph × World → Except Fault (Graph × World)
  | [], st => .ok st
  | edge :: rest, (graph, w) =>
    if graph.weighted ∧ edge.weight = -1 then
      .error (.exit "Graph is weighted but edge weight is missing")
    else if ¬ graph.weighted ∧ edge.weight ≠ -1 then
      .error (.exit "Graph is unweighted but edge weight is specified")
    else
      match add_edge E w graph edge.node1_name edge.node2_name edge.weight with
      | .error f => .error f
      | .ok st1 => add_edges E rest st1

/-- The test of both loops of fit_graph over the vectors of the space. -/
def is_node_name (name : String) : Bool :=
  decide (name ≠ "__graph__") && !is_weight_name name

/-- The loop of fit_graph that builds the node memories. -/
def build_node_memories (fmt : Rat → String) (E : Env) :
    List Vector → Graph × World → Except Fault (Graph × World)
  | [], st => .ok st
  | node :: rest, (graph, w) =>
    if is_node_name node.name then
      match build_node_memory fmt E w graph node.name with
      | .error f => .error f
      | .ok st1 => build_node_memories fmt E rest st1
    else build_node_memories fmt E rest (graph, w)

/-- The loop of fit_graph that bundles bind(node, node->memory) into the graph
vector. -/
def build_graph_vector (E : Env) (graph : Graph) :
    List Vector → Vector × World → Except Fault (Vector × World)
  | [], st => .ok st
  | node :: rest, (graph_vector, w) =>
    if is_node_name node.name then
      match (graph.nodes node.name).memory with
      | none => .error (.undefined "null pointer dereference")
      | some memory =>
        match SpaceC.bind_vectors E w node memory with
        | .error f => .error f
        | .ok (temp_vector, w1) =>
          match accumulate graph.size.toNat graph_vector.vector temp_vector.vector with
          | .error f => .error f
          | .ok elems => build_graph_vector E graph rest ({ graph_vector with vector := elems }, w1)
    else build_graph_vector E graph rest (graph_vector, w)

/-- The loop `graph_vector->vector[i] /= 2` over the first `size` cells. -/
def halve : Nat → List Int → Except Fault (List Int)
  | 0, xs => .ok xs
  | n + 1, x :: xs =>
    match halve n xs with
    | .error f => .error f
    | .ok ys => .ok (Int.tdiv x 2 :: ys)
  | _ + 1, [] => .error (.undefined "access outside the array")

def fit_graph (fmt : Rat → String) (E : Env) (w : World) (graph : Graph) (edges : List Edge) :
    Except Fault (Graph × World) :=
  if edges.length = 0 then .error (.exit "Must provide at least one edge")
  else
    match add_edges E edges (graph, w) with
    | .error f => .error f
    | .ok (g1, w1) =>
      match (if g1.weighted then build_weight_memory fmt E w1 g1 0 1 (1 / 100)
             else .ok (g1, w1)) with
      | .error f => .error f
      | .ok (g2, w2) =>
        match build_node_memories fmt E g2.space.vectors (g2, w2) with
        | .error f => .error f
        | .ok (g3, w3) =>
          match create_vector E w3 "__graph__" g3.size g3.vtype (-1) false with
          | .error f => .error f
          | .ok (graph_vector, w4) =>
            match build_graph_vector E g3 g3.space.vectors (graph_vector, w4) with
            | .error f => .error f
            | .ok (gv1, w5) =>
              match (if ¬ g3.directed then halve g3.size.toNat gv1.vector
                     else .ok gv1.vector) with
              | .error f => .error f
              | .ok elems =>
                match SpaceC.insert_vector g3.space { gv1 with vector := elems } with
                | (.error f, _) => .error f
                | (.ok _, space1) => .ok ({ g3 with space := space1 }, w5)

/-- The vector `node1_memory` of edge_exists: bind(node1, graph_vector),
rotated by -1 in place when the graph is directed. -/
def edge_probe (E : Env) (w : World) (graph : Graph) (node1 graph_vector : Vector) :
    Except Fault (Vector × World) :=
  match SpaceC.bind_vectors E w node1 graph_vector with
  | .error f => .error f
  | .ok (node1_memory, w1) =>
    if graph.directed then
      match SpaceC.permute_vector node1_memory (-1) with
      | .error f => .error f
      | .ok rotated => .ok (rotated, w1)
    else .ok (node1_memory, w1)

/-- The vector `temp_vector` of edge_exists. -/
def edge_target (fmt : Rat → String) (E : Env) (w : World) (graph : Graph) (node2 : Vector)
    (weight : Rat) : Except Fault (Vector × World) :=
  if graph.weighted then
    match get_vector_from_space graph.space (fmt weight) with
    | none => .error (.exit "Weight vector not found")
    | some weight_vector => SpaceC.bind_vectors E w weight_vector node2
  else .ok (node2, w)

/-- edge_exists: the returned bool and the value stored in `*distance`. -/
def edge_exists (fmt : Rat → String) (E : Env) (w : World) (graph : Graph)
    (node1_name node2_name : String) (weight threshold : Rat) :
    Except Fault ((Bool × DistValue) × World) :=
  match get_vector_from_space graph.space "__graph__" with
  | none => .error (.exit "There is no graph in the space")
  | some graph_vector =>
    match get_vector_from_space graph.space node1_name,
        get_vector_from_space graph.space node2_name with
    | some node1, some node2 =>
      match edge_probe E w graph node1 graph_vector with
      | .error f => .error f
      | .ok (node1_memory, w1) =>
        match edge_target fmt E w1 graph node2 weight with
        | .error f => .error f
        | .ok (temp_vector, w2) =>
          match SpaceC.vector_distance node1_memory temp_vector "cosine" with
          | .error f => .error f
          | .ok distance => .ok ((distance.lt threshold, distance), w2)
    | _, _ => .error (.exit "Nodes are not in the space")

/-- What error_rate hands back: the returned double (`none` for the NaN of
0.0 / 0) and the two lists it fills. -/
structure ErrorReport where
  rate : Option Rat
  false_positives : List Edge
  false_negatives : List Edge
  deriving DecidableEq, Repr

/-- The loop of error_rate over the edges. -/
def error_rate_loop (fmt : Rat → String) (E : Env) (graph : Graph) (threshold : Rat) :
    List Edge → (List Edge × List Edge) × World → Except Fault ((List Edge × List Edge) × World)
  | [], st => .ok st
  | edge :: rest, ((fps, fns), w) =>
    match edge_exists fmt E w graph edge.node1_name edge.node2_name edge.weight threshold with
    | .error f => .error f
    | .ok ((found, _), w1) =>
      let actual_exists : Bool :=
        match get_vector_from_space graph.space edge.node1_name with
        | some _ => has_child graph edge.node1_name edge.node2_name
        | none => false
      if found && !actual_exists then
        error_rate_loop fmt E graph threshold rest ((fps ++ [edge], fns), w1)
      else if !found && actual_exists then
        error_rate_loop fmt E graph threshold rest ((fps, fns ++ [edge]), w1)
      else error_rate_loop fmt E graph threshold rest ((fps, fns), w1)

def error_rate (fmt : Rat → String) (E : Env) (w : World) (graph : Graph) (edges : List Edge)
    (threshold : Rat) : Except Fault (ErrorReport × World) :=
  match error_rate_loop fmt E graph threshold edges (([], []), w) with
  | .error f => .error f
  | .ok ((fps, fns), w1) =>
    .ok ({ rate := if edges.length = 0 then none
                   else some (((fps.length + fns.length : Nat) : Rat) / (edges.length : Rat)),
           false_positives := fps, false_negatives := fns }, w1)

/-- The two loops of error_mitigation over the false positives and the false
negatives; their bodies are empty. -/
def adjust_node_memories (graph : Graph) (false_positives false_negatives : List Edge) : Graph :=
  false_negatives.foldl (fun g _ => g) (false_positives.foldl (fun g _ => g) graph)

/-- The test `prev_error_rate < 0 || current_error_rate < prev_error_rate`; a
NaN compares false. -/
def improves (prev current : Option Rat) : Bool :=
  match prev, current with
  | some p, some c => decide (p < 0 ∨ c < p)
  | some p, none => decide (p < 0)
  | none, _ => false

/-- error_mitigation with `max_iter = n` when n > 0; the recursion is on
max_iter. -/
def error_mitigation_loop (fmt : Rat → String) (E : Env) (edges : List Edge) (threshold : Rat) :
    Nat → World → Graph → Option Rat → Except Fault (Graph × World)
  | 0, w, graph, _ => .ok (graph, w)
  | n + 1, w, graph, prev_error_rate =>
    match error_rate fmt E w graph edges threshold with
    | .error f => .error f
    | .ok (report, w1) =>
      if improves prev_error_rate report.rate then
        match fit_graph fmt E w1
            (adjust_node_memories graph report.false_positives report.false_negatives) edges with
        | .error f => .error f
        | .ok (g1, w2) => error_mitigation_loop fmt E edges threshold n w2 g1 report.rate
      else .ok (graph, w1)

def error_mitigation (fmt : Rat → String) (E : Env) (w : World) (graph : Graph)
    (edges : List Edge) (threshold : Rat) (max_iter : Int) (prev_error_rate : Option Rat) :
    Except Fault (Graph × World) :=
  if max_iter ≤ 0 then .ok (graph, w)
  else error_mitigation_loop fmt E edges threshold max_iter.toNat w graph prev_error_rate

/-- The results of edge_exists on the edges of a list, queried one after the
other as the loop of error_rate does. -/
def edge_answers (fmt : Rat → String) (E : Env) (graph : Graph) (threshold : Rat) :
    List Edge → World → Except Fault (List Bool × World)
  | [], w => .ok ([], w)
  | edge :: rest, w =>
    match edge_exists fmt E w graph edge.node1_name edge.node2_name edge.weight threshold with
    | .error f => .error f
    | .ok ((found, _), w1) =>
      match edge_answers fmt E graph threshold rest w1 with
      | .error f => .error f
      | .ok (founds, w2) => .ok (found :: founds, w2)

/-- Follows the spec's words: the edges (u,v) of the list, in its order, whose
query answers `verdict` while has_child(u,v) is the opposite; `verdict = true` gives
the false positives, `verdict = false` the false negatives. -/
def misjudged (graph : Graph) (verdict : Bool) : List Edge → List Bool → List Edge
  | edge :: rest, found :: founds =>
    if found = verdict ∧ has_child graph edge.node1_name edge.node2_name = !verdict then
      edge :: misjudged graph verdict rest founds
    else misjudged graph verdict rest founds
  | _, _ => []

/-- Follows the spec's words: the element-wise sum, over the node vectors n of
the list, of bind(n, node_memory(n)); every element of the sum starts from 0. -/
def bind_sum (graph : Graph) : List Vector → List Int
  | [] => List.replicate graph.size.toNat 0
  | node :: rest =>
    if is_node_name node.name then
      match (graph.nodes node.name).memory with
      | some memory =>
        List.zipWith (· + ·) (bind_sum graph rest)
          (List.zipWith (· * ·) node.vector memory.vector)
      | none => bind_sum graph rest
    else bind_sum graph rest

end GraphC

/-- The graph `g1` differs from `g` in its space, which was reached from that
of `g` by calls of insert_vector that returned, and in the fields of its nodes
and its counters. -/
def grown (g g1 : Graph) : Prop :=
  g1.size = g.size ∧ g1.vtype = g.vtype ∧ g1.directed = g.directed ∧
    g1.weighted = g.weighted ∧ ∃ vs, SpaceC.insert_each g.space vs = (.ok (), g1.space)

/-! ## model.c: the classifier

model.c uses the value permute_vector returns, so its calls of the vector
operators are read against arithmetic.c; its Space, insert_vector and
vector_distance are those of space.c and get_vector_from_space that of graph.c.
`(points, num_points)` is one list of rows and `(labels, num_labels)` one list,
absent when the pointer is NULL; `num_features` is passed as it is in C and a
row is read only below it.  `(test_indices, num_test_indices)` is one list. -/

/-- The struct MLModel; `classes_count` is the length of `classes`, which is
empty while the pointer is NULL. -/
structure MLModel where
  size : Int
  levels : Int
  vtype : String
  space : Space
  classes : List String
  version : String
  deriving DecidableEq, Repr

/-- Whether `d1 < d2` holds over exact real arithmetic, decided on the integer
sums.  A NaN compares false.  The program compares only values returned for
the same method; a pair of different methods is given false.  On the rounded
doubles the comparison can differ where the exact values are equal or nearly
so (`cosine_double`, `Double.lt`). -/
def DistValue.below : DistValue → DistValue → Bool
  | .cosine p1 a1 b1, .cosine p2 a2 b2 =>
    if a1 ≤ 0 ∨ b1 ≤ 0 ∨ a2 ≤ 0 ∨ b2 ≤ 0 then false
    else if 0 ≤ p1 then
      if p2 < 0 then true else decide (p2 * p2 * (a1 * b1) < p1 * p1 * (a2 * b2))
    else
      if 0 ≤ p2 then false else decide (p1 * p1 * (a2 * b2) < p2 * p2 * (a1 * b1))
  | .hamming c1, .hamming c2 => decide (c1 < c2)
  | .euclidean s1, .euclidean s2 => decide (0 < s2 ∧ s1 < s2)
  | _, _ => false

/-- Whether `d < INFINITY` holds: the double is a number. -/
def DistValue.finite : DistValue → Bool
  | .cosine _ a b => decide (0 < a ∧ 0 < b)
  | .hamming _ => true
  | .euclidean s => decide (0 ≤ s)

/-! ## The doubles of the cosine formula

`DistValue.IsReal`, `DistValue.lt` and `DistValue.below` read the value of
`1.0 - (dot_product / (sqrt(norm_a) * sqrt(norm_b)))` as the exact real of the
three sums.  The program computes it in IEEE 754 binary64 arithmetic: sqrt, the
product, the quotient and the difference are each rounded to nearest, ties to
even.  The definitions below follow that computation for sums that are integers
below 2^53, which the double accumulators of the loop hold exactly.  The limits
of the exponent range are not modelled; the values of the formula stay far
inside them. -/

/-- A finite double: the number `mantissa * 2 ^ exponent`.  The operations
below give zero as (0, 0) and every other value with
2^52 <= |mantissa| < 2^53, so equal numbers are equal pairs. -/
structure Double where
  mantissa : Int
  exponent : Int
  deriving DecidableEq, Repr

/-- The comparison `a < b` of two finite doubles. -/
def Double.lt (a b : Double) : Bool :=
  decide (a.mantissa * 2 ^ (a.exponent - min a.exponent b.exponent).toNat <
    b.mantissa * 2 ^ (b.exponent - min a.exponent b.exponent).toNat)

def bit_length_loop : Nat → Nat → Nat
  | 0, _ => 0
  | fuel + 1, n => if n = 0 then 0 else bit_length_loop fuel (n / 2) + 1

/-- The number of binary digits of n. -/
def bit_length (n : Nat) : Nat := bit_length_loop n n

/-- The numerator and the denominator of `p / (q * 2 ^ e)`. -/
def scaled (p q : Nat) (e : Int) : Nat × Nat :=
  if 0 ≤ e then (p, q * 2 ^ e.toNat) else (p * 2 ^ (-e).toNat, q)

/-- Rounding to nearest, ties to even: the double nearest to the quotient
`p / q` of two positive integers, as (m, e) with 2^52 <= m < 2^53 and value
`m * 2 ^ e`.  The exponent e0 puts the quotient scaled by it between 2^52 and
2^54. -/
def round_quotient (p q : Nat) : Nat × Int :=
  let e0 : Int := (bit_length p : Int) - (bit_length q : Int) - 53
  let e : Int := if (scaled p q e0).1 / (scaled p q e0).2 < 2 ^ 53 then e0 else e0 + 1
  let m0 := (scaled p q e).1 / (scaled p q e).2
  let r := (scaled p q e).1 % (scaled p q e).2
  let m := if 2 * r < (scaled p q e).2 then m0
    else if (scaled p q e).2 < 2 * r then m0 + 1
    else if m0 % 2 = 0 then m0 else m0 + 1
  if m = 2 ^ 53 then (2 ^ 52, e + 1) else (m, e)

/-- The double nearest to `n * 2 ^ e` for a positive integer n. -/
def round_scaled (n : Nat) (e : Int) : Nat × Int :=
  if 0 ≤ e then round_quotient (n * 2 ^ e.toNat) 1 else round_quotient n (2 ^ (-e).toNat)

/-- The integer square root, digit by digit from the highest binary digit. -/
def isqrt_loop : Nat → Nat → Nat → Nat
  | 0, _, r => r
  | k + 1, n, r =>
    if (r + 2 ^ k) * (r + 2 ^ k) ≤ n then isqrt_loop k n (r + 2 ^ k) else isqrt_loop k n r

def isqrt (n : Nat) : Nat := isqrt_loop (bit_length n) n 0

/-- The library function sqrt on a positive integer x below 2^53: the double
nearest to the square root, as (m, e).  With y = x * 4^s of 105 or 106 binary
digits the root of y lies in [2^52, 2^53), and it is nearer to m0 + 1 than to
m0 = isqrt y exactly when y > m0^2 + m0. -/
def sqrt_double (x : Nat) : Nat × Int :=
  let s := (106 - bit_length x) / 2
  let y := x * 4 ^ s
  let m0 := isqrt y
  let m := if m0 * m0 + m0 < y then m0 + 1 else m0
  if m = 2 ^ 53 then (2 ^ 52, 1 - (s : Int)) else (m, -(s : Int))

/-- The double `1.0 - (dot_product / (sqrt(norm_a) * sqrt(norm_b)))` that
vector_distance returns for the method cosine, from the three sums; with a
norm 0 the quotient is by zero and the result is no finite double. -/
def cosine_double (dot_product norm_a norm_b : Int) : Option Double :=
  if norm_a ≤ 0 ∨ norm_b ≤ 0 then none
  else
    let sa := sqrt_double norm_a.toNat
    let sb := sqrt_double norm_b.toNat
    let prod := round_scaled (sa.1 * sb.1) (sa.2 + sb.2)
    if dot_product = 0 then some ⟨2 ^ 52, -52⟩
    else
      let quot :=
        if prod.2 < 0 then round_quotient (dot_product.natAbs * 2 ^ (-prod.2).toNat) prod.1
        else round_quotient dot_product.natAbs (prod.1 * 2 ^ prod.2.toNat)
      let q : Int := if 0 < dot_product then quot.1 else -quot.1
      let num : Int :=
        if quot.2 < 0 then 2 ^ (-quot.2).toNat - q else 1 - q * 2 ^ quot.2.toNat
      let ex : Int := if quot.2 < 0 then quot.2 else 0
      if num = 0 then some ⟨0, 0⟩
      else some ⟨if 0 < num then (round_scaled num.natAbs ex).1
                 else -(round_scaled num.natAbs ex).1, (round_scaled num.natAbs ex).2⟩

namespace ModelC

/-- Modelled from the spec: add_tag(vec, tag) puts the tag into the set of tags
of the vector; model.c calls it, src/ does not define it. -/
def add_tag (vec : Vector) (tag : String) : Vector :=
  if tag ∈ vec.tags then vec else { vec with tags := vec.tags ++ [tag] }

/-- Modelled from the spec: has_tag(vec, tag) tells whether the vector carries
the tag; model.c calls it, src/ does not define it. -/
def has_tag (vec : Vector) (tag : String) : Bool :=
  decide (tag ∈ vec.tags)

/-- Modelled from the spec: copy_vector(vec) is a new vector with the fields of
vec; model.c calls it, src/ does not define it. -/
def copy_vector (vec : Vector) : Vector := vec

/-- The name `sprintf(level_name, "level_%d", level_count)` writes. -/
def level_name (level_count : Int) : String := "level_" ++ toString level_count

/-- The name `sprintf(point_name, "point_%d", point_idx)` writes. -/
def point_name (point_idx : Int) : String := "point_" ++ toString point_idx

/-- The name `sprintf(class_name, "class_%d", class_idx)` writes. -/
def class_name (class_idx : Int) : String := "class_" ++ toString class_idx

def create_mlmodel (size levels : Int) (vtype : String) : Except Fault MLModel :=
  if size < 10000 then .error (.exit "Vectors size must be greater than or equal to 10000")
  else if levels < 2 then
    .error (.exit "The number of levels must be greater than or equal to 2")
  else if vtype ≠ "binary" ∧ vtype ≠ "bipolar" then
    .error (.exit "Vector type can be binary or bipolar only")
  else
    match SpaceC.create_space size vtype with
    | .error f => .error f
    | .ok space =>
      .ok { size := size, levels := levels, vtype := vtype, space := space, classes := [],
            version := "0.1.17" }

/-- The loop of fit_mlmodel that collects the unique classes: a label is
appended when no collected class equals it. -/
def collect_classes : List String → List String → List String
  | [], classes => classes
  | label :: rest, classes =>
    if label ∈ classes then collect_classes rest classes
    else collect_classes rest (classes ++ [label])

/-- One entry read by the loops that find min_value and max_value; `none`
stands for the initial pair (INFINITY, -INFINITY). -/
def widen : Option (Rat × Rat) → Rat → Option (Rat × Rat)
  | none, x => some (x, x)
  | some (min_value, max_value), x =>
    some (if x < min_value then x else min_value, if x > max_value then x else max_value)

/-- The inner loop over the features of one row, from index `j`. -/
def value_range_row (row : List Rat) :
    Nat → Nat → Option (Rat × Rat) → Except Fault (Option (Rat × Rat))
  | 0, _, st => .ok st
  | fuel + 1, j, st =>
    match row[j]? with
    | none => .error (.undefined "access outside the array")
    | some x => value_range_row row fuel (j + 1) (widen st x)

/-- The loops of fit_mlmodel that find min_value and max_value. -/
def value_range (num_features : Int) :
    List (List Rat) → Option (Rat × Rat) → Except Fault (Option (Rat × Rat))
  | [], st => .ok st
  | row :: rest, st =>
    match value_range_row row num_features.toNat 0 st with
    | .error f => .error f
    | .ok st1 => value_range num_features rest st1

/-- The flips `index = rand() % index_vector_size; base_vector[index] *= -1`,
`n` of them. -/
def flip_bits (E : Env) (size : Int) : Nat → List Int × World → Except Fault (List Int × World)
  | 0, st => .ok st
  | n + 1, (base_vector, w) =>
    if size = 0 then .error (.undefined "division by zero")
    else
      let index := Int.tmod ((rand E w).1 : Int) size
      match base_vector[index.toNat]? with
      | none => .error (.undefined "access outside the array")
      | some x =>
        match mul_int x (-1) with
        | .error f => .error f
        | .ok y => flip_bits E size n (base_vector.set index.toNat y, (rand E w).2)

/-- The loop of fit_mlmodel that creates the level vectors, from `level_count`
on, `fuel` levels left: the flips, create_vector, memcpy of base_vector and
insert_vector. -/
def create_levels (E : Env) (size : Int) (vtype : String) (change next_level : Int) :
    Nat → Int → (Space × List Int) × World → Except Fault ((Space × List Int) × World)
  | 0, _, st => .ok st
  | fuel + 1, level_count, ((space, base_vector), w) =>
    match flip_bits E size (if level_count = 0 then change else next_level).toNat
        (base_vector, w) with
    | .error f => .error f
    | .ok (base1, w1) =>
      match create_vector E w1 (level_name level_count) size vtype (-1) false with
      | .error f => .error f
      | .ok (level_vector, w2) =>
        match SpaceC.insert_vector space { level_vector with vector := base1 } with
        | (.error f, _) => .error f
        | (.ok _, space1) =>
          create_levels E size vtype change next_level fuel (level_count + 1)
            ((space1, base1), w2)

/-- The search `for (level_position = 0; level_position < levels;
level_position++)` for the first position whose bounds hold the value. -/
def find_level (min_value gap value : Rat) : Nat → Int → Option Int
  | 0, _ => none
  | fuel + 1, level_position =>
    if min_value + (level_position - 1) * gap ≤ value ∧
        value < min_value + level_position * gap then some level_position
    else find_level min_value gap value fuel (level_position + 1)

/-- The value-to-level mapping of fit_mlmodel: `level_count` for one value.
With no entry read the bounds are infinite, every comparison is false and
`level_count` stays 0. -/
def level_of (levels : Int) (bounds : Option (Rat × Rat)) (value : Rat) : Int :=
  match bounds with
  | none => 0
  | some (min_value, max_value) =>
    if value = min_value then 0
    else if value = max_value then levels - 1
    else (find_level min_value ((max_value - min_value) / levels) value levels.toNat 0).getD 0

/-- The loop over the features of one row: `sum_vector` after the features from
`feature_idx` on. -/
def encode_features (E : Env) (levels : Int) (space : Space) (bounds : Option (Rat × Rat))
    (row : List Rat) : Nat → Int → Option Vector × World → Except Fault (Option Vector × World)
  | 0, _, st => .ok st
  | fuel + 1, feature_idx, (sum_vector, w) =>
    match row[feature_idx.toNat]? with
    | none => .error (.undefined "access outside the array")
    | some value =>
      match GraphC.get_vector_from_space space (level_name (level_of levels bounds value)) with
      | none => .error (.undefined "null pointer dereference")
      | some level_vector =>
        match ArithmeticC.permute_vector E w level_vector feature_idx with
        | .error f => .error f
        | .ok (rolled_vector, w1) =>
          match sum_vector with
          | none =>
            encode_features E levels space bounds row fuel (feature_idx + 1)
              (some rolled_vector, w1)
          | some sum =>
            match ArithmeticC.bundle_vectors E w1 sum rolled_vector with
            | .error f => .error f
            | .ok (temp, w2) =>
              encode_features E levels space bounds row fuel (feature_idx + 1) (some temp, w2)

/-- The tag step of one point: `add_tag(sum_vector, labels[point_idx])` when
labels are given. -/
def tag_point (labels : Option (List String)) (point_idx : Int) (vec : Vector) :
    Except Fault Vector :=
  match labels with
  | none => .ok vec
  | some ls =>
    match ls[point_idx.toNat]? with
    | none => .error (.undefined "access outside the array")
    | some label => .ok (add_tag vec label)

/-- The loop of fit_mlmodel that encodes the data points, from `point_idx` on.
The space holds the pointer to the inserted vector, so the tag added after
insert_vector is a tag of the vector in the space. -/
def encode_points (E : Env) (levels : Int) (bounds : Option (Rat × Rat)) (num_features : Int)
    (labels : Option (List String)) :
    List (List Rat) → Int → Space × World → Except Fault (Space × World)
  | [], _, st => .ok st
  | row :: rest, point_idx, (space, w) =>
    match encode_features E levels space bounds row num_features.toNat 0 (none, w) with
    | .error f => .error f
    | .ok (none, _) => .error (.undefined "null pointer dereference")
    | .ok (some sum_vector, w1) =>
      match SpaceC.insert_vector space { sum_vector with name := point_name point_idx } with
      | (.error f, _) => .error f
      | (.ok _, space1) =>
        match tag_point labels point_idx { sum_vector with name := point_name point_idx } with
        | .error f => .error f
        | .ok tagged =>
          encode_points E levels bounds num_features labels rest (point_idx + 1)
            ({ space1 with vectors := space.vectors ++ [tagged] }, w1)

def fit_mlmodel (E : Env) (w : World) (model : MLModel) (points : List (List Rat))
    (num_features : Int) (labels : Option (List String)) (seed : Int) :
    Except Fault (MLModel × World) :=
  if (points.length : Int) < 3 then .error (.exit "Not enough data points")
  else if labels.isSome ∧ (points.length : Int) ≠ (labels.getD []).length then
    .error (.exit "The number of data points does not match the number of class labels")
  else
    let classes := match labels with
      | some ls => collect_classes ls []
      | none => model.classes
    if labels.isSome ∧ (classes.length : Int) < 2 then
      .error (.exit "The number of unique class labels must be > 1")
    else
      let w1 := if seed ≠ -1 then srand w seed else srand (time_null E w).2 (time_null E w).1
      if model.levels = 0 then .error (.undefined "division by zero")
      else
        let next_level := Int.tdiv (Int.tdiv model.size 2) model.levels
        let change := Int.tdiv model.size 2
        let base_vector := List.replicate model.size.toNat
          (if model.vtype = "bipolar" then (-1 : Int) else 0)
        match value_range num_features points none with
        | .error f => .error f
        | .ok bounds =>
          match create_levels E model.size model.vtype change next_level model.levels.toNat 0
              ((model.space, base_vector), w1) with
          | .error f => .error f
          | .ok ((space1, _), w2) =>
            match encode_points E model.levels bounds num_features labels points 0
                (space1, w2) with
            | .error f => .error f
            | .ok (space2, w3) =>
              .ok ({ model with space := space2, classes := classes }, w3)

/-- The test `strncmp(vec->name, "point_", 6) == 0`. -/
def is_point_name (name : String) : Bool :=
  decide (name.data.take 6 = "point_".data)

/-- The characters isspace accepts. -/
def is_space (c : Char) : Bool :=
  decide (c.toNat = 32 ∨ (9 ≤ c.toNat ∧ c.toNat ≤ 13))

/-- The value of the leading decimal digits. -/
def digits_value : List Char → Int → Int
  | [], acc => acc
  | c :: rest, acc =>
    if c.isDigit then digits_value rest (acc * 10 + ((c.toNat : Int) - 48)) else acc

/-- The library function atoi: blanks, an optional sign, decimal digits; a value
that does not fit in an int is undefined. -/
def atoi (s : List Char) : Except Fault Int :=
  match s.dropWhile is_space with
  | '-' :: rest => checked (-(digits_value rest 0))
  | '+' :: rest => checked (digits_value rest 0)
  | rest => checked (digits_value rest 0)

/-- The loop of predict_mlmodel over the vectors of the space: the test vectors
and the training vectors found so far.  `test_vectors` has one cell per test
index. -/
def retrieve (test_indices : List Int) :
    List Vector → List Vector × List Vector → Except Fault (List Vector × List Vector)
  | [], st => .ok st
  | vec :: rest, (test_vectors, training_vectors) =>
    if is_point_name vec.name then
      match atoi (vec.name.data.drop 6) with
      | .error f => .error f
      | .ok point_idx =>
        if point_idx ∈ test_indices then
          if test_vectors.length < test_indices.length then
            retrieve test_indices rest (test_vectors ++ [vec], training_vectors)
          else .error (.undefined "write outside the array")
        else retrieve test_indices rest (test_vectors, training_vectors ++ [vec])
    else retrieve test_indices rest (test_vectors, training_vectors)

/-- The inner loop that builds one class vector from the training vectors. -/
def class_sum (E : Env) (class_label : String) :
    List Vector → Option Vector × World → Except Fault (Option Vector × World)
  | [], st => .ok st
  | training_vector :: rest, (class_vector, w) =>
    if has_tag training_vector class_label then
      match class_vector with
      | none => class_sum E class_label rest (some (copy_vector training_vector), w)
      | some sum =>
        match ArithmeticC.bundle_vectors E w sum training_vector with
        | .error f => .error f
        | .ok (temp, w1) => class_sum E class_label rest (some temp, w1)
    else class_sum E class_label rest (class_vector, w)

/-- The loop of predict_mlmodel that builds the class vectors, from `class_idx`
on. -/
def build_classes (E : Env) (training_vectors : List Vector) :
    List String → Int → List Vector × World → Except Fault (List Vector × World)
  | [], _, st => .ok st
  | class_label :: rest, class_idx, (class_vectors, w) =>
    match class_sum E class_label training_vectors (none, w) with
    | .error f => .error f
    | .ok (none, _) => .error (.exit "No training vectors for class")
    | .ok (some class_vector, w1) =>
      build_classes E training_vectors rest (class_idx + 1)
        (class_vectors ++ [add_tag { class_vector with name := class_name class_idx }
          class_label], w1)

/-- The test `distance < closest_dist` of the prediction loop; `none` stands for
the initial pair (NULL, INFINITY). -/
def nearer (distance : DistValue) : Option (String × DistValue) → Bool
  | none => distance.finite
  | some (_, closest_dist) => distance.below closest_dist

/-- The inner loop of the prediction of one test vector: `closest_class` and
`closest_dist`, `none` for NULL and INFINITY. -/
def closest (test_vector : Vector) :
    List (String × Vector) → Option (String × DistValue) →
      Except Fault (Option (String × DistValue))
  | [], st => .ok st
  | (class_label, class_vector) :: rest, st =>
    match SpaceC.vector_distance test_vector class_vector "cosine" with
    | .error f => .error f
    | .ok distance =>
      if nearer distance st then closest test_vector rest (some (class_label, distance))
      else closest test_vector rest st

/-- The loop of predict_mlmodel over the test vectors. -/
def predict_each (classes : List (String × Vector)) :
    List Vector → Except Fault (List String)
  | [] => .ok []
  | test_vector :: rest =>
    match closest test_vector classes none with
    | .error f => .error f
    | .ok none => .error (.undefined "null pointer dereference")
    | .ok (some (closest_class, _)) =>
      match predict_each classes rest with
      | .error f => .error f
      | .ok predictions => .ok (closest_class :: predictions)

/-- What predict_mlmodel leaves behind its three output pointers. -/
structure Prediction where
  predictions : List String
  retraining_iterations : Int
  model_error_rate : Rat
  deriving DecidableEq, Repr

/-- predict_mlmodel; `retraining_iterations` and `model_error_rate` are the
values the two pointers hold before the call. -/
def predict_mlmodel (E : Env) (w : World) (model : MLModel) (test_indices : List Int)
    (retraining_iterations : Int) (model_error_rate : Rat) :
    Except Fault (Prediction × World) :=
  if test_indices.length = 0 then .error (.exit "No test indices have been provided")
  else
    match retrieve test_indices model.space.vectors ([], []) with
    | .error f => .error f
    | .ok (test_vectors, training_vectors) =>
      if test_vectors.length ≠ test_indices.length then
        .error (.exit "Unable to retrieve all the test vectors from the space")
      else
        match build_classes E training_vectors model.classes 0 ([], w) with
        | .error f => .error f
        | .ok (class_vectors, w1) =>
          match predict_each (model.classes.zip class_vectors) test_vectors with
          | .error f => .error f
          | .ok predictions =>
            .ok ({ predictions := predictions, retraining_iterations := retraining_iterations,
                   model_error_rate := model_error_rate }, w1)

/-- The index `atoi(vec->name + 6)` of a vector whose name starts with
`point_`; none for the other vectors and for an index atoi does not define. -/
def point_index (vec : Vector) : Option Int :=
  if is_point_name vec.name then
    match atoi (vec.name.data.drop 6) with
    | .ok point_idx => some point_idx
    | .error _ => none
  else none

/-- Follows the spec's words: the test vectors, the points of the space whose
index is a test index, in the order of the space. -/
def test_points (test_indices : List Int) (vectors : List Vector) : List Vector :=
  vectors.filter (fun v =>
    match point_index v with
    | some i => decide (i ∈ test_indices)
    | none => false)

/-- Follows the spec's words: the non-test points, the points of the space
whose index is no test index, in the order of the space. -/
def training_points (test_indices : List Int) (vectors : List Vector) : List Vector :=
  vectors.filter (fun v =>
    match point_index v with
    | some i => decide (i ∉ test_indices)
    | none => false)

/-- Follows the spec's words: the element-wise sum of arrays of one length;
element k is the sum of their k-th elements. -/
def column_sums (arrays : List (List Int)) : List Int :=
  (List.range (arrays.headD []).length).map (fun k => (arrays.map (fun a => a.getD k 0)).sum)

/-- One comparison of the prediction loop on the distance already computed. -/
def closest_step (st : Option (String × DistValue)) (entry : String × DistValue) :
    Option (String × DistValue) :=
  if nearer entry.2 st then some entry else st

/-- Follows the spec's words: the distinct class labels, in the order of their
first occurrence in the labels. -/
def first_occurrences : List String → List String
  | [] => []
  | label :: rest => label :: (first_occurrences rest).filter (fun c => decide (c ≠ label))

end ModelC

/-! ## space.c: the example program -/

namespace SpaceC

/-- The example program of space.c up to the call of print_space, with the
dimension 10000 of its vectors and of its space as the parameter `size`: the
space the program would print.  The three insert_vector calls are the run
`insert_each`. -/
def main_sized (size : Int) (E : Env) (w : World) : Except Fault (Space × World) :=
  match create_vector E w "Vector1" size "bipolar" 1 false with
  | .error f => .error f
  | .ok (vec1, w1) =>
    match create_vector E w1 "Vector2" size "bipolar" 2 false with
    | .error f => .error f
    | .ok (vec2, w2) =>
      match vector_distance vec1 vec2 "cosine" with
      | .error f => .error f
      | .ok _ =>
        match bind_vectors E w2 vec1 vec2 with
        | .error f => .error f
        | .ok (bound_vec, w3) =>
          match normalize_vector bound_vec with
          | .error f => .error f
          | .ok bound_vec1 =>
            match create_space size "bipolar" with
            | .error f => .error f
            | .ok space =>
              match insert_each space [vec1, vec2, bound_vec1] with
              | (.error f, _) => .error f
              | (.ok _, space1) => .ok (space1, w3)

/-- The function `main` of space.c: the example program at the dimension 10000. -/
def main (E : Env) (w : World) : Except Fault (Space × World) := main_sized 10000 E w

end SpaceC

/-! ## parser.c

A file is the list of its characters, `none` when fopen returns NULL.  The
doubles of the matrix are exact rationals. -/

/-- What load_dataset leaves behind its output pointers.  A class label the
code never assigned is `none`. -/
structure Dataset where
  samples : List String
  features : List String
  content : List (List Rat)
  classes : List (Option String)
  num_samples : Int
  num_features : Int
  deriving DecidableEq, Repr

/-- What percentage_split returns: the array of selected indices and the value
written to `*num_selected_indices`. -/
structure Split where
  selection : List Int
  num_selected_indices : Int
  deriving DecidableEq, Repr

namespace ParserC

/-- The characters up to and including the first newline, at most `n` of them,
and the rest of the input. -/
def take_line : Nat → List Char → List Char × List Char
  | 0, cs => ([], cs)
  | _, [] => ([], [])
  | n + 1, c :: cs =>
    if c = '\n' then ([c], cs)
    else ((c :: (take_line n cs).1), (take_line n cs).2)

/-- The library function fgets with a buffer of `size` bytes: `none` at the end
of the file, else the line read and the rest of the file. -/
def fgets (size : Nat) (input : List Char) : Option (List Char × List Char) :=
  if input = [] then none else some (take_line (size - 1) input)

/-- The assignment `line[strcspn(line, "\r\n")] = 0`. -/
def strip_newline (line : List Char) : List Char :=
  line.takeWhile (fun c => c ≠ '\r' ∧ c ≠ '\n')

/-- The library function strtok_r on the rest of the line: `none` for NULL,
else the token and the rest after the delimiter that ended it. -/
def strtok_r (sep : List Char) (s : List Char) : Option (List Char × List Char) :=
  match s.dropWhile (fun c => decide (c ∈ sep)) with
  | [] => none
  | c :: rest =>
    some ((c :: rest).takeWhile (fun c => decide (c ∉ sep)),
      ((c :: rest).dropWhile (fun c => decide (c ∉ sep))).drop 1)

/-- The value of a run of decimal digits. -/
def digits_nat : List Char → Nat → Nat
  | [], acc => acc
  | c :: rest, acc => digits_nat rest (acc * 10 + (c.toNat - 48))

/-- The exponent part `e[sign]digits` of a decimal spelling, if there is one:
the exponent and the rest. -/
def exponent_part (s : List Char) : Option (Int × List Char) :=
  match s with
  | e :: rest =>
    if e = 'e' ∨ e = 'E' then
      match rest with
      | '-' :: ds =>
        if ds.takeWhile Char.isDigit = [] then none
        else some (-(digits_nat (ds.takeWhile Char.isDigit) 0 : Int), ds.dropWhile Char.isDigit)
      | '+' :: ds =>
        if ds.takeWhile Char.isDigit = [] then none
        else some ((digits_nat (ds.takeWhile Char.isDigit) 0 : Int), ds.dropWhile Char.isDigit)
      | ds =>
        if ds.takeWhile Char.isDigit = [] then none
        else some ((digits_nat (ds.takeWhile Char.isDigit) 0 : Int), ds.dropWhile Char.isDigit)
    else none
  | [] => none

/-- The digits, the optional fraction and the optional exponent of a decimal
spelling: `none` when there is no digit, else the value and the rest. -/
def decimal_part (s : List Char) : Option (Rat × List Char) :=
  let int_digits := s.takeWhile Char.isDigit
  let s1 := s.dropWhile Char.isDigit
  let frac_digits := match s1 with
    | '.' :: ds => ds.takeWhile Char.isDigit
    | _ => []
  let s2 := match s1 with
    | '.' :: ds => ds.dropWhile Char.isDigit
    | _ => s1
  if int_digits = [] ∧ frac_digits = [] then none
  else
    let mantissa : Rat :=
      (digits_nat int_digits 0 : Rat) +
        (digits_nat frac_digits 0 : Rat) / (10 : Rat) ^ frac_digits.length
    match exponent_part s2 with
    | some (e, s3) => some (mantissa * (10 : Rat) ^ e, s3)
    | none => some (mantissa, s2)

/-- The library function strtod on the decimal spellings
`[blanks][sign]digits[.digits][e[sign]digits]`: the value, as an exact
rational, and the rest `endptr` points to; with no digits nothing is converted
and `endptr` is the argument.  The spellings of infinity, NaN and hexadecimal
numbers are not part of this model. -/
def strtod (s : List Char) : Rat × List Char :=
  match s.dropWhile ModelC.is_space with
  | '-' :: rest =>
    match decimal_part rest with
    | some (v, r) => (-v, r)
    | none => (0, s)
  | '+' :: rest =>
    match decimal_part rest with
    | some (v, r) => (v, r)
    | none => (0, s)
  | rest =>
    match decimal_part rest with
    | some (v, r) => (v, r)
    | none => (0, s)

/-- The loop of load_dataset over the tokens of the header that follow the
first column: the feature names read so far. -/
def read_features (sep : List Char) : Nat → List Char → List String → List String
  | 0, _, features => features
  | fuel + 1, rest, features =>
    match strtok_r sep rest with
    | none => features
    | some (token, rest1) =>
      if token = [] then read_features sep fuel rest1 features
      else if token = ['#'] then features
      else read_features sep fuel rest1 (features ++ [String.mk token])

/-- The loop of load_dataset over the tokens of one row that follow the sample
id: the numbers read so far, then the class label. -/
def read_values (sep : List Char) (num_features : Nat) (line_num : Nat) :
    Nat → List Char → List Rat → Except Fault (List Rat × Option String)
  | 0, _, values => .ok (values, none)
  | fuel + 1, rest, values =>
    match strtok_r sep rest with
    | none => .ok (values, none)
    | some (token, rest1) =>
      if values.length < num_features then
        if (strtod token).2 ≠ [] then
          .error (.exit ("The input dataset must contain numbers only! Error at line " ++
            toString line_num))
        else read_values sep num_features line_num fuel rest1 (values ++ [(strtod token).1])
      else .ok (values, some (String.mk token))

/-- The loop of load_dataset over the lines after the header. -/
def read_rows (sep : List Char) (features : List String) :
    Nat → List Char → Nat → Dataset → Except Fault Dataset
  | 0, _, _, data => .ok data
  | fuel + 1, input, line_num, data =>
    match fgets 1024 input with
    | none => .ok data
    | some (raw, input1) =>
      if (strip_newline raw).head? = some '#' ∨ strip_newline raw = [] then
        read_rows sep features fuel input1 (line_num + 1) data
      else
        match strtok_r sep (strip_newline raw) with
        | none => .error (.undefined "null pointer dereference")
        | some (sample, rest) =>
          match read_values sep features.length (line_num + 1) rest.length.succ rest [] with
          | .error f => .error f
          | .ok (values, label) =>
            if values.length ≠ features.length then
              .error (.exit ("Mismatch in the number of features at line " ++
                toString (line_num + 1)))
            else
              read_rows sep features fuel input1 (line_num + 1)
                { data with
                  samples := data.samples ++ [String.mk sample],
                  content := data.content ++ [values],
                  classes := data.classes ++ [label],
                  num_samples := data.num_samples + 1 }

/-- The header branch of load_dataset: the feature names of the first line. -/
def read_header (sep : List Char) (raw : List Char) : List String :=
  match strtok_r sep (strip_newline raw) with
  | none => []
  | some (_, rest) => read_features sep rest.length.succ rest []

/-- load_dataset on the file `file` (`none`: fopen returns NULL). -/
def load_dataset (file : Option String) (sep : String) : Except Fault Dataset :=
  match file with
  | none => .error (.exit "File not found")
  | some text =>
    match fgets 1024 text.data with
    | none => .error (.exit "Empty file or unable to read the file")
    | some (raw, input1) =>
      read_rows sep.data (read_header sep.data raw) input1.length.succ input1 0
        { samples := [], features := read_header sep.data raw, content := [], classes := [],
          num_samples := 0, num_features := (read_header sep.data raw).length }

/-- The loop of percentage_split that collects the unique labels. -/
def unique_labels : List String → List String → List String
  | [], unique => unique
  | label :: rest, unique =>
    if label ∈ unique then unique_labels rest unique
    else unique_labels rest (unique ++ [label])

/-- The loop that counts the occurrences of a label. -/
def label_count (label : String) : List String → Int
  | [] => 0
  | l :: rest => if l = label then label_count label rest + 1 else label_count label rest

/-- The loop that collects the indices of the samples with the label, from
index `j` on. -/
def label_indices (label : String) : List String → Int → List Int
  | [], _ => []
  | l :: rest, j =>
    if l = label then j :: label_indices label rest (j + 1)
    else label_indices label rest (j + 1)

/-- The conversion `(int)x` of a double: truncation toward zero; a value that
does not fit in an int is undefined. -/
def to_int (x : Rat) : Except Fault Int := checked (Int.tdiv x.num x.den)

/-- The loop `for (k = 0; k < select_points; k++)` over the draws for one
label. -/
def select_loop (E : Env) (indices : List Int) (count : Int) :
    Nat → List Int × World → Except Fault (List Int × World)
  | 0, st => .ok st
  | k + 1, (selection, w) =>
    if count = 0 then .error (.undefined "division by zero")
    else
      match indices[(Int.tmod ((rand E w).1 : Int) count).toNat]? with
      | none => .error (.undefined "access outside the array")
      | some selected_idx =>
        if selected_idx ∈ selection then select_loop E indices count k (selection, (rand E w).2)
        else select_loop E indices count k (selection ++ [selected_idx], (rand E w).2)

/-- The loop of percentage_split over the unique labels. -/
def select_classes (E : Env) (labels : List String) (percentage : Rat) :
    List String → List Int × World → Except Fault (List Int × World)
  | [], st => .ok st
  | label :: rest, (selection, w) =>
    match to_int (percentage * (label_count label labels : Rat) / 100) with
    | .error f => .error f
    | .ok select_points =>
      match select_loop E (label_indices label labels 0) (label_count label labels)
          select_points.toNat (selection, w) with
      | .error f => .error f
      | .ok st1 => select_classes E labels percentage rest st1

/-- One comparison of the sort: `selection[i]` and `selection[j]` are swapped
when the first is greater. -/
def compare_swap (i j : Nat) (selection : List Int) : Except Fault (List Int) :=
  match selection[i]?, selection[j]? with
  | some x, some y => if x > y then .ok ((selection.set i y).set j x) else .ok selection
  | _, _ => .error (.undefined "access outside the array")

/-- The inner loop `for (j = i + 1; j < selection_count; j++)` of the sort,
from `j` on. -/
def sort_inner (i : Nat) : Nat → Nat → List Int → Except Fault (List Int)
  | 0, _, selection => .ok selection
  | fuel + 1, j, selection =>
    match compare_swap i j selection with
    | .error f => .error f
    | .ok selection1 => sort_inner i fuel (j + 1) selection1

/-- The outer loop `for (i = 0; i < selection_count - 1; i++)` of the sort,
from `i` on. -/
def sort_outer : Nat → Nat → List Int → Except Fault (List Int)
  | 0, _, selection => .ok selection
  | fuel + 1, i, selection =>
    match sort_inner i (selection.length - (i + 1)) (i + 1) selection with
    | .error f => .error f
    | .ok selection1 => sort_outer fuel (i + 1) selection1

def sort_selection (selection : List Int) : Except Fault (List Int) :=
  sort_outer (selection.length - 1) 0 selection

def percentage_split (E : Env) (w : World) (labels : List String) (percentage : Rat)
    (seed : Int) : Except Fault (Split × World) :=
  if percentage ≤ 0 ∨ percentage > 100 then
    .error (.exit "Percentage must be greater than 0 and lower than or equal to 100")
  else if seed < 0 then
    .error (.exit "The input seed must be a non-negative integer number")
  else if ((unique_labels labels []).length : Int) < 2 then
    .error (.exit "The list of class labels must contain at least two unique labels")
  else
    match select_classes E labels percentage (unique_labels labels []) ([], srand w seed) with
    | .error f => .error f
    | .ok (selection, w1) =>
      match sort_selection selection with
      | .error f => .error f
      | .ok sorted =>
        .ok ({ selection := sorted, num_selected_indices := selection.length }, w1)

end ParserC

/-! ## The flips of the level codebook as a function of the drawn indices -/

namespace ModelC

/-- The array after one flip `base_vector[index] *= -1`. -/
def flip_at (index : Nat) (base_vector : List Int) : List Int :=
  base_vector.set index (base_vector.getD index 0 * -1)

/-- The array after the flips at the listed indices, in their order. -/
def flips (indices : List Nat) (base_vector : List Int) : List Int :=
  indices.foldl (fun b i => flip_at i b) base_vector

/-- The indices `rand() % size` of `n` consecutive draws of the generator that
was seeded with `seed` and has drawn `drawn` values since. -/
def draws (E : Env) (size : Int) (seed : Int) (drawn : Nat) (n : Nat) : List Nat :=
  (List.range n).map (fun m => (Int.tmod ((E.stream seed (drawn + m) : Nat) : Int) size).toNat)

end ModelC

/-! ## Concrete inputs -/

/-- A bipolar vector of dimension 10000, every element 1. -/
def ones : Vector :=
  { name := "A", vector := List.replicate 10000 1, vtype := "bipolar", tags := [],
    seed := 1, warning := false }

/-- A binary vector of dimension 10000, every element 0. -/
def zeros : Vector :=
  { name := "Z", vector := List.replicate 10000 0, vtype := "binary", tags := [],
    seed := 1, warning := false }

/-- A binary vector of dimension 10000, every element 1. -/
def binary_ones : Vector :=
  { name := "B", vector := List.replicate 10000 1, vtype := "binary", tags := [],
    seed := 2, warning := false }

/-- A bipolar vector of dimension 10000, every element -1. -/
def minus_ones : Vector :=
  { name := "M", vector := List.replicate 10000 (-1), vtype := "bipolar", tags := [],
    seed := 4, warning := false }

/-- A vector of dimension 10000 whose alphabet string is neither binary nor
bipolar. -/
def ternary_ones : Vector :=
  { name := "T", vector := List.replicate 10000 1, vtype := "ternary", tags := [],
    seed := 3, warning := false }

/-- The empty bipolar space of dimension 10000. -/
def empty_space : Space :=
  { vectors := [], size := 10000, vtype := "bipolar", tags := [] }

/-- The bipolar space of dimension 10000 that holds the all-ones vector. -/
def space_with_ones : Space :=
  { vectors := [ones], size := 10000, vtype := "bipolar", tags := [] }

/-- A stream that always draws 1 and a clock that stands still. -/
def env0 : Env := { stream := fun _ _ => 1, clock := fun _ => 0 }

def world0 : World := { rng_seed := 1, rng_drawn := 0, clock_reads := 0 }

/-- The bipolar vector of dimension N with every element c, its other fields as
create_vector with seed -1 leaves them. -/
def constant_vector (N : Nat) (name : String) (c : Int) : Vector :=
  { name := name, vector := List.replicate N c, vtype := "bipolar", tags := [],
    seed := -1, warning := false }

/-- The process-wide state after a create_vector of dimension N with seed -1
under env0: reseeded from the clock, N values drawn. -/
def after_create (N : Nat) (w : World) : World :=
  { rng_seed := 0, rng_drawn := N, clock_reads := w.clock_reads + 1 }

/-- A printer of weight names for the unweighted graphs below, which never
call it. -/
def fmt0 : Rat → String := fun _ => "__weight__0.00"

/-- The graph create_graph returns for size N, unweighted, seed -1. -/
def graph0 (N : Nat) (directed : Bool) : Graph :=
  { size := N, vtype := "bipolar", directed := directed, weighted := false,
    nodes_counter := 0, edges_counter := 0,
    space := { vectors := [], size := N, vtype := "bipolar", tags := [] }, seed := -1,
    nodes := fun _ => { children := [], weights := [], memory := none } }

/-- An unweighted bipolar graph of dimension N with the given direction flag
and the given vectors in its space. -/
def graph_shape (N : Nat) (g : Graph) (directed : Bool) (vectors : List Vector) : Prop :=
  g.size = N ∧ g.vtype = "bipolar" ∧ g.directed = directed ∧ g.weighted = false ∧
    g.space = { vectors := vectors, size := N, vtype := "bipolar", tags := [] }

/-- The edge from A to B of an unweighted graph. -/
def edge_ab : Edge := { node1_name := "A", node2_name := "B", weight := -1 }

/-- The model create_mlmodel returns for size N, two levels and the given
alphabet. -/
def fresh_model (N : Int) (vtype : String) : MLModel :=
  { size := N, levels := 2, vtype := vtype,
    space := { vectors := [], size := N, vtype := vtype, tags := [] }, classes := [],
    version := "0.1.17" }

/-- Four rows of one feature; the values 0 and 2 are min_value and max_value. -/
def four_points : List (List Rat) := [[0], [2], [0], [2]]

/-- The class labels of the four rows. -/
def four_labels : List String := ["a", "b", "a", "b"]

/-- Four rows of one feature with the values 1/2 and 3/2 between min_value 0
and max_value 2. -/
def inner_points : List (List Rat) := [[0], [1 / 2], [3 / 2], [2]]

/-- A stream whose every value is the seed of the generator, and a clock that
stands at t. -/
def env_seeded (t : Int) : Env := { stream := fun s _ => s.toNat, clock := fun _ => t }

/-- The model create_mlmodel returns for size N, L levels and the given
alphabet. -/
def level_model (N L : Int) (vtype : String) : MLModel :=
  { size := N, levels := L, vtype := vtype,
    space := { vectors := [], size := N, vtype := vtype, tags := [] }, classes := [],
    version := "0.1.17" }

/-- The stream 5, 9, 13, 17, ... after every seed: the values differ and every
`rand() % 4` is 1. -/
def env_stride : Env := { stream := fun _ k => 5 + 4 * k, clock := fun _ => 0 }

/-- Five rows of one feature, all of value 0. -/
def five_points : List (List Rat) := [[0], [0], [0], [0], [0]]

/-- The class labels of the five rows. -/
def five_labels : List String := ["a", "b", "b", "b", "a"]

/-- The file with the header line id, f1, f2, #, class and the rows
A 0.1 0.2 x and B 0.9 0.8 y, separated by tabs. -/
def sentinel_file : String := "id\tf1\tf2\t#\tclass\nA\t0.1\t0.2\tx\nB\t0.9\t0.8\ty\n"

/-- The labels x, x, x, x, y, y, y, y. -/
def eight_labels : List String := ["x", "x", "x", "x", "y", "y", "y", "y"]

/-- The file with the header line id, f1, f2, class and the rows A 0.1 0.2 x
and B 0.9 0.8 y, separated by tabs. -/
def sample_file : String := "id\tf1\tf2\tclass\nA\t0.1\t0.2\tx\nB\t0.9\t0.8\ty\n"

/-! ## Lemmas on the shared loops -/

theorem checked_of_in_int (x : Int) (h : in_int x) : checked x = .ok x := by
  simp [checked, h]

theorem in_int_of_small (x : Int) (h : x = 1 ∨ x = -1 ∨ x = 0) : in_int x := by
  rcases h with h | h | h <;> subst h <;> decide

theorem fill_random_ok (E : Env) (vtype : String) (hv : vtype = "binary" ∨ vtype = "bipolar")
    (n : Nat) (w : World) :
    ∃ xs w2, fill_random E vtype n w = .ok (xs, w2) ∧ xs.length = n := by
  induction n generalizing w with
  | zero => exact ⟨[], w, rfl, rfl⟩
  | succ n ih =>
    have hstep : ∃ x w1, random_element E vtype w = .ok (x, w1) := by
      rcases hv with hv | hv <;> subst hv <;> simp [random_element]
    obtain ⟨x, w1, hx⟩ := hstep
    obtain ⟨xs, w2, hxs, hlen⟩ := ih w1
    refine ⟨x :: xs, w2, ?_, by simp [hlen]⟩
    simp [fill_random, hx, hxs]

theorem create_vector_ok (E : Env) (w : World) (name : String) (size : Int) (vtype : String)
    (seed : Int) (warning : Bool) (hsize : 10000 ≤ size)
    (hv : vtype = "binary" ∨ vtype = "bipolar") :
    ∃ r w1, create_vector E w name size vtype seed warning = .ok (r, w1) ∧
      r.name = name ∧ r.vtype = vtype ∧ r.size = size ∧ r.tags = [] := by
  obtain ⟨xs, w2, hxs, hlen⟩ := fill_random_ok E vtype hv size.toNat
    (if seed ≠ -1 then srand w seed else srand (time_null E w).2 (time_null E w).1)
  refine ⟨{ name := name, vector := xs, vtype := vtype, tags := [], seed := seed,
            warning := warning }, w2, ?_, rfl, rfl, ?_, rfl⟩
  · unfold create_vector
    rw [if_neg (by omega)]
    simp only [hxs]
  · simp only [Vector.size, hlen]
    omega

theorem elementwise_length (op : Int → Int → Except Fault Int) (as bs cs : List Int)
    (hlen : as.length = bs.length) (h : elementwise op as bs = .ok cs) :
    cs.length = as.length := by
  induction as generalizing bs cs with
  | nil => simp [elementwise] at h; simp [← h]
  | cons a as ih =>
    cases bs with
    | nil => simp at hlen
    | cons b bs =>
      simp only [elementwise] at h
      cases hop : op a b with
      | error f => simp [hop] at h
      | ok c =>
        cases hrest : elementwise op as bs with
        | error f => simp [hop, hrest] at h
        | ok cs1 =>
          simp [hop, hrest] at h
          subst h
          simp [ih bs cs1 (by simpa using hlen) hrest]

theorem mul_int_bipolar (a b : Int) (ha : a = 1 ∨ a = -1) (hb : b = 1 ∨ b = -1) :
    mul_int a b = .ok (a * b) ∧ (a * b = 1 ∨ a * b = -1) ∧ a * b * b = a := by
  rcases ha with ha | ha <;> rcases hb with hb | hb <;> subst ha <;> subst hb <;>
    refine ⟨by simp [mul_int, checked, in_int, INT_MIN, INT_MAX], by decide, by decide⟩

/-- Binding twice with the same bipolar operand, on the element loops. -/
theorem elementwise_mul_bipolar (as bs : List Int) (hlen : as.length = bs.length)
    (ha : ∀ x ∈ as, x = 1 ∨ x = -1) (hb : ∀ x ∈ bs, x = 1 ∨ x = -1) :
    ∃ cs, elementwise mul_int as bs = .ok cs ∧ cs.length = as.length ∧
      elementwise mul_int cs bs = .ok as := by
  induction as generalizing bs with
  | nil => exact ⟨[], by simp [elementwise], rfl, by simp [elementwise]⟩
  | cons a as ih =>
    cases bs with
    | nil => simp at hlen
    | cons b bs =>
      have ha1 := ha a (by simp)
      have hb1 := hb b (by simp)
      obtain ⟨cs, h1, h2, h3⟩ := ih bs (by simpa using hlen)
        (fun x hx => ha x (by simp [hx])) (fun x hx => hb x (by simp [hx]))
      obtain ⟨m1, m2, m3⟩ := mul_int_bipolar a b ha1 hb1
      obtain ⟨m4, -, -⟩ := mul_int_bipolar (a * b) b m2 hb1
      refine ⟨(a * b) :: cs, ?_, by simp [h2], ?_⟩
      · simp [elementwise, m1, h1]
      · simp [elementwise, m4, h3, m3]

theorem arithmetic_bind_ok (E : Env) (w : World) (v1 v2 : Vector) (cs : List Int)
    (hdim : 10000 ≤ v1.size) (hsize : v1.size = v2.size) (htype : v1.vtype = v2.vtype)
    (hv : v1.vtype = "binary" ∨ v1.vtype = "bipolar")
    (hcs : elementwise mul_int v1.vector v2.vector = .ok cs) :
    ∃ r w1, ArithmeticC.bind_vectors E w v1 v2 = .ok (r, w1) ∧ r.vector = cs ∧
      r.vtype = v1.vtype ∧ r.name = "BindResult" := by
  obtain ⟨r, w1, hr, hname, hrt, -, -⟩ :=
    create_vector_ok E w "BindResult" v1.size v1.vtype (-1) false hdim hv
  refine ⟨{ r with vector := cs }, w1, ?_, rfl, hrt, hname⟩
  unfold ArithmeticC.bind_vectors
  rw [if_neg (fun h => h hsize), if_neg (fun h => h htype), hr]
  simp only [hcs]

theorem space_bind_ok (E : Env) (w : World) (v1 v2 : Vector) (cs : List Int)
    (hdim : 10000 ≤ v1.size) (hsize : v1.size = v2.size)
    (hv : v1.vtype = "binary" ∨ v1.vtype = "bipolar")
    (hcs : elementwise mul_int v1.vector v2.vector = .ok cs) :
    ∃ r w1, SpaceC.bind_vectors E w v1 v2 = .ok (r, w1) ∧ r.vector = cs ∧
      r.vtype = v1.vtype ∧ r.name = v1.name := by
  obtain ⟨r, w1, hr, hname, hrt, -, -⟩ :=
    create_vector_ok E w v1.name v1.size v1.vtype (-1) false hdim hv
  refine ⟨{ r with vector := cs }, w1, ?_, rfl, hrt, hname⟩
  unfold SpaceC.bind_vectors
  rw [if_neg (fun h => h hsize), hr]
  simp only [hcs]

/-! ## The loop of permute_vector -/

theorem permute_step_ok (src : List Int) (K i : Nat) (st : List (Option Int) × List Nat)
    (hi : i < src.length) (hov : in_int ((i : Int) + (K : Int))) :
    permute_step src (K : Int) i st =
      .ok (st.1.set ((i + K) % src.length) src[i]?, st.2 ++ [(i + K) % src.length]) := by
  have hn : (0 : Int) < (src.length : Int) := by exact_mod_cast (Nat.lt_of_le_of_lt (Nat.zero_le i) hi)
  have hmod : Int.tmod ((i : Int) + (K : Int)) (src.length : Int) = (((i + K) % src.length : Nat) : Int) := by
    rw [Int.ofNat_tmod]; push_cast; rfl
  have hlt : (((i + K) % src.length : Nat) : Int) < (src.length : Int) := by
    exact_mod_cast Nat.mod_lt _ (Nat.lt_of_le_of_lt (Nat.zero_le i) hi)
  unfold permute_step
  simp only [add_int, checked_of_in_int _ hov, hmod]
  rw [if_pos ⟨Int.ofNat_nonneg _, hlt⟩]
  simp only [Int.toNat_ofNat]

theorem rot_injective (n K i j : Nat) (hi : i < n) (hj : j < n)
    (h : (i + K) % n = (j + K) % n) : i = j := by
  have h1 : i + K ≡ j + K [MOD n] := h
  exact (Nat.ModEq.add_right_cancel' K h1).eq_of_lt_of_lt hi hj

/-- The indices written by a full run are a rearrangement of 0 .. n-1. -/
theorem rot_perm (n K : Nat) :
    ((List.range n).map fun i => (i + K) % n).Perm (List.range n) := by
  apply List.Subperm.perm_of_length_le
  · apply List.subperm_of_subset
    · apply List.Nodup.map_on _ (List.nodup_range n)
      intro x hx y hy hxy
      exact rot_injective n K x y (List.mem_range.mp hx) (List.mem_range.mp hy) hxy
    · intro p hp
      obtain ⟨i, hi, rfl⟩ := List.mem_map.mp hp
      have hi1 := List.mem_range.mp hi
      exact List.mem_range.mpr (Nat.mod_lt _ (Nat.lt_of_le_of_lt (Nat.zero_le i) hi1))
  · simp

theorem rot_surjective (n K p : Nat) (hp : p < n) : ∃ i, i < n ∧ (i + K) % n = p := by
  have hmem : p ∈ (List.range n).map fun i => (i + K) % n :=
    (rot_perm n K).symm.subset (List.mem_range.mpr hp)
  obtain ⟨i, hi, h⟩ := List.mem_map.mp hmem
  exact ⟨i, List.mem_range.mp hi, h⟩

/-- The loop from index i with i + fuel = n and rotate_by = K ≥ 0 runs to its
end; it logs the indices (j + K) mod n for j = i .. n-1, puts element j of the
source in cell (j + K) mod n and leaves the other cells alone. -/
theorem permute_loop_ok (src : List Int) (K : Nat)
    (hov : ∀ i : Nat, i < src.length → in_int ((i : Int) + (K : Int))) :
    ∀ (fuel i : Nat) (st : List (Option Int) × List Nat), i + fuel = src.length →
      st.1.length = src.length →
      ∃ buf log, permute_loop src (K : Int) fuel i st = .ok (buf, log) ∧
        log = st.2 ++ (List.range' i fuel).map (fun j => (j + K) % src.length) ∧
        buf.length = src.length ∧
        (∀ j, i ≤ j → j < src.length → buf[(j + K) % src.length]? = some src[j]?) ∧
        (∀ p, (∀ j, i ≤ j → j < src.length → (j + K) % src.length ≠ p) →
          buf[p]? = st.1[p]?) := by
  intro fuel
  induction fuel with
  | zero =>
    intro i st hi hlen
    refine ⟨st.1, st.2, rfl, by simp, hlen, ?_, fun p _ => rfl⟩
    intro j h1 h2
    omega
  | succ fuel ih =>
    intro i st hi hlen
    have hi1 : i < src.length := by omega
    have hstep := permute_step_ok src K i st hi1 (hov i hi1)
    obtain ⟨buf, log, hrun, hlog, hblen, hset, hkeep⟩ :=
      ih (i + 1) (st.1.set ((i + K) % src.length) src[i]?, st.2 ++ [(i + K) % src.length])
        (by omega) (by simp [hlen])
    refine ⟨buf, log, ?_, ?_, hblen, ?_, ?_⟩
    · simp only [permute_loop, hstep, hrun]
    · rw [hlog, List.range'_succ]
      simp
    · intro j h1 h2
      rcases Nat.eq_or_lt_of_le h1 with h | h
      · subst h
        rw [hkeep ((i + K) % src.length)]
        · have hlt : (i + K) % src.length < st.1.length := by
            rw [hlen]; exact Nat.mod_lt _ (by omega)
          simp [List.getElem?_set, hlt]
        · intro j h3 h4 h5
          have := rot_injective src.length K j i h4 hi1 h5
          omega
      · exact hset j h h2
    · intro p hp
      rw [hkeep p (fun j h1 h2 => hp j (by omega) h2)]
      have hne : (i + K) % src.length ≠ p := hp i (Nat.le_refl i) hi1
      simp [List.getElem?_set, hne]

theorem collect_map_some (xs : List Int) : collect (xs.map some) = .ok xs := by
  induction xs with
  | nil => rfl
  | cons x xs ih => simp [collect, ih]

/-- A full run of the loop with rotate_by = K ≥ 0 on any buffer of the right
length: every index is written exactly once and the buffer read back holds
element i of the source at index (i + K) mod n. -/
theorem permute_full (src : List Int) (K : Nat)
    (hov : ∀ i : Nat, i < src.length → in_int ((i : Int) + (K : Int)))
    (buf0 : List (Option Int)) (hlen : buf0.length = src.length) :
    ∃ buf log xs, permute_loop src (K : Int) src.length 0 (buf0, []) = .ok (buf, log) ∧
      log.Perm (List.range src.length) ∧ collect buf = .ok xs ∧ xs.length = src.length ∧
      ∀ i, i < src.length → xs[(i + K) % src.length]? = src[i]? := by
  obtain ⟨buf, log, hrun, hlog, hblen, hset, -⟩ :=
    permute_loop_ok src K hov src.length 0 (buf0, []) (by simp) hlen
  have hcell : ∀ c ∈ buf, some (c.getD 0) = c := by
    intro c hc
    obtain ⟨p, hp, hpc⟩ := List.getElem_of_mem hc
    obtain ⟨j, hj, hjp⟩ := rot_surjective src.length K p (hblen ▸ hp)
    have h1 := hset j (Nat.zero_le j) hj
    rw [hjp, List.getElem?_eq_getElem hp, hpc, List.getElem?_eq_getElem hj] at h1
    have h2 : c = some src[j] := Option.some.inj h1
    simp [h2]
  have hbuf : (buf.map fun c => c.getD 0).map some = buf := by
    rw [List.map_map]
    calc buf.map (some ∘ fun c => c.getD 0) = buf.map id :=
          List.map_congr_left (fun c hc => by simpa using hcell c hc)
      _ = buf := List.map_id buf
  refine ⟨buf, log, buf.map fun c => c.getD 0, hrun, ?_, ?_, by simp [hblen], ?_⟩
  · rw [hlog, List.nil_append, ← List.range_eq_range']
    exact rot_perm src.length K
  · have := collect_map_some (buf.map fun c => c.getD 0)
    rwa [hbuf] at this
  · intro i hi
    rw [List.getElem?_map, hset i (Nat.zero_le i) hi, List.getElem?_eq_getElem hi]
    rfl

theorem tmod_small_negative (k : Int) (n : Nat) (h1 : k < 0) (h2 : -(n : Int) < k) :
    Int.tmod k n = k := by
  obtain ⟨m, rfl⟩ := Int.eq_negSucc_of_lt_zero h1
  have hm : m + 1 < n := by
    have : -(n : Int) < -((m : Int) + 1) := by rwa [Int.negSucc_eq] at h2
    omega
  show -Int.ofNat (m.succ % n) = Int.negSucc m
  rw [Nat.mod_eq_of_lt hm]
  rfl

/-- With a negative rotate_by of absolute value below the dimension the first
iteration of the loop writes at a negative index. -/
theorem permute_loop_negative (src : List Int) (k : Int) (fuel : Nat)
    (st : List (Option Int) × List Nat) (h1 : k < 0) (h2 : -(src.length : Int) < k)
    (h3 : in_int k) :
    permute_loop src k (fuel + 1) 0 st = .error (.undefined "write outside the array") := by
  have hstep : permute_step src k 0 st = .error (.undefined "write outside the array") := by
    unfold permute_step
    have h0 : add_int ((0 : Nat) : Int) k = .ok k := by
      simp only [add_int, Int.Nat.cast_ofNat_Int, Int.zero_add, checked_of_in_int k h3]
    rw [h0]
    simp only [tmod_small_negative k src.length h1 h2]
    rw [if_neg (by omega)]
  simp only [permute_loop, hstep]

theorem size_toNat_succ (H : Vector) (k : Int) (h1 : k < 0) (h2 : -H.size < k) :
    ∃ m, H.size.toNat = m + 1 := by
  refine ⟨H.size.toNat - 1, ?_⟩
  have : 0 < H.size := by omega
  omega

theorem space_permute_negative (H : Vector) (k : Int) (h1 : k < 0) (h2 : -H.size < k)
    (h3 : in_int k) :
    SpaceC.permute_vector H k = .error (.undefined "write outside the array") := by
  obtain ⟨m, hm⟩ := size_toNat_succ H k h1 h2
  have hrun : SpaceC.permute_run H k = .error (.undefined "write outside the array") := by
    unfold SpaceC.permute_run
    rw [hm]
    exact permute_loop_negative H.vector k m _ h1 h2 h3
  simp only [SpaceC.permute_vector, hrun]

theorem arithmetic_permute_negative (E : Env) (w : World) (H : Vector) (k : Int)
    (hdim : 10000 ≤ H.size) (hv : H.vtype = "binary" ∨ H.vtype = "bipolar")
    (h1 : k < 0) (h2 : -H.size < k) (h3 : in_int k) :
    ArithmeticC.permute_vector E w H k = .error (.undefined "write outside the array") := by
  obtain ⟨m, hm⟩ := size_toNat_succ H k h1 h2
  obtain ⟨r, w1, hr, -⟩ := create_vector_ok E w "PermuteResult" H.size H.vtype (-1) false hdim hv
  have hrun : ArithmeticC.permute_run E w H k =
      .error (.undefined "write outside the array") := by
    unfold ArithmeticC.permute_run
    rw [hr, hm]
    simp only [permute_loop_negative H.vector k m _ h1 h2 h3]
  unfold ArithmeticC.permute_vector
  rw [hrun]

/-! ## The loops of vector_distance -/

theorem mul_in_int (a b : Int) (ha : -SQRT_INT_MAX ≤ a ∧ a ≤ SQRT_INT_MAX)
    (hb : -SQRT_INT_MAX ≤ b ∧ b ≤ SQRT_INT_MAX) : in_int (a * b) := by
  unfold SQRT_INT_MAX at ha hb
  unfold in_int INT_MIN INT_MAX
  constructor <;> nlinarith [mul_nonneg (sub_nonneg.mpr ha.1) (sub_nonneg.mpr hb.1),
    mul_nonneg (sub_nonneg.mpr ha.2) (sub_nonneg.mpr hb.2),
    mul_nonneg (sub_nonneg.mpr ha.1) (sub_nonneg.mpr hb.2),
    mul_nonneg (sub_nonneg.mpr ha.2) (sub_nonneg.mpr hb.1)]

theorem sub_in_int (a b : Int) (ha : -SQRT_INT_MAX ≤ a ∧ a ≤ SQRT_INT_MAX)
    (hb : -SQRT_INT_MAX ≤ b ∧ b ≤ SQRT_INT_MAX) : in_int (a - b) := by
  unfold SQRT_INT_MAX at ha hb
  unfold in_int INT_MIN INT_MAX
  omega

theorem sum_sq_nonneg (xs : List Int) : 0 ≤ sum_sq xs := by
  induction xs with
  | nil => simp [sum_sq]
  | cons a as ih => simp only [sum_sq]; nlinarith [mul_self_nonneg a]

theorem sum_sq_eq_zero (xs : List Int) (h : ∀ x ∈ xs, x = 0) : sum_sq xs = 0 := by
  induction xs with
  | nil => rfl
  | cons a as ih =>
    have ha : a = 0 := h a (by simp)
    simp [sum_sq, ha, ih (fun x hx => h x (by simp [hx]))]

theorem sum_sq_pos (xs : List Int) (h : ∃ x ∈ xs, x ≠ 0) : 0 < sum_sq xs := by
  induction xs with
  | nil => obtain ⟨x, hx, -⟩ := h; simp at hx
  | cons a as ih =>
    simp only [sum_sq]
    obtain ⟨x, hx, hne⟩ := h
    rcases List.mem_cons.mp hx with rfl | hx
    · have := sum_sq_nonneg as
      have : 0 < x * x := mul_self_pos.mpr hne
      omega
    · have := ih ⟨x, hx, hne⟩
      nlinarith [mul_self_nonneg a]

theorem dot_eq_zero (as bs : List Int) (h : ∀ x ∈ as, x = 0) : dot as bs = 0 := by
  induction as generalizing bs with
  | nil => simp [dot]
  | cons a as ih =>
    cases bs with
    | nil => simp [dot]
    | cons b bs =>
      have ha : a = 0 := h a (by simp)
      simp [dot, ha, ih bs (fun x hx => h x (by simp [hx]))]

theorem dot_comm (as bs : List Int) : dot as bs = dot bs as := by
  induction as generalizing bs with
  | nil => cases bs <;> simp [dot]
  | cons a as ih =>
    cases bs with
    | nil => simp [dot]
    | cons b bs => simp [dot, ih bs, mul_comm]

theorem dot_self (as : List Int) : dot as as = sum_sq as := by
  induction as with
  | nil => rfl
  | cons a as ih => simp [dot, sum_sq, ih]

/-- Cauchy-Schwarz on the sums the cosine loop accumulates. -/
theorem dot_sq_le (as bs : List Int) (hlen : as.length = bs.length) :
    dot as bs ^ 2 ≤ sum_sq as * sum_sq bs := by
  induction as generalizing bs with
  | nil => simp [dot, sum_sq]
  | cons a as ih =>
    cases bs with
    | nil => simp at hlen
    | cons b bs =>
      have h := ih bs (by simpa using hlen)
      have hna := sum_sq_nonneg as
      have hnb := sum_sq_nonneg bs
      simp only [dot, sum_sq]
      have key : 2 * (a * b) * dot as bs ≤ a * a * sum_sq bs + b * b * sum_sq as := by
        by_contra hcon
        push_neg at hcon
        have hpos : 0 ≤ a * a * sum_sq bs + b * b * sum_sq as :=
          add_nonneg (mul_nonneg (mul_self_nonneg a) hnb) (mul_nonneg (mul_self_nonneg b) hna)
        nlinarith [sq_nonneg (a * a * sum_sq bs - b * b * sum_sq as),
          mul_nonneg (mul_self_nonneg (a * b)) (sub_nonneg.mpr h), sq_nonneg (a * b)]
      nlinarith [key]

theorem checked_eq_ok (x y : Int) (h : checked x = .ok y) : y = x ∧ in_int x := by
  unfold checked at h
  split at h
  · exact ⟨(Except.ok.inj h).symm, by assumption⟩
  · cases h

/-- What the cosine loop returns, when it returns, on arrays of one length. -/
theorem cosine_loop_value (as bs : List Int) (hlen : as.length = bs.length)
    (acc acc1 : Int × Int × Int) (h : cosine_loop as bs acc = .ok acc1) :
    acc1 = (acc.1 + dot as bs, acc.2.1 + sum_sq as, acc.2.2 + sum_sq bs) := by
  induction as generalizing bs acc with
  | nil =>
    cases bs with
    | nil => simp [cosine_loop] at h; simp [dot, sum_sq, ← h]
    | cons b bs => simp at hlen
  | cons a as ih =>
    cases bs with
    | nil => simp at hlen
    | cons b bs =>
      simp only [cosine_loop, mul_int] at h
      cases hab : checked (a * b) with
      | error f => simp [hab] at h
      | ok ab =>
        cases haa : checked (a * a) with
        | error f => simp [hab, haa] at h
        | ok aa =>
          cases hbb : checked (b * b) with
          | error f => simp [hab, haa, hbb] at h
          | ok bb =>
            simp only [hab, haa, hbb] at h
            have := ih bs (by simpa using hlen) _ h
            rw [this, (checked_eq_ok _ _ hab).1, (checked_eq_ok _ _ haa).1,
              (checked_eq_ok _ _ hbb).1]
            simp only [dot, sum_sq, Prod.mk.injEq]
            refine ⟨by ring, by ring, by ring⟩

/-- The cosine loop returns on arrays of small elements. -/
theorem cosine_loop_ok (as bs : List Int) (hlen : as.length = bs.length)
    (ha : small_elements as) (hb : small_elements bs) (acc : Int × Int × Int) :
    cosine_loop as bs acc =
      .ok (acc.1 + dot as bs, acc.2.1 + sum_sq as, acc.2.2 + sum_sq bs) := by
  induction as generalizing bs acc with
  | nil =>
    cases bs with
    | nil => simp [cosine_loop, dot, sum_sq]
    | cons b bs => simp at hlen
  | cons a as ih =>
    cases bs with
    | nil => simp at hlen
    | cons b bs =>
      have ha1 := ha a (by simp)
      have hb1 := hb b (by simp)
      simp only [cosine_loop, mul_int, checked_of_in_int _ (mul_in_int a b ha1 hb1),
        checked_of_in_int _ (mul_in_int a a ha1 ha1), checked_of_in_int _ (mul_in_int b b hb1 hb1)]
      rw [ih bs (by simpa using hlen) (fun x hx => ha x (by simp [hx]))
        (fun x hx => hb x (by simp [hx]))]
      simp only [dot, sum_sq]
      congr 2
      · ring
      · congr 1 <;> ring

/-- Swapping the operands of the cosine loop swaps norm_a and norm_b. -/
theorem cosine_loop_swap (as bs : List Int) (d na nb d1 na1 nb1 : Int)
    (h : cosine_loop as bs (d, na, nb) = .ok (d1, na1, nb1)) :
    cosine_loop bs as (d, nb, na) = .ok (d1, nb1, na1) := by
  induction as generalizing bs d na nb with
  | nil =>
    cases bs <;> simp [cosine_loop] at h ⊢ <;> simp [h]
  | cons a as ih =>
    cases bs with
    | nil => simp [cosine_loop] at h ⊢; simp [h]
    | cons b bs =>
      simp only [cosine_loop, mul_int] at h ⊢
      cases hab : checked (a * b) with
      | error f => simp [hab] at h
      | ok ab =>
        cases haa : checked (a * a) with
        | error f => simp [hab, haa] at h
        | ok aa =>
          cases hbb : checked (b * b) with
          | error f => simp [hab, haa, hbb] at h
          | ok bb =>
            simp only [hab, haa, hbb] at h
            rw [mul_comm b a]
            simp only [hab, haa, hbb]
            exact ih bs _ _ _ h

theorem hamming_loop_bounds (as bs : List Int) (count : Int) :
    count ≤ hamming_loop as bs count ∧ hamming_loop as bs count ≤ count + as.length := by
  induction as generalizing bs count with
  | nil => simp [hamming_loop]
  | cons a as ih =>
    cases bs with
    | nil =>
      simp only [hamming_loop, List.length_cons]
      push_cast
      omega
    | cons b bs =>
      simp only [hamming_loop, List.length_cons]
      by_cases hab : a ≠ b
      · rw [if_pos hab]
        have := ih bs (count + 1)
        push_cast
        omega
      · rw [if_neg hab]
        have := ih bs count
        push_cast
        omega

theorem hamming_loop_self (as : List Int) (count : Int) : hamming_loop as as count = count := by
  induction as generalizing count with
  | nil => rfl
  | cons a as ih => simp [hamming_loop, ih]

/-- The euclidean loop returns on arrays of small elements, with a sum that
did not decrease. -/
theorem euclidean_loop_ok (as bs : List Int) (ha : small_elements as) (hb : small_elements bs)
    (sum : Int) : ∃ s, euclidean_loop as bs sum = .ok s ∧ sum ≤ s := by
  induction as generalizing bs sum with
  | nil => exact ⟨sum, by simp [euclidean_loop], le_refl _⟩
  | cons a as ih =>
    cases bs with
    | nil => exact ⟨sum, by simp [euclidean_loop], le_refl _⟩
    | cons b bs =>
      have ha1 := ha a (by simp)
      have hb1 := hb b (by simp)
      obtain ⟨s, hs, hle⟩ := ih bs (fun x hx => ha x (by simp [hx]))
        (fun x hx => hb x (by simp [hx])) (sum + (a - b) * (a - b))
      refine ⟨s, ?_, ?_⟩
      · simp only [euclidean_loop, sub_int, checked_of_in_int _ (sub_in_int a b ha1 hb1), hs]
      · nlinarith [mul_self_nonneg (a - b)]

/-! ## Operand checks of the operators -/

theorem add_in_int (a b : Int) (ha : -SQRT_INT_MAX ≤ a ∧ a ≤ SQRT_INT_MAX)
    (hb : -SQRT_INT_MAX ≤ b ∧ b ≤ SQRT_INT_MAX) : in_int (a + b) := by
  unfold SQRT_INT_MAX at ha hb
  unfold in_int INT_MIN INT_MAX
  omega

/-- The element loop returns when the operator returns on small elements. -/
theorem elementwise_small_ok (op : Int → Int → Except Fault Int)
    (hop : ∀ a b, (-SQRT_INT_MAX ≤ a ∧ a ≤ SQRT_INT_MAX) →
      (-SQRT_INT_MAX ≤ b ∧ b ≤ SQRT_INT_MAX) → ∃ c, op a b = .ok c)
    (as bs : List Int) (ha : small_elements as) (hb : small_elements bs) :
    ∃ cs, elementwise op as bs = .ok cs := by
  induction as generalizing bs with
  | nil => exact ⟨[], by simp [elementwise]⟩
  | cons a as ih =>
    cases bs with
    | nil => exact ⟨[], by simp [elementwise]⟩
    | cons b bs =>
      obtain ⟨c, hc⟩ := hop a b (ha a (by simp)) (hb b (by simp))
      obtain ⟨cs, hcs⟩ := ih bs (fun x hx => ha x (by simp [hx]))
        (fun x hx => hb x (by simp [hx]))
      exact ⟨c :: cs, by simp [elementwise, hc, hcs]⟩

theorem mul_int_small (a b : Int) (ha : -SQRT_INT_MAX ≤ a ∧ a ≤ SQRT_INT_MAX)
    (hb : -SQRT_INT_MAX ≤ b ∧ b ≤ SQRT_INT_MAX) : ∃ c, mul_int a b = .ok c :=
  ⟨a * b, checked_of_in_int _ (mul_in_int a b ha hb)⟩

theorem add_int_small (a b : Int) (ha : -SQRT_INT_MAX ≤ a ∧ a ≤ SQRT_INT_MAX)
    (hb : -SQRT_INT_MAX ≤ b ∧ b ≤ SQRT_INT_MAX) : ∃ c, add_int a b = .ok c :=
  ⟨a + b, checked_of_in_int _ (add_in_int a b ha hb)⟩

theorem sub_int_small (a b : Int) (ha : -SQRT_INT_MAX ≤ a ∧ a ≤ SQRT_INT_MAX)
    (hb : -SQRT_INT_MAX ≤ b ∧ b ≤ SQRT_INT_MAX) : ∃ c, sub_int a b = .ok c :=
  ⟨a - b, checked_of_in_int _ (sub_in_int a b ha hb)⟩

/-- In space.c bind_vectors, bundle_vectors and subtract_vectors return on
operands of one dimension, whatever the alphabet of the second operand. -/
theorem space_ops_ignore_second_alphabet (E : Env) (w : World) (v1 v2 : Vector)
    (hdim : 10000 ≤ v1.size) (hsize : v1.size = v2.size)
    (hv : v1.vtype = "binary" ∨ v1.vtype = "bipolar")
    (h1 : small_elements v1.vector) (h2 : small_elements v2.vector) :
    (∃ R w1, SpaceC.bind_vectors E w v1 v2 = .ok (R, w1)) ∧
    (∃ R w1, SpaceC.bundle_vectors E w v1 v2 = .ok (R, w1)) ∧
    (∃ R w1, SpaceC.subtract_vectors E w v1 v2 = .ok (R, w1)) := by
  obtain ⟨r, w1, hr, -⟩ := create_vector_ok E w v1.name v1.size v1.vtype (-1) false hdim hv
  obtain ⟨ms, hms⟩ := elementwise_small_ok mul_int mul_int_small _ _ h1 h2
  obtain ⟨as, has⟩ := elementwise_small_ok add_int add_int_small _ _ h1 h2
  obtain ⟨ss, hss⟩ := elementwise_small_ok sub_int sub_int_small _ _ h1 h2
  refine ⟨⟨{ r with vector := ms }, w1, ?_⟩, ⟨{ r with vector := as }, w1, ?_⟩,
    ⟨{ r with vector := ss }, w1, ?_⟩⟩
  · unfold SpaceC.bind_vectors
    rw [if_neg (fun h => h hsize), hr]
    simp only [hms]
  · unfold SpaceC.bundle_vectors
    rw [if_neg (fun h => h hsize), hr]
    simp only [has]
  · unfold SpaceC.subtract_vectors
    rw [if_neg (fun h => h hsize), hr]
    simp only [hss]

/-- The checks that are made: arithmetic.c rejects operands that differ in
dimension or in alphabet, space.c rejects operands that differ in dimension,
and vector_distance rejects both and any unknown method. -/
theorem operand_checks (E : Env) (w : World) (v1 v2 : Vector) (method : String) :
    ((v1.size ≠ v2.size ∨ v1.vtype ≠ v2.vtype) →
      (∃ msg, ArithmeticC.bind_vectors E w v1 v2 = .error (.exit msg)) ∧
      (∃ msg, ArithmeticC.bundle_vectors E w v1 v2 = .error (.exit msg)) ∧
      (∃ msg, ArithmeticC.subtract_vectors E w v1 v2 = .error (.exit msg)) ∧
      (∃ msg, SpaceC.vector_distance v1 v2 method = .error (.exit msg))) ∧
    (v1.size ≠ v2.size →
      (∃ msg, SpaceC.bind_vectors E w v1 v2 = .error (.exit msg)) ∧
      (∃ msg, SpaceC.bundle_vectors E w v1 v2 = .error (.exit msg)) ∧
      (∃ msg, SpaceC.subtract_vectors E w v1 v2 = .error (.exit msg))) ∧
    (method ≠ "cosine" → method ≠ "hamming" → method ≠ "euclidean" →
      ∃ msg, SpaceC.vector_distance v1 v2 method = .error (.exit msg)) := by
  refine ⟨fun h => ?_, fun h => ?_, fun h1 h2 h3 => ?_⟩
  · by_cases hs : v1.size ≠ v2.size
    · exact ⟨⟨_, by unfold ArithmeticC.bind_vectors; rw [if_pos hs]⟩,
        ⟨_, by unfold ArithmeticC.bundle_vectors; rw [if_pos hs]⟩,
        ⟨_, by unfold ArithmeticC.subtract_vectors; rw [if_pos hs]⟩,
        ⟨_, by unfold SpaceC.vector_distance; rw [if_pos hs]⟩⟩
    · have ht : v1.vtype ≠ v2.vtype := h.resolve_left hs
      exact ⟨⟨_, by unfold ArithmeticC.bind_vectors; rw [if_neg hs, if_pos ht]⟩,
        ⟨_, by unfold ArithmeticC.bundle_vectors; rw [if_neg hs, if_pos ht]⟩,
        ⟨_, by unfold ArithmeticC.subtract_vectors; rw [if_neg hs, if_pos ht]⟩,
        ⟨_, by unfold SpaceC.vector_distance; rw [if_neg hs, if_pos ht]⟩⟩
  · exact ⟨⟨_, by unfold SpaceC.bind_vectors; rw [if_pos h]⟩,
      ⟨_, by unfold SpaceC.bundle_vectors; rw [if_pos h]⟩,
      ⟨_, by unfold SpaceC.subtract_vectors; rw [if_pos h]⟩⟩
  · unfold SpaceC.vector_distance
    by_cases hs : v1.size ≠ v2.size
    · exact ⟨_, by rw [if_pos hs]⟩
    · by_cases ht : v1.vtype ≠ v2.vtype
      · exact ⟨_, by rw [if_neg hs, if_pos ht]⟩
      · exact ⟨_, by rw [if_neg hs, if_neg ht, if_neg h1, if_neg h2, if_neg h3]⟩

/-! ## The space -/

theorem name_in_iff (vs : List Vector) (name : String) :
    SpaceC.name_in vs name = true ↔ ∃ v ∈ vs, v.name = name := by
  induction vs with
  | nil => simp [SpaceC.name_in]
  | cons v vs ih =>
    simp only [SpaceC.name_in, List.mem_cons, exists_eq_or_imp]
    by_cases h : v.name = name
    · simp [h]
    · simp [h, ih]

theorem name_in_false_iff (vs : List Vector) (name : String) :
    SpaceC.name_in vs name = false ↔ ∀ v ∈ vs, v.name ≠ name := by
  rw [← Bool.not_eq_true, name_in_iff]
  simp

/-- A call of insert_vector that returns: the three checks passed and the
vector was appended. -/
theorem insert_vector_ok (S S1 : Space) (H : Vector)
    (h : SpaceC.insert_vector S H = (.ok (), S1)) :
    S.size = H.size ∧ S.vtype = H.vtype ∧ (∀ v ∈ S.vectors, v.name ≠ H.name) ∧
      S1 = { S with vectors := S.vectors ++ [H] } := by
  unfold SpaceC.insert_vector at h
  by_cases hs : S.size ≠ H.size
  · rw [if_pos hs] at h; cases h
  · rw [if_neg hs] at h
    by_cases ht : S.vtype ≠ H.vtype
    · rw [if_pos ht] at h; cases h
    · rw [if_neg ht] at h
      by_cases hn : SpaceC.name_in S.vectors H.name = true
      · rw [if_pos hn] at h; cases h
      · rw [if_neg hn] at h
        refine ⟨not_not.mp hs, not_not.mp ht, ?_, ?_⟩
        · exact (name_in_false_iff _ _).mp (Bool.not_eq_true _ ▸ hn)
        · exact (Prod.mk.inj h).2.symm

theorem insert_vector_of_checks (S : Space) (H : Vector) (hs : S.size = H.size)
    (ht : S.vtype = H.vtype) (hn : ∀ v ∈ S.vectors, v.name ≠ H.name) :
    SpaceC.insert_vector S H = (.ok (), { S with vectors := S.vectors ++ [H] }) := by
  unfold SpaceC.insert_vector
  rw [if_neg (fun h => h hs), if_neg (fun h => h ht),
    if_neg (by rw [(name_in_false_iff _ _).mpr hn]; decide)]

/-- A run of insert_vector calls that all return: the vectors were appended in
order, each has the size and alphabet of the space, and distinct names stay
distinct. -/
theorem insert_each_ok (hs : List Vector) :
    ∀ (S S1 : Space), SpaceC.insert_each S hs = (.ok (), S1) →
      S1.vectors = S.vectors ++ hs ∧ S1.size = S.size ∧ S1.vtype = S.vtype ∧
      S1.tags = S.tags ∧ (∀ v ∈ hs, v.size = S.size ∧ v.vtype = S.vtype) ∧
      ((S.vectors.map Vector.name).Nodup → (S1.vectors.map Vector.name).Nodup) := by
  induction hs with
  | nil =>
    intro S S1 h
    simp only [SpaceC.insert_each] at h
    obtain rfl := (Prod.mk.inj h).2
    simp
  | cons H hs ih =>
    intro S S1 h
    simp only [SpaceC.insert_each] at h
    cases hstep : SpaceC.insert_vector S H with
    | mk out S2 =>
      cases out with
      | error f => rw [hstep] at h; cases h
      | ok u =>
        rw [hstep] at h
        obtain ⟨h1, h2, h3, h4⟩ := insert_vector_ok S S2 H hstep
        obtain ⟨i1, i2, i3, i4, i5, i6⟩ := ih S2 S1 h
        subst h4
        refine ⟨by simp [i1], i2, i3, i4, ?_, ?_⟩
        · intro v hv
          rcases List.mem_cons.mp hv with rfl | hv
          · exact ⟨h1.symm, h2.symm⟩
          · exact i5 v hv
        · intro hnd
          apply i6
          simp only [List.map_append, List.map_cons, List.map_nil]
          rw [List.nodup_append]
          refine ⟨hnd, by simp, ?_⟩
          intro a ha hb
          rw [List.mem_singleton] at hb
          obtain ⟨v, hv, rfl⟩ := List.mem_map.mp ha
          exact h3 v hv hb

theorem get_loop_none_iff (vs : List Vector) (name : String) :
    GraphC.get_vector_from_space_loop vs name = none ↔ ∀ v ∈ vs, v.name ≠ name := by
  induction vs with
  | nil => simp [GraphC.get_vector_from_space_loop]
  | cons v vs ih =>
    simp only [GraphC.get_vector_from_space_loop, List.mem_cons, forall_eq_or_imp]
    by_cases h : v.name = name
    · simp [h]
    · simp [h, ih]

/-- With pairwise distinct names every contained vector is the one its name
looks up. -/
theorem get_loop_of_mem (vs : List Vector) (hnd : (vs.map Vector.name).Nodup) :
    ∀ v ∈ vs, GraphC.get_vector_from_space_loop vs v.name = some v := by
  induction vs with
  | nil => intro v hv; simp at hv
  | cons u vs ih =>
    intro v hv
    simp only [List.map_cons, List.nodup_cons] at hnd
    simp only [GraphC.get_vector_from_space_loop]
    rcases List.mem_cons.mp hv with rfl | hv
    · simp
    · have hne : u.name ≠ v.name := by
        intro he
        exact hnd.1 (he ▸ List.mem_map_of_mem Vector.name hv)
      rw [if_neg hne]
      exact ih hnd.2 v hv

theorem create_space_ok (size : Int) (vtype : String) (S0 : Space)
    (h : SpaceC.create_space size vtype = .ok S0) :
    S0 = { vectors := [], size := size, vtype := vtype, tags := [] } ∧ 10000 ≤ size := by
  unfold SpaceC.create_space at h
  by_cases hs : size < 10000
  · rw [if_pos hs] at h; cases h
  · rw [if_neg hs] at h
    exact ⟨(Except.ok.inj h).symm, by omega⟩

/-! ## Unbinding from a superposition -/

theorem arithmetic_bundle_ok (E : Env) (w : World) (v1 v2 : Vector) (cs : List Int)
    (hdim : 10000 ≤ v1.size) (hsize : v1.size = v2.size) (htype : v1.vtype = v2.vtype)
    (hv : v1.vtype = "binary" ∨ v1.vtype = "bipolar")
    (hcs : elementwise add_int v1.vector v2.vector = .ok cs) :
    ∃ r w1, ArithmeticC.bundle_vectors E w v1 v2 = .ok (r, w1) ∧ r.vector = cs ∧
      r.vtype = v1.vtype ∧ r.name = "BundleResult" := by
  obtain ⟨r, w1, hr, hname, hrt, -, -⟩ :=
    create_vector_ok E w "BundleResult" v1.size v1.vtype (-1) false hdim hv
  refine ⟨{ r with vector := cs }, w1, ?_, rfl, hrt, hname⟩
  unfold ArithmeticC.bundle_vectors
  rw [if_neg (fun h => h hsize), if_neg (fun h => h htype), hr]
  simp only [hcs]

theorem space_bundle_ok (E : Env) (w : World) (v1 v2 : Vector) (cs : List Int)
    (hdim : 10000 ≤ v1.size) (hsize : v1.size = v2.size)
    (hv : v1.vtype = "binary" ∨ v1.vtype = "bipolar")
    (hcs : elementwise add_int v1.vector v2.vector = .ok cs) :
    ∃ r w1, SpaceC.bundle_vectors E w v1 v2 = .ok (r, w1) ∧ r.vector = cs ∧
      r.vtype = v1.vtype ∧ r.name = v1.name := by
  obtain ⟨r, w1, hr, hname, hrt, -, -⟩ :=
    create_vector_ok E w v1.name v1.size v1.vtype (-1) false hdim hv
  refine ⟨{ r with vector := cs }, w1, ?_, rfl, hrt, hname⟩
  unfold SpaceC.bundle_vectors
  rw [if_neg (fun h => h hsize), hr]
  simp only [hcs]

/-- One element of the unbinding identity: no step overflows and
u * (u * m + x) = m + u * x. -/
theorem unbind_element (u m x : Int) (hu : u = 1 ∨ u = -1)
    (hm : -HALF_INT_MAX ≤ m ∧ m ≤ HALF_INT_MAX) (hx : -HALF_INT_MAX ≤ x ∧ x ≤ HALF_INT_MAX) :
    mul_int u m = .ok (u * m) ∧ add_int (u * m) x = .ok (u * m + x) ∧
    mul_int u (u * m + x) = .ok (m + u * x) ∧ mul_int u x = .ok (u * x) ∧
    add_int m (u * x) = .ok (m + u * x) := by
  unfold HALF_INT_MAX at hm hx
  have hin : ∀ y : Int, -2147483646 ≤ y → y ≤ 2147483646 → in_int y := by
    intro y h1 h2
    unfold in_int INT_MIN INT_MAX
    omega
  rcases hu with rfl | rfl
  · refine ⟨?_, ?_, ?_, ?_, ?_⟩
    · exact checked_of_in_int _ (hin _ (by omega) (by omega))
    · exact checked_of_in_int _ (hin _ (by omega) (by omega))
    · have h := checked_of_in_int (1 * (1 * m + x)) (hin _ (by omega) (by omega))
      have e : 1 * (1 * m + x) = m + 1 * x := by ring
      simp only [mul_int]
      rw [h, e]
    · exact checked_of_in_int _ (hin _ (by omega) (by omega))
    · exact checked_of_in_int _ (hin _ (by omega) (by omega))
  · refine ⟨?_, ?_, ?_, ?_, ?_⟩
    · exact checked_of_in_int _ (hin _ (by omega) (by omega))
    · exact checked_of_in_int _ (hin _ (by omega) (by omega))
    · have h := checked_of_in_int (-1 * (-1 * m + x)) (hin _ (by omega) (by omega))
      have e : -1 * (-1 * m + x) = m + -1 * x := by ring
      simp only [mul_int]
      rw [h, e]
    · exact checked_of_in_int _ (hin _ (by omega) (by omega))
    · exact checked_of_in_int _ (hin _ (by omega) (by omega))

/-- The unbinding identity on the element loops. -/
theorem unbind_elementwise (us ms xs : List Int) (h1 : ms.length = us.length)
    (h2 : xs.length = us.length) (hu : ∀ x ∈ us, x = 1 ∨ x = -1)
    (hm : half_elements ms) (hx : half_elements xs) :
    ∃ um s l ux r, elementwise mul_int us ms = .ok um ∧ elementwise add_int um xs = .ok s ∧
      elementwise mul_int us s = .ok l ∧ elementwise mul_int us xs = .ok ux ∧
      elementwise add_int ms ux = .ok r ∧ l = r ∧ um.length = us.length ∧
      s.length = us.length ∧ ux.length = us.length := by
  induction us generalizing ms xs with
  | nil =>
    cases ms with
    | nil =>
      cases xs with
      | nil => exact ⟨[], [], [], [], [], rfl, rfl, rfl, rfl, rfl, rfl, rfl, rfl, rfl⟩
      | cons x xs => simp at h2
    | cons m ms => simp at h1
  | cons u us ih =>
    cases ms with
    | nil => simp at h1
    | cons m ms =>
      cases xs with
      | nil => simp at h2
      | cons x xs =>
        obtain ⟨um, s, l, ux, r, e1, e2, e3, e4, e5, e6, e7, e8, e9⟩ :=
          ih ms xs (by simpa using h1) (by simpa using h2) (fun y hy => hu y (by simp [hy]))
            (fun y hy => hm y (by simp [hy])) (fun y hy => hx y (by simp [hy]))
        obtain ⟨a1, a2, a3, a4, a5⟩ :=
          unbind_element u m x (hu u (by simp)) (hm m (by simp)) (hx x (by simp))
        refine ⟨u * m :: um, (u * m + x) :: s, (m + u * x) :: l, u * x :: ux,
          (m + u * x) :: r, ?_, ?_, ?_, ?_, ?_, by rw [e6], by simp [e7], by simp [e8],
          by simp [e9]⟩
        · simp only [elementwise, a1, e1]
        · simp only [elementwise, a2, e2]
        · simp only [elementwise, a3, e3]
        · simp only [elementwise, a4, e4]
        · simp only [elementwise, a5, e5]

/-! ## Facts about the concrete inputs -/

theorem ones_size : ones.size = 10000 := by
  simp only [ones, Vector.size, List.length_replicate]
  rfl

theorem zeros_size : zeros.size = 10000 := by
  simp only [zeros, Vector.size, List.length_replicate]
  rfl

theorem binary_ones_size : binary_ones.size = 10000 := by
  simp only [binary_ones, Vector.size, List.length_replicate]
  rfl

theorem ones_elements : ∀ x ∈ ones.vector, x = 1 ∨ x = -1 := by
  intro x hx
  simp only [ones, List.mem_replicate] at hx
  exact Or.inl hx.2

theorem zeros_elements : ∀ x ∈ zeros.vector, x = 0 := by
  intro x hx
  simp only [zeros, List.mem_replicate] at hx
  exact hx.2

/-! ## vector_distance -/

theorem cosine_real_bounds (d na nb : Int) (hna : 0 < na) (hnb : 0 < nb)
    (hcs : d ^ 2 ≤ na * nb) :
    Real.sqrt na * Real.sqrt nb ≠ 0 ∧
    0 ≤ 1 - (d : ℝ) / (Real.sqrt na * Real.sqrt nb) ∧
    1 - (d : ℝ) / (Real.sqrt na * Real.sqrt nb) ≤ 2 := by
  have h1 : (0 : ℝ) < (na : ℝ) := by exact_mod_cast hna
  have h2 : (0 : ℝ) < (nb : ℝ) := by exact_mod_cast hnb
  have hpos : 0 < Real.sqrt na * Real.sqrt nb :=
    mul_pos (Real.sqrt_pos.mpr h1) (Real.sqrt_pos.mpr h2)
  have hsq : (d : ℝ) ^ 2 ≤ (na : ℝ) * (nb : ℝ) := by exact_mod_cast hcs
  have habs : |(d : ℝ)| ≤ Real.sqrt na * Real.sqrt nb := by
    rw [← Real.sqrt_mul (le_of_lt h1)]
    exact Real.abs_le_sqrt hsq
  have hle := abs_le.mp habs
  have hq1 : (d : ℝ) / (Real.sqrt na * Real.sqrt nb) ≤ 1 := (div_le_one hpos).mpr hle.2
  have hq2 : -1 ≤ (d : ℝ) / (Real.sqrt na * Real.sqrt nb) := by
    rw [le_div_iff₀ hpos]
    linarith [hle.1]
  exact ⟨ne_of_gt hpos, by linarith, by linarith⟩

theorem cosine_real_self (n : Int) (hn : 0 < n) :
    Real.sqrt n * Real.sqrt n ≠ 0 ∧ (0 : ℝ) = 1 - (n : ℝ) / (Real.sqrt n * Real.sqrt n) := by
  have h1 : (0 : ℝ) < (n : ℝ) := by exact_mod_cast hn
  rw [Real.mul_self_sqrt (le_of_lt h1)]
  exact ⟨ne_of_gt h1, by rw [div_self (ne_of_gt h1)]; ring⟩

theorem vector_distance_cosine (A B : Vector) (hs : A.size = B.size) (ht : A.vtype = B.vtype) :
    SpaceC.vector_distance A B "cosine" =
      match cosine_loop A.vector B.vector (0, 0, 0) with
      | .error f => .error f
      | .ok acc => .ok (.cosine acc.1 acc.2.1 acc.2.2) := by
  unfold SpaceC.vector_distance
  rw [if_neg (fun h => h hs), if_neg (fun h => h ht), if_pos rfl]

theorem vector_distance_ok_same (A B : Vector) (method : String) (dv : DistValue)
    (h : SpaceC.vector_distance A B method = .ok dv) : A.size = B.size ∧ A.vtype = B.vtype := by
  unfold SpaceC.vector_distance at h
  by_cases hs : A.size = B.size
  · by_cases ht : A.vtype = B.vtype
    · exact ⟨hs, ht⟩
    · rw [if_neg (fun h => h hs), if_pos ht] at h
      cases h
  · rw [if_pos hs] at h
    cases h

theorem length_eq_of_size_eq (A B : Vector) (hs : A.size = B.size) :
    A.vector.length = B.vector.length := by
  simp only [Vector.size] at hs
  exact_mod_cast hs

/-- The cosine distance of small-element vectors of one dimension and alphabet
is returned as the three sums. -/
theorem vector_distance_cosine_ok (A B : Vector) (hs : A.size = B.size)
    (ht : A.vtype = B.vtype) (ha : small_elements A.vector) (hb : small_elements B.vector) :
    SpaceC.vector_distance A B "cosine" =
      .ok (.cosine (dot A.vector B.vector) (sum_sq A.vector) (sum_sq B.vector)) := by
  rw [vector_distance_cosine A B hs ht,
    cosine_loop_ok A.vector B.vector (length_eq_of_size_eq A B hs) ha hb]
  simp

theorem vector_distance_cosine_swap (A B : Vector) (d na nb : Int)
    (h : SpaceC.vector_distance A B "cosine" = .ok (.cosine d na nb)) :
    SpaceC.vector_distance B A "cosine" = .ok (.cosine d nb na) := by
  obtain ⟨hs, ht⟩ := vector_distance_ok_same A B _ _ h
  rw [vector_distance_cosine A B hs ht] at h
  rw [vector_distance_cosine B A hs.symm ht.symm]
  cases hl : cosine_loop A.vector B.vector (0, 0, 0) with
  | error f => rw [hl] at h; cases h
  | ok acc =>
    obtain ⟨d1, na1, nb1⟩ := acc
    simp only [hl, Except.ok.injEq, DistValue.cosine.injEq] at h
    obtain ⟨rfl, rfl, rfl⟩ := h
    rw [cosine_loop_swap A.vector B.vector 0 0 0 _ _ _ hl]

theorem vector_distance_cosine_shape (A B : Vector) (dv : DistValue)
    (h : SpaceC.vector_distance A B "cosine" = .ok dv) : ∃ d na nb, dv = .cosine d na nb := by
  obtain ⟨hs, ht⟩ := vector_distance_ok_same A B _ _ h
  rw [vector_distance_cosine A B hs ht] at h
  cases hl : cosine_loop A.vector B.vector (0, 0, 0) with
  | error f => rw [hl] at h; cases h
  | ok acc =>
    simp only [hl, Except.ok.injEq] at h
    exact ⟨_, _, _, h.symm⟩

theorem cosine_IsReal_swap (d na nb : Int) (r : ℝ)
    (h : (DistValue.cosine d na nb).IsReal r) : (DistValue.cosine d nb na).IsReal r := by
  simp only [DistValue.IsReal] at h ⊢
  rw [mul_comm (Real.sqrt nb) (Real.sqrt na)]
  exact h

theorem small_zeros : small_elements zeros.vector := by
  intro x hx
  rw [zeros_elements x hx]
  decide

/-- The cosine distance of the all-zero binary vector to itself: the three
sums are zero. -/
theorem zeros_cosine :
    SpaceC.vector_distance zeros zeros "cosine" = .ok (.cosine 0 0 0) := by
  rw [vector_distance_cosine_ok zeros zeros rfl rfl small_zeros small_zeros,
    dot_eq_zero _ _ zeros_elements, sum_sq_eq_zero _ zeros_elements]

theorem cosine_zero_not_real (d nb : Int) (r : ℝ) : ¬ (DistValue.cosine d 0 nb).IsReal r := by
  simp [DistValue.IsReal]

theorem small_ones : small_elements ones.vector := by
  intro x hx
  simp only [ones, List.mem_replicate] at hx
  rw [hx.2]
  decide

theorem small_minus_ones : small_elements minus_ones.vector := by
  intro x hx
  simp only [minus_ones, List.mem_replicate] at hx
  rw [hx.2]
  decide

theorem ones_nonzero : ∃ x ∈ ones.vector, x ≠ 0 :=
  ⟨1, by simp only [ones, List.mem_replicate]; decide, by decide⟩

theorem minus_ones_nonzero : ∃ x ∈ minus_ones.vector, x ≠ 0 :=
  ⟨-1, by simp only [minus_ones, List.mem_replicate]; decide, by decide⟩

theorem minus_ones_size : minus_ones.size = 10000 := by
  simp only [minus_ones, Vector.size, List.length_replicate]
  rfl

theorem small_binary_ones : small_elements binary_ones.vector := by
  intro x hx
  simp only [binary_ones, List.mem_replicate] at hx
  rw [hx.2]
  decide

theorem create_empty_space : SpaceC.create_space 10000 "bipolar" = .ok empty_space := by
  unfold SpaceC.create_space
  rw [if_neg (by decide)]
  rfl

theorem insert_ones : SpaceC.insert_vector empty_space ones = (.ok (), space_with_ones) :=
  insert_vector_of_checks empty_space ones (by rw [ones_size]; rfl) rfl
    (fun v hv => by simp [empty_space] at hv)

theorem insert_each_ones : SpaceC.insert_each empty_space [ones] = (.ok (), space_with_ones) := by
  simp only [SpaceC.insert_each, insert_ones]

theorem insert_minus_ones :
    SpaceC.insert_vector space_with_ones minus_ones =
      (.ok (), { space_with_ones with vectors := space_with_ones.vectors ++ [minus_ones] }) :=
  insert_vector_of_checks space_with_ones minus_ones (by rw [minus_ones_size]; rfl) rfl
    (fun v hv => by
      simp only [space_with_ones, List.mem_singleton] at hv
      rw [hv]
      decide)

/-! ## Runs under env0 on constant vectors

The dimension N is kept a variable in these lemmas and set to 10000 in the
closed statements. -/

theorem constant_vector_size (N : Nat) (name : String) (c : Int) :
    (constant_vector N name c).size = N := by
  simp only [constant_vector, Vector.size, List.length_replicate]

theorem constant_vector_name (N : Nat) (name : String) (c : Int) :
    (constant_vector N name c).name = name := rfl

theorem constant_vector_vtype (N : Nat) (name : String) (c : Int) :
    (constant_vector N name c).vtype = "bipolar" := rfl

theorem constant_vector_vector (N : Nat) (name : String) (c : Int) :
    (constant_vector N name c).vector = List.replicate N c := rfl

theorem set_vector_constant (N : Nat) (name : String) (a b : Int) :
    { constant_vector N name a with vector := List.replicate N b } = constant_vector N name b :=
  rfl

theorem small_in_int (x : Int) (h1 : -1000 ≤ x) (h2 : x ≤ 1000) : in_int x := by
  unfold in_int INT_MIN INT_MAX
  omega

theorem fill_random_env0 (n : Nat) (w : World) :
    fill_random env0 "bipolar" n w =
      .ok (List.replicate n 1, { w with rng_drawn := w.rng_drawn + n }) := by
  induction n generalizing w with
  | zero => rfl
  | succ n ih =>
    have hstep : random_element env0 "bipolar" w =
        .ok (1, { w with rng_drawn := w.rng_drawn + 1 }) := by
      simp [random_element, rand, env0]
    simp only [fill_random, hstep, ih, List.replicate_succ]
    congr 3
    omega

theorem create_vector_env0 (N : Nat) (hN : 10000 ≤ N) (w : World) (name : String)
    (size : Int) (vtype : String) (hs : size = N) (ht : vtype = "bipolar") :
    create_vector env0 w name size vtype (-1) false =
      .ok (constant_vector N name 1, after_create N w) := by
  subst hs; subst ht
  unfold create_vector
  rw [if_neg (by omega)]
  simp only [Int.toNat_ofNat, fill_random_env0]
  simp [constant_vector, after_create, srand, time_null, env0]

theorem elementwise_replicate (op : Int → Int → Except Fault Int) (a b c : Int)
    (h : op a b = .ok c) (n : Nat) :
    elementwise op (List.replicate n a) (List.replicate n b) = .ok (List.replicate n c) := by
  induction n with
  | zero => rfl
  | succ n ih => simp only [List.replicate_succ, elementwise, h, ih]

theorem accumulate_replicate (a b : Int) (h : in_int (a + b)) (n : Nat) :
    accumulate n (List.replicate n a) (List.replicate n b) = .ok (List.replicate n (a + b)) := by
  induction n with
  | zero => rfl
  | succ n ih =>
    simp only [List.replicate_succ, accumulate, add_int, checked_of_in_int _ h, ih]

theorem halve_replicate (a : Int) (n : Nat) :
    GraphC.halve n (List.replicate n a) = .ok (List.replicate n (Int.tdiv a 2)) := by
  induction n with
  | zero => rfl
  | succ n ih => simp only [List.replicate_succ, GraphC.halve, ih]

theorem accumulate_constant (N : Nat) (size : Int) (hs : size = N) (n1 n2 : String) (a b : Int)
    (h : in_int (a + b)) :
    accumulate size.toNat (constant_vector N n1 a).vector (constant_vector N n2 b).vector =
      .ok (List.replicate N (a + b)) := by
  rw [hs, Int.toNat_ofNat, constant_vector_vector, constant_vector_vector]
  exact accumulate_replicate a b h N

theorem bind_constant (N : Nat) (hN : 10000 ≤ N) (w : World) (n1 n2 : String) (a b : Int)
    (h : in_int (a * b)) :
    SpaceC.bind_vectors env0 w (constant_vector N n1 a) (constant_vector N n2 b) =
      .ok (constant_vector N n1 (a * b), after_create N w) := by
  unfold SpaceC.bind_vectors
  rw [if_neg (by rw [constant_vector_size, constant_vector_size]; exact fun h => h rfl),
    create_vector_env0 N hN w (constant_vector N n1 a).name (constant_vector N n1 a).size
      (constant_vector N n1 a).vtype (constant_vector_size N n1 a) rfl]
  have he : elementwise mul_int (constant_vector N n1 a).vector (constant_vector N n2 b).vector =
      .ok (List.replicate N (a * b)) :=
    elementwise_replicate mul_int a b (a * b) (checked_of_in_int _ h) N
  simp only [he]
  rfl

theorem dot_replicate (a b : Int) (n : Nat) :
    dot (List.replicate n a) (List.replicate n b) = n * (a * b) := by
  induction n with
  | zero => simp [dot]
  | succ n ih =>
    simp only [List.replicate_succ, dot, ih]
    push_cast
    ring

theorem sum_sq_replicate (a : Int) (n : Nat) : sum_sq (List.replicate n a) = n * (a * a) := by
  induction n with
  | zero => simp [sum_sq]
  | succ n ih =>
    simp only [List.replicate_succ, sum_sq, ih]
    push_cast
    ring

theorem small_replicate (a : Int) (n : Nat) (h : -SQRT_INT_MAX ≤ a ∧ a ≤ SQRT_INT_MAX) :
    small_elements (List.replicate n a) := by
  intro x hx
  rw [(List.mem_replicate.mp hx).2]
  exact h

theorem cosine_constant (N : Nat) (n1 n2 : String) (a b : Int)
    (ha : -SQRT_INT_MAX ≤ a ∧ a ≤ SQRT_INT_MAX) (hb : -SQRT_INT_MAX ≤ b ∧ b ≤ SQRT_INT_MAX) :
    SpaceC.vector_distance (constant_vector N n1 a) (constant_vector N n2 b) "cosine" =
      .ok (.cosine (N * (a * b)) (N * (a * a)) (N * (b * b))) := by
  rw [vector_distance_cosine_ok (constant_vector N n1 a) (constant_vector N n2 b)
    (by rw [constant_vector_size, constant_vector_size]) rfl
    (small_replicate a N ha) (small_replicate b N hb)]
  simp only [constant_vector, dot_replicate, sum_sq_replicate]

theorem is_node_A : GraphC.is_node_name "A" = true := by decide

theorem is_node_B : GraphC.is_node_name "B" = true := by decide

theorem is_node_graph : GraphC.is_node_name "__graph__" = false := by decide

theorem add_child_weighted (g : Graph) (a b : String) :
    (GraphC.add_child g a b).weighted = g.weighted := rfl

theorem add_child_directed (g : Graph) (a b : String) :
    (GraphC.add_child g a b).directed = g.directed := rfl

theorem find_or_create_new (N : Nat) (hN : 10000 ≤ N) (w : World) (g : Graph) (d : Bool)
    (vs : List Vector) (name : String)
    (hg : graph_shape N g d vs) (habs : ∀ v ∈ vs, v.name ≠ name) :
    ∃ g1, GraphC.find_or_create env0 w g name = .ok (g1, after_create N w) ∧
      graph_shape N g1 d (vs ++ [constant_vector N name 1]) ∧ g1.nodes = g.nodes := by
  obtain ⟨hs, ht, hd, hw, hsp⟩ := hg
  have habs1 : ∀ v ∈ g.space.vectors, v.name ≠ name := by rw [hsp]; exact habs
  refine ⟨{ g with space := { g.space with
                              vectors := g.space.vectors ++ [constant_vector N name 1] },
                   nodes_counter := g.nodes_counter + 1 }, ?_, ⟨hs, ht, hd, hw, ?_⟩, rfl⟩
  · unfold GraphC.find_or_create
    have hnone : GraphC.get_vector_from_space g.space name = none :=
      (get_loop_none_iff _ _).mpr habs1
    rw [hnone]
    dsimp only
    rw [create_vector_env0 N hN w name g.size g.vtype hs ht]
    dsimp only
    rw [insert_vector_of_checks g.space (constant_vector N name 1)
      (by rw [hsp, constant_vector_size]) (by rw [hsp]; rfl) habs1]
  · simp only [hsp]

theorem add_edges_ab (N : Nat) (hN : 10000 ≤ N) (w : World) (g : Graph) (d : Bool)
    (hg : graph_shape N g d []) :
    ∃ g1, GraphC.add_edges env0 [edge_ab] (g, w) =
        .ok (g1, after_create N (after_create N w)) ∧
      graph_shape N g1 d [constant_vector N "A" 1, constant_vector N "B" 1] ∧
      (g1.nodes "A").children = (g.nodes "A").children ++ ["B"] ∧
      (g1.nodes "B").children = (g.nodes "B").children ++ (if d then [] else ["A"]) ∧
      (g1.nodes "A").memory = (g.nodes "A").memory ∧
      (g1.nodes "B").memory = (g.nodes "B").memory := by
  obtain ⟨ga, ea, sa, na⟩ := find_or_create_new N hN w g d [] "A" hg (by simp)
  obtain ⟨gb, eb, sb, nb⟩ := find_or_create_new N hN (after_create N w) ga d _ "B" sa
    (by simp [constant_vector_name])
  obtain ⟨hs, ht, hd, hw, hsp⟩ := sb
  have hgw : g.weighted = false := hg.2.2.2.1
  have hstart : GraphC.add_edges env0 [edge_ab] (g, w) =
      GraphC.add_edge env0 w g "A" "B" (-1) := by
    simp only [GraphC.add_edges, edge_ab]
    rw [if_neg (by simp [hgw]), if_neg (by simp [hgw])]
    cases GraphC.add_edge env0 w g "A" "B" (-1) <;> rfl
  rw [hstart]
  unfold GraphC.add_edge
  rw [ea]
  dsimp only
  rw [eb]
  dsimp only
  simp only [add_child_weighted, add_child_directed, hw, hd, Bool.false_eq_true, ↓reduceIte]
  cases d
  · refine ⟨_, rfl, ?_⟩
    simp [graph_shape, GraphC.add_child, GraphC.Graph.set_node, hs, ht, hd, hw, hsp, nb, na]
  · refine ⟨_, rfl, ?_⟩
    simp [graph_shape, GraphC.add_child, GraphC.Graph.set_node, hs, ht, hd, hw, hsp, nb, na]

/-- The loop of build_node_memory in an unweighted graph whose neighbours are
all-ones vectors: each neighbour adds 1 to every element. -/
theorem build_node_memory_loop_ones (N : Nat) (w : World) (g : Graph) (node_name : String)
    (hs : g.size = N) (hw : g.weighted = false) (cs : List String)
    (hcs : ∀ n ∈ cs, GraphC.get_vector_from_space g.space n = some (constant_vector N n 1))
    (c : Int) (h1 : 0 ≤ c) (h2 : c + cs.length ≤ 1000) :
    GraphC.build_node_memory_loop fmt0 env0 g node_name cs
        (constant_vector N "NodeMemory" c, w) =
      .ok (constant_vector N "NodeMemory" (c + cs.length), w) := by
  induction cs generalizing c with
  | nil => simp [GraphC.build_node_memory_loop]
  | cons n cs ih =>
    have hn := hcs n (by simp)
    simp only [List.length_cons] at h2
    push_cast at h2
    have hc : GraphC.neighbor_contribution fmt0 env0 w g node_name n =
        .ok (constant_vector N n 1, w) := by
      unfold GraphC.neighbor_contribution
      rw [hn]
      dsimp only
      rw [hw]
      rfl
    unfold GraphC.build_node_memory_loop
    rw [hc]
    dsimp only
    rw [accumulate_constant N g.size hs "NodeMemory" n c 1
      (small_in_int _ (by omega) (by omega))]
    dsimp only
    rw [set_vector_constant, ih (fun m hm => hcs m (by simp [hm])) (c + 1) (by omega) (by omega)]
    simp only [List.length_cons]
    push_cast
    rw [add_assoc, add_comm 1 (cs.length : Int)]

theorem build_node_memory_ones (N : Nat) (hN : 10000 ≤ N) (w : World) (g : Graph)
    (node_name : String)
    (hs : g.size = N) (ht : g.vtype = "bipolar") (hw : g.weighted = false)
    (hnode : GraphC.get_vector_from_space g.space node_name =
      some (constant_vector N node_name 1))
    (hcs : ∀ n ∈ (g.nodes node_name).children,
      GraphC.get_vector_from_space g.space n = some (constant_vector N n 1))
    (hlen : ((g.nodes node_name).children.length : Int) ≤ 999) :
    GraphC.build_node_memory fmt0 env0 w g node_name =
      .ok (GraphC.Graph.set_node g node_name
        { g.nodes node_name with
          memory := some (constant_vector N "NodeMemory"
            (1 + (g.nodes node_name).children.length)) }, after_create N w) := by
  unfold GraphC.build_node_memory
  rw [hnode]
  dsimp only
  rw [create_vector_env0 N hN w "NodeMemory" g.size g.vtype hs ht]
  dsimp only
  rw [build_node_memory_loop_ones N (after_create N w) g node_name hs hw _ hcs 1 (by omega)
    (by omega)]

theorem get_ab (N : Nat) (S : Space) (rest : List Vector)
    (h : S.vectors = constant_vector N "A" 1 :: constant_vector N "B" 1 :: rest) :
    GraphC.get_vector_from_space S "A" = some (constant_vector N "A" 1) ∧
    GraphC.get_vector_from_space S "B" = some (constant_vector N "B" 1) := by
  simp [GraphC.get_vector_from_space, GraphC.get_vector_from_space_loop, h,
    constant_vector_name]

theorem build_node_memories_ab (N : Nat) (hN : 10000 ≤ N) (w : World) (g : Graph) (d : Bool)
    (hg : graph_shape N g d [constant_vector N "A" 1, constant_vector N "B" 1])
    (hA : (g.nodes "A").children = ["B"])
    (hB : (g.nodes "B").children = if d then [] else ["A"]) :
    ∃ g1, GraphC.build_node_memories fmt0 env0
        [constant_vector N "A" 1, constant_vector N "B" 1] (g, w) =
          .ok (g1, after_create N (after_create N w)) ∧
      graph_shape N g1 d [constant_vector N "A" 1, constant_vector N "B" 1] ∧
      (g1.nodes "A").children = ["B"] ∧
      (g1.nodes "B").children = (if d then [] else ["A"]) ∧
      (g1.nodes "A").memory = some (constant_vector N "NodeMemory" 2) ∧
      (g1.nodes "B").memory = some (constant_vector N "NodeMemory" (if d then 1 else 2)) := by
  obtain ⟨hs, ht, hd, hw, hsp⟩ := hg
  obtain ⟨gA, gB⟩ := get_ab N g.space [] (by rw [hsp])
  have hgetc : ∀ n, n = "A" ∨ n = "B" →
      GraphC.get_vector_from_space g.space n = some (constant_vector N n 1) := by
    rintro n (rfl | rfl)
    · exact gA
    · exact gB
  have e1 := build_node_memory_ones N hN w g "A" hs ht hw gA
    (by rw [hA]; intro n hn; exact hgetc n (Or.inr (by simpa using hn)))
    (by rw [hA]; simp)
  have hB2 : ((GraphC.Graph.set_node g "A"
      { g.nodes "A" with memory := some (constant_vector N "NodeMemory"
          (1 + (g.nodes "A").children.length)) }).nodes "B") = g.nodes "B" := by
    simp [GraphC.Graph.set_node]
  have e2 := build_node_memory_ones N hN (after_create N w) (GraphC.Graph.set_node g "A"
      { g.nodes "A" with memory := some (constant_vector N "NodeMemory"
          (1 + (g.nodes "A").children.length)) }) "B" hs ht hw gB
    (by rw [hB2, hB]; intro n hn; cases d <;> simp at hn; exact hgetc n (Or.inl hn))
    (by rw [hB2, hB]; cases d <;> simp)
  refine ⟨?_, ?_, ?_⟩
  pick_goal 2
  · simp only [GraphC.build_node_memories, constant_vector_name, is_node_A, is_node_B,
      ↓reduceIte]
    rw [e1]
    dsimp only
    rw [e2]
    dsimp only
    exact rfl
  · cases d <;>
      simp [graph_shape, GraphC.Graph.set_node, hs, ht, hd, hw, hsp, hA, hB]

theorem build_graph_vector_step (N : Nat) (hN : 10000 ≤ N) (w : World) (g : Graph)
    (name : String) (rest : List Vector)
    (c m : Int) (hs : g.size = N) (hname : GraphC.is_node_name name = true)
    (hm : (g.nodes name).memory = some (constant_vector N "NodeMemory" m))
    (h1 : 0 ≤ m ∧ m ≤ 100) (hc : 0 ≤ c ∧ c ≤ 100) :
    GraphC.build_graph_vector env0 g (constant_vector N name 1 :: rest)
        (constant_vector N "__graph__" c, w) =
      GraphC.build_graph_vector env0 g rest
        (constant_vector N "__graph__" (c + 1 * m), after_create N w) := by
  rw [GraphC.build_graph_vector]
  rw [constant_vector_name, hname, if_pos rfl, hm]
  dsimp only
  rw [bind_constant N hN w name "NodeMemory" 1 m (small_in_int _ (by omega) (by omega))]
  dsimp only
  rw [accumulate_constant N g.size hs "__graph__" name c (1 * m)
    (small_in_int _ (by omega) (by omega))]
  dsimp only
  rw [set_vector_constant]

theorem build_graph_vector_ab (N : Nat) (hN : 10000 ≤ N) (w : World) (g : Graph) (mA mB : Int)
    (hs : g.size = N)
    (hA : (g.nodes "A").memory = some (constant_vector N "NodeMemory" mA))
    (hB : (g.nodes "B").memory = some (constant_vector N "NodeMemory" mB))
    (h1 : 0 ≤ mA ∧ mA ≤ 40) (h2 : 0 ≤ mB ∧ mB ≤ 40) :
    GraphC.build_graph_vector env0 g [constant_vector N "A" 1, constant_vector N "B" 1]
        (constant_vector N "__graph__" 1, w) =
      .ok (constant_vector N "__graph__" (1 + 1 * mA + 1 * mB),
        after_create N (after_create N w)) := by
  rw [build_graph_vector_step N hN w g "A" _ 1 mA hs is_node_A hA (by omega) (by omega),
    build_graph_vector_step N hN (after_create N w) g "B" _ (1 + 1 * mA) mB hs is_node_B hB
      (by omega) (by omega)]
  rfl

theorem halve_constant (N : Nat) (size : Int) (hs : size = N) (name : String) (a : Int) :
    GraphC.halve size.toNat (constant_vector N name a).vector =
      .ok (List.replicate N (Int.tdiv a 2)) := by
  rw [hs, Int.toNat_ofNat, constant_vector_vector]
  exact halve_replicate a N

/-- fit_graph under env0 on a fresh unweighted graph and the single edge from A
to B: every created vector is all ones, so every element of the memory of A is
1 + 1, of the memory of B 1 (directed) or 1 + 1 (undirected), and of
`__graph__` 1 + 1 * 2 + 1 * 1 = 4 (directed) or (1 + 1 * 2 + 1 * 2) / 2 = 2
(undirected). -/
theorem fit_graph_ab (N : Nat) (hN : 10000 ≤ N) (w : World) (g : Graph) (d : Bool)
    (hg : graph_shape N g d []) (hA0 : (g.nodes "A").children = [])
    (hB0 : (g.nodes "B").children = []) :
    ∃ g1 w1, GraphC.fit_graph fmt0 env0 w g [edge_ab] = .ok (g1, w1) ∧
      graph_shape N g1 d [constant_vector N "A" 1, constant_vector N "B" 1,
        constant_vector N "__graph__" (if d then 4 else 2)] ∧
      (g1.nodes "A").children = ["B"] ∧
      (g1.nodes "B").children = (if d then [] else ["A"]) ∧
      (g1.nodes "A").memory = some (constant_vector N "NodeMemory" 2) ∧
      (g1.nodes "B").memory = some (constant_vector N "NodeMemory" (if d then 1 else 2)) := by
  obtain ⟨g1, e1, s1, cA1, cB1, -, -⟩ := add_edges_ab N hN w g d hg
  rw [hA0, List.nil_append] at cA1
  rw [hB0, List.nil_append] at cB1
  obtain ⟨g3, e3, s3, cA3, cB3, mA3, mB3⟩ :=
    build_node_memories_ab N hN (after_create N (after_create N w)) g1 d s1 cA1 cB1
  have s1' := s1
  obtain ⟨hs1, ht1, hd1, hw1, hsp1⟩ := s1
  have s3' := s3
  obtain ⟨hs3, ht3, hd3, hw3, hsp3⟩ := s3
  have hvs1 : g1.space.vectors = [constant_vector N "A" 1, constant_vector N "B" 1] := by
    rw [hsp1]
  have hvs3 : g3.space.vectors = [constant_vector N "A" 1, constant_vector N "B" 1] := by
    rw [hsp3]
  have hnames : ∀ v ∈ g3.space.vectors, v.name ≠ "__graph__" := by
    rw [hvs3]
    intro v hv
    simp only [List.mem_cons, List.mem_singleton, List.not_mem_nil, or_false] at hv
    rcases hv with rfl | rfl <;> simp [constant_vector_name]
  unfold GraphC.fit_graph
  rw [if_neg (by simp), e1]
  dsimp only
  rw [hw1]
  simp only [Bool.false_eq_true, ↓reduceIte]
  rw [hvs1, e3]
  dsimp only
  rw [create_vector_env0 N hN _ "__graph__" g3.size g3.vtype hs3 ht3]
  dsimp only
  rw [hvs3]
  cases d
  · have hgv := build_graph_vector_ab N hN
      (after_create N (after_create N (after_create N (after_create N (after_create N w)))))
      g3 2 2 hs3 mA3 mB3 (by omega) (by omega)
    rw [hgv]
    dsimp only
    rw [hd3]
    simp only [Bool.false_eq_true, not_false_eq_true, ↓reduceIte]
    rw [halve_constant N g3.size hs3]
    dsimp only
    rw [set_vector_constant,
      insert_vector_of_checks g3.space (constant_vector N "__graph__" (Int.tdiv (1 + 1 * 2 + 1 * 2) 2))
        (by rw [hsp3, constant_vector_size]) (by rw [hsp3]; rfl) hnames]
    dsimp only
    refine ⟨_, _, rfl, ?_⟩
    simp [graph_shape, hs3, ht3, hd3, hw3, hsp3, cA3, cB3, mA3, mB3]
    rfl
  · have hgv := build_graph_vector_ab N hN
      (after_create N (after_create N (after_create N (after_create N (after_create N w)))))
      g3 2 1 hs3 mA3 mB3 (by omega) (by omega)
    rw [hgv]
    dsimp only
    rw [hd3]
    simp only [Bool.not_eq_true, not_true_eq_false, ↓reduceIte]
    rw [constant_vector_vector, set_vector_constant,
      insert_vector_of_checks g3.space (constant_vector N "__graph__" (1 + 1 * 2 + 1 * 1))
        (by rw [hsp3, constant_vector_size]) (by rw [hsp3]; rfl) hnames]
    dsimp only
    refine ⟨_, _, rfl, ?_⟩
    simp [graph_shape, hs3, ht3, hd3, hw3, hsp3, cA3, cB3, mA3, mB3]
theorem create_graph_env0 (N : Nat) (hN : 10000 ≤ N) (w : World) (size : Int) (hs : size = N)
    (d : Bool) :
    ∃ g0 w0, GraphC.create_graph env0 w size d false (-1) = .ok (g0, w0) ∧
      graph_shape N g0 d [] ∧ (∀ n, g0.nodes n = { children := [], weights := [], memory := none }) ∧
      GraphC.get_vector_from_space g0.space "__graph__" = none := by
  subst hs
  refine ⟨graph0 N d, srand (time_null env0 w).2 (time_null env0 w).1, ?_, ?_⟩
  · unfold GraphC.create_graph SpaceC.create_space
    rw [if_neg (by omega), if_neg (by omega)]
    rfl
  · exact ⟨⟨rfl, rfl, rfl, rfl, rfl⟩, fun _ => rfl, rfl⟩

/-- create_graph and fit_graph under env0, for the edge from A to B. -/
theorem create_and_fit_ab (N : Nat) (hN : 10000 ≤ N) (w : World) (size : Int) (hs : size = N)
    (d : Bool) :
    ∃ g0 w0 g1 w1, GraphC.create_graph env0 w size d false (-1) = .ok (g0, w0) ∧
      GraphC.fit_graph fmt0 env0 w0 g0 [edge_ab] = .ok (g1, w1) ∧
      graph_shape N g1 d [constant_vector N "A" 1, constant_vector N "B" 1,
        constant_vector N "__graph__" (if d then 4 else 2)] ∧
      (g1.nodes "A").children = ["B"] ∧
      (g1.nodes "B").children = (if d then [] else ["A"]) ∧
      (g1.nodes "A").memory = some (constant_vector N "NodeMemory" 2) ∧
      (g1.nodes "B").memory = some (constant_vector N "NodeMemory" (if d then 1 else 2)) := by
  obtain ⟨g0, w0, e0, s0, n0, -⟩ := create_graph_env0 N hN w size hs d
  obtain ⟨g1, w1, e1, rest⟩ := fit_graph_ab N hN w0 g0 d s0 (by rw [n0]) (by rw [n0])
  exact ⟨g0, w0, g1, w1, e0, e1, rest⟩

theorem get_graph_vector (N : Nat) (S : Space) (c : Int)
    (h : S.vectors = [constant_vector N "A" 1, constant_vector N "B" 1,
      constant_vector N "__graph__" c]) :
    GraphC.get_vector_from_space S "__graph__" = some (constant_vector N "__graph__" c) := by
  simp [GraphC.get_vector_from_space, GraphC.get_vector_from_space_loop, h,
    constant_vector_name]

/-- edge_exists on the directed fitted graph: the rotation of the probe by -1
writes outside the array. -/
theorem edge_exists_directed_ab (N : Nat) (hN : 10000 ≤ N) (w : World) (g : Graph) (c : Int)
    (hc : 0 ≤ c ∧ c ≤ 100) (weight threshold : Rat)
    (hg : graph_shape N g true [constant_vector N "A" 1, constant_vector N "B" 1,
      constant_vector N "__graph__" c]) :
    GraphC.edge_exists fmt0 env0 w g "A" "B" weight threshold =
      .error (.undefined "write outside the array") := by
  obtain ⟨hs, ht, hd, hw, hsp⟩ := hg
  have hvs : g.space.vectors = [constant_vector N "A" 1, constant_vector N "B" 1,
      constant_vector N "__graph__" c] := by rw [hsp]
  obtain ⟨gA, gB⟩ := get_ab N g.space _ hvs
  have hprobe : GraphC.edge_probe env0 w g (constant_vector N "A" 1)
      (constant_vector N "__graph__" c) = .error (.undefined "write outside the array") := by
    unfold GraphC.edge_probe
    rw [bind_constant N hN w "A" "__graph__" 1 c (small_in_int _ (by omega) (by omega))]
    dsimp only
    rw [hd, if_pos rfl,
      space_permute_negative (constant_vector N "A" (1 * c)) (-1) (by decide)
        (by rw [constant_vector_size]; omega) (by decide)]
  unfold GraphC.edge_exists
  rw [get_graph_vector N g.space c hvs]
  dsimp only
  rw [gA, gB]
  dsimp only
  rw [hprobe]

/-- edge_exists on the undirected fitted graph: every element of the probe is
1 * 2 and every element of the target is 1. -/
theorem edge_exists_undirected_ab (N : Nat) (hN : 10000 ≤ N) (w : World) (g : Graph)
    (weight threshold : Rat)
    (hg : graph_shape N g false [constant_vector N "A" 1, constant_vector N "B" 1,
      constant_vector N "__graph__" 2]) :
    GraphC.edge_exists fmt0 env0 w g "A" "B" weight threshold =
      .ok (((DistValue.cosine (N * (1 * 2 * 1)) (N * (1 * 2 * (1 * 2))) (N * (1 * 1))).lt
          threshold,
        DistValue.cosine (N * (1 * 2 * 1)) (N * (1 * 2 * (1 * 2))) (N * (1 * 1))),
        after_create N w) := by
  obtain ⟨hs, ht, hd, hw, hsp⟩ := hg
  have hvs : g.space.vectors = [constant_vector N "A" 1, constant_vector N "B" 1,
      constant_vector N "__graph__" 2] := by rw [hsp]
  obtain ⟨gA, gB⟩ := get_ab N g.space _ hvs
  have hprobe : GraphC.edge_probe env0 w g (constant_vector N "A" 1)
      (constant_vector N "__graph__" 2) =
        .ok (constant_vector N "A" (1 * 2), after_create N w) := by
    unfold GraphC.edge_probe
    rw [bind_constant N hN w "A" "__graph__" 1 2 (by decide)]
    dsimp only
    rw [hd]
    rfl
  have htarget : GraphC.edge_target fmt0 env0 (after_create N w) g (constant_vector N "B" 1)
      weight = .ok (constant_vector N "B" 1, after_create N w) := by
    unfold GraphC.edge_target
    rw [hw]
    rfl
  unfold GraphC.edge_exists
  rw [get_graph_vector N g.space 2 hvs]
  dsimp only
  rw [gA, gB]
  dsimp only
  rw [hprobe]
  dsimp only
  rw [htarget]
  dsimp only
  rw [cosine_constant N "A" "B" (1 * 2) 1 (by decide) (by decide)]
/-! ## How the graph engine changes the space -/

theorem insert_each_append (a b : List Vector) :
    ∀ (S S1 S2 : Space), SpaceC.insert_each S a = (.ok (), S1) →
      SpaceC.insert_each S1 b = (.ok (), S2) → SpaceC.insert_each S (a ++ b) = (.ok (), S2) := by
  induction a with
  | nil =>
    intro S S1 S2 h1 h2
    simp only [SpaceC.insert_each] at h1
    obtain rfl := (Prod.mk.inj h1).2
    simpa using h2
  | cons v a ih =>
    intro S S1 S2 h1 h2
    simp only [SpaceC.insert_each, List.cons_append] at h1 ⊢
    cases hstep : SpaceC.insert_vector S v with
    | mk out S3 =>
      cases out with
      | error f => rw [hstep] at h1; cases h1
      | ok u =>
        rw [hstep] at h1
        exact ih S3 S1 S2 h1 h2

theorem insert_each_single (S S1 : Space) (v : Vector)
    (h : SpaceC.insert_vector S v = (.ok (), S1)) :
    SpaceC.insert_each S [v] = (.ok (), S1) := by
  simp only [SpaceC.insert_each, h]

theorem grown_refl (g : Graph) : grown g g :=
  ⟨rfl, rfl, rfl, rfl, [], rfl⟩

theorem grown_trans (g g1 g2 : Graph) (h1 : grown g g1) (h2 : grown g1 g2) : grown g g2 := by
  obtain ⟨a1, a2, a3, a4, vs, a5⟩ := h1
  obtain ⟨b1, b2, b3, b4, us, b5⟩ := h2
  exact ⟨b1.trans a1, b2.trans a2, b3.trans a3, b4.trans a4, vs ++ us,
    insert_each_append vs us _ _ _ a5 b5⟩

theorem grown_of_same_space (g g1 : Graph) (h1 : g1.size = g.size) (h2 : g1.vtype = g.vtype)
    (h3 : g1.directed = g.directed) (h4 : g1.weighted = g.weighted) (h5 : g1.space = g.space) :
    grown g g1 :=
  ⟨h1, h2, h3, h4, [], by rw [h5]; rfl⟩

theorem find_or_create_grown (E : Env) (w w1 : World) (g g1 : Graph) (name : String)
    (h : GraphC.find_or_create E w g name = .ok (g1, w1)) : grown g g1 := by
  unfold GraphC.find_or_create at h
  cases hget : GraphC.get_vector_from_space g.space name with
  | some v =>
    rw [hget] at h
    simp only [Except.ok.injEq, Prod.mk.injEq] at h
    rw [← h.1]
    exact grown_refl g
  | none =>
    rw [hget] at h
    dsimp only at h
    cases hc : create_vector E w name g.size g.vtype (-1) false with
    | error f => rw [hc] at h; cases h
    | ok r =>
      obtain ⟨node, w2⟩ := r
      rw [hc] at h
      dsimp only at h
      cases hi : SpaceC.insert_vector g.space node with
      | mk out S1 =>
        cases out with
        | error f => rw [hi] at h; cases h
        | ok u =>
          rw [hi] at h
          simp only [Except.ok.injEq, Prod.mk.injEq] at h
          rw [← h.1]
          exact ⟨rfl, rfl, rfl, rfl, [node], insert_each_single _ _ _ hi⟩

theorem add_edge_grown (E : Env) (w w1 : World) (g g1 : Graph) (a b : String) (weight : Rat)
    (h : GraphC.add_edge E w g a b weight = .ok (g1, w1)) : grown g g1 := by
  unfold GraphC.add_edge at h
  cases h1 : GraphC.find_or_create E w g a with
  | error f => rw [h1] at h; cases h
  | ok r1 =>
    obtain ⟨ga, wa⟩ := r1
    rw [h1] at h
    dsimp only at h
    cases h2 : GraphC.find_or_create E wa ga b with
    | error f => rw [h2] at h; cases h
    | ok r2 =>
      obtain ⟨gb, wb⟩ := r2
      rw [h2] at h
      dsimp only at h
      have hab := grown_trans _ _ _ (find_or_create_grown E w wa g ga a h1)
        (find_or_create_grown E wa wb ga gb b h2)
      refine grown_trans _ _ _ hab ?_
      split_ifs at h <;>
        (simp only [Except.ok.injEq, Prod.mk.injEq] at h
         obtain ⟨rfl, -⟩ := h
         exact grown_of_same_space _ _ rfl rfl rfl rfl rfl)

theorem add_edges_grown (E : Env) (edges : List Edge) :
    ∀ (g g1 : Graph) (w w1 : World),
      GraphC.add_edges E edges (g, w) = .ok (g1, w1) → grown g g1 := by
  induction edges with
  | nil =>
    intro g g1 w w1 h
    simp only [GraphC.add_edges, Except.ok.injEq, Prod.mk.injEq] at h
    rw [← h.1]
    exact grown_refl g
  | cons e rest ih =>
    intro g g1 w w1 h
    unfold GraphC.add_edges at h
    split_ifs at h
    cases hs : GraphC.add_edge E w g e.node1_name e.node2_name e.weight with
    | error f => rw [hs] at h; cases h
    | ok st =>
      obtain ⟨g2, w2⟩ := st
      rw [hs] at h
      exact grown_trans _ _ _ (add_edge_grown _ _ _ _ _ _ _ _ hs) (ih _ _ _ _ h)

theorem build_weight_memory_loop_grown (fmt : Rat → String) (E : Env) (end_ step : Rat)
    (next_level : Int) (fuel : Nat) :
    ∀ (weight : Rat) (g g1 : Graph) (base : List Int) (w w1 : World),
      GraphC.build_weight_memory_loop fmt E end_ step next_level fuel weight ((g, base), w) =
        .ok (g1, w1) → grown g g1 := by
  induction fuel with
  | zero =>
    intro weight g g1 base w w1 h
    simp only [GraphC.build_weight_memory_loop, Except.ok.injEq, Prod.mk.injEq] at h
    rw [← h.1]
    exact grown_refl g
  | succ n ih =>
    intro weight g g1 base w w1 h
    unfold GraphC.build_weight_memory_loop at h
    split_ifs at h
    · cases hc : create_vector E w (fmt weight) g.size g.vtype (-1) false with
      | error f => rw [hc] at h; cases h
      | ok r =>
        obtain ⟨wv, w2⟩ := r
        rw [hc] at h
        dsimp only at h
        cases hf : GraphC.flip_random E g.size next_level.toNat (base, w2) with
        | error f => rw [hf] at h; cases h
        | ok r2 =>
          obtain ⟨base1, w3⟩ := r2
          rw [hf] at h
          dsimp only at h
          cases hi : SpaceC.insert_vector g.space { wv with vector := base1 } with
          | mk out S1 =>
            cases out with
            | error f => rw [hi] at h; cases h
            | ok u =>
              rw [hi] at h
              dsimp only at h
              refine grown_trans _ _ _ ?_ (ih _ _ _ _ _ _ h)
              exact ⟨rfl, rfl, rfl, rfl, [_], insert_each_single _ _ _ hi⟩
    · simp only [Except.ok.injEq, Prod.mk.injEq] at h
      rw [← h.1]
      exact grown_refl g

theorem build_weight_memory_grown (fmt : Rat → String) (E : Env) (w w1 : World) (g g1 : Graph)
    (start end_ step : Rat)
    (h : GraphC.build_weight_memory fmt E w g start end_ step = .ok (g1, w1)) : grown g g1 := by
  unfold GraphC.build_weight_memory at h
  by_cases hs : step = 0
  · rw [if_pos hs] at h; cases h
  · rw [if_neg hs] at h
    cases hc : checked (Int.tdiv ((end_ - start) / step).num ((end_ - start) / step).den) with
    | error f => rw [hc] at h; cases h
    | ok levels =>
      rw [hc] at h
      dsimp only at h
      cases hm : mul_int 2 levels with
      | error f => rw [hm] at h; cases h
      | ok twice =>
        rw [hm] at h
        dsimp only at h
        by_cases ht : twice = 0
        · rw [if_pos ht] at h; cases h
        · rw [if_neg ht] at h
          by_cases hl : step < 0 ∧ start < end_
          · rw [if_pos hl] at h; cases h
          · rw [if_neg hl] at h
            exact build_weight_memory_loop_grown _ _ _ _ _ _ _ _ _ _ _ _ h

theorem build_node_memory_grown (fmt : Rat → String) (E : Env) (w w1 : World) (g g1 : Graph)
    (name : String) (h : GraphC.build_node_memory fmt E w g name = .ok (g1, w1)) :
    grown g g1 ∧ g1.space = g.space := by
  unfold GraphC.build_node_memory at h
  cases hg : GraphC.get_vector_from_space g.space name with
  | none => rw [hg] at h; cases h
  | some v =>
    rw [hg] at h
    dsimp only at h
    cases hc : create_vector E w "NodeMemory" g.size g.vtype (-1) false with
    | error f => rw [hc] at h; cases h
    | ok r =>
      obtain ⟨nm, w2⟩ := r
      rw [hc] at h
      dsimp only at h
      cases hl : GraphC.build_node_memory_loop fmt E g name (g.nodes name).children (nm, w2) with
      | error f => rw [hl] at h; cases h
      | ok r2 =>
        obtain ⟨nm1, w3⟩ := r2
        rw [hl] at h
        simp only [Except.ok.injEq, Prod.mk.injEq] at h
        rw [← h.1]
        exact ⟨grown_of_same_space _ _ rfl rfl rfl rfl rfl, rfl⟩

theorem build_node_memories_grown (fmt : Rat → String) (E : Env) (vs : List Vector) :
    ∀ (g g1 : Graph) (w w1 : World),
      GraphC.build_node_memories fmt E vs (g, w) = .ok (g1, w1) →
        grown g g1 ∧ g1.space = g.space := by
  induction vs with
  | nil =>
    intro g g1 w w1 h
    simp only [GraphC.build_node_memories, Except.ok.injEq, Prod.mk.injEq] at h
    rw [← h.1]
    exact ⟨grown_refl g, rfl⟩
  | cons v rest ih =>
    intro g g1 w w1 h
    unfold GraphC.build_node_memories at h
    split_ifs at h
    · cases hs : GraphC.build_node_memory fmt E w g v.name with
      | error f => rw [hs] at h; cases h
      | ok st =>
        obtain ⟨g2, w2⟩ := st
        rw [hs] at h
        obtain ⟨a1, a2⟩ := build_node_memory_grown _ _ _ _ _ _ _ hs
        obtain ⟨b1, b2⟩ := ih _ _ _ _ h
        exact ⟨grown_trans _ _ _ a1 b1, b2.trans a2⟩
    · exact ih _ _ _ _ h

theorem create_vector_fields (E : Env) (w w1 : World) (name : String) (size : Int)
    (vtype : String) (seed : Int) (warning : Bool) (r : Vector)
    (h : create_vector E w name size vtype seed warning = .ok (r, w1)) :
    r.name = name ∧ r.vtype = vtype := by
  unfold create_vector at h
  by_cases hs : size < 10000
  · rw [if_pos hs] at h; cases h
  · rw [if_neg hs] at h
    dsimp only at h
    generalize (if seed ≠ -1 then srand w seed
      else srand (time_null E w).2 (time_null E w).1) = w0 at h
    cases hf : fill_random E vtype size.toNat w0 with
    | error f => rw [hf] at h; cases h
    | ok st =>
      obtain ⟨elems, w2⟩ := st
      rw [hf] at h
      simp only [Except.ok.injEq, Prod.mk.injEq] at h
      rw [← h.1]
      exact ⟨rfl, rfl⟩

theorem build_graph_vector_fields (E : Env) (g : Graph) (vs : List Vector) :
    ∀ (gv gv1 : Vector) (w w1 : World),
      GraphC.build_graph_vector E g vs (gv, w) = .ok (gv1, w1) →
        gv1.name = gv.name ∧ gv1.vtype = gv.vtype := by
  induction vs with
  | nil =>
    intro gv gv1 w w1 h
    simp only [GraphC.build_graph_vector, Except.ok.injEq, Prod.mk.injEq] at h
    rw [← h.1]
    exact ⟨rfl, rfl⟩
  | cons v rest ih =>
    intro gv gv1 w w1 h
    unfold GraphC.build_graph_vector at h
    split_ifs at h
    · cases hm : (g.nodes v.name).memory with
      | none => rw [hm] at h; cases h
      | some memory =>
        rw [hm] at h
        dsimp only at h
        cases hb : SpaceC.bind_vectors E w v memory with
        | error f => rw [hb] at h; cases h
        | ok st =>
          obtain ⟨tv, w2⟩ := st
          rw [hb] at h
          dsimp only at h
          cases ha : accumulate g.size.toNat gv.vector tv.vector with
          | error f => rw [ha] at h; cases h
          | ok elems =>
            rw [ha] at h
            exact ih { gv with vector := elems } _ _ _ h
    · exact ih _ _ _ _ h

/-- A call of fit_graph that returns has inserted one vector named `__graph__`
as the last vector of a space that grew out of the one it started from. -/
theorem fit_graph_ok (fmt : Rat → String) (E : Env) (w w1 : World) (g g1 : Graph)
    (edges : List Edge) (h : GraphC.fit_graph fmt E w g edges = .ok (g1, w1)) :
    ∃ (g3 : Graph) (gv : Vector), grown g g3 ∧ gv.name = "__graph__" ∧
      SpaceC.insert_vector g3.space gv = (.ok (), g1.space) ∧
      g1.size = g3.size ∧ g1.vtype = g3.vtype ∧ g1.directed = g3.directed ∧
      g1.weighted = g3.weighted := by
  unfold GraphC.fit_graph at h
  split_ifs at h
  cases h1 : GraphC.add_edges E edges (g, w) with
  | error f => rw [h1] at h; cases h
  | ok st1 =>
    obtain ⟨ga, wa⟩ := st1
    rw [h1] at h
    dsimp only at h
    cases h2 : (if ga.weighted = true then GraphC.build_weight_memory fmt E wa ga 0 1 (1 / 100)
        else .ok (ga, wa)) with
    | error f => rw [h2] at h; cases h
    | ok st2 =>
      obtain ⟨gb, wb⟩ := st2
      rw [h2] at h
      dsimp only at h
      cases h3 : GraphC.build_node_memories fmt E gb.space.vectors (gb, wb) with
      | error f => rw [h3] at h; cases h
      | ok st3 =>
        obtain ⟨gc, wc⟩ := st3
        rw [h3] at h
        dsimp only at h
        cases h4 : create_vector E wc "__graph__" gc.size gc.vtype (-1) false with
        | error f => rw [h4] at h; cases h
        | ok st4 =>
          obtain ⟨gv, wd⟩ := st4
          rw [h4] at h
          dsimp only at h
          cases h5 : GraphC.build_graph_vector E gc gc.space.vectors (gv, wd) with
          | error f => rw [h5] at h; cases h
          | ok st5 =>
            obtain ⟨gv1, we⟩ := st5
            rw [h5] at h
            dsimp only at h
            cases h6 : (if ¬ gc.directed = true then GraphC.halve gc.size.toNat gv1.vector
                else .ok gv1.vector) with
            | error f => rw [h6] at h; cases h
            | ok elems =>
              rw [h6] at h
              dsimp only at h
              cases h7 : SpaceC.insert_vector gc.space { gv1 with vector := elems } with
              | mk out S1 =>
                cases out with
                | error f => rw [h7] at h; cases h
                | ok u =>
                  rw [h7] at h
                  simp only [Except.ok.injEq, Prod.mk.injEq] at h
                  have hab : grown ga gb := by
                    split_ifs at h2 with hw
                    · exact build_weight_memory_grown _ _ _ _ _ _ _ _ _ h2
                    · simp only [Except.ok.injEq, Prod.mk.injEq] at h2
                      rw [← h2.1]
                      exact grown_refl ga
                  refine ⟨gc, { gv1 with vector := elems }, ?_, ?_, ?_, ?_⟩
                  · exact grown_trans _ _ _ (add_edges_grown E edges _ _ _ _ h1)
                      (grown_trans _ _ _ hab (build_node_memories_grown _ _ _ _ _ _ _ h3).1)
                  · exact ((build_graph_vector_fields E gc _ _ _ _ _ h5).1).trans
                      (create_vector_fields _ _ _ _ _ _ _ _ _ h4).1
                  · rw [h7, ← h.1]
                  · rw [← h.1]
                    exact ⟨rfl, rfl, rfl, rfl⟩

/-! ## The error measurement and error_mitigation -/

theorem adjust_node_memories_eq (g : Graph) (fps fns : List Edge) :
    GraphC.adjust_node_memories g fps fns = g := by
  have key : ∀ (l : List Edge) (x : Graph), l.foldl (fun g _ => g) x = x := by
    intro l
    induction l with
    | nil => intro x; rfl
    | cons e l ih => intro x; exact ih x
  unfold GraphC.adjust_node_memories
  rw [key, key]

theorem grown_vectors (g g1 : Graph) (h : grown g g1) :
    ∀ v ∈ g.space.vectors, v ∈ g1.space.vectors := by
  obtain ⟨-, -, -, -, vs, hvs⟩ := h
  intro v hv
  rw [(insert_each_ok vs _ _ hvs).1]
  exact List.mem_append_left _ hv

/-- A second fit_graph on the same graph does not return: the space already
holds a vector named `__graph__`. -/
theorem fit_graph_refit (fmt : Rat → String) (E : Env) (w : World) (g : Graph)
    (edges : List Edge) (hg : ∃ v ∈ g.space.vectors, v.name = "__graph__") :
    ∀ r, GraphC.fit_graph fmt E w g edges ≠ .ok r := by
  rintro ⟨g1, w1⟩ h
  obtain ⟨g3, gv, hgr, hname, hins, -⟩ := fit_graph_ok fmt E w w1 g g1 edges h
  obtain ⟨v, hv, hvn⟩ := hg
  obtain ⟨-, -, hfresh, -⟩ := insert_vector_ok _ _ _ hins
  exact hfresh v (grown_vectors g g3 hgr v hv) (hvn.trans hname.symm)

theorem improves_first (r : Option Rat) : GraphC.improves (some (-1)) r = true := by
  cases r <;> simp [GraphC.improves]

theorem error_mitigation_refit (fmt : Rat → String) (E : Env) (w : World) (g : Graph)
    (edges : List Edge) (threshold : Rat) (max_iter : Int) (h1 : 1 ≤ max_iter)
    (hg : ∃ v ∈ g.space.vectors, v.name = "__graph__") :
    ∃ f, GraphC.error_mitigation fmt E w g edges threshold max_iter (some (-1)) = .error f := by
  unfold GraphC.error_mitigation
  rw [if_neg (by omega)]
  obtain ⟨n, hn⟩ : ∃ n : Nat, max_iter.toNat = n + 1 := ⟨max_iter.toNat - 1, by omega⟩
  rw [hn]
  unfold GraphC.error_mitigation_loop
  cases he : GraphC.error_rate fmt E w g edges threshold with
  | error f => exact ⟨f, rfl⟩
  | ok r =>
    obtain ⟨report, w1⟩ := r
    dsimp only
    rw [improves_first, if_pos rfl, adjust_node_memories_eq]
    cases hf : GraphC.fit_graph fmt E w1 g edges with
    | error f => exact ⟨f, rfl⟩
    | ok r2 => exact absurd hf (fit_graph_refit fmt E w1 g edges hg r2)

theorem edge_exists_ok_node1 (fmt : Rat → String) (E : Env) (w : World) (g : Graph)
    (n1 n2 : String) (weight threshold : Rat) (r : (Bool × DistValue) × World)
    (h : GraphC.edge_exists fmt E w g n1 n2 weight threshold = .ok r) :
    ∃ v, GraphC.get_vector_from_space g.space n1 = some v := by
  unfold GraphC.edge_exists at h
  cases hgv : GraphC.get_vector_from_space g.space "__graph__" with
  | none => rw [hgv] at h; cases h
  | some gv =>
    cases h1 : GraphC.get_vector_from_space g.space n1 with
    | none =>
      rw [hgv] at h
      dsimp only at h
      rw [h1] at h
      cases h
    | some v => exact ⟨v, rfl⟩

theorem error_rate_loop_of_answers (fmt : Rat → String) (E : Env) (g : Graph) (threshold : Rat)
    (edges : List Edge) :
    ∀ (fps fns : List Edge) (w w1 : World) (founds : List Bool),
      GraphC.edge_answers fmt E g threshold edges w = .ok (founds, w1) →
      GraphC.error_rate_loop fmt E g threshold edges ((fps, fns), w) =
        .ok ((fps ++ GraphC.misjudged g true edges founds,
              fns ++ GraphC.misjudged g false edges founds), w1) := by
  induction edges with
  | nil =>
    intro fps fns w w1 founds h
    simp only [GraphC.edge_answers, Except.ok.injEq, Prod.mk.injEq] at h
    rw [← h.1, ← h.2]
    simp [GraphC.error_rate_loop, GraphC.misjudged]
  | cons e rest ih =>
    intro fps fns w w1 founds h
    unfold GraphC.edge_answers at h
    unfold GraphC.error_rate_loop
    cases hq : GraphC.edge_exists fmt E w g e.node1_name e.node2_name e.weight threshold with
    | error f => rw [hq] at h; cases h
    | ok r =>
      obtain ⟨⟨found, d⟩, w2⟩ := r
      rw [hq] at h
      dsimp only at h ⊢
      obtain ⟨v, hv⟩ := edge_exists_ok_node1 _ _ _ _ _ _ _ _ _ hq
      rw [hv]
      dsimp only
      cases ha : GraphC.edge_answers fmt E g threshold rest w2 with
      | error f => rw [ha] at h; cases h
      | ok r2 =>
        obtain ⟨fs, w3⟩ := r2
        rw [ha] at h
        simp only [Except.ok.injEq, Prod.mk.injEq] at h
        obtain ⟨hf, hw⟩ := h
        subst hf
        subst hw
        cases found <;> cases hc : GraphC.has_child g e.node1_name e.node2_name <;>
          simp [GraphC.misjudged, hc, ih _ _ _ _ _ ha]

theorem misjudged_mem (g : Graph) (verdict : Bool) (edges : List Edge) :
    ∀ (founds : List Bool) (e : Edge), e ∈ GraphC.misjudged g verdict edges founds →
      e ∈ edges ∧ GraphC.has_child g e.node1_name e.node2_name = !verdict := by
  induction edges with
  | nil => intro founds e h; simp [GraphC.misjudged] at h
  | cons x rest ih =>
    intro founds e h
    cases founds with
    | nil => simp [GraphC.misjudged] at h
    | cons f fs =>
      unfold GraphC.misjudged at h
      split_ifs at h with hc
      · rcases List.mem_cons.mp h with rfl | h
        · exact ⟨List.mem_cons_self _ _, hc.2⟩
        · exact ⟨List.mem_cons_of_mem _ (ih fs e h).1, (ih fs e h).2⟩
      · exact ⟨List.mem_cons_of_mem _ (ih fs e h).1, (ih fs e h).2⟩

theorem misjudged_length (g : Graph) (edges : List Edge) :
    ∀ (founds : List Bool),
      (GraphC.misjudged g true edges founds).length +
        (GraphC.misjudged g false edges founds).length ≤ edges.length := by
  induction edges with
  | nil => intro founds; simp [GraphC.misjudged]
  | cons x rest ih =>
    intro founds
    cases founds with
    | nil => simp [GraphC.misjudged]
    | cons f fs =>
      have := ih fs
      cases f <;> cases hc : GraphC.has_child g x.node1_name x.node2_name <;>
        simp [GraphC.misjudged, hc] <;> omega

theorem error_rate_of_answers (fmt : Rat → String) (E : Env) (w w1 : World) (g : Graph)
    (edges : List Edge) (threshold : Rat) (founds : List Bool)
    (h : GraphC.edge_answers fmt E g threshold edges w = .ok (founds, w1)) :
    GraphC.error_rate fmt E w g edges threshold =
      .ok ({ rate := if edges.length = 0 then none
                     else some ((((GraphC.misjudged g true edges founds).length +
                        (GraphC.misjudged g false edges founds).length : Nat) : Rat) /
                        (edges.length : Rat)),
             false_positives := GraphC.misjudged g true edges founds,
             false_negatives := GraphC.misjudged g false edges founds }, w1) := by
  unfold GraphC.error_rate
  rw [error_rate_loop_of_answers fmt E g threshold edges [] [] w w1 founds h]
  simp

/-! ## Runs on the graph of the edge from A to B -/

theorem bind_sum_ab (N : Nat) (g : Graph) (d : Bool) (c mA mB : Int)
    (hg : graph_shape N g d [constant_vector N "A" 1, constant_vector N "B" 1,
      constant_vector N "__graph__" c])
    (hA : (g.nodes "A").memory = some (constant_vector N "NodeMemory" mA))
    (hB : (g.nodes "B").memory = some (constant_vector N "NodeMemory" mB)) :
    GraphC.bind_sum g g.space.vectors = List.replicate N (0 + 1 * mB + 1 * mA) := by
  obtain ⟨hs, ht, hd, hw, hsp⟩ := hg
  rw [hsp]
  simp only [GraphC.bind_sum, constant_vector_name, is_node_A, is_node_B, is_node_graph, hA, hB,
    constant_vector_vector, hs, Int.toNat_ofNat, List.zipWith_replicate', ↓reduceIte,
    Bool.false_eq_true]

theorem has_child_of_children (g : Graph) (a b : String) (cs : List String)
    (h : (g.nodes a).children = cs) : GraphC.has_child g a b = decide (b ∈ cs) := by
  unfold GraphC.has_child
  rw [h]

/-- The distance of the probe of the undirected graph from its target is 0:
it is below the threshold exactly when the threshold is positive. -/
theorem cosine_ab_lt (N : Nat) (hN : 0 < N) (t : Rat) :
    (DistValue.cosine (N * (1 * 2 * 1)) (N * (1 * 2 * (1 * 2))) (N * (1 * 1))).lt t =
      decide (0 < t) := by
  have hn : (0 : Int) < N := by exact_mod_cast hN
  have hq : (0 : Rat) < N := by exact_mod_cast hN
  unfold DistValue.lt
  dsimp only
  rw [if_neg (by omega), if_pos (by omega)]
  by_cases h1 : 1 - t < 0
  · rw [if_pos h1]
    exact (decide_eq_true (by linarith)).symm
  · rw [if_neg h1]
    push_cast
    have hpos : (0 : Rat) < (N : Rat) * (N : Rat) := mul_pos hq hq
    by_cases h0 : 0 < t
    · rw [decide_eq_true h0]
      apply decide_eq_true
      have : (1 - t) * (1 - t) < 1 := by nlinarith
      nlinarith
    · rw [decide_eq_false h0]
      apply decide_eq_false
      have : 1 ≤ (1 - t) * (1 - t) := by nlinarith
      nlinarith

theorem edge_answers_undirected_ab (N : Nat) (hN : 10000 ≤ N) (w : World) (g : Graph)
    (threshold : Rat)
    (hg : graph_shape N g false [constant_vector N "A" 1, constant_vector N "B" 1,
      constant_vector N "__graph__" 2]) :
    GraphC.edge_answers fmt0 env0 g threshold [edge_ab] w =
      .ok ([decide (0 < threshold)], after_create N w) := by
  have h := edge_exists_undirected_ab N hN w g (-1) threshold hg
  rw [cosine_ab_lt N (by omega)] at h
  unfold GraphC.edge_answers
  have e1 : edge_ab.node1_name = "A" := rfl
  have e2 : edge_ab.node2_name = "B" := rfl
  have e3 : edge_ab.weight = -1 := rfl
  rw [e1, e2, e3, h]
  rfl

theorem edge_exists_absent (N : Nat) (w : World) (g : Graph) (d : Bool) (c : Int)
    (weight threshold : Rat)
    (hg : graph_shape N g d [constant_vector N "A" 1, constant_vector N "B" 1,
      constant_vector N "__graph__" c]) :
    GraphC.edge_exists fmt0 env0 w g "A" "D" weight threshold =
      .error (.exit "Nodes are not in the space") := by
  obtain ⟨hs, ht, hd, hw, hsp⟩ := hg
  have hvs : g.space.vectors = [constant_vector N "A" 1, constant_vector N "B" 1,
      constant_vector N "__graph__" c] := by rw [hsp]
  obtain ⟨gA, -⟩ := get_ab N g.space _ hvs
  have gD : GraphC.get_vector_from_space g.space "D" = none := by
    unfold GraphC.get_vector_from_space
    rw [get_loop_none_iff, hvs]
    intro v hv
    simp only [List.mem_cons, List.mem_singleton, List.not_mem_nil, or_false] at hv
    rcases hv with rfl | rfl | rfl <;> rw [constant_vector_name] <;> decide
  unfold GraphC.edge_exists
  rw [get_graph_vector N g.space c hvs]
  dsimp only
  rw [gA, gD]

theorem neighbor_contribution_ab (N : Nat) (w : World) (g : Graph) (d : Bool)
    (rest : List Vector)
    (hg : graph_shape N g d (constant_vector N "A" 1 :: constant_vector N "B" 1 :: rest)) :
    GraphC.neighbor_contribution fmt0 env0 w g "A" "B" = .ok (constant_vector N "B" 1, w) := by
  obtain ⟨hs, ht, hd, hw, hsp⟩ := hg
  obtain ⟨-, gB⟩ := get_ab N g.space rest (by rw [hsp])
  unfold GraphC.neighbor_contribution
  rw [gB]
  dsimp only
  rw [hw]
  rfl

theorem build_node_memory_ab (N : Nat) (hN : 10000 ≤ N) (w : World) (g : Graph)
    (hg : graph_shape N g true [constant_vector N "A" 1, constant_vector N "B" 1])
    (hA : (g.nodes "A").children = ["B"]) (hB : (g.nodes "B").children = []) :
    (∃ gA, GraphC.build_node_memory fmt0 env0 w g "A" = .ok (gA, after_create N w) ∧
      (gA.nodes "A").memory = some (constant_vector N "NodeMemory" 2)) ∧
    (∃ gB, GraphC.build_node_memory fmt0 env0 w g "B" = .ok (gB, after_create N w) ∧
      (gB.nodes "B").memory = some (constant_vector N "NodeMemory" 1)) := by
  obtain ⟨hs, ht, hd, hw, hsp⟩ := hg
  obtain ⟨gA, gB⟩ := get_ab N g.space [] (by rw [hsp])
  have e1 := build_node_memory_ones N hN w g "A" hs ht hw gA
    (by rw [hA]; intro n hn; rw [List.mem_singleton] at hn; rw [hn]; exact gB)
    (by rw [hA]; simp)
  have e2 := build_node_memory_ones N hN w g "B" hs ht hw gB
    (by rw [hB]; intro n hn; simp at hn) (by rw [hB]; simp)
  refine ⟨⟨_, e1, ?_⟩, ⟨_, e2, ?_⟩⟩
  · simp [GraphC.Graph.set_node, hA]
  · simp [GraphC.Graph.set_node, hB]

theorem create_graph_ok (E : Env) (w w0 : World) (size : Int) (directed weighted : Bool)
    (seed : Int) (g0 : Graph)
    (h : GraphC.create_graph E w size directed weighted seed = .ok (g0, w0)) :
    g0.space.vectors = [] ∧ g0.space.size = g0.size ∧ g0.space.vtype = g0.vtype := by
  unfold GraphC.create_graph at h
  by_cases hs : size < 10000
  · rw [if_pos hs] at h; cases h
  · rw [if_neg hs] at h
    cases hc : SpaceC.create_space size "bipolar" with
    | error f => rw [hc] at h; cases h
    | ok S =>
      rw [hc] at h
      simp only [Except.ok.injEq, Prod.mk.injEq] at h
      obtain ⟨hS, -⟩ := create_space_ok _ _ _ hc
      rw [← h.1, hS]
      exact ⟨rfl, rfl, rfl⟩

theorem elementwise_overflow (op : Int → Int → Except Fault Int) (a b : Int) (f : Fault)
    (h : op a b = .error f) (n : Nat) :
    elementwise op (List.replicate (n + 1) a) (List.replicate (n + 1) b) = .error f := by
  simp only [List.replicate_succ, elementwise, h]

theorem arithmetic_bind_constant (N : Nat) (hN : 10000 ≤ N) (w : World) (n1 n2 : String)
    (a b : Int) (h : in_int (a * b)) :
    ArithmeticC.bind_vectors env0 w (constant_vector N n1 a) (constant_vector N n2 b) =
      .ok (constant_vector N "BindResult" (a * b), after_create N w) := by
  unfold ArithmeticC.bind_vectors
  rw [if_neg (by rw [constant_vector_size, constant_vector_size]; exact fun h => h rfl),
    if_neg (by rw [constant_vector_vtype, constant_vector_vtype]; exact fun h => h rfl),
    create_vector_env0 N hN w "BindResult" (constant_vector N n1 a).size
      (constant_vector N n1 a).vtype (constant_vector_size N n1 a) rfl]
  have he : elementwise mul_int (constant_vector N n1 a).vector (constant_vector N n2 b).vector =
      .ok (List.replicate N (a * b)) :=
    elementwise_replicate mul_int a b (a * b) (checked_of_in_int _ h) N
  simp only [he]
  rfl

theorem bundle_constant_overflow (N : Nat) (hN : 10000 ≤ N) (w : World) (n1 n2 : String)
    (a b : Int) (h : ¬ in_int (a + b)) :
    ArithmeticC.bundle_vectors env0 w (constant_vector N n1 a) (constant_vector N n2 b) =
        .error (.undefined "signed integer overflow") ∧
      SpaceC.bundle_vectors env0 w (constant_vector N n1 a) (constant_vector N n2 b) =
        .error (.undefined "signed integer overflow") := by
  obtain ⟨n, rfl⟩ : ∃ n, N = n + 1 := ⟨N - 1, by omega⟩
  have he : elementwise add_int (constant_vector (n + 1) n1 a).vector
      (constant_vector (n + 1) n2 b).vector = .error (.undefined "signed integer overflow") := by
    rw [constant_vector_vector, constant_vector_vector]
    exact elementwise_overflow add_int a b _ (by simp [add_int, checked, h]) n
  constructor
  · unfold ArithmeticC.bundle_vectors
    rw [if_neg (by rw [constant_vector_size, constant_vector_size]; exact fun h => h rfl),
      if_neg (by rw [constant_vector_vtype, constant_vector_vtype]; exact fun h => h rfl),
      create_vector_env0 (n + 1) hN w "BundleResult" (constant_vector (n + 1) n1 a).size
        (constant_vector (n + 1) n1 a).vtype (constant_vector_size (n + 1) n1 a) rfl]
    simp only [he]
  · unfold SpaceC.bundle_vectors
    rw [if_neg (by rw [constant_vector_size, constant_vector_size]; exact fun h => h rfl),
      create_vector_env0 (n + 1) hN w (constant_vector (n + 1) n1 a).name
        (constant_vector (n + 1) n1 a).size
        (constant_vector (n + 1) n1 a).vtype (constant_vector_size (n + 1) n1 a) rfl]
    simp only [he]

theorem half_constant (N : Nat) (name : String) (c : Int)
    (h : -HALF_INT_MAX ≤ c ∧ c ≤ HALF_INT_MAX) :
    half_elements (constant_vector N name c).vector := by
  intro x hx
  rw [constant_vector_vector] at hx
  rw [List.eq_of_mem_replicate hx]
  exact h

theorem get_loop_append_new (vs : List Vector) (v : Vector) (name : String)
    (h : GraphC.get_vector_from_space_loop vs name = none) (hv : v.name = name) :
    GraphC.get_vector_from_space_loop (vs ++ [v]) name = some v := by
  induction vs with
  | nil => simp [GraphC.get_vector_from_space_loop, hv]
  | cons u vs ih =>
    simp only [GraphC.get_vector_from_space_loop, List.cons_append] at h ⊢
    by_cases hu : u.name = name
    · rw [if_pos hu] at h; cases h
    · rw [if_neg hu] at h ⊢
      exact ih h

/-! ## A second fit_graph on the fitted graph -/

theorem find_or_create_old (E : Env) (w : World) (g : Graph) (name : String) (v : Vector)
    (h : GraphC.get_vector_from_space g.space name = some v) :
    GraphC.find_or_create E w g name = .ok (g, w) := by
  unfold GraphC.find_or_create
  rw [h]

theorem insert_vector_duplicate (S : Space) (v : Vector) (hs : S.size = v.size)
    (ht : S.vtype = v.vtype) (hn : ∃ u ∈ S.vectors, u.name = v.name) :
    SpaceC.insert_vector S v = (.error (.exit "Vector already in space"), S) := by
  unfold SpaceC.insert_vector
  rw [if_neg (fun h => h hs), if_neg (fun h => h ht), if_pos ((name_in_iff _ _).mpr hn)]

theorem add_edges_again (N : Nat) (w : World) (g : Graph) (c : Int)
    (hg : graph_shape N g false [constant_vector N "A" 1, constant_vector N "B" 1,
      constant_vector N "__graph__" c]) :
    ∃ g1, GraphC.add_edges env0 [edge_ab] (g, w) = .ok (g1, w) ∧
      graph_shape N g1 false [constant_vector N "A" 1, constant_vector N "B" 1,
        constant_vector N "__graph__" c] ∧
      (g1.nodes "A").children = (g.nodes "A").children ++ ["B"] ∧
      (g1.nodes "B").children = (g.nodes "B").children ++ ["A"] := by
  obtain ⟨hs, ht, hd, hw, hsp⟩ := hg
  obtain ⟨gA, gB⟩ := get_ab N g.space _ (by rw [hsp])
  have hstart : GraphC.add_edges env0 [edge_ab] (g, w) =
      GraphC.add_edge env0 w g "A" "B" (-1) := by
    simp only [GraphC.add_edges, edge_ab]
    rw [if_neg (by simp [hw]), if_neg (by simp [hw])]
    cases GraphC.add_edge env0 w g "A" "B" (-1) <;> rfl
  rw [hstart]
  unfold GraphC.add_edge
  rw [find_or_create_old env0 w g "A" _ gA]
  dsimp only
  rw [find_or_create_old env0 w g "B" _ gB]
  dsimp only
  simp only [add_child_weighted, add_child_directed, hw, hd, Bool.false_eq_true, ↓reduceIte]
  refine ⟨_, rfl, ?_⟩
  simp [graph_shape, GraphC.add_child, GraphC.Graph.set_node, hs, ht, hd, hw, hsp]

theorem build_node_memories_again (N : Nat) (hN : 10000 ≤ N) (w : World) (g : Graph) (c : Int)
    (hg : graph_shape N g false [constant_vector N "A" 1, constant_vector N "B" 1,
      constant_vector N "__graph__" c])
    (hA : (g.nodes "A").children = ["B", "B"]) (hB : (g.nodes "B").children = ["A", "A"]) :
    ∃ g1, GraphC.build_node_memories fmt0 env0
        [constant_vector N "A" 1, constant_vector N "B" 1, constant_vector N "__graph__" c]
        (g, w) = .ok (g1, after_create N (after_create N w)) ∧
      graph_shape N g1 false [constant_vector N "A" 1, constant_vector N "B" 1,
        constant_vector N "__graph__" c] ∧
      (g1.nodes "A").memory = some (constant_vector N "NodeMemory" 3) ∧
      (g1.nodes "B").memory = some (constant_vector N "NodeMemory" 3) := by
  obtain ⟨hs, ht, hd, hw, hsp⟩ := hg
  obtain ⟨gA, gB⟩ := get_ab N g.space _ (by rw [hsp])
  have hgetc : ∀ n, n = "A" ∨ n = "B" →
      GraphC.get_vector_from_space g.space n = some (constant_vector N n 1) := by
    rintro n (rfl | rfl)
    · exact gA
    · exact gB
  have e1 := build_node_memory_ones N hN w g "A" hs ht hw gA
    (by rw [hA]; intro n hn; exact hgetc n (Or.inr (by simpa using hn)))
    (by rw [hA]; simp)
  have hB2 : ((GraphC.Graph.set_node g "A"
      { g.nodes "A" with memory := some (constant_vector N "NodeMemory"
          (1 + (g.nodes "A").children.length)) }).nodes "B") = g.nodes "B" := by
    simp [GraphC.Graph.set_node]
  have e2 := build_node_memory_ones N hN (after_create N w) (GraphC.Graph.set_node g "A"
      { g.nodes "A" with memory := some (constant_vector N "NodeMemory"
          (1 + (g.nodes "A").children.length)) }) "B" hs ht hw gB
    (by rw [hB2, hB]; intro n hn; exact hgetc n (Or.inl (by simpa using hn)))
    (by rw [hB2, hB]; simp)
  refine ⟨?_, ?_, ?_⟩
  pick_goal 2
  · simp only [GraphC.build_node_memories, constant_vector_name, is_node_A, is_node_B,
      is_node_graph, Bool.false_eq_true, ↓reduceIte]
    rw [e1]
    dsimp only
    rw [e2]
    dsimp only
    exact rfl
  · simp [graph_shape, GraphC.Graph.set_node, hs, ht, hd, hw, hsp, hA, hB]

theorem build_graph_vector_again (N : Nat) (hN : 10000 ≤ N) (w : World) (g : Graph)
    (c mA mB : Int) (hs : g.size = N)
    (hA : (g.nodes "A").memory = some (constant_vector N "NodeMemory" mA))
    (hB : (g.nodes "B").memory = some (constant_vector N "NodeMemory" mB))
    (h1 : 0 ≤ mA ∧ mA ≤ 40) (h2 : 0 ≤ mB ∧ mB ≤ 40) :
    GraphC.build_graph_vector env0 g
        [constant_vector N "A" 1, constant_vector N "B" 1, constant_vector N "__graph__" c]
        (constant_vector N "__graph__" 1, w) =
      .ok (constant_vector N "__graph__" (1 + 1 * mA + 1 * mB),
        after_create N (after_create N w)) := by
  rw [build_graph_vector_step N hN w g "A" _ 1 mA hs is_node_A hA (by omega) (by omega),
    build_graph_vector_step N hN (after_create N w) g "B" _ (1 + 1 * mA) mB hs is_node_B hB
      (by omega) (by omega)]
  simp only [GraphC.build_graph_vector, constant_vector_name, is_node_graph, Bool.false_eq_true,
    ↓reduceIte]

/-- A second fit_graph on the undirected graph fitted on the edge from A to B:
every step runs again, and the final insert_vector finds `__graph__` in the
space. -/
theorem fit_graph_again (N : Nat) (hN : 10000 ≤ N) (w : World) (g : Graph)
    (hg : graph_shape N g false [constant_vector N "A" 1, constant_vector N "B" 1,
      constant_vector N "__graph__" 2])
    (hA : (g.nodes "A").children = ["B"]) (hB : (g.nodes "B").children = ["A"]) :
    GraphC.fit_graph fmt0 env0 w g [edge_ab] = .error (.exit "Vector already in space") := by
  obtain ⟨g1, e1, s1, cA1, cB1⟩ := add_edges_again N w g 2 hg
  rw [hA] at cA1
  rw [hB] at cB1
  obtain ⟨g3, e3, s3, mA3, mB3⟩ := build_node_memories_again N hN w g1 2 s1 cA1 cB1
  obtain ⟨hs1, ht1, hd1, hw1, hsp1⟩ := s1
  obtain ⟨hs3, ht3, hd3, hw3, hsp3⟩ := s3
  have hvs1 : g1.space.vectors = [constant_vector N "A" 1, constant_vector N "B" 1,
      constant_vector N "__graph__" 2] := by rw [hsp1]
  have hvs3 : g3.space.vectors = [constant_vector N "A" 1, constant_vector N "B" 1,
      constant_vector N "__graph__" 2] := by rw [hsp3]
  have hdup : ∃ u ∈ g3.space.vectors,
      u.name = (constant_vector N "__graph__" (Int.tdiv (1 + 1 * 3 + 1 * 3) 2)).name := by
    rw [hvs3]
    exact ⟨_, List.mem_cons_of_mem _ (List.mem_cons_of_mem _ (List.mem_singleton.mpr rfl)), rfl⟩
  unfold GraphC.fit_graph
  rw [if_neg (by simp), e1]
  dsimp only
  rw [hw1]
  simp only [Bool.false_eq_true, ↓reduceIte]
  rw [hvs1, e3]
  dsimp only
  rw [create_vector_env0 N hN _ "__graph__" g3.size g3.vtype hs3 ht3]
  dsimp only
  rw [hvs3, build_graph_vector_again N hN _ g3 2 3 3 hs3 mA3 mB3 (by omega) (by omega)]
  dsimp only
  rw [hd3]
  simp only [Bool.false_eq_true, not_false_eq_true, ↓reduceIte]
  rw [halve_constant N g3.size hs3]
  dsimp only
  rw [set_vector_constant,
    insert_vector_duplicate g3.space (constant_vector N "__graph__" (Int.tdiv (1 + 1 * 3 + 1 * 3) 2))
      (by rw [hsp3, constant_vector_size]) (by rw [hsp3]; rfl) hdup]

theorem error_mitigation_again (N : Nat) (hN : 10000 ≤ N) (w : World) (g : Graph)
    (threshold : Rat) (n : Nat)
    (hg : graph_shape N g false [constant_vector N "A" 1, constant_vector N "B" 1,
      constant_vector N "__graph__" 2])
    (hA : (g.nodes "A").children = ["B"]) (hB : (g.nodes "B").children = ["A"]) :
    GraphC.error_mitigation fmt0 env0 w g [edge_ab] threshold ((n : Int) + 1) (some (-1)) =
      .error (.exit "Vector already in space") := by
  unfold GraphC.error_mitigation
  rw [if_neg (by omega)]
  have hn : ((n : Int) + 1).toNat = n + 1 := by omega
  rw [hn]
  unfold GraphC.error_mitigation_loop
  rw [error_rate_of_answers fmt0 env0 w _ g [edge_ab] threshold _
    (edge_answers_undirected_ab N hN w g threshold hg)]
  dsimp only
  rw [improves_first, if_pos rfl, adjust_node_memories_eq,
    fit_graph_again N hN _ g hg hA hB]

/-! ## The comparison of the distance with the threshold -/

theorem mul_self_lt_iff (x y : ℝ) (hx : 0 ≤ x) (hy : 0 ≤ y) : x * x < y * y ↔ x < y := by
  constructor
  · intro h
    by_contra hc
    have hyx : y ≤ x := not_lt.mp hc
    nlinarith
  · intro h
    nlinarith

/-- The test `*distance < threshold` as the model decides it agrees with the
comparison of the real the distance denotes. -/
theorem lt_iff_real (d : DistValue) (t : Rat) (r : ℝ) (h : d.IsReal r) :
    d.lt t = true ↔ r < (t : ℝ) := by
  cases d with
  | hamming count =>
    simp only [DistValue.IsReal] at h
    subst h
    simp only [DistValue.lt, decide_eq_true_eq]
    rw [← Rat.cast_lt (K := ℝ)]
    push_cast
    rfl
  | euclidean sum =>
    simp only [DistValue.IsReal] at h
    subst h
    simp only [DistValue.lt, decide_eq_true_eq]
    have hcast : ((sum : Rat) < t * t) ↔ ((sum : ℝ) < (t : ℝ) * (t : ℝ)) := by
      rw [← Rat.cast_lt (K := ℝ)]
      push_cast
      rfl
    have h0 : (0 < t) ↔ (0 < (t : ℝ)) := by
      rw [← Rat.cast_lt (K := ℝ)]
      push_cast
      rfl
    rw [hcast, h0]
    constructor
    · rintro ⟨ht, hs⟩
      by_cases hsum : (0 : ℝ) ≤ sum
      · have := Real.mul_self_sqrt hsum
        exact (mul_self_lt_iff _ _ (Real.sqrt_nonneg _) (le_of_lt ht)).mp (by rw [this]; exact hs)
      · rw [Real.sqrt_eq_zero_of_nonpos (le_of_lt (not_le.mp hsum))]
        exact ht
    · intro hlt
      have ht : (0 : ℝ) < t := lt_of_le_of_lt (Real.sqrt_nonneg _) hlt
      refine ⟨ht, ?_⟩
      by_cases hsum : (0 : ℝ) ≤ sum
      · have h2 := (mul_self_lt_iff _ _ (Real.sqrt_nonneg _) (le_of_lt ht)).mpr hlt
        rwa [Real.mul_self_sqrt hsum] at h2
      · exact lt_trans (not_le.mp hsum) (mul_pos ht ht)
  | cosine dot_product norm_a norm_b =>
    obtain ⟨hs, hr⟩ := h
    subst hr
    have ha : (0 : ℝ) < norm_a := by
      by_contra hc
      exact hs (by rw [Real.sqrt_eq_zero_of_nonpos (not_lt.mp hc), zero_mul])
    have hb : (0 : ℝ) < norm_b := by
      by_contra hc
      exact hs (by rw [Real.sqrt_eq_zero_of_nonpos (not_lt.mp hc), mul_zero])
    have hai : (0 : Int) < norm_a := by exact_mod_cast ha
    have hbi : (0 : Int) < norm_b := by exact_mod_cast hb
    have hspos : 0 < Real.sqrt norm_a * Real.sqrt norm_b :=
      mul_pos (Real.sqrt_pos.mpr ha) (Real.sqrt_pos.mpr hb)
    have hsq : (Real.sqrt norm_a * Real.sqrt norm_b) * (Real.sqrt norm_a * Real.sqrt norm_b) =
        (norm_a : ℝ) * norm_b := by
      have e1 := Real.mul_self_sqrt (le_of_lt ha)
      have e2 := Real.mul_self_sqrt (le_of_lt hb)
      calc (Real.sqrt norm_a * Real.sqrt norm_b) * (Real.sqrt norm_a * Real.sqrt norm_b)
          = (Real.sqrt norm_a * Real.sqrt norm_a) * (Real.sqrt norm_b * Real.sqrt norm_b) := by
            ring
        _ = (norm_a : ℝ) * norm_b := by rw [e1, e2]
    have hmain : (1 - (dot_product : ℝ) / (Real.sqrt norm_a * Real.sqrt norm_b) < (t : ℝ)) ↔
        ((1 - (t : ℝ)) * (Real.sqrt norm_a * Real.sqrt norm_b) < dot_product) := by
      rw [sub_lt_comm, lt_div_iff₀ hspos]
    rw [hmain]
    generalize Real.sqrt norm_a * Real.sqrt norm_b = s at hspos hsq
    have c1 : ∀ a b : Rat, (a < b) ↔ ((a : ℝ) < (b : ℝ)) := fun a b => Rat.cast_lt.symm
    have c2 : ∀ a b : Rat, (a ≤ b) ↔ ((a : ℝ) ≤ (b : ℝ)) := fun a b => Rat.cast_le.symm
    have hd : (0 ≤ dot_product) ↔ ((0 : ℝ) ≤ dot_product) := by
      constructor <;> intro h <;> exact_mod_cast h
    unfold DistValue.lt
    dsimp only
    rw [if_neg (by omega)]
    by_cases hdot : 0 ≤ dot_product
    · have hdr : (0 : ℝ) ≤ dot_product := hd.mp hdot
      rw [if_pos hdot]
      by_cases h1 : 1 - t < 0
      · rw [if_pos h1]
        have h1r : 1 - (t : ℝ) < 0 := by
          have := (c1 _ _).mp h1
          push_cast at this
          exact this
        simp only [true_iff]
        nlinarith
      · rw [if_neg h1]
        have h1r : 0 ≤ 1 - (t : ℝ) := by
          have := (c2 _ _).mp (not_lt.mp h1)
          push_cast at this
          exact this
        rw [decide_eq_true_eq, c1]
        push_cast
        rw [← mul_self_lt_iff _ _ (mul_nonneg h1r (le_of_lt hspos)) hdr]
        have e : (1 - (t : ℝ)) * s * ((1 - (t : ℝ)) * s) =
            (1 - (t : ℝ)) * (1 - (t : ℝ)) * (s * s) := by ring
        rw [e, hsq]
    · have hdr : (dot_product : ℝ) < 0 := by
        have : dot_product < 0 := not_le.mp hdot
        exact_mod_cast this
      rw [if_neg hdot]
      by_cases h1 : 0 ≤ 1 - t
      · rw [if_pos h1]
        have h1r : 0 ≤ 1 - (t : ℝ) := by
          have := (c2 _ _).mp h1
          push_cast at this
          exact this
        simp only [Bool.false_eq_true, false_iff, not_lt]
        nlinarith [mul_nonneg h1r (le_of_lt hspos)]
      · rw [if_neg h1]
        have h1r : 1 - (t : ℝ) < 0 := by
          have := (c1 _ _).mp (not_le.mp h1)
          push_cast at this
          exact this
        rw [decide_eq_true_eq, c1]
        push_cast
        have hx : 0 ≤ -(dot_product : ℝ) := by linarith
        have hy : 0 ≤ -((1 - (t : ℝ)) * s) := by nlinarith
        have key := mul_self_lt_iff (-(dot_product : ℝ)) (-((1 - (t : ℝ)) * s)) hx hy
        have e : -((1 - (t : ℝ)) * s) * -((1 - (t : ℝ)) * s) =
            (1 - (t : ℝ)) * (1 - (t : ℝ)) * (s * s) := by ring
        have e2 : -(dot_product : ℝ) * -(dot_product : ℝ) =
            (dot_product : ℝ) * dot_product := by ring
        rw [e, e2, hsq] at key
        rw [key]
        constructor <;> intro h <;> linarith

/-- A cosine with divisor zero denotes no real (NaN in C); every comparison
with it is false. -/
theorem lt_of_not_real (dot_product norm_a norm_b : Int) (t : Rat)
    (h : ∀ r, ¬ (DistValue.cosine dot_product norm_a norm_b).IsReal r) :
    (DistValue.cosine dot_product norm_a norm_b).lt t = false := by
  have hz : ¬ (0 < norm_a ∧ 0 < norm_b) := by
    rintro ⟨ha, hb⟩
    have har : (0 : ℝ) < norm_a := by exact_mod_cast ha
    have hbr : (0 : ℝ) < norm_b := by exact_mod_cast hb
    exact h _ ⟨ne_of_gt (mul_pos (Real.sqrt_pos.mpr har) (Real.sqrt_pos.mpr hbr)), rfl⟩
  unfold DistValue.lt
  dsimp only
  rw [if_pos (by omega)]

/-! ## model.c: the checks of create_mlmodel and fit_mlmodel -/

theorem collect_classes_eq (ls : List String) :
    ∀ acc : List String, ModelC.collect_classes ls acc =
      acc ++ (ModelC.first_occurrences ls).filter (fun c => decide (c ∉ acc)) := by
  induction ls with
  | nil => intro acc; simp [ModelC.collect_classes, ModelC.first_occurrences]
  | cons a ls ih =>
    intro acc
    unfold ModelC.collect_classes
    by_cases ha : a ∈ acc
    · rw [if_pos ha, ih acc]
      simp only [ModelC.first_occurrences, List.filter_cons, ha, not_true_eq_false,
        decide_False, Bool.false_eq_true, ↓reduceIte, List.filter_filter, List.append_cancel_left_eq]
      apply List.filter_congr
      intro c _
      by_cases hc : c = a
      · subst hc; simp [ha]
      · simp [hc]
    · rw [if_neg ha, ih (acc ++ [a])]
      simp only [ModelC.first_occurrences, List.filter_cons, ha, not_false_eq_true,
        decide_True, ↓reduceIte, List.filter_filter, List.append_assoc, List.singleton_append,
        List.append_cancel_left_eq, List.cons.injEq, true_and]
      apply List.filter_congr
      intro c _
      by_cases hc : c = a
      · subst hc; simp
      · simp [hc]

theorem first_occurrences_mem (ls : List String) :
    ∀ c, c ∈ ModelC.first_occurrences ls ↔ c ∈ ls := by
  induction ls with
  | nil => intro c; simp [ModelC.first_occurrences]
  | cons a ls ih =>
    intro c
    simp only [ModelC.first_occurrences, List.mem_cons, List.mem_filter, ih,
      decide_eq_true_eq]
    by_cases hc : c = a
    · simp [hc]
    · simp [hc]

theorem first_occurrences_nodup (ls : List String) : (ModelC.first_occurrences ls).Nodup := by
  induction ls with
  | nil => simp [ModelC.first_occurrences]
  | cons a ls ih =>
    simp only [ModelC.first_occurrences, List.nodup_cons, List.mem_filter, decide_eq_true_eq,
      ne_eq, not_true_eq_false, and_false, not_false_eq_true, true_and]
    exact ih.filter _

theorem collect_classes_nil (ls : List String) :
    ModelC.collect_classes ls [] = ModelC.first_occurrences ls := by
  rw [collect_classes_eq]
  simp

theorem first_occurrences_length (ls : List String) :
    (ModelC.first_occurrences ls).length = ls.toFinset.card := by
  rw [← List.toFinset_card_of_nodup (first_occurrences_nodup ls)]
  congr 1
  ext c
  simp [first_occurrences_mem]

theorem create_mlmodel_checks (size levels : Int) (vtype : String)
    (h : size < 10000 ∨ levels < 2 ∨ (vtype ≠ "binary" ∧ vtype ≠ "bipolar")) :
    ∃ msg, ModelC.create_mlmodel size levels vtype = .error (.exit msg) := by
  unfold ModelC.create_mlmodel
  by_cases h1 : size < 10000
  · exact ⟨_, if_pos h1⟩
  · rw [if_neg h1]
    by_cases h2 : levels < 2
    · exact ⟨_, if_pos h2⟩
    · rw [if_neg h2]
      rcases h with h | h | h
      · exact absurd h h1
      · exact absurd h h2
      · exact ⟨_, if_pos h⟩

theorem create_mlmodel_ok (size levels : Int) (vtype : String) (model : MLModel)
    (h : ModelC.create_mlmodel size levels vtype = .ok model) :
    10000 ≤ size ∧ 2 ≤ levels ∧ (vtype = "binary" ∨ vtype = "bipolar") ∧
      model = { size := size, levels := levels, vtype := vtype,
                space := { vectors := [], size := size, vtype := vtype, tags := [] },
                classes := [], version := "0.1.17" } := by
  unfold ModelC.create_mlmodel at h
  by_cases h1 : size < 10000
  · rw [if_pos h1] at h; cases h
  · rw [if_neg h1] at h
    by_cases h2 : levels < 2
    · rw [if_pos h2] at h; cases h
    · rw [if_neg h2] at h
      by_cases h3 : vtype ≠ "binary" ∧ vtype ≠ "bipolar"
      · rw [if_pos h3] at h; cases h
      · rw [if_neg h3] at h
        cases hc : SpaceC.create_space size vtype with
        | error f => rw [hc] at h; cases h
        | ok S =>
          rw [hc] at h
          obtain ⟨hS, -⟩ := create_space_ok _ _ _ hc
          subst hS
          refine ⟨by omega, by omega, ?_, (Except.ok.inj h).symm⟩
          by_cases hb : vtype = "binary"
          · exact Or.inl hb
          · exact Or.inr (by_contra fun hp => h3 ⟨hb, hp⟩)

theorem fit_mlmodel_checks (E : Env) (w : World) (model : MLModel) (points : List (List Rat))
    (num_features : Int) (labels : Option (List String)) (seed : Int)
    (h : (points.length : Int) < 3 ∨ (∃ ls, labels = some ls ∧ ls.length ≠ points.length) ∨
      (∃ ls, labels = some ls ∧ ls.toFinset.card < 2)) :
    ∃ msg, ModelC.fit_mlmodel E w model points num_features labels seed =
      .error (.exit msg) := by
  unfold ModelC.fit_mlmodel
  by_cases h1 : (points.length : Int) < 3
  · exact ⟨_, if_pos h1⟩
  · rw [if_neg h1]
    by_cases h2 : labels.isSome ∧ (points.length : Int) ≠ (labels.getD []).length
    · exact ⟨_, if_pos h2⟩
    · rw [if_neg h2]
      rcases h with h | ⟨ls, rfl, h⟩ | ⟨ls, rfl, h⟩
      · exact absurd h h1
      · exfalso
        apply h2
        simp only [Option.isSome_some, Option.getD_some, true_and]
        intro hp
        exact h (by exact_mod_cast hp.symm)
      · dsimp only
        rw [if_pos]
        · exact ⟨_, rfl⟩
        · simp only [Option.isSome_some, true_and, collect_classes_nil,
            first_occurrences_length]
          exact_mod_cast h

/-! ## model.c: the value-to-level mapping -/

theorem find_level_some (mn gap x : Rat) (fuel : Nat) :
    ∀ (p l : Int), ModelC.find_level mn gap x fuel p = some l →
      p ≤ l ∧ l < p + fuel ∧ (mn + (l - 1) * gap ≤ x ∧ x < mn + l * gap) ∧
      ∀ q, p ≤ q → q < l → ¬ (mn + (q - 1) * gap ≤ x ∧ x < mn + q * gap) := by
  induction fuel with
  | zero => intro p l h; simp [ModelC.find_level] at h
  | succ n ih =>
    intro p l h
    unfold ModelC.find_level at h
    by_cases hp : mn + ((p : Rat) - 1) * gap ≤ x ∧ x < mn + (p : Rat) * gap
    · rw [if_pos hp] at h
      obtain rfl := Option.some.inj h
      refine ⟨le_refl _, by push_cast; omega, hp, ?_⟩
      intro q h1 h2
      omega
    · rw [if_neg hp] at h
      obtain ⟨a, b, c, d⟩ := ih (p + 1) l h
      refine ⟨by omega, by push_cast at b ⊢; omega, c, ?_⟩
      intro q h1 h2
      by_cases hq : q = p
      · subst hq; exact hp
      · exact d q (by omega) h2

theorem find_level_none (mn gap x : Rat) (fuel : Nat) :
    ∀ (p : Int), ModelC.find_level mn gap x fuel p = none →
      ∀ q, p ≤ q → q < p + fuel → ¬ (mn + (q - 1) * gap ≤ x ∧ x < mn + q * gap) := by
  induction fuel with
  | zero => intro p _ q h1 h2; simp at h2; omega
  | succ n ih =>
    intro p h q h1 h2
    unfold ModelC.find_level at h
    by_cases hp : mn + ((p : Rat) - 1) * gap ≤ x ∧ x < mn + (p : Rat) * gap
    · rw [if_pos hp] at h; cases h
    · rw [if_neg hp] at h
      by_cases hq : q = p
      · subst hq; exact hp
      · exact ih (p + 1) h q (by omega) (by push_cast at h2 ⊢; omega)

/-- With a positive gap the bounds of two positions hold no common value. -/
theorem level_bounds_unique (mn gap x : Rat) (hg : 0 < gap) (l q : Int)
    (hl : mn + (l - 1) * gap ≤ x ∧ x < mn + l * gap)
    (hq : mn + (q - 1) * gap ≤ x ∧ x < mn + q * gap) : q = l := by
  by_contra hne
  rcases lt_or_gt_of_ne hne with h | h
  · have h1 : (q : Rat) ≤ (l : Rat) - 1 := by exact_mod_cast Int.le_sub_one_of_lt h
    have := mul_le_mul_of_nonneg_right h1 (le_of_lt hg)
    linarith [hl.1, hq.2]
  · have h1 : (l : Rat) ≤ (q : Rat) - 1 := by exact_mod_cast Int.le_sub_one_of_lt h
    have := mul_le_mul_of_nonneg_right h1 (le_of_lt hg)
    linarith [hl.2, hq.1]

theorem level_of_min (L : Int) (mn mx : Rat) : ModelC.level_of L (some (mn, mx)) mn = 0 := by
  simp [ModelC.level_of]

theorem level_of_max (L : Int) (mn mx : Rat) (h : mn < mx) :
    ModelC.level_of L (some (mn, mx)) mx = L - 1 := by
  unfold ModelC.level_of
  dsimp only
  rw [if_neg (ne_of_gt h), if_pos rfl]

theorem gap_facts (L : Int) (mn mx : Rat) (hL : 2 ≤ L) (hlt : mn < mx) :
    0 < (mx - mn) / L ∧ mn + (L : Rat) * ((mx - mn) / L) = mx := by
  have hLq : (0 : Rat) < L := by exact_mod_cast (by omega : (0 : Int) < L)
  constructor
  · exact div_pos (by linarith) hLq
  · field_simp

/-- Below min_v + (L-1)*gap the search finds the position whose bounds hold the
value. -/
theorem level_of_inner (L : Int) (mn mx x : Rat) (hL : 2 ≤ L) (hlt : mn < mx)
    (hx1 : mn < x) (hx2 : x < mn + ((L : Rat) - 1) * ((mx - mn) / L)) :
    1 ≤ ModelC.level_of L (some (mn, mx)) x ∧ ModelC.level_of L (some (mn, mx)) x ≤ L - 1 ∧
      mn + ((ModelC.level_of L (some (mn, mx)) x : Rat) - 1) * ((mx - mn) / L) ≤ x ∧
      x < mn + (ModelC.level_of L (some (mn, mx)) x : Rat) * ((mx - mn) / L) := by
  obtain ⟨hg, hsum⟩ := gap_facts L mn mx hL hlt
  have hxmx : x < mx := by
    have : mn + ((L : Rat) - 1) * ((mx - mn) / L) < mn + (L : Rat) * ((mx - mn) / L) := by
      nlinarith
    linarith
  unfold ModelC.level_of
  dsimp only
  rw [if_neg (ne_of_gt hx1), if_neg (ne_of_lt hxmx)]
  cases hf : ModelC.find_level mn ((mx - mn) / L) x L.toNat 0 with
  | none =>
    exfalso
    have hnone := find_level_none mn ((mx - mn) / L) x L.toNat 0 hf
    have hpos : 0 < (x - mn) / ((mx - mn) / L) := div_pos (by linarith) hg
    have hfl0 : 0 ≤ ⌊(x - mn) / ((mx - mn) / L)⌋ := Int.floor_nonneg.mpr (le_of_lt hpos)
    have hlt2 : (x - mn) / ((mx - mn) / L) < (L : Rat) - 1 := by
      rw [div_lt_iff₀ hg]; linarith
    have hfl1 : ⌊(x - mn) / ((mx - mn) / L)⌋ < L - 1 := by
      rw [Int.floor_lt]; push_cast; exact hlt2
    refine hnone (⌊(x - mn) / ((mx - mn) / L)⌋ + 1) (by omega) (by omega) ⟨?_, ?_⟩
    · have := Int.floor_le ((x - mn) / ((mx - mn) / L))
      rw [le_div_iff₀ hg] at this
      push_cast
      linarith
    · have := Int.lt_floor_add_one ((x - mn) / ((mx - mn) / L))
      rw [div_lt_iff₀ hg] at this
      push_cast
      linarith
  | some l =>
    obtain ⟨h1, h2, h3, -⟩ := find_level_some mn ((mx - mn) / L) x L.toNat 0 l hf
    simp only [Option.getD_some]
    refine ⟨?_, by omega, h3.1, h3.2⟩
    by_contra hl
    have hl0 : l = 0 := by omega
    rw [hl0] at h3
    have := h3.2
    simp at this
    linarith

/-- From min_v + (L-1)*gap up to max_v no position holds the value and
`level_count` stays 0. -/
theorem level_of_top (L : Int) (mn mx x : Rat) (hL : 2 ≤ L) (hlt : mn < mx)
    (hx1 : mn + ((L : Rat) - 1) * ((mx - mn) / L) ≤ x) (hx2 : x < mx) :
    ModelC.level_of L (some (mn, mx)) x = 0 ∧
      ∀ q : Int, q ≤ L - 1 →
        ¬ (mn + ((q : Rat) - 1) * ((mx - mn) / L) ≤ x ∧ x < mn + (q : Rat) * ((mx - mn) / L)) := by
  obtain ⟨hg, hsum⟩ := gap_facts L mn mx hL hlt
  have hLq : (2 : Rat) ≤ L := by exact_mod_cast hL
  have hno : ∀ q : Int, q ≤ L - 1 →
      ¬ (mn + ((q : Rat) - 1) * ((mx - mn) / L) ≤ x ∧ x < mn + (q : Rat) * ((mx - mn) / L)) := by
    intro q hq hP
    have hq1 : (q : Rat) ≤ (L : Rat) - 1 := by exact_mod_cast hq
    have := mul_le_mul_of_nonneg_right hq1 (le_of_lt hg)
    linarith [hP.2]
  refine ⟨?_, hno⟩
  have hxmn : mn < x := by nlinarith
  unfold ModelC.level_of
  dsimp only
  rw [if_neg (ne_of_gt hxmn), if_neg (ne_of_lt hx2)]
  cases hf : ModelC.find_level mn ((mx - mn) / L) x L.toNat 0 with
  | none => rfl
  | some l =>
    obtain ⟨h1, h2, h3, -⟩ := find_level_some mn ((mx - mn) / L) x L.toNat 0 l hf
    exact absurd h3 (hno l (by omega))

/-! ## model.c: predict_mlmodel -/

theorem retrieve_ok (test_indices : List Int) (vectors : List Vector) :
    ∀ (tests trainings : List Vector) (res : List Vector × List Vector),
      ModelC.retrieve test_indices vectors (tests, trainings) = .ok res →
      res = (tests ++ ModelC.test_points test_indices vectors,
             trainings ++ ModelC.training_points test_indices vectors) := by
  induction vectors with
  | nil =>
    intro tests trainings res h
    simp only [ModelC.retrieve, Except.ok.injEq] at h
    simp [ModelC.test_points, ModelC.training_points, ← h]
  | cons v vs ih =>
    intro tests trainings res h
    unfold ModelC.retrieve at h
    by_cases hp : ModelC.is_point_name v.name = true
    · rw [if_pos hp] at h
      cases ha : ModelC.atoi (v.name.data.drop 6) with
      | error f => rw [ha] at h; cases h
      | ok idx =>
        rw [ha] at h
        dsimp only at h
        have hpi : ModelC.point_index v = some idx := by
          simp only [ModelC.point_index, hp, ↓reduceIte, ha]
        by_cases hm : idx ∈ test_indices
        · rw [if_pos hm] at h
          by_cases hl : tests.length < test_indices.length
          · rw [if_pos hl] at h
            rw [ih _ _ _ h]
            simp [ModelC.test_points, ModelC.training_points, List.filter_cons, hpi, hm]
          · rw [if_neg hl] at h; cases h
        · rw [if_neg hm] at h
          rw [ih _ _ _ h]
          simp [ModelC.test_points, ModelC.training_points, List.filter_cons, hpi, hm]
    · rw [if_neg hp] at h
      have hpi : ModelC.point_index v = none := by
        simp only [ModelC.point_index, hp, Bool.false_eq_true, ↓reduceIte]
      rw [ih _ _ _ h]
      simp [ModelC.test_points, ModelC.training_points, List.filter_cons, hpi]

theorem test_points_index (test_indices : List Int) (vectors : List Vector) :
    ∀ v ∈ ModelC.test_points test_indices vectors,
      ∃ i, ModelC.point_index v = some i ∧ i ∈ test_indices := by
  intro v hv
  simp only [ModelC.test_points, List.mem_filter] at hv
  cases hpi : ModelC.point_index v with
  | none => rw [hpi] at hv; exact absurd hv.2 (by simp)
  | some i =>
    rw [hpi] at hv
    exact ⟨i, rfl, by simpa using hv.2⟩

/-- When the points of the space have pairwise distinct indices and some test
index names none of them, fewer test vectors are found than test indices were
given. -/
theorem test_points_short (test_indices : List Int) (vectors : List Vector)
    (hnd : (vectors.filterMap ModelC.point_index).Nodup) (t : Int) (ht : t ∈ test_indices)
    (habs : ∀ v ∈ vectors, ModelC.point_index v ≠ some t) :
    (ModelC.test_points test_indices vectors).length < test_indices.length := by
  have hsub : (ModelC.test_points test_indices vectors).Sublist vectors := List.filter_sublist _
  have hnd2 : ((ModelC.test_points test_indices vectors).filterMap ModelC.point_index).Nodup :=
    hnd.sublist (hsub.filterMap _)
  have hlen : ((ModelC.test_points test_indices vectors).filterMap ModelC.point_index).length =
      (ModelC.test_points test_indices vectors).length := by
    have key : ∀ l : List Vector, (∀ v ∈ l, ∃ i, ModelC.point_index v = some i) →
        (l.filterMap ModelC.point_index).length = l.length := by
      intro l
      induction l with
      | nil => intro _; rfl
      | cons a l ihl =>
        intro hall
        obtain ⟨i, hi⟩ := hall a (List.mem_cons_self _ _)
        rw [List.filterMap_cons_some hi, List.length_cons, List.length_cons,
          ihl (fun v hv => hall v (List.mem_cons_of_mem _ hv))]
    exact key _ (fun v hv => by
      obtain ⟨i, hi, -⟩ := test_points_index test_indices vectors v hv
      exact ⟨i, hi⟩)
  have hsubset : (ModelC.test_points test_indices vectors).filterMap ModelC.point_index ⊆
      test_indices.erase t := by
    intro i hi
    obtain ⟨v, hv, hvi⟩ := List.mem_filterMap.mp hi
    obtain ⟨j, hj, hjm⟩ := test_points_index test_indices vectors v hv
    rw [hvi] at hj
    obtain rfl := Option.some.inj hj
    have hne : i ≠ t := by
      intro he
      subst he
      exact habs v (hsub.subset hv) hvi
    exact (List.mem_erase_of_ne hne).mpr hjm
  have h1 := (List.subperm_of_subset hnd2 hsubset).length_le
  have h2 := List.length_erase_of_mem ht
  have h3 : 0 < test_indices.length := List.length_pos_of_mem ht
  omega

theorem class_sum_untagged (E : Env) (c : String) (vs : List Vector)
    (h : ∀ v ∈ vs, ModelC.has_tag v c = false) :
    ∀ st, ModelC.class_sum E c vs st = .ok st := by
  induction vs with
  | nil => intro st; rfl
  | cons v vs ih =>
    intro st
    obtain ⟨cv, w⟩ := st
    unfold ModelC.class_sum
    rw [h v (List.mem_cons_self _ _)]
    simp only [Bool.false_eq_true, ↓reduceIte]
    exact ih (fun u hu => h u (List.mem_cons_of_mem _ hu)) _

theorem build_classes_untagged (E : Env) (trainings : List Vector) (c : String)
    (h : ∀ v ∈ trainings, ModelC.has_tag v c = false) (classes : List String) :
    c ∈ classes → ∀ (idx : Int) (st : List Vector × World),
      ∃ f, ModelC.build_classes E trainings classes idx st = .error f := by
  induction classes with
  | nil => intro hc; simp at hc
  | cons a rest ih =>
    intro hc idx st
    obtain ⟨cvs, w⟩ := st
    unfold ModelC.build_classes
    by_cases ha : a = c
    · subst ha
      rw [class_sum_untagged E a trainings h]
      exact ⟨_, rfl⟩
    · have hc2 : c ∈ rest := by
        rcases List.mem_cons.mp hc with h1 | h1
        · exact absurd h1.symm ha
        · exact h1
      cases hs : ModelC.class_sum E a trainings (none, w) with
      | error f => exact ⟨f, rfl⟩
      | ok r =>
        obtain ⟨cv, w1⟩ := r
        cases cv with
        | none => exact ⟨_, rfl⟩
        | some v => exact ih hc2 _ _

/-- The three failures of predict_mlmodel: no test index; a test index that
names no point of the space; a class without a tagged non-test point. -/
theorem predict_mlmodel_fails (E : Env) (w : World) (model : MLModel) (test_indices : List Int)
    (retraining_iterations : Int) (model_error_rate : Rat)
    (h : test_indices = [] ∨
      ((model.space.vectors.filterMap ModelC.point_index).Nodup ∧
        ∃ t ∈ test_indices, ∀ v ∈ model.space.vectors, ModelC.point_index v ≠ some t) ∨
      (∃ c ∈ model.classes,
        ∀ v ∈ ModelC.training_points test_indices model.space.vectors,
          ModelC.has_tag v c = false)) :
    ∃ f, ModelC.predict_mlmodel E w model test_indices retraining_iterations
      model_error_rate = .error f := by
  unfold ModelC.predict_mlmodel
  by_cases h0 : test_indices.length = 0
  · exact ⟨_, if_pos h0⟩
  · rw [if_neg h0]
    cases hr : ModelC.retrieve test_indices model.space.vectors ([], []) with
    | error f => exact ⟨f, rfl⟩
    | ok r =>
      have hres := retrieve_ok test_indices model.space.vectors [] [] r hr
      simp only [List.nil_append] at hres
      subst hres
      dsimp only
      by_cases hl : (ModelC.test_points test_indices model.space.vectors).length ≠
          test_indices.length
      · exact ⟨_, if_pos hl⟩
      · rw [if_neg hl]
        rcases h with h | ⟨hnd, t, ht, habs⟩ | ⟨c, hc, hun⟩
        · exact absurd (by rw [h]; rfl) h0
        · exact absurd (ne_of_lt (test_points_short test_indices _ hnd t ht habs)) hl
        · obtain ⟨f, hf⟩ := build_classes_untagged E _ c hun model.classes hc 0 ([], w)
          rw [hf]
          exact ⟨f, rfl⟩

/-- A call of predict_mlmodel that returns leaves the values behind
`retraining_iterations` and `model_error_rate` as they were. -/
theorem predict_mlmodel_outputs (E : Env) (w w1 : World) (model : MLModel)
    (test_indices : List Int) (retraining_iterations : Int) (model_error_rate : Rat)
    (result : ModelC.Prediction)
    (h : ModelC.predict_mlmodel E w model test_indices retraining_iterations
      model_error_rate = .ok (result, w1)) :
    result.retraining_iterations = retraining_iterations ∧
      result.model_error_rate = model_error_rate := by
  unfold ModelC.predict_mlmodel at h
  by_cases h0 : test_indices.length = 0
  · rw [if_pos h0] at h; cases h
  · rw [if_neg h0] at h
    cases hr : ModelC.retrieve test_indices model.space.vectors ([], []) with
    | error f => rw [hr] at h; cases h
    | ok r =>
      obtain ⟨tv, tr⟩ := r
      rw [hr] at h
      dsimp only at h
      by_cases hl : tv.length ≠ test_indices.length
      · rw [if_pos hl] at h; cases h
      · rw [if_neg hl] at h
        cases hb : ModelC.build_classes E tr model.classes 0 ([], w) with
        | error f => rw [hb] at h; cases h
        | ok r2 =>
          obtain ⟨cvs, w2⟩ := r2
          rw [hb] at h
          dsimp only at h
          cases hp : ModelC.predict_each (model.classes.zip cvs) tv with
          | error f => rw [hp] at h; cases h
          | ok ps =>
            rw [hp] at h
            simp only [Except.ok.injEq, Prod.mk.injEq] at h
            rw [← h.1]
            exact ⟨rfl, rfl⟩

/-! ## model.c: the class vectors of predict_mlmodel -/

theorem elementwise_add_ok (as : List Int) :
    ∀ (bs cs : List Int), elementwise add_int as bs = .ok cs →
      cs = List.zipWith (· + ·) as bs := by
  induction as with
  | nil => intro bs cs h; simp only [elementwise, Except.ok.injEq] at h; simp [← h]
  | cons a as ih =>
    intro bs cs h
    cases bs with
    | nil => simp only [elementwise, Except.ok.injEq] at h; simp [← h]
    | cons b bs =>
      unfold elementwise at h
      cases hc : add_int a b with
      | error f => rw [hc] at h; cases h
      | ok c =>
        rw [hc] at h
        dsimp only at h
        cases hr : elementwise add_int as bs with
        | error f => rw [hr] at h; cases h
        | ok rest =>
          rw [hr] at h
          simp only [Except.ok.injEq] at h
          obtain ⟨hcv, -⟩ := checked_eq_ok _ _ hc
          rw [← h, ih bs rest hr, hcv]
          rfl

theorem arithmetic_bundle_inv (E : Env) (w w1 : World) (v1 v2 r : Vector)
    (h : ArithmeticC.bundle_vectors E w v1 v2 = .ok (r, w1)) :
    v1.vector.length = v2.vector.length ∧ v1.vtype = v2.vtype ∧
      r.vector = List.zipWith (· + ·) v1.vector v2.vector ∧ r.vtype = v1.vtype ∧
      r.tags = [] := by
  unfold ArithmeticC.bundle_vectors at h
  by_cases hs : v1.size ≠ v2.size
  · rw [if_pos hs] at h; cases h
  · rw [if_neg hs] at h
    by_cases ht : v1.vtype ≠ v2.vtype
    · rw [if_pos ht] at h; cases h
    · rw [if_neg ht] at h
      cases hc : create_vector E w "BundleResult" v1.size v1.vtype (-1) false with
      | error f => rw [hc] at h; cases h
      | ok res =>
        obtain ⟨cr, w2⟩ := res
        rw [hc] at h
        dsimp only at h
        cases he : elementwise add_int v1.vector v2.vector with
        | error f => rw [he] at h; cases h
        | ok elems =>
          rw [he] at h
          simp only [Except.ok.injEq, Prod.mk.injEq] at h
          obtain ⟨hn, hv⟩ := create_vector_fields _ _ _ _ _ _ _ _ _ hc
          have htags : cr.tags = [] := by
            unfold create_vector at hc
            by_cases hsz : v1.size < 10000
            · rw [if_pos hsz] at hc; cases hc
            · rw [if_neg hsz] at hc
              dsimp only at hc
              generalize (if (-1 : Int) ≠ -1 then srand w (-1)
                else srand (time_null E w).2 (time_null E w).1) = w0 at hc
              cases hf : fill_random E v1.vtype v1.size.toNat w0 with
              | error f => rw [hf] at hc; cases hc
              | ok st =>
                rw [hf] at hc
                simp only [Except.ok.injEq, Prod.mk.injEq] at hc
                rw [← hc.1]
          refine ⟨?_, not_not.mp ht, ?_, ?_, ?_⟩
          · have := not_not.mp hs
            simp only [Vector.size] at this
            exact_mod_cast this
          · rw [← h.1]
            exact elementwise_add_ok _ _ _ he
          · rw [← h.1]; exact hv
          · rw [← h.1]; exact htags

theorem column_sums_cons_cons (a v : List Int) (vs : List (List Int))
    (hv : v.length = a.length) :
    ModelC.column_sums (List.zipWith (· + ·) a v :: vs) = ModelC.column_sums (a :: v :: vs) := by
  unfold ModelC.column_sums
  simp only [List.headD_cons, List.length_zipWith, hv, min_self, List.map_cons, List.sum_cons]
  apply List.map_congr_left
  intro k hk
  rw [List.mem_range] at hk
  have h1 : (List.zipWith (· + ·) a v).getD k 0 = a.getD k 0 + v.getD k 0 := by
    simp only [List.getD_eq_getElem?_getD, List.getElem?_zipWith]
    rw [List.getElem?_eq_getElem hk, List.getElem?_eq_getElem (by omega)]
    rfl
  rw [h1, add_assoc]

theorem column_sums_single (a : List Int) : ModelC.column_sums [a] = a := by
  unfold ModelC.column_sums
  apply List.ext_getElem
  · simp
  · intro k h1 h2
    simp only [List.headD_cons, List.length_map, List.length_range] at h1
    simp [List.getD_eq_getElem?_getD, List.getElem?_eq_getElem h1]

/-- The running sum of bundle_vectors calls is the element-wise sum. -/
theorem foldl_zipWith_column_sums (vs : List (List Int)) :
    ∀ a : List Int, (∀ u ∈ vs, u.length = a.length) →
      vs.foldl (List.zipWith (· + ·)) a = ModelC.column_sums (a :: vs) := by
  induction vs with
  | nil => intro a _; simp [column_sums_single]
  | cons v vs ih =>
    intro a h
    have hv := h v (List.mem_cons_self _ _)
    rw [List.foldl_cons, ih, column_sums_cons_cons a v vs hv]
    intro u hu
    rw [List.length_zipWith, hv, min_self]
    exact h u (List.mem_cons_of_mem _ hu)

theorem class_sum_some (E : Env) (c : String) (vs : List Vector) :
    ∀ (acc : Vector) (w w1 : World) (res : Option Vector),
      ModelC.class_sum E c vs (some acc, w) = .ok (res, w1) →
      ∃ r, res = some r ∧
        (∀ u ∈ vs.filter (fun v => ModelC.has_tag v c), u.vector.length = acc.vector.length) ∧
        r.vector = ((vs.filter (fun v => ModelC.has_tag v c)).map Vector.vector).foldl
          (List.zipWith (· + ·)) acc.vector := by
  induction vs with
  | nil =>
    intro acc w w1 res h
    simp only [ModelC.class_sum, Except.ok.injEq, Prod.mk.injEq] at h
    exact ⟨acc, h.1.symm, by simp, by simp⟩
  | cons v vs ih =>
    intro acc w w1 res h
    unfold ModelC.class_sum at h
    by_cases ht : ModelC.has_tag v c = true
    · rw [if_pos ht] at h
      dsimp only at h
      cases hb : ArithmeticC.bundle_vectors E w acc v with
      | error f => rw [hb] at h; cases h
      | ok rb =>
        obtain ⟨temp, w2⟩ := rb
        rw [hb] at h
        dsimp only at h
        obtain ⟨hlen, -, hvec, -, -⟩ := arithmetic_bundle_inv E w w2 acc v temp hb
        obtain ⟨r, hr, hall, hrv⟩ := ih temp w2 w1 res h
        have htl : temp.vector.length = acc.vector.length := by
          rw [hvec, List.length_zipWith, hlen, min_self]
        refine ⟨r, hr, ?_, ?_⟩
        · intro u hu
          rw [List.filter_cons, if_pos ht] at hu
          rcases List.mem_cons.mp hu with rfl | hu
          · exact hlen.symm
          · rw [hall u hu, htl]
        · rw [hrv, List.filter_cons, if_pos ht, List.map_cons, List.foldl_cons, hvec]
    · rw [if_neg ht] at h
      obtain ⟨r, hr, hall, hrv⟩ := ih acc w w1 res h
      refine ⟨r, hr, ?_, ?_⟩
      · intro u hu
        rw [List.filter_cons, if_neg ht] at hu
        exact hall u hu
      · rw [hrv, List.filter_cons, if_neg ht]

/-- The class vector of a class: the element-wise sum of the training vectors
that carry its tag, and none when no training vector carries it. -/
theorem class_sum_none (E : Env) (c : String) (vs : List Vector) :
    ∀ (w w1 : World) (res : Option Vector),
      ModelC.class_sum E c vs (none, w) = .ok (res, w1) →
      (res = none ∧ vs.filter (fun v => ModelC.has_tag v c) = []) ∨
      (∃ r, res = some r ∧ vs.filter (fun v => ModelC.has_tag v c) ≠ [] ∧
        r.vector = ModelC.column_sums ((vs.filter (fun v => ModelC.has_tag v c)).map
          Vector.vector)) := by
  induction vs with
  | nil =>
    intro w w1 res h
    simp only [ModelC.class_sum, Except.ok.injEq, Prod.mk.injEq] at h
    exact Or.inl ⟨h.1.symm, rfl⟩
  | cons v vs ih =>
    intro w w1 res h
    unfold ModelC.class_sum at h
    by_cases ht : ModelC.has_tag v c = true
    · rw [if_pos ht] at h
      dsimp only at h
      obtain ⟨r, hr, hall, hrv⟩ := class_sum_some E c vs (ModelC.copy_vector v) w w1 res h
      refine Or.inr ⟨r, hr, ?_, ?_⟩
      · rw [List.filter_cons, if_pos ht]; simp
      · rw [hrv, List.filter_cons, if_pos ht, List.map_cons]
        exact foldl_zipWith_column_sums _ _ (by
          intro u hu
          obtain ⟨x, hx, rfl⟩ := List.mem_map.mp hu
          exact hall x hx)
    · rw [if_neg ht] at h
      rcases ih w w1 res h with ⟨h1, h2⟩ | ⟨r, h1, h2, h3⟩
      · exact Or.inl ⟨h1, by rw [List.filter_cons, if_neg ht]; exact h2⟩
      · exact Or.inr ⟨r, h1, by rw [List.filter_cons, if_neg ht]; exact h2,
          by rw [List.filter_cons, if_neg ht]; exact h3⟩

theorem add_tag_vector (v : Vector) (t : String) : (ModelC.add_tag v t).vector = v.vector := by
  unfold ModelC.add_tag
  split <;> rfl

theorem build_classes_ok (E : Env) (trainings : List Vector) (classes : List String) :
    ∀ (idx : Int) (cvs res : List Vector) (w w1 : World),
      ModelC.build_classes E trainings classes idx (cvs, w) = .ok (res, w1) →
      ∃ protos, res = cvs ++ protos ∧ protos.length = classes.length ∧
        ∀ (j : Nat) (c : String), classes[j]? = some c → ∃ p : Vector, protos[j]? = some p ∧
          trainings.filter (fun v => ModelC.has_tag v c) ≠ [] ∧
          p.vector = ModelC.column_sums ((trainings.filter (fun v => ModelC.has_tag v c)).map
            Vector.vector) := by
  induction classes with
  | nil =>
    intro idx cvs res w w1 h
    simp only [ModelC.build_classes, Except.ok.injEq, Prod.mk.injEq] at h
    exact ⟨[], by simp [← h.1], rfl, by simp⟩
  | cons a rest ih =>
    intro idx cvs res w w1 h
    unfold ModelC.build_classes at h
    cases hs : ModelC.class_sum E a trainings (none, w) with
    | error f => rw [hs] at h; cases h
    | ok r =>
      obtain ⟨cv, w2⟩ := r
      rw [hs] at h
      cases cv with
      | none => cases h
      | some v =>
        dsimp only at h
        obtain ⟨protos, hres, hlen, hall⟩ := ih _ _ _ _ _ h
        rcases class_sum_none E a trainings w w2 _ hs with ⟨h1, -⟩ | ⟨r, h1, h2, h3⟩
        · cases h1
        · obtain rfl := Option.some.inj h1
          refine ⟨ModelC.add_tag { v with name := ModelC.class_name idx } a :: protos,
            by rw [hres]; simp, by simp [hlen], ?_⟩
          intro j c hj
          cases j with
          | zero =>
            simp only [List.getElem?_cons_zero, Option.some.injEq] at hj
            subst hj
            exact ⟨ModelC.add_tag { v with name := ModelC.class_name idx } a,
              List.getElem?_cons_zero, h2, by rw [add_tag_vector]; exact h3⟩
          | succ j =>
            simp only [List.getElem?_cons_succ] at hj ⊢
            exact hall j c hj

/-! ## model.c: the nearest class vector -/

theorem cosine_real_unique (p a b : Int) (r1 r2 : ℝ)
    (h1 : (DistValue.cosine p a b).IsReal r1) (h2 : (DistValue.cosine p a b).IsReal r2) :
    r1 = r2 := by
  rw [h1.2, h2.2]

theorem cosine_finite_iff (p a b : Int) :
    (DistValue.cosine p a b).finite = true ↔ ∃ r, (DistValue.cosine p a b).IsReal r := by
  simp only [DistValue.finite, decide_eq_true_eq, DistValue.IsReal]
  constructor
  · rintro ⟨ha, hb⟩
    have har : (0 : ℝ) < a := by exact_mod_cast ha
    have hbr : (0 : ℝ) < b := by exact_mod_cast hb
    exact ⟨_, ne_of_gt (mul_pos (Real.sqrt_pos.mpr har) (Real.sqrt_pos.mpr hbr)), rfl⟩
  · rintro ⟨r, hs, -⟩
    constructor
    · by_contra hc
      have : (a : ℝ) ≤ 0 := by exact_mod_cast not_lt.mp hc
      exact hs (by rw [Real.sqrt_eq_zero_of_nonpos this, zero_mul])
    · by_contra hc
      have : (b : ℝ) ≤ 0 := by exact_mod_cast not_lt.mp hc
      exact hs (by rw [Real.sqrt_eq_zero_of_nonpos this, mul_zero])

theorem cosine_below_finite (p1 a1 b1 p2 a2 b2 : Int)
    (h : (DistValue.cosine p1 a1 b1).below (DistValue.cosine p2 a2 b2) = true) :
    (DistValue.cosine p1 a1 b1).finite = true := by
  simp only [DistValue.below] at h
  by_cases hn : a1 ≤ 0 ∨ b1 ≤ 0 ∨ a2 ≤ 0 ∨ b2 ≤ 0
  · rw [if_pos hn] at h; cases h
  · simp only [DistValue.finite, decide_eq_true_eq]
    omega

/-- The comparison of two cosine distances as the model decides it agrees with
the comparison of the reals they denote. -/
theorem cosine_below_iff (p1 a1 b1 p2 a2 b2 : Int) (r1 r2 : ℝ)
    (h1 : (DistValue.cosine p1 a1 b1).IsReal r1) (h2 : (DistValue.cosine p2 a2 b2).IsReal r2) :
    (DistValue.cosine p1 a1 b1).below (DistValue.cosine p2 a2 b2) = true ↔ r1 < r2 := by
  have f1 := (cosine_finite_iff p1 a1 b1).mpr ⟨r1, h1⟩
  have f2 := (cosine_finite_iff p2 a2 b2).mpr ⟨r2, h2⟩
  simp only [DistValue.finite, decide_eq_true_eq] at f1 f2
  obtain ⟨hs1, hr1⟩ := h1
  obtain ⟨hs2, hr2⟩ := h2
  subst hr1
  subst hr2
  have ha1 : (0 : ℝ) < a1 := by exact_mod_cast f1.1
  have hb1 : (0 : ℝ) < b1 := by exact_mod_cast f1.2
  have ha2 : (0 : ℝ) < a2 := by exact_mod_cast f2.1
  have hb2 : (0 : ℝ) < b2 := by exact_mod_cast f2.2
  have hp1 : 0 < Real.sqrt a1 * Real.sqrt b1 :=
    mul_pos (Real.sqrt_pos.mpr ha1) (Real.sqrt_pos.mpr hb1)
  have hp2 : 0 < Real.sqrt a2 * Real.sqrt b2 :=
    mul_pos (Real.sqrt_pos.mpr ha2) (Real.sqrt_pos.mpr hb2)
  have hq1 : (Real.sqrt a1 * Real.sqrt b1) * (Real.sqrt a1 * Real.sqrt b1) = (a1 : ℝ) * b1 := by
    have e1 := Real.mul_self_sqrt (le_of_lt ha1)
    have e2 := Real.mul_self_sqrt (le_of_lt hb1)
    calc (Real.sqrt a1 * Real.sqrt b1) * (Real.sqrt a1 * Real.sqrt b1)
        = (Real.sqrt a1 * Real.sqrt a1) * (Real.sqrt b1 * Real.sqrt b1) := by ring
      _ = (a1 : ℝ) * b1 := by rw [e1, e2]
  have hq2 : (Real.sqrt a2 * Real.sqrt b2) * (Real.sqrt a2 * Real.sqrt b2) = (a2 : ℝ) * b2 := by
    have e1 := Real.mul_self_sqrt (le_of_lt ha2)
    have e2 := Real.mul_self_sqrt (le_of_lt hb2)
    calc (Real.sqrt a2 * Real.sqrt b2) * (Real.sqrt a2 * Real.sqrt b2)
        = (Real.sqrt a2 * Real.sqrt a2) * (Real.sqrt b2 * Real.sqrt b2) := by ring
      _ = (a2 : ℝ) * b2 := by rw [e1, e2]
  generalize Real.sqrt a1 * Real.sqrt b1 = s1 at hp1 hq1 hs1
  generalize Real.sqrt a2 * Real.sqrt b2 = s2 at hp2 hq2 hs2
  have hmain : (1 - (p1 : ℝ) / s1 < 1 - (p2 : ℝ) / s2) ↔ ((p2 : ℝ) * s1 < (p1 : ℝ) * s2) := by
    rw [sub_lt_sub_iff_left, div_lt_div_iff₀ hp2 hp1]
  rw [hmain]
  have cast_lt : ∀ x y : Int, x < y ↔ ((x : ℝ) < (y : ℝ)) := fun x y => Int.cast_lt.symm
  simp only [DistValue.below]
  rw [if_neg (by omega)]
  by_cases h1 : 0 ≤ p1
  · have h1r : (0 : ℝ) ≤ p1 := by exact_mod_cast h1
    rw [if_pos h1]
    by_cases h2 : p2 < 0
    · have h2r : (p2 : ℝ) < 0 := by exact_mod_cast h2
      rw [if_pos h2]
      simp only [true_iff]
      have := mul_neg_of_neg_of_pos h2r hp1
      have := mul_nonneg h1r (le_of_lt hp2)
      linarith
    · have h2r : (0 : ℝ) ≤ p2 := by exact_mod_cast not_lt.mp h2
      rw [if_neg h2, decide_eq_true_eq, cast_lt]
      push_cast
      rw [← mul_self_lt_iff _ _ (mul_nonneg h2r (le_of_lt hp1)) (mul_nonneg h1r (le_of_lt hp2))]
      have e1 : (p2 : ℝ) * s1 * ((p2 : ℝ) * s1) = (p2 : ℝ) * p2 * (s1 * s1) := by ring
      have e2 : (p1 : ℝ) * s2 * ((p1 : ℝ) * s2) = (p1 : ℝ) * p1 * (s2 * s2) := by ring
      rw [e1, e2, hq1, hq2]
  · have h1r : (p1 : ℝ) < 0 := by exact_mod_cast not_le.mp h1
    rw [if_neg h1]
    by_cases h2 : 0 ≤ p2
    · have h2r : (0 : ℝ) ≤ p2 := by exact_mod_cast h2
      rw [if_pos h2]
      simp only [Bool.false_eq_true, false_iff, not_lt]
      have := mul_neg_of_neg_of_pos h1r hp2
      have := mul_nonneg h2r (le_of_lt hp1)
      linarith
    · have h2r : (p2 : ℝ) < 0 := by exact_mod_cast not_le.mp h2
      rw [if_neg h2, decide_eq_true_eq, cast_lt]
      push_cast
      have hx : 0 ≤ -((p1 : ℝ) * s2) := by
        have := mul_neg_of_neg_of_pos h1r hp2
        linarith
      have hy : 0 ≤ -((p2 : ℝ) * s1) := by
        have := mul_neg_of_neg_of_pos h2r hp1
        linarith
      have key := mul_self_lt_iff (-((p1 : ℝ) * s2)) (-((p2 : ℝ) * s1)) hx hy
      have e1 : -((p2 : ℝ) * s1) * -((p2 : ℝ) * s1) = (p2 : ℝ) * p2 * (s1 * s1) := by ring
      have e2 : -((p1 : ℝ) * s2) * -((p1 : ℝ) * s2) = (p1 : ℝ) * p1 * (s2 * s2) := by ring
      rw [e1, e2, hq1, hq2] at key
      rw [key]
      constructor <;> intro h <;> linarith

theorem closest_fold (t : Vector) (cls : List (String × Vector)) :
    ∀ (st res : Option (String × DistValue)), ModelC.closest t cls st = .ok res →
      ∃ ds : List (String × DistValue), ds.length = cls.length ∧
        (∀ (j : Nat) (c : String) (v : Vector), cls[j]? = some (c, v) →
          ∃ d, SpaceC.vector_distance t v "cosine" = .ok d ∧ ds[j]? = some (c, d)) ∧
        (∀ e ∈ ds, ∃ p a b, e.2 = DistValue.cosine p a b) ∧
        res = ds.foldl ModelC.closest_step st := by
  induction cls with
  | nil =>
    intro st res h
    simp only [ModelC.closest, Except.ok.injEq] at h
    exact ⟨[], rfl, by simp, by simp, by simp [h]⟩
  | cons x cls ih =>
    intro st res h
    obtain ⟨c, v⟩ := x
    unfold ModelC.closest at h
    cases hd : SpaceC.vector_distance t v "cosine" with
    | error f => rw [hd] at h; cases h
    | ok d =>
      rw [hd] at h
      dsimp only at h
      have hstep : ∀ st2, (ModelC.closest t cls st2 = .ok res) →
          st2 = ModelC.closest_step st (c, d) →
          ∃ ds : List (String × DistValue), ds.length = (((c, v) :: cls) : List _).length ∧
            (∀ (j : Nat) (c1 : String) (v1 : Vector), ((c, v) :: cls)[j]? = some (c1, v1) →
              ∃ d1, SpaceC.vector_distance t v1 "cosine" = .ok d1 ∧ ds[j]? = some (c1, d1)) ∧
            (∀ e ∈ ds, ∃ p a b, e.2 = DistValue.cosine p a b) ∧
            res = ds.foldl ModelC.closest_step st := by
        intro st2 h2 hst
        obtain ⟨ds, hlen, hall, hcos, hres⟩ := ih st2 res h2
        refine ⟨(c, d) :: ds, by simp [hlen], ?_, ?_, ?_⟩
        · intro j c1 v1 hj
          cases j with
          | zero =>
            simp only [List.getElem?_cons_zero, Option.some.injEq, Prod.mk.injEq] at hj
            obtain ⟨rfl, rfl⟩ := hj
            exact ⟨d, hd, List.getElem?_cons_zero⟩
          | succ j =>
            simp only [List.getElem?_cons_succ] at hj ⊢
            exact hall j c1 v1 hj
        · intro e he
          rcases List.mem_cons.mp he with rfl | he
          · exact vector_distance_cosine_shape t v d hd
          · exact hcos e he
        · rw [List.foldl_cons, ← hst]
          exact hres
      by_cases hb : ModelC.nearer d st = true
      · rw [if_pos hb] at h
        exact hstep _ h (by simp only [ModelC.closest_step]; rw [if_pos hb])
      · rw [if_neg hb] at h
        exact hstep _ h (by simp only [ModelC.closest_step]; rw [if_neg hb])

/-- The scan keeps the first entry of least distance among the entries that
denote a real. -/
theorem closest_scan_spec (ds : List (String × DistValue))
    (hcos : ∀ e ∈ ds, ∃ p a b, e.2 = DistValue.cosine p a b) :
    (ds.foldl ModelC.closest_step none = none → ∀ e ∈ ds, e.2.finite = false) ∧
    (∀ (c : String) (d : DistValue), ds.foldl ModelC.closest_step none = some (c, d) →
      d.finite = true ∧ ∃ jc : Nat, ds[jc]? = some (c, d) ∧
        ∀ (j : Nat) (e : String × DistValue) (r re : ℝ), ds[j]? = some e →
          d.IsReal r → e.2.IsReal re → r ≤ re ∧ (j < jc → r < re)) := by
  induction ds using List.reverseRecOn with
  | nil => simp
  | append_singleton ds x ih =>
    have hcos1 : ∀ e ∈ ds, ∃ p a b, e.2 = DistValue.cosine p a b :=
      fun e he => hcos e (List.mem_append_left _ he)
    obtain ⟨px, ax, bx, hx⟩ := hcos x (by simp)
    obtain ⟨ih1, ih2⟩ := ih hcos1
    rw [List.foldl_append, List.foldl_cons, List.foldl_nil]
    cases hprev : ds.foldl ModelC.closest_step none with
    | none =>
      have hnf := ih1 hprev
      simp only [ModelC.closest_step, ModelC.nearer]
      by_cases hf : x.2.finite = true
      · rw [if_pos hf]
        refine ⟨by simp, ?_⟩
        intro c d hcd
        obtain rfl : x = (c, d) := Option.some.inj hcd
        refine ⟨hf, ds.length, by simp, ?_⟩
        intro j e r re hj hr hre
        rcases Nat.lt_or_ge j ds.length with hlt | hge
        · exfalso
          rw [List.getElem?_append_left hlt] at hj
          have hmem : e ∈ ds := List.mem_iff_getElem?.mpr ⟨j, hj⟩
          obtain ⟨p, a, b, he⟩ := hcos1 e hmem
          have := hnf e hmem
          rw [he] at this hre
          rw [(cosine_finite_iff p a b).mpr ⟨re, hre⟩] at this
          cases this
        · have hj2 : j = ds.length := by
            by_contra hne
            rw [List.getElem?_eq_none (by simp; omega)] at hj
            cases hj
          subst hj2
          simp only [List.getElem?_concat_length, Option.some.injEq] at hj
          subst hj
          simp only at hx
          rw [hx] at hr hre
          rw [cosine_real_unique _ _ _ _ _ hr hre]
          exact ⟨le_refl _, fun h => absurd h (lt_irrefl _)⟩
      · rw [if_neg hf]
        refine ⟨?_, by simp⟩
        intro _ e he
        rcases List.mem_append.mp he with he | he
        · exact hnf e he
        · rw [List.mem_singleton] at he
          subst he
          simpa using hf
    | some prev =>
      obtain ⟨c0, d0⟩ := prev
      obtain ⟨hf0, jc0, hjc0, hmin0⟩ := ih2 c0 d0 hprev
      have hjlt : jc0 < ds.length := by
        by_contra hge
        rw [List.getElem?_eq_none (by omega)] at hjc0
        cases hjc0
      obtain ⟨p0, a0, b0, hd0⟩ := hcos1 (c0, d0) (List.mem_iff_getElem?.mpr ⟨jc0, hjc0⟩)
      simp only at hd0
      simp only [ModelC.closest_step, ModelC.nearer]
      by_cases hb : x.2.below d0 = true
      · rw [if_pos hb]
        refine ⟨by simp, ?_⟩
        intro c d hcd
        obtain rfl : x = (c, d) := Option.some.inj hcd
        simp only at hx hb
        have hfx : d.finite = true := by
          rw [hx, hd0] at hb
          rw [hx]
          exact cosine_below_finite _ _ _ _ _ _ hb
        refine ⟨hfx, ds.length, by simp, ?_⟩
        intro j e r re hj hr hre
        obtain ⟨r0, hr0⟩ := (cosine_finite_iff p0 a0 b0).mp (hd0 ▸ hf0)
        have hlt0 : r < r0 := by
          rw [hx] at hr
          have := (cosine_below_iff px ax bx p0 a0 b0 r r0 hr hr0).mp (by rw [← hx, ← hd0]; exact hb)
          exact this
        rcases Nat.lt_or_ge j ds.length with hlt | hge
        · rw [List.getElem?_append_left hlt] at hj
          have := (hmin0 j e r0 re hj (hd0 ▸ hr0) hre).1
          exact ⟨by linarith, fun _ => by linarith⟩
        · have hj2 : j = ds.length := by
            by_contra hne
            rw [List.getElem?_eq_none (by simp; omega)] at hj
            cases hj
          subst hj2
          simp only [List.getElem?_concat_length, Option.some.injEq] at hj
          subst hj
          rw [hx] at hr hre
          rw [cosine_real_unique _ _ _ _ _ hr hre]
          exact ⟨le_refl _, fun h => absurd h (lt_irrefl _)⟩
      · rw [if_neg hb]
        refine ⟨by simp, ?_⟩
        intro c d hcd
        obtain ⟨rfl, rfl⟩ : c0 = c ∧ d0 = d := by
          have := Option.some.inj hcd
          exact ⟨congrArg Prod.fst this, congrArg Prod.snd this⟩
        refine ⟨hf0, jc0, by rw [List.getElem?_append_left hjlt]; exact hjc0, ?_⟩
        intro j e r re hj hr hre
        rcases Nat.lt_or_ge j ds.length with hlt | hge
        · rw [List.getElem?_append_left hlt] at hj
          exact hmin0 j e r re hj hr hre
        · have hj2 : j = ds.length := by
            by_contra hne
            rw [List.getElem?_eq_none (by simp; omega)] at hj
            cases hj
          subst hj2
          simp only [List.getElem?_concat_length, Option.some.injEq] at hj
          subst hj
          refine ⟨?_, fun h => absurd h (by omega)⟩
          rw [hx] at hre hb
          rw [hd0] at hr hb
          by_contra hlt
          exact hb ((cosine_below_iff px ax bx p0 a0 b0 re r hre hr).mpr (not_le.mp hlt))

theorem predict_each_ok (classes : List (String × Vector)) (tests : List Vector) :
    ∀ predictions : List String, ModelC.predict_each classes tests = .ok predictions →
      predictions.length = tests.length ∧
      ∀ (i : Nat) (label : String), predictions[i]? = some label →
        ∃ (t : Vector) (d : DistValue), tests[i]? = some t ∧
          ModelC.closest t classes none = .ok (some (label, d)) := by
  induction tests with
  | nil =>
    intro predictions h
    simp only [ModelC.predict_each, Except.ok.injEq] at h
    subst h
    simp
  | cons t tests ih =>
    intro predictions h
    unfold ModelC.predict_each at h
    cases hc : ModelC.closest t classes none with
    | error f => rw [hc] at h; cases h
    | ok r =>
      rw [hc] at h
      cases r with
      | none => cases h
      | some cd =>
        obtain ⟨c, d⟩ := cd
        dsimp only at h
        cases hp : ModelC.predict_each classes tests with
        | error f => rw [hp] at h; cases h
        | ok ps =>
          rw [hp] at h
          simp only [Except.ok.injEq] at h
          subst h
          obtain ⟨hlen, hall⟩ := ih ps hp
          refine ⟨by simp [hlen], ?_⟩
          intro i label hi
          cases i with
          | zero =>
            simp only [List.getElem?_cons_zero, Option.some.injEq] at hi
            subst hi
            exact ⟨t, d, List.getElem?_cons_zero, hc⟩
          | succ i =>
            simp only [List.getElem?_cons_succ] at hi ⊢
            exact hall i label hi

/-! ## model.c: what fit_mlmodel puts into the space -/

theorem fill_random_world (E : Env) (vtype : String) (n : Nat) :
    ∀ (w w1 : World) (xs : List Int), fill_random E vtype n w = .ok (xs, w1) →
      xs.length = n ∧ w1 = { w with rng_drawn := w.rng_drawn + n } := by
  induction n with
  | zero =>
    intro w w1 xs h
    simp only [fill_random, Except.ok.injEq, Prod.mk.injEq] at h
    exact ⟨by rw [← h.1]; rfl, by rw [← h.2]; rfl⟩
  | succ n ih =>
    intro w w1 xs h
    unfold fill_random at h
    cases hr : random_element E vtype w with
    | error f => rw [hr] at h; cases h
    | ok r =>
      obtain ⟨x, w2⟩ := r
      rw [hr] at h
      dsimp only at h
      have hw2 : w2 = { w with rng_drawn := w.rng_drawn + 1 } := by
        unfold random_element at hr
        dsimp only at hr
        split_ifs at hr <;> simp only [Except.ok.injEq, Prod.mk.injEq] at hr <;>
          rw [← hr.2] <;> rfl
      cases hf : fill_random E vtype n w2 with
      | error f => rw [hf] at h; cases h
      | ok r2 =>
        obtain ⟨ys, w3⟩ := r2
        rw [hf] at h
        simp only [Except.ok.injEq, Prod.mk.injEq] at h
        obtain ⟨h1, h2⟩ := ih w2 w3 ys hf
        refine ⟨by rw [← h.1, List.length_cons, h1], ?_⟩
        rw [← h.2, h2, hw2]
        simp only [World.mk.injEq, true_and, and_true]
        omega

/-- A create_vector call with seed -1 that returns: the fields of the vector,
and the generator reseeded from the clock with `size` values drawn. -/
theorem create_vector_inv (E : Env) (w w1 : World) (name : String) (size : Int)
    (vtype : String) (r : Vector)
    (h : create_vector E w name size vtype (-1) false = .ok (r, w1)) :
    10000 ≤ size ∧ r.name = name ∧ r.vtype = vtype ∧ r.tags = [] ∧
      r.vector.length = size.toNat ∧
      w1 = { rng_seed := E.clock w.clock_reads, rng_drawn := size.toNat,
             clock_reads := w.clock_reads + 1 } := by
  unfold create_vector at h
  by_cases hs : size < 10000
  · rw [if_pos hs] at h; cases h
  · rw [if_neg hs] at h
    dsimp only at h
    rw [if_neg (by decide)] at h
    cases hf : fill_random E vtype size.toNat (srand (time_null E w).2 (time_null E w).1) with
    | error f => rw [hf] at h; cases h
    | ok st =>
      obtain ⟨elems, w2⟩ := st
      rw [hf] at h
      simp only [Except.ok.injEq, Prod.mk.injEq] at h
      obtain ⟨h1, h2⟩ := fill_random_world E vtype _ _ _ _ hf
      rw [← h.1, ← h.2, h2]
      refine ⟨by omega, rfl, rfl, rfl, h1, ?_⟩
      simp [srand, time_null]

theorem permute_loop_in_int (src : List Int) (k : Int) (fuel : Nat) :
    ∀ (i : Nat) (st r : List (Option Int) × List Nat),
      permute_loop src k fuel i st = .ok r →
      ∀ j : Nat, i ≤ j → j < i + fuel → in_int ((j : Int) + k) := by
  induction fuel with
  | zero => intro i st r _ j h1 h2; omega
  | succ n ih =>
    intro i st r h j h1 h2
    unfold permute_loop at h
    cases hs : permute_step src k i st with
    | error f => rw [hs] at h; cases h
    | ok st1 =>
      rw [hs] at h
      dsimp only at h
      by_cases hj : j = i
      · subst hj
        unfold permute_step at hs
        cases ha : add_int (j : Int) k with
        | error f => rw [ha] at hs; cases hs
        | ok s => exact (checked_eq_ok _ _ ha).2
      · exact ih (i + 1) st1 r h j (by omega) (by omega)

/-- A call of arithmetic.c's permute_vector with rotate_by = K ≥ 0 that
returns: element i of the operand is element (i + K) mod n of the result. -/
theorem arithmetic_permute_inv (E : Env) (w w1 : World) (H R : Vector) (K : Nat)
    (h : ArithmeticC.permute_vector E w H (K : Int) = .ok (R, w1)) :
    R.vector.length = H.vector.length ∧ R.vtype = H.vtype ∧ R.tags = [] ∧
      10000 ≤ H.size ∧
      ∀ i, i < H.vector.length → R.vector[(i + K) % H.vector.length]? = H.vector[i]? := by
  unfold ArithmeticC.permute_vector at h
  cases hrun : ArithmeticC.permute_run E w H (K : Int) with
  | error f => rw [hrun] at h; cases h
  | ok rr =>
    obtain ⟨⟨result, buf, log⟩, w2⟩ := rr
    rw [hrun] at h
    dsimp only at h
    cases hcol : collect buf with
    | error f => rw [hcol] at h; cases h
    | ok elems =>
      rw [hcol] at h
      simp only [Except.ok.injEq, Prod.mk.injEq] at h
      unfold ArithmeticC.permute_run at hrun
      cases hc : create_vector E w "PermuteResult" H.size H.vtype (-1) false with
      | error f => rw [hc] at hrun; cases hrun
      | ok cr =>
        obtain ⟨r0, w3⟩ := cr
        rw [hc] at hrun
        dsimp only at hrun
        obtain ⟨hsz, -, hvt, htags, hlen, -⟩ := create_vector_inv _ _ _ _ _ _ _ hc
        have htoNat : H.size.toNat = H.vector.length := by simp [Vector.size]
        rw [htoNat] at hrun hlen
        cases hl : permute_loop H.vector (K : Int) H.vector.length 0
            (r0.vector.map some, []) with
        | error f => rw [hl] at hrun; cases hrun
        | ok bl =>
          obtain ⟨buf1, log1⟩ := bl
          rw [hl] at hrun
          simp only [Except.ok.injEq, Prod.mk.injEq] at hrun
          obtain ⟨⟨hr0, hbuf, -⟩, -⟩ := hrun
          have hov := permute_loop_in_int H.vector (K : Int) H.vector.length 0 _ _ hl
          obtain ⟨buf2, log2, xs, hrun2, -, hcol2, hxlen, hxs⟩ :=
            permute_full H.vector K (fun i hi => hov i (Nat.zero_le _) (by omega))
              (r0.vector.map some) (by rw [List.length_map, hlen])
          rw [hl] at hrun2
          simp only [Except.ok.injEq, Prod.mk.injEq] at hrun2
          rw [← hbuf, hrun2.1, hcol2] at hcol
          obtain rfl := Except.ok.inj hcol
          rw [← h.1, ← hr0]
          exact ⟨hxlen, hvt, htags, hsz, hxs⟩

theorem get_loop_append_left (vs more : List Vector) (name : String) (v : Vector)
    (h : GraphC.get_vector_from_space_loop vs name = some v) :
    GraphC.get_vector_from_space_loop (vs ++ more) name = some v := by
  induction vs with
  | nil => simp [GraphC.get_vector_from_space_loop] at h
  | cons u vs ih =>
    simp only [GraphC.get_vector_from_space_loop, List.cons_append] at h ⊢
    by_cases hu : u.name = name
    · rw [if_pos hu] at h ⊢; exact h
    · rw [if_neg hu] at h ⊢; exact ih h

theorem is_point_level_name (k : Int) : ModelC.is_point_name (ModelC.level_name k) = false := by
  simp only [ModelC.is_point_name, ModelC.level_name, String.data_append, decide_eq_false_iff_not]
  intro h
  have : ("level_".data ++ (toString k).data).take 6 = "level_".data := by
    rw [List.take_append_of_le_length (by decide)]
    rfl
  rw [this] at h
  exact absurd h (by decide)

theorem is_point_point_name (k : Int) : ModelC.is_point_name (ModelC.point_name k) = true := by
  simp only [ModelC.is_point_name, ModelC.point_name, String.data_append, decide_eq_true_eq]
  rw [List.take_append_of_le_length (by decide)]
  rfl

theorem flip_bits_length (P : Int → Prop) (hP : ∀ x, P x → P (x * -1)) (E : Env) (size : Int)
    (n : Nat) :
    ∀ (base base1 : List Int) (w w1 : World),
      ModelC.flip_bits E size n (base, w) = .ok (base1, w1) →
      base1.length = base.length ∧ ((∀ x ∈ base, P x) → ∀ x ∈ base1, P x) := by
  induction n with
  | zero =>
    intro base base1 w w1 h
    simp only [ModelC.flip_bits, Except.ok.injEq, Prod.mk.injEq] at h
    rw [h.1]
    exact ⟨rfl, fun hb => hb⟩
  | succ n ih =>
    intro base base1 w w1 h
    unfold ModelC.flip_bits at h
    by_cases hs : size = 0
    · rw [if_pos hs] at h; cases h
    · rw [if_neg hs] at h
      dsimp only at h
      cases hg : base[(Int.tmod ((rand E w).1 : Int) size).toNat]? with
      | none => rw [hg] at h; cases h
      | some x =>
        rw [hg] at h
        dsimp only at h
        cases hm : mul_int x (-1) with
        | error f => rw [hm] at h; cases h
        | ok y =>
          rw [hm] at h
          dsimp only at h
          obtain ⟨i1, i2⟩ := ih _ _ _ _ h
          refine ⟨by rw [i1, List.length_set], fun hb => i2 ?_⟩
          intro z hz
          rcases List.mem_or_eq_of_mem_set hz with hz | hz
          · exact hb z hz
          · have hy : y = x * -1 := by
              unfold mul_int checked at hm
              split_ifs at hm
              exact (Except.ok.inj hm).symm
            rw [hz, hy]
            exact hP x (hb x (List.mem_iff_getElem?.mpr ⟨_, hg⟩))

/-- The level loop that returns has inserted one vector per level, named
`level_<k>`, holding the base vector as the flips of that level left it. -/
theorem create_levels_ok (P : Int → Prop) (hP : ∀ x, P x → P (x * -1)) (E : Env) (size : Int)
    (vtype : String) (change next_level : Int) (fuel : Nat) :
    ∀ (k : Nat) (S S1 : Space) (base base1 : List Int) (w w1 : World),
      ModelC.create_levels E size vtype change next_level fuel (k : Int) ((S, base), w) =
        .ok ((S1, base1), w1) →
      ∃ lvs : List Vector, SpaceC.insert_each S lvs = (.ok (), S1) ∧ lvs.length = fuel ∧
        base1.length = base.length ∧
        (∀ (j : Nat) (v : Vector), lvs[j]? = some v →
          v.name = ModelC.level_name ((k + j : Nat) : Int) ∧ v.vtype = vtype ∧ v.tags = [] ∧
          v.vector.length = base.length) ∧
        ((∀ x ∈ base, P x) → ∀ v ∈ lvs, ∀ x ∈ v.vector, P x) := by
  induction fuel with
  | zero =>
    intro k S S1 base base1 w w1 h
    simp only [ModelC.create_levels, Except.ok.injEq, Prod.mk.injEq] at h
    obtain ⟨⟨rfl, rfl⟩, -⟩ := h
    exact ⟨[], rfl, rfl, rfl, by simp, by simp⟩
  | succ n ih =>
    intro k S S1 base base1 w w1 h
    unfold ModelC.create_levels at h
    cases hf : ModelC.flip_bits E size
        (if (k : Int) = 0 then change else next_level).toNat (base, w) with
    | error f => rw [hf] at h; cases h
    | ok r =>
      obtain ⟨b1, w2⟩ := r
      rw [hf] at h
      dsimp only at h
      cases hc : create_vector E w2 (ModelC.level_name (k : Int)) size vtype (-1) false with
      | error f => rw [hc] at h; cases h
      | ok cr =>
        obtain ⟨lv, w3⟩ := cr
        rw [hc] at h
        dsimp only at h
        cases hi : SpaceC.insert_vector S { lv with vector := b1 } with
        | mk out S2 =>
          cases out with
          | error f => rw [hi] at h; cases h
          | ok u =>
            rw [hi] at h
            dsimp only at h
            have hk : ((k : Int) + 1) = ((k + 1 : Nat) : Int) := by push_cast; rfl
            rw [hk] at h
            obtain ⟨lvs, hins, hlen, hbl, hall, hpred⟩ := ih (k + 1) S2 S1 b1 base1 w3 w1 h
            obtain ⟨hb1, hbP⟩ := flip_bits_length P hP E size _ _ _ _ _ hf
            obtain ⟨-, hname, hvt, htags, -, -⟩ := create_vector_inv _ _ _ _ _ _ _ hc
            refine ⟨{ lv with vector := b1 } :: lvs, ?_, by simp [hlen], by rw [hbl, hb1], ?_,
              ?_⟩
            · simp only [SpaceC.insert_each, hi]
              exact hins
            · intro j v hj
              cases j with
              | zero =>
                simp only [List.getElem?_cons_zero, Option.some.injEq] at hj
                subst hj
                exact ⟨hname, hvt, htags, hb1⟩
              | succ j =>
                simp only [List.getElem?_cons_succ] at hj
                obtain ⟨a1, a2, a3, a4⟩ := hall j v hj
                refine ⟨?_, a2, a3, by rw [a4, hb1]⟩
                rw [a1]
                congr 2
                omega
            · intro hb v hv
              rcases List.mem_cons.mp hv with rfl | hv
              · exact hbP hb
              · exact hpred (hbP hb) v hv

/-- The features of one row, with a running sum already there: every feature
adds its rotated level vector. -/
theorem encode_features_some (E : Env) (L : Int) (S : Space) (bounds : Option (Rat × Rat))
    (row : List Rat) (fuel : Nat) :
    ∀ (k : Nat) (acc : Vector) (w w1 : World) (res : Option Vector),
      ModelC.encode_features E L S bounds row fuel (k : Int) (some acc, w) = .ok (res, w1) →
      ∃ (r : Vector) (rolled : List (List Int)), res = some r ∧ rolled.length = fuel ∧
        (∀ u ∈ rolled, u.length = acc.vector.length) ∧
        r.vector = rolled.foldl (List.zipWith (· + ·)) acc.vector ∧
        (acc.tags = [] → r.tags = []) ∧ r.vtype = acc.vtype ∧
        ∀ (q : Nat) (u : List Int), rolled[q]? = some u →
          ∃ (value : Rat) (lv : Vector), row[k + q]? = some value ∧
            GraphC.get_vector_from_space S (ModelC.level_name (ModelC.level_of L bounds value)) =
              some lv ∧
            u.length = lv.vector.length ∧
            ∀ p, p < lv.vector.length → u[(p + (k + q)) % lv.vector.length]? = lv.vector[p]? := by
  induction fuel with
  | zero =>
    intro k acc w w1 res h
    simp only [ModelC.encode_features, Except.ok.injEq, Prod.mk.injEq] at h
    exact ⟨acc, [], h.1.symm, rfl, by simp, rfl, fun h => h, rfl, by simp⟩
  | succ n ih =>
    intro k acc w w1 res h
    unfold ModelC.encode_features at h
    rw [Int.toNat_ofNat] at h
    cases hv : row[k]? with
    | none => rw [hv] at h; cases h
    | some value =>
      rw [hv] at h
      dsimp only at h
      cases hg : GraphC.get_vector_from_space S
          (ModelC.level_name (ModelC.level_of L bounds value)) with
      | none => rw [hg] at h; cases h
      | some lv =>
        rw [hg] at h
        dsimp only at h
        cases hp : ArithmeticC.permute_vector E w lv (k : Int) with
        | error f => rw [hp] at h; cases h
        | ok pr =>
          obtain ⟨rolled_vector, w2⟩ := pr
          rw [hp] at h
          dsimp only at h
          cases hb : ArithmeticC.bundle_vectors E w2 acc rolled_vector with
          | error f => rw [hb] at h; cases h
          | ok br =>
            obtain ⟨temp, w3⟩ := br
            rw [hb] at h
            dsimp only at h
            have hk : ((k : Int) + 1) = ((k + 1 : Nat) : Int) := by push_cast; rfl
            rw [hk] at h
            obtain ⟨r, rolled, hres, hlen, hall, hvec, htags, hvt, hprop⟩ :=
              ih (k + 1) temp w3 w1 res h
            obtain ⟨p1, p2, -, -, p5⟩ := arithmetic_permute_inv E w w2 lv rolled_vector k hp
            obtain ⟨b1, -, b3, b4, b5⟩ := arithmetic_bundle_inv E w2 w3 acc rolled_vector temp hb
            have htl : temp.vector.length = acc.vector.length := by
              rw [b3, List.length_zipWith, b1, min_self]
            refine ⟨r, rolled_vector.vector :: rolled, hres, by simp [hlen], ?_, ?_,
              fun _ => htags b5, by rw [hvt, b4], ?_⟩
            · intro u hu
              rcases List.mem_cons.mp hu with rfl | hu
              · exact b1.symm
              · rw [hall u hu, htl]
            · rw [hvec, List.foldl_cons, b3]
            · intro q u hq
              cases q with
              | zero =>
                simp only [List.getElem?_cons_zero, Option.some.injEq] at hq
                subst hq
                exact ⟨value, lv, by simpa using hv, hg, p1, by simpa using p5⟩
              | succ q =>
                simp only [List.getElem?_cons_succ] at hq
                obtain ⟨value1, lv1, c1, c2, c3, c4⟩ := hprop q u hq
                refine ⟨value1, lv1, ?_, c2, c3, ?_⟩
                · rw [← c1]; congr 1; omega
                · intro p hp1
                  rw [← c4 p hp1]
                  congr 2
                  omega

/-- The features of one row: `sum_vector` is the element-wise sum of the
rotated level vectors of its features, or NULL when there is no feature. -/
theorem encode_features_none (E : Env) (L : Int) (S : Space) (bounds : Option (Rat × Rat))
    (row : List Rat) (fuel : Nat) (w w1 : World) (res : Option Vector)
    (h : ModelC.encode_features E L S bounds row fuel 0 (none, w) = .ok (res, w1)) :
    (fuel = 0 ∧ res = none) ∨
    ∃ (r : Vector) (rolled : List (List Int)), res = some r ∧ rolled.length = fuel ∧
      r.vector = ModelC.column_sums rolled ∧ r.tags = [] ∧
      ∀ (q : Nat) (u : List Int), rolled[q]? = some u →
        ∃ (value : Rat) (lv : Vector), row[q]? = some value ∧
          GraphC.get_vector_from_space S (ModelC.level_name (ModelC.level_of L bounds value)) =
            some lv ∧
          u.length = lv.vector.length ∧ r.vector.length = lv.vector.length ∧
          ∀ p, p < lv.vector.length → u[(p + q) % lv.vector.length]? = lv.vector[p]? := by
  cases fuel with
  | zero =>
    simp only [ModelC.encode_features, Except.ok.injEq, Prod.mk.injEq] at h
    exact Or.inl ⟨rfl, h.1.symm⟩
  | succ n =>
    right
    unfold ModelC.encode_features at h
    simp only [Int.toNat_zero] at h
    cases hv : row[0]? with
    | none => rw [hv] at h; cases h
    | some value =>
      rw [hv] at h
      dsimp only at h
      cases hg : GraphC.get_vector_from_space S
          (ModelC.level_name (ModelC.level_of L bounds value)) with
      | none => rw [hg] at h; cases h
      | some lv =>
        rw [hg] at h
        dsimp only at h
        cases hp : ArithmeticC.permute_vector E w lv 0 with
        | error f => rw [hp] at h; cases h
        | ok pr =>
          obtain ⟨rolled_vector, w2⟩ := pr
          rw [hp] at h
          dsimp only at h
          have hk : ((0 : Int) + 1) = ((0 + 1 : Nat) : Int) := by norm_num
          rw [hk] at h
          obtain ⟨r, rolled, hres, hlen, hall, hvec, htags, hvt, hprop⟩ :=
            encode_features_some E L S bounds row n (0 + 1) rolled_vector w2 w1 res h
          have hp0 : ArithmeticC.permute_vector E w lv ((0 : Nat) : Int) =
              .ok (rolled_vector, w2) := by simpa using hp
          obtain ⟨p1, p2, p3, p4, p5⟩ := arithmetic_permute_inv E w w2 lv rolled_vector 0 hp0
          have hrv : r.vector = ModelC.column_sums (rolled_vector.vector :: rolled) := by
            rw [hvec]
            exact foldl_zipWith_column_sums rolled rolled_vector.vector hall
          have hrl : r.vector.length = rolled_vector.vector.length := by
            rw [hrv]
            simp [ModelC.column_sums]
          refine ⟨r, rolled_vector.vector :: rolled, hres, by simp [hlen], hrv, htags p3, ?_⟩
          intro q u hq
          cases q with
          | zero =>
            simp only [List.getElem?_cons_zero, Option.some.injEq] at hq
            subst hq
            exact ⟨value, lv, hv, hg, p1, by rw [hrl, p1], by simpa using p5⟩
          | succ q =>
            simp only [List.getElem?_cons_succ] at hq
            obtain ⟨value1, lv1, c1, c2, c3, c4⟩ := hprop q u hq
            have hu : u.length = rolled_vector.vector.length := hall u
              (List.mem_iff_getElem?.mpr ⟨q, hq⟩)
            refine ⟨value1, lv1, ?_, c2, c3, by rw [hrl, ← hu, c3], ?_⟩
            · rw [← c1]; congr 1; omega
            · intro p hp1
              rw [← c4 p hp1]
              congr 2
              omega

theorem get_loop_append_other (vs more : List Vector) (name : String)
    (h : ∀ v ∈ more, v.name ≠ name) :
    GraphC.get_vector_from_space_loop (vs ++ more) name =
      GraphC.get_vector_from_space_loop vs name := by
  induction vs with
  | nil =>
    simp only [List.nil_append, GraphC.get_vector_from_space_loop]
    induction more with
    | nil => rfl
    | cons u more ih =>
      simp only [GraphC.get_vector_from_space_loop]
      rw [if_neg (h u (List.mem_cons_self _ _))]
      exact ih (fun v hv => h v (List.mem_cons_of_mem _ hv))
  | cons u vs ih =>
    simp only [GraphC.get_vector_from_space_loop, List.cons_append]
    by_cases hu : u.name = name
    · rw [if_pos hu, if_pos hu]
    · rw [if_neg hu, if_neg hu]; exact ih

theorem point_name_ne_level_name (k j : Int) : ModelC.point_name k ≠ ModelC.level_name j := by
  intro h
  have h1 := is_point_point_name k
  rw [h, is_point_level_name] at h1
  cases h1

theorem tag_point_ok (labels : Option (List String)) (k : Nat) (H tagged : Vector)
    (htags : H.tags = [])
    (h : ModelC.tag_point labels (k : Int) H = .ok tagged) :
    tagged.name = H.name ∧ tagged.size = H.size ∧ tagged.vtype = H.vtype ∧
      tagged.vector = H.vector ∧
      (∀ ls, labels = some ls → ∃ label, ls[k]? = some label ∧ tagged.tags = [label]) ∧
      (labels = none → tagged.tags = []) := by
  cases labels with
  | none =>
    simp only [ModelC.tag_point, Except.ok.injEq] at h
    subst h
    refine ⟨rfl, rfl, rfl, rfl, ?_, fun _ => htags⟩
    intro ls hls
    cases hls
  | some ls =>
    simp only [ModelC.tag_point, Int.toNat_ofNat] at h
    cases hl : ls[k]? with
    | none => rw [hl] at h; cases h
    | some label =>
      rw [hl] at h
      simp only [Except.ok.injEq] at h
      subst h
      have e : ModelC.add_tag H label = { H with tags := [label] } := by
        simp [ModelC.add_tag, htags]
      rw [e]
      refine ⟨rfl, rfl, rfl, rfl, ?_, fun hn => by cases hn⟩
      intro ls1 hls
      cases hls
      exact ⟨label, hl, rfl⟩

/-- The loop that encodes the points, when it returns: one vector per row was
appended, named `point_<index>`, tagged with the label of the row when labels
are given, and holding the element-wise sum of the level vectors of the
features of the row, the one of feature q rotated by q places. -/
theorem encode_points_ok (E : Env) (L : Int) (bounds : Option (Rat × Rat)) (d : Int)
    (labels : Option (List String)) (hd : 0 < d.toNat) (rows : List (List Rat)) :
    ∀ (k : Nat) (S S1 : Space) (w w1 : World),
      ModelC.encode_points E L bounds d labels rows (k : Int) (S, w) = .ok (S1, w1) →
      ∃ pts : List Vector, S1 = { S with vectors := S.vectors ++ pts } ∧
        pts.length = rows.length ∧
        ((S.vectors.map Vector.name).Nodup → (S1.vectors.map Vector.name).Nodup) ∧
        ∀ (i : Nat) (row : List Rat), rows[i]? = some row →
          ∃ p : Vector, pts[i]? = some p ∧ p.name = ModelC.point_name ((k + i : Nat) : Int) ∧
            p.size = S.size ∧ p.vtype = S.vtype ∧
            (∀ ls, labels = some ls → ∃ label, ls[k + i]? = some label ∧ p.tags = [label]) ∧
            (labels = none → p.tags = []) ∧
            ∃ rolled : List (List Int), rolled.length = d.toNat ∧
              p.vector = ModelC.column_sums rolled ∧
              ∀ (q : Nat) (u : List Int), rolled[q]? = some u →
                ∃ (value : Rat) (lv : Vector), row[q]? = some value ∧
                  GraphC.get_vector_from_space_loop S.vectors
                    (ModelC.level_name (ModelC.level_of L bounds value)) = some lv ∧
                  u.length = lv.vector.length ∧ p.vector.length = lv.vector.length ∧
                  ∀ t, t < lv.vector.length →
                    u[(t + q) % lv.vector.length]? = lv.vector[t]? := by
  induction rows with
  | nil =>
    intro k S S1 w w1 h
    simp only [ModelC.encode_points, Except.ok.injEq, Prod.mk.injEq] at h
    obtain ⟨rfl, -⟩ := h
    exact ⟨[], by simp, rfl, fun h => by simpa using h, by simp⟩
  | cons row rest ih =>
    intro k S S1 w w1 h
    unfold ModelC.encode_points at h
    cases hf : ModelC.encode_features E L S bounds row d.toNat 0 (none, w) with
    | error f => rw [hf] at h; cases h
    | ok fr =>
      obtain ⟨sum, w2⟩ := fr
      rw [hf] at h
      rcases encode_features_none E L S bounds row d.toNat w w2 sum hf with
        ⟨h0, -⟩ | ⟨r, rolled, rfl, hlen, hvec, htags, hprop⟩
      · omega
      · dsimp only at h
        cases hi : SpaceC.insert_vector S { r with name := ModelC.point_name (k : Int) } with
        | mk out S2 =>
          cases out with
          | error f => rw [hi] at h; cases h
          | ok u =>
            rw [hi] at h
            dsimp only at h
            cases ht : ModelC.tag_point labels (k : Int)
                { r with name := ModelC.point_name (k : Int) } with
            | error f => rw [ht] at h; cases h
            | ok tagged =>
              rw [ht] at h
              dsimp only at h
              have hk : ((k : Int) + 1) = ((k + 1 : Nat) : Int) := by push_cast; rfl
              rw [hk] at h
              obtain ⟨i1, i2, i3, i4⟩ := insert_vector_ok _ _ _ hi
              obtain ⟨t1, t2, t3, t4, t5, t6⟩ := tag_point_ok labels k
                { r with name := ModelC.point_name (k : Int) } tagged htags ht
              obtain ⟨pts, hS1, hpl, hnd, hall⟩ := ih (k + 1) _ S1 w2 w1 h
              refine ⟨tagged :: pts, ?_, by simp [hpl], ?_, ?_⟩
              · rw [hS1, i4]
                simp
              · intro hS
                apply hnd
                rw [i4]
                simp only [List.map_append, List.map_cons, List.map_nil]
                rw [List.nodup_append]
                refine ⟨hS, List.nodup_singleton _, ?_⟩
                intro a ha hb
                simp only [List.mem_singleton] at hb
                obtain ⟨v, hv, rfl⟩ := List.mem_map.mp ha
                rw [t1] at hb
                exact i3 v hv hb
              · intro i row1 hrow
                cases i with
                | zero =>
                  simp only [List.getElem?_cons_zero, Option.some.injEq] at hrow
                  subst hrow
                  refine ⟨tagged, by simp, t1, by rw [t2]; exact i1.symm,
                    by rw [t3]; exact i2.symm, t5, t6, rolled, hlen, by rw [t4]; exact hvec, ?_⟩
                  intro q u hq
                  obtain ⟨value, lv, c1, c2, c3, c4, c5⟩ := hprop q u hq
                  exact ⟨value, lv, c1, c2, c3, by rw [t4]; exact c4, c5⟩
                | succ i =>
                  simp only [List.getElem?_cons_succ] at hrow
                  obtain ⟨p, p1, p2, p3, p4, p5, p6, rolled1, r1, r2, r3⟩ := hall i row1 hrow
                  have hki : k + 1 + i = k + (i + 1) := by omega
                  rw [i4] at p3 p4
                  refine ⟨p, by simpa using p1, by rw [p2, hki], p3, p4, ?_, p6,
                    rolled1, r1, r2, ?_⟩
                  · intro ls hls
                    obtain ⟨label, l1, l2⟩ := p5 ls hls
                    exact ⟨label, by rw [← l1, hki], l2⟩
                  · intro q u hq
                    obtain ⟨value, lv, c1, c2, c3, c4, c5⟩ := r3 q u hq
                    refine ⟨value, lv, c1, ?_, c3, c4, c5⟩
                    rw [i4] at c2
                    rw [← c2]
                    symm
                    apply get_loop_append_other
                    intro v hv
                    simp only [List.mem_singleton] at hv
                    subst hv
                    rw [t1]
                    exact point_name_ne_level_name _ _

/-- What a fit_mlmodel that returns has done: the checks passed, the classes
are the distinct labels in order of first occurrence, and the space received
the level vectors and then one vector per data point. -/
theorem fit_mlmodel_ok (P : Int → Prop) (hP : ∀ x, P x → P (x * -1)) (E : Env) (w w1 : World)
    (model fitted : MLModel)
    (points : List (List Rat)) (d : Int) (labels : Option (List String)) (seed : Int)
    (hd : 0 < d.toNat)
    (h : ModelC.fit_mlmodel E w model points d labels seed = .ok (fitted, w1)) :
    ∃ (bounds : Option (Rat × Rat)) (lvs pts : List Vector),
      ModelC.value_range d points none = .ok bounds ∧
      fitted = { model with
        space := { model.space with vectors := model.space.vectors ++ lvs ++ pts },
        classes := (labels.map ModelC.first_occurrences).getD model.classes } ∧
      (3 : Int) ≤ points.length ∧
      (∀ ls, labels = some ls →
        ls.length = points.length ∧ 2 ≤ (ModelC.first_occurrences ls).length) ∧
      lvs.length = model.levels.toNat ∧ pts.length = points.length ∧
      (∃ base1 w2, ModelC.create_levels E model.size model.vtype (Int.tdiv model.size 2)
        (Int.tdiv (Int.tdiv model.size 2) model.levels) model.levels.toNat 0
        ((model.space, List.replicate model.size.toNat
          (if model.vtype = "bipolar" then (-1 : Int) else 0)),
          (if seed ≠ -1 then srand w seed
            else srand (time_null E w).2 (time_null E w).1)) =
        .ok (({ model.space with vectors := model.space.vectors ++ lvs }, base1), w2)) ∧
      ((model.space.vectors.map Vector.name).Nodup →
        ((model.space.vectors ++ lvs ++ pts).map Vector.name).Nodup) ∧
      (∀ (j : Nat) (v : Vector), lvs[j]? = some v →
        v.name = ModelC.level_name (j : Int) ∧ v.vtype = model.vtype ∧ v.tags = [] ∧
        v.vector.length = model.size.toNat) ∧
      (P (if model.vtype = "bipolar" then (-1 : Int) else 0) →
        ∀ v ∈ lvs, ∀ x ∈ v.vector, P x) ∧
      ∀ (i : Nat) (row : List Rat), points[i]? = some row →
        ∃ p : Vector, pts[i]? = some p ∧ p.name = ModelC.point_name (i : Int) ∧
          p.size = model.space.size ∧ p.vtype = model.space.vtype ∧
          (∀ ls, labels = some ls → ∃ label, ls[i]? = some label ∧ p.tags = [label]) ∧
          (labels = none → p.tags = []) ∧
          ∃ rolled : List (List Int), rolled.length = d.toNat ∧
            p.vector = ModelC.column_sums rolled ∧
            ∀ (q : Nat) (u : List Int), rolled[q]? = some u →
              ∃ (value : Rat) (lv : Vector), row[q]? = some value ∧
                GraphC.get_vector_from_space_loop (model.space.vectors ++ lvs)
                  (ModelC.level_name (ModelC.level_of model.levels bounds value)) = some lv ∧
                u.length = lv.vector.length ∧ p.vector.length = lv.vector.length ∧
                ∀ t, t < lv.vector.length →
                  u[(t + q) % lv.vector.length]? = lv.vector[t]? := by
  unfold ModelC.fit_mlmodel at h
  by_cases h1 : (points.length : Int) < 3
  · rw [if_pos h1] at h; cases h
  rw [if_neg h1] at h
  by_cases h2 : labels.isSome ∧ (points.length : Int) ≠ (labels.getD []).length
  · rw [if_pos h2] at h; cases h
  rw [if_neg h2] at h
  dsimp only at h
  by_cases h3 : labels.isSome ∧
      (((match labels with
          | some ls => ModelC.collect_classes ls []
          | none => model.classes).length : Nat) : Int) < 2
  · rw [if_pos h3] at h; cases h
  rw [if_neg h3] at h
  by_cases h4 : model.levels = 0
  · rw [if_pos h4] at h; cases h
  rw [if_neg h4] at h
  generalize hw0 : (if seed ≠ -1 then srand w seed
    else srand (time_null E w).2 (time_null E w).1) = w0 at h
  cases hv : ModelC.value_range d points none with
  | error f => rw [hv] at h; cases h
  | ok bounds =>
    rw [hv] at h
    dsimp only at h
    cases hc : ModelC.create_levels E model.size model.vtype (Int.tdiv model.size 2)
        (Int.tdiv (Int.tdiv model.size 2) model.levels) model.levels.toNat 0
        ((model.space, List.replicate model.size.toNat
          (if model.vtype = "bipolar" then (-1 : Int) else 0)), w0) with
    | error f => rw [hc] at h; cases h
    | ok cr =>
      obtain ⟨⟨space1, base1⟩, w2⟩ := cr
      rw [hc] at h
      dsimp only at h
      cases he : ModelC.encode_points E model.levels bounds d labels points 0 (space1, w2) with
      | error f => rw [he] at h; cases h
      | ok er =>
        obtain ⟨space2, w3⟩ := er
        rw [he] at h
        simp only [Except.ok.injEq, Prod.mk.injEq] at h
        obtain ⟨hfit, -⟩ := h
        have hc0 : ModelC.create_levels E model.size model.vtype (Int.tdiv model.size 2)
            (Int.tdiv (Int.tdiv model.size 2) model.levels) model.levels.toNat ((0 : Nat) : Int)
            ((model.space, List.replicate model.size.toNat
              (if model.vtype = "bipolar" then (-1 : Int) else 0)), w0) =
              .ok ((space1, base1), w2) := by simpa using hc
        obtain ⟨lvs, hins, hll, -, hlv, hpred⟩ :=
          create_levels_ok P hP _ _ _ _ _ _ _ _ _ _ _ _ _ hc0
        obtain ⟨s1, s2, s3, s4, -, s6⟩ := insert_each_ok lvs _ _ hins
        have he0 : ModelC.encode_points E model.levels bounds d labels points ((0 : Nat) : Int)
            (space1, w2) = .ok (space2, w3) := by simpa using he
        obtain ⟨pts, e1, e2, e3, e4⟩ := encode_points_ok E model.levels bounds d labels hd
          points 0 space1 space2 w2 w3 he0
        have hsp1 : space1 = { model.space with vectors := model.space.vectors ++ lvs } := by
          cases space1
          cases hms : model.space
          rw [hms] at s1 s2 s3 s4
          simp only at s1 s2 s3 s4
          simp only [Space.mk.injEq]
          exact ⟨s1, s2, s3, s4⟩
        refine ⟨bounds, lvs, pts, rfl, ?_, by omega, ?_, hll, e2, ⟨base1, w2, ?_⟩, ?_, ?_, ?_,
          ?_⟩
        · rw [e1, hsp1] at hfit
          refine hfit.symm.trans ?_
          cases labels with
          | none => rfl
          | some ls =>
            simp only [collect_classes_nil, Option.map_some', Option.getD_some]
        · intro ls hls
          subst hls
          simp only [Option.isSome_some, true_and, Option.getD_some, ne_eq, not_not,
            collect_classes_nil, not_lt] at h2 h3
          exact ⟨by exact_mod_cast h2.symm, by exact_mod_cast h3⟩
        · rw [← hsp1]
        · intro hnd
          have := e3 (s6 hnd)
          rw [e1, s1] at this
          exact this
        · intro j v hj
          obtain ⟨a1, a2, a3, a4⟩ := hlv j v hj
          refine ⟨by rw [a1]; simp, a2, a3, by rw [a4, List.length_replicate]⟩
        · intro hp0
          exact hpred (fun x hx => by rw [List.eq_of_mem_replicate hx]; exact hp0)
        · intro i row hrow
          obtain ⟨p, p1, p2, p3, p4, p5, p6, rolled, r1, r2, r3⟩ := e4 i row hrow
          refine ⟨p, p1, by rw [p2]; simp, ?_, ?_, ?_, p6, rolled, r1, r2, ?_⟩
          · rw [p3, hsp1]
          · rw [p4, hsp1]
          · intro ls hls
            obtain ⟨label, l1, l2⟩ := p5 ls hls
            exact ⟨label, by simpa using l1, l2⟩
          · intro q u hq
            obtain ⟨value, lv, c1, c2, c3, c4, c5⟩ := r3 q u hq
            exact ⟨value, lv, c1, by rw [← s1]; exact c2, c3, c4, c5⟩

/-! ## model.c: what a predict_mlmodel that returns has computed -/

theorem fit_mlmodel_classes (E : Env) (w w1 : World) (model fitted : MLModel)
    (points : List (List Rat)) (d : Int) (ls : List String) (seed : Int)
    (h : ModelC.fit_mlmodel E w model points d (some ls) seed = .ok (fitted, w1)) :
    fitted.classes = ModelC.first_occurrences ls := by
  unfold ModelC.fit_mlmodel at h
  by_cases h1 : (points.length : Int) < 3
  · rw [if_pos h1] at h; cases h
  rw [if_neg h1] at h
  by_cases h2 : (some ls).isSome ∧ (points.length : Int) ≠ ((some ls).getD []).length
  · rw [if_pos h2] at h; cases h
  rw [if_neg h2] at h
  dsimp only at h
  by_cases h3 : (some ls).isSome ∧ (((ModelC.collect_classes ls []).length : Nat) : Int) < 2
  · rw [if_pos h3] at h; cases h
  rw [if_neg h3] at h
  by_cases h4 : model.levels = 0
  · rw [if_pos h4] at h; cases h
  rw [if_neg h4] at h
  generalize (if seed ≠ -1 then srand w seed
    else srand (time_null E w).2 (time_null E w).1) = w0 at h
  cases hv : ModelC.value_range d points none with
  | error f => rw [hv] at h; cases h
  | ok bounds =>
    rw [hv] at h
    dsimp only at h
    cases hc : ModelC.create_levels E model.size model.vtype (Int.tdiv model.size 2)
        (Int.tdiv (Int.tdiv model.size 2) model.levels) model.levels.toNat 0
        ((model.space, List.replicate model.size.toNat
          (if model.vtype = "bipolar" then (-1 : Int) else 0)), w0) with
    | error f => rw [hc] at h; cases h
    | ok cr =>
      obtain ⟨⟨space1, base1⟩, w2⟩ := cr
      rw [hc] at h
      dsimp only at h
      cases he : ModelC.encode_points E model.levels bounds d (some ls) points 0
          (space1, w2) with
      | error f => rw [he] at h; cases h
      | ok er =>
        obtain ⟨space2, w3⟩ := er
        rw [he] at h
        simp only [Except.ok.injEq, Prod.mk.injEq] at h
        rw [← h.1]
        exact collect_classes_nil ls

theorem predict_mlmodel_ok (E : Env) (w w1 : World) (model : MLModel)
    (test_indices : List Int) (retraining_iterations : Int) (model_error_rate : Rat)
    (result : ModelC.Prediction)
    (h : ModelC.predict_mlmodel E w model test_indices retraining_iterations
      model_error_rate = .ok (result, w1)) :
    test_indices ≠ [] ∧
    (ModelC.test_points test_indices model.space.vectors).length = test_indices.length ∧
    result.predictions.length = test_indices.length ∧
    ∃ protos : List Vector, protos.length = model.classes.length ∧
      (∀ (j : Nat) (c : String), model.classes[j]? = some c →
        ∃ p : Vector, protos[j]? = some p ∧
          (ModelC.training_points test_indices model.space.vectors).filter
            (fun v => ModelC.has_tag v c) ≠ [] ∧
          p.vector = ModelC.column_sums
            (((ModelC.training_points test_indices model.space.vectors).filter
              (fun v => ModelC.has_tag v c)).map Vector.vector)) ∧
      ∀ (i : Nat) (label : String), result.predictions[i]? = some label →
        ∃ (t : Vector) (jc : Nat) (p : Vector) (dist : DistValue) (r : ℝ),
          (ModelC.test_points test_indices model.space.vectors)[i]? = some t ∧
          model.classes[jc]? = some label ∧ protos[jc]? = some p ∧
          SpaceC.vector_distance t p "cosine" = .ok dist ∧ dist.IsReal r ∧
          ∀ (j : Nat) (pj : Vector) (dj : DistValue) (rj : ℝ), protos[j]? = some pj →
            SpaceC.vector_distance t pj "cosine" = .ok dj → dj.IsReal rj →
            r ≤ rj ∧ (j < jc → r < rj) := by
  unfold ModelC.predict_mlmodel at h
  by_cases h0 : test_indices.length = 0
  · rw [if_pos h0] at h; cases h
  rw [if_neg h0] at h
  cases hr : ModelC.retrieve test_indices model.space.vectors ([], []) with
  | error f => rw [hr] at h; cases h
  | ok rr =>
    obtain ⟨tests, trainings⟩ := rr
    rw [hr] at h
    dsimp only at h
    by_cases hlen : tests.length ≠ test_indices.length
    · rw [if_pos hlen] at h; cases h
    rw [if_neg hlen] at h
    cases hb : ModelC.build_classes E trainings model.classes 0 ([], w) with
    | error f => rw [hb] at h; cases h
    | ok br =>
      obtain ⟨class_vectors, w2⟩ := br
      rw [hb] at h
      dsimp only at h
      cases hp : ModelC.predict_each (model.classes.zip class_vectors) tests with
      | error f => rw [hp] at h; cases h
      | ok predictions =>
        rw [hp] at h
        simp only [Except.ok.injEq, Prod.mk.injEq] at h
        obtain ⟨hres, -⟩ := h
        have hrr := retrieve_ok test_indices model.space.vectors [] [] _ hr
        simp only [List.nil_append, Prod.mk.injEq] at hrr
        obtain ⟨rfl, rfl⟩ := hrr
        obtain ⟨protos, hpr, hplen, hprop⟩ := build_classes_ok E _ model.classes 0 [] _ w w2 hb
        simp only [List.nil_append] at hpr
        subst hpr
        obtain ⟨hpl, hpe⟩ := predict_each_ok _ _ predictions hp
        have hlen1 := not_not.mp hlen
        refine ⟨fun hn => h0 (by rw [hn]; rfl), hlen1, by rw [← hres]; exact hpl.trans hlen1,
          class_vectors, hplen, hprop, ?_⟩
        intro i label hi
        rw [← hres] at hi
        obtain ⟨t, d, ht, hcl⟩ := hpe i label hi
        obtain ⟨ds, hdl, hds, hcos, hfold⟩ := closest_fold t _ none _ hcl
        obtain ⟨-, hscan⟩ := closest_scan_spec ds hcos
        obtain ⟨hfin, jc, hjc, hmin⟩ := hscan label d hfold.symm
        have hjlt : jc < (model.classes.zip class_vectors).length := by
          rw [← hdl]
          exact (List.getElem?_eq_some_iff.mp hjc).1
        obtain ⟨⟨c1, v1⟩, hcv⟩ : ∃ e, (model.classes.zip class_vectors)[jc]? = some e :=
          ⟨_, List.getElem?_eq_getElem hjlt⟩
        obtain ⟨d1, hd1, hd2⟩ := hds jc c1 v1 hcv
        rw [hjc] at hd2
        simp only [Option.some.injEq, Prod.mk.injEq] at hd2
        obtain ⟨rfl, rfl⟩ := hd2
        obtain ⟨z1, z2⟩ := List.getElem?_zip_eq_some.mp hcv
        obtain ⟨p0, a0, b0, hshape⟩ := vector_distance_cosine_shape t v1 d hd1
        subst hshape
        obtain ⟨r, hr0⟩ := (cosine_finite_iff p0 a0 b0).mp hfin
        refine ⟨t, jc, v1, _, r, ht, z1, z2, hd1, hr0, ?_⟩
        intro j pj dj rj hpj hdj hrj
        have hjl : j < model.classes.length := by
          rw [← hplen]
          exact (List.getElem?_eq_some_iff.mp hpj).1
        have hzj : (model.classes.zip class_vectors)[j]? = some (model.classes[j], pj) :=
          List.getElem?_zip_eq_some.mpr ⟨List.getElem?_eq_getElem hjl, hpj⟩
        obtain ⟨d2, e1, e2⟩ := hds j _ pj hzj
        rw [hdj] at e1
        simp only [Except.ok.injEq] at e1
        subst e1
        exact hmin j _ r rj e2 hr0 hrj

/-! ## model.c: inputs on which fit_mlmodel returns -/

theorem value_range_row_returns (row : List Rat) (fuel : Nat) :
    ∀ (j : Nat) (st : Option (Rat × Rat)), j + fuel ≤ row.length →
      ∃ st1, ModelC.value_range_row row fuel j st = .ok st1 := by
  induction fuel with
  | zero => intro j st _; exact ⟨st, rfl⟩
  | succ n ih =>
    intro j st h
    have hj : j < row.length := by omega
    unfold ModelC.value_range_row
    rw [List.getElem?_eq_getElem hj]
    exact ih (j + 1) _ (by omega)

theorem value_range_returns (d : Int) (points : List (List Rat))
    (hrows : ∀ row ∈ points, d.toNat ≤ row.length) :
    ∀ st, ∃ b, ModelC.value_range d points st = .ok b := by
  induction points with
  | nil => intro st; exact ⟨st, rfl⟩
  | cons row rest ih =>
    intro st
    obtain ⟨st1, h1⟩ := value_range_row_returns row d.toNat 0 st
      (by have := hrows row (List.mem_cons_self _ _); omega)
    obtain ⟨b, hb⟩ := ih (fun r hr => hrows r (List.mem_cons_of_mem _ hr)) st1
    exact ⟨b, by simp only [ModelC.value_range, h1, hb]⟩

theorem level_of_range (L : Int) (hL : 2 ≤ L) (bounds : Option (Rat × Rat)) (value : Rat) :
    0 ≤ ModelC.level_of L bounds value ∧ ModelC.level_of L bounds value ≤ L - 1 := by
  unfold ModelC.level_of
  cases bounds with
  | none =>
    dsimp only
    exact ⟨le_refl _, by omega⟩
  | some b =>
    obtain ⟨mn, mx⟩ := b
    dsimp only
    split_ifs
    · exact ⟨le_refl _, by omega⟩
    · exact ⟨by omega, le_refl _⟩
    · cases hf : ModelC.find_level mn ((mx - mn) / L) value L.toNat 0 with
      | none =>
        simp only [Option.getD_none]
        exact ⟨le_refl _, by omega⟩
      | some l =>
        obtain ⟨h1, h2, -⟩ := find_level_some _ _ _ _ _ _ hf
        simp only [Option.getD_some]
        have : ((L.toNat : Nat) : Int) = L := Int.toNat_of_nonneg (by omega)
        exact ⟨h1, by omega⟩

theorem get_loop_mem (vs : List Vector) (name : String) (v : Vector)
    (h : GraphC.get_vector_from_space_loop vs name = some v) : v ∈ vs ∧ v.name = name := by
  induction vs with
  | nil => simp [GraphC.get_vector_from_space_loop] at h
  | cons u vs ih =>
    simp only [GraphC.get_vector_from_space_loop] at h
    by_cases hu : u.name = name
    · rw [if_pos hu] at h
      cases h
      exact ⟨List.mem_cons_self _ _, hu⟩
    · rw [if_neg hu] at h
      exact ⟨List.mem_cons_of_mem _ (ih h).1, (ih h).2⟩

theorem get_loop_some_of_name (vs : List Vector) (name : String) (u : Vector) (hu : u ∈ vs)
    (hn : u.name = name) : ∃ v, GraphC.get_vector_from_space_loop vs name = some v := by
  cases h : GraphC.get_vector_from_space_loop vs name with
  | some v => exact ⟨v, rfl⟩
  | none => exact absurd hn ((get_loop_none_iff vs name).mp h u hu)

theorem flip_bits_returns (E : Env) (size : Int) (hs : 0 < size) (n : Nat) :
    ∀ (base : List Int) (w : World), base.length = size.toNat →
      (∀ x ∈ base, x = 0 ∨ x = 1 ∨ x = -1) →
      ∃ base1 w1, ModelC.flip_bits E size n (base, w) = .ok (base1, w1) := by
  induction n with
  | zero => intro base w _ _; exact ⟨base, w, rfl⟩
  | succ n ih =>
    intro base w hlen hsmall
    unfold ModelC.flip_bits
    rw [if_neg (by omega)]
    dsimp only
    have hidx : (Int.tmod ((rand E w).1 : Int) size).toNat < base.length := by
      rw [hlen]
      have h1 : 0 ≤ Int.tmod ((rand E w).1 : Int) size :=
        Int.tmod_nonneg _ (Int.ofNat_nonneg _)
      have h2 : Int.tmod ((rand E w).1 : Int) size < size := Int.tmod_lt_of_pos _ hs
      omega
    rw [List.getElem?_eq_getElem hidx]
    dsimp only
    have hx := hsmall _ (List.getElem_mem hidx)
    have hm : mul_int (base[(Int.tmod ((rand E w).1 : Int) size).toNat]) (-1) =
        .ok (base[(Int.tmod ((rand E w).1 : Int) size).toNat] * -1) := by
      unfold mul_int
      apply checked_of_in_int
      rcases hx with h | h | h <;> rw [h] <;> decide
    rw [hm]
    dsimp only
    apply ih
    · rw [List.length_set]; exact hlen
    · intro z hz
      rcases List.mem_or_eq_of_mem_set hz with hz | hz
      · exact hsmall z hz
      · rw [hz]
        rcases hx with h | h | h <;> rw [h] <;> decide

theorem small_flip (x : Int) (h : x = 0 ∨ x = 1 ∨ x = -1) :
    x * -1 = 0 ∨ x * -1 = 1 ∨ x * -1 = -1 := by
  rcases h with h | h | h <;> rw [h] <;> decide

/-- The level loop returns on a space of the size and alphabet of the model
that holds none of the level names, the names being pairwise distinct. -/
theorem create_levels_returns (E : Env) (size : Int) (vtype : String) (change next_level : Int)
    (hsize : 10000 ≤ size) (hv : vtype = "binary" ∨ vtype = "bipolar") (fuel : Nat) :
    ∀ (k : Nat) (S : Space) (base : List Int) (w : World), S.size = size → S.vtype = vtype →
      base.length = size.toNat → (∀ x ∈ base, x = 0 ∨ x = 1 ∨ x = -1) →
      (∀ j, j < fuel → ∀ v ∈ S.vectors, v.name ≠ ModelC.level_name ((k + j : Nat) : Int)) →
      (∀ i j, i < j → j < fuel →
        ModelC.level_name ((k + i : Nat) : Int) ≠ ModelC.level_name ((k + j : Nat) : Int)) →
      ∃ S1 base1 w1, ModelC.create_levels E size vtype change next_level fuel (k : Int)
        ((S, base), w) = .ok ((S1, base1), w1) := by
  induction fuel with
  | zero => intro k S base w _ _ _ _ _ _; exact ⟨S, base, w, rfl⟩
  | succ n ih =>
    intro k S base w hS hT hlen hsmall hfresh hdist
    obtain ⟨b1, w2, hf⟩ := flip_bits_returns E size (by omega)
      (if (k : Int) = 0 then change else next_level).toNat base w hlen hsmall
    obtain ⟨hb1, hbs⟩ := flip_bits_length (fun x => x = 0 ∨ x = 1 ∨ x = -1) small_flip E size
      _ _ _ _ _ hf
    obtain ⟨lv, w3, hc, hname, hvt, hsz, -⟩ :=
      create_vector_ok E w2 (ModelC.level_name (k : Int)) size vtype (-1) false hsize hv
    have hins : SpaceC.insert_vector S { lv with vector := b1 } =
        (.ok (), { S with vectors := S.vectors ++ [{ lv with vector := b1 }] }) := by
      apply insert_vector_of_checks
      · rw [hS]
        simp only [Vector.size, hb1, hlen]
        omega
      · rw [hT, ← hvt]
      · intro v hv1
        have := hfresh 0 (by omega) v hv1
        simpa [hname] using this
    have hk : ((k : Int) + 1) = ((k + 1 : Nat) : Int) := by push_cast; rfl
    obtain ⟨S1, base1, w1, hrest⟩ := ih (k + 1)
      { S with vectors := S.vectors ++ [{ lv with vector := b1 }] } b1 w3 hS hT
      (by rw [hb1, hlen]) (hbs hsmall)
      (by
        intro j hj v hv1
        have e : k + 1 + j = k + (j + 1) := by omega
        rw [e]
        rcases List.mem_append.mp hv1 with hv1 | hv1
        · exact hfresh (j + 1) (by omega) v hv1
        · simp only [List.mem_singleton] at hv1
          subst hv1
          have := hdist 0 (j + 1) (by omega) (by omega)
          simpa [hname] using this)
      (by
        intro i j hij hj
        have e1 : k + 1 + i = k + (i + 1) := by omega
        have e2 : k + 1 + j = k + (j + 1) := by omega
        rw [e1, e2]
        exact hdist (i + 1) (j + 1) (by omega) (by omega))
    refine ⟨S1, base1, w1, ?_⟩
    unfold ModelC.create_levels
    rw [hf]
    dsimp only
    rw [hc]
    dsimp only
    rw [hins]
    dsimp only
    rw [hk]
    exact hrest

theorem arithmetic_permute_returns (E : Env) (w : World) (H : Vector) (K : Nat)
    (hdim : 10000 ≤ H.size) (hv : H.vtype = "binary" ∨ H.vtype = "bipolar")
    (hov : ∀ i : Nat, i < H.vector.length → in_int ((i : Int) + (K : Int))) :
    ∃ R w1, ArithmeticC.permute_vector E w H (K : Int) = .ok (R, w1) := by
  obtain ⟨r, w1, hr, -, -, hrs, -⟩ :=
    create_vector_ok E w "PermuteResult" H.size H.vtype (-1) false hdim hv
  have hrlen : (r.vector.map some).length = H.vector.length := by
    simp only [Vector.size] at hrs
    rw [List.length_map]
    exact_mod_cast hrs
  have htoNat : H.size.toNat = H.vector.length := by simp [Vector.size]
  obtain ⟨buf, log, xs, hrun, -, hcol, -, -⟩ :=
    permute_full H.vector K hov (r.vector.map some) hrlen
  have hrun1 : ArithmeticC.permute_run E w H (K : Int) = .ok ((r, buf, log), w1) := by
    unfold ArithmeticC.permute_run
    rw [hr, htoNat]
    simp only [hrun]
  refine ⟨{ r with vector := xs }, w1, ?_⟩
  unfold ArithmeticC.permute_vector
  rw [hrun1]
  simp only [hcol]

theorem arithmetic_permute_elems (E : Env) (w w1 : World) (H R : Vector) (K : Nat)
    (h : ArithmeticC.permute_vector E w H (K : Int) = .ok (R, w1)) :
    ∀ x ∈ R.vector, x ∈ H.vector := by
  obtain ⟨h1, -, -, -, h5⟩ := arithmetic_permute_inv E w w1 H R K h
  intro x hx
  obtain ⟨p, hp, hpx⟩ := List.getElem_of_mem hx
  obtain ⟨i, hi, hip⟩ := rot_surjective H.vector.length K p (h1 ▸ hp)
  have := h5 i hi
  rw [hip, List.getElem?_eq_getElem hp, hpx] at this
  exact List.mem_iff_getElem?.mpr ⟨i, this.symm⟩

theorem elementwise_add_returns (as : List Int) :
    ∀ (bs : List Int) (A B : Int), as.length = bs.length → (∀ x ∈ as, -A ≤ x ∧ x ≤ A) →
      (∀ x ∈ bs, -B ≤ x ∧ x ≤ B) → A + B ≤ INT_MAX →
      ∃ cs, elementwise add_int as bs = .ok cs ∧ ∀ x ∈ cs, -(A + B) ≤ x ∧ x ≤ A + B := by
  induction as with
  | nil =>
    intro bs A B _ _ _ _
    exact ⟨[], by cases bs <;> rfl, by simp⟩
  | cons a as ih =>
    intro bs A B hlen ha hb hAB
    cases bs with
    | nil => simp at hlen
    | cons b bs =>
      obtain ⟨cs, hcs, hbound⟩ := ih bs A B (by simpa using hlen)
        (fun x hx => ha x (List.mem_cons_of_mem _ hx))
        (fun x hx => hb x (List.mem_cons_of_mem _ hx)) hAB
      have h1 := ha a (List.mem_cons_self _ _)
      have h2 := hb b (List.mem_cons_self _ _)
      have hsum : add_int a b = .ok (a + b) := by
        unfold add_int
        apply checked_of_in_int
        unfold in_int INT_MIN INT_MAX
        unfold INT_MAX at hAB
        constructor <;> omega
      refine ⟨(a + b) :: cs, by simp only [elementwise, hsum, hcs], ?_⟩
      intro x hx
      rcases List.mem_cons.mp hx with rfl | hx
      · constructor <;> omega
      · exact hbound x hx

/-- The features of a row from `k` on, onto a running sum: the loop returns when
every level the mapping selects is in the space with the size and alphabet of
the model and elements among -1, 0, 1. -/
theorem encode_features_returns (E : Env) (L : Int) (S : Space) (bounds : Option (Rat × Rat))
    (row : List Rat) (N : Nat) (vt : String) (hN : 10000 ≤ N)
    (hvt : vt = "binary" ∨ vt = "bipolar")
    (hlook : ∀ value : Rat, ∃ lv,
      GraphC.get_vector_from_space S (ModelC.level_name (ModelC.level_of L bounds value)) =
        some lv ∧ lv.vector.length = N ∧ lv.vtype = vt ∧ ∀ x ∈ lv.vector, -1 ≤ x ∧ x ≤ 1)
    (fuel : Nat) :
    ∀ (k : Nat) (acc : Vector) (w : World), k + fuel ≤ row.length →
      N + k + fuel ≤ 1000000000 → acc.vector.length = N → acc.vtype = vt →
      (∀ x ∈ acc.vector, -(k : Int) ≤ x ∧ x ≤ k) →
      ∃ res w1, ModelC.encode_features E L S bounds row fuel (k : Int) (some acc, w) =
        .ok (some res, w1) ∧ res.vector.length = N ∧ res.vtype = vt := by
  induction fuel with
  | zero => intro k acc w _ _ h1 h2 _; exact ⟨acc, w, rfl, h1, h2⟩
  | succ n ih =>
    intro k acc w hrow hbig hlen hty hacc
    have hk : k < row.length := by omega
    obtain ⟨lv, hg, hlv1, hlv2, hlv3⟩ := hlook row[k]
    obtain ⟨R, w2, hp⟩ := arithmetic_permute_returns E w lv k
      (by simp only [Vector.size, hlv1]; exact_mod_cast hN) (hlv2 ▸ hvt)
      (by
        intro i hi
        rw [hlv1] at hi
        unfold in_int INT_MIN INT_MAX
        constructor <;> omega)
    obtain ⟨p1, p2, -, -, -⟩ := arithmetic_permute_inv E w w2 lv R k hp
    have pel := arithmetic_permute_elems E w w2 lv R k hp
    obtain ⟨cs, hcs, hcb⟩ := elementwise_add_returns acc.vector R.vector k 1
      (by rw [hlen, p1, hlv1]) hacc (fun x hx => hlv3 x (pel x hx))
      (by unfold INT_MAX; omega)
    obtain ⟨temp, w3, hb, ht1, ht2, -⟩ := arithmetic_bundle_ok E w2 acc R cs
      (by simp only [Vector.size, hlen]; exact_mod_cast hN)
      (by simp only [Vector.size, hlen, p1, hlv1]) (by rw [hty, p2, hlv2]) (hty ▸ hvt) hcs
    have hcl := elementwise_length add_int acc.vector R.vector cs (by rw [hlen, p1, hlv1]) hcs
    obtain ⟨res, w1, hres, r1, r2⟩ := ih (k + 1) temp w3 (by omega) (by omega)
      (by rw [ht1, hcl, hlen]) (by rw [ht2, hty])
      (by
        intro x hx
        rw [ht1] at hx
        have := hcb x hx
        push_cast
        constructor <;> omega)
    refine ⟨res, w1, ?_, r1, r2⟩
    unfold ModelC.encode_features
    rw [Int.toNat_ofNat, List.getElem?_eq_getElem hk]
    dsimp only
    rw [hg]
    dsimp only
    rw [hp]
    dsimp only
    rw [hb]
    dsimp only
    have e : ((k : Int) + 1) = ((k + 1 : Nat) : Int) := by push_cast; rfl
    rw [e]
    exact hres

/-- The features of a row: with at least one feature the loop returns a sum
vector. -/
theorem encode_features_returns_none (E : Env) (L : Int) (S : Space)
    (bounds : Option (Rat × Rat)) (row : List Rat) (N : Nat) (vt : String) (hN : 10000 ≤ N)
    (hvt : vt = "binary" ∨ vt = "bipolar")
    (hlook : ∀ value : Rat, ∃ lv,
      GraphC.get_vector_from_space S (ModelC.level_name (ModelC.level_of L bounds value)) =
        some lv ∧ lv.vector.length = N ∧ lv.vtype = vt ∧ ∀ x ∈ lv.vector, -1 ≤ x ∧ x ≤ 1)
    (fuel : Nat) (w : World) (hfuel : 1 ≤ fuel) (hrow : fuel ≤ row.length)
    (hbig : N + fuel ≤ 1000000000) :
    ∃ res w1, ModelC.encode_features E L S bounds row fuel 0 (none, w) = .ok (some res, w1) ∧
      res.vector.length = N ∧ res.vtype = vt := by
  obtain ⟨n, rfl⟩ : ∃ n, fuel = n + 1 := ⟨fuel - 1, by omega⟩
  have hk : 0 < row.length := by omega
  obtain ⟨lv, hg, hlv1, hlv2, hlv3⟩ := hlook row[0]
  obtain ⟨R, w2, hp⟩ := arithmetic_permute_returns E w lv 0
    (by simp only [Vector.size, hlv1]; exact_mod_cast hN) (hlv2 ▸ hvt)
    (by
      intro i hi
      rw [hlv1] at hi
      unfold in_int INT_MIN INT_MAX
      constructor <;> omega)
  obtain ⟨p1, p2, -, -, -⟩ := arithmetic_permute_inv E w w2 lv R 0 hp
  have pel := arithmetic_permute_elems E w w2 lv R 0 hp
  obtain ⟨res, w1, hres, r1, r2⟩ := encode_features_returns E L S bounds row N vt hN hvt hlook
    n (0 + 1) R w2 (by omega) (by omega) (by rw [p1, hlv1]) (by rw [p2, hlv2])
    (by
      intro x hx
      have := hlv3 x (pel x hx)
      push_cast
      constructor <;> omega)
  refine ⟨res, w1, ?_, r1, r2⟩
  unfold ModelC.encode_features
  simp only [Int.toNat_zero]
  rw [List.getElem?_eq_getElem hk]
  dsimp only
  rw [hg]
  dsimp only
  have hp0 : ArithmeticC.permute_vector E w lv 0 = .ok (R, w2) := by simpa using hp
  rw [hp0]
  dsimp only
  have e : ((0 : Int) + 1) = ((0 + 1 : Nat) : Int) := by norm_num
  rw [e]
  exact hres

/-- The loop over the rows returns when every row has its features, the labels
reach to the last row and the point names are new and pairwise distinct. -/
theorem encode_points_returns (E : Env) (L : Int) (bounds : Option (Rat × Rat)) (d : Int)
    (labels : Option (List String)) (N : Nat) (vt : String) (hN : 10000 ≤ N)
    (hvt : vt = "binary" ∨ vt = "bipolar") (hd : 1 ≤ d) (hbig : N + d.toNat ≤ 1000000000)
    (rows : List (List Rat)) :
    ∀ (k : Nat) (S : Space) (w : World), S.size = N → S.vtype = vt →
      (∀ row ∈ rows, d.toNat ≤ row.length) →
      (∀ value : Rat, ∃ lv,
        GraphC.get_vector_from_space S (ModelC.level_name (ModelC.level_of L bounds value)) =
          some lv ∧ lv.vector.length = N ∧ lv.vtype = vt ∧ ∀ x ∈ lv.vector, -1 ≤ x ∧ x ≤ 1) →
      (∀ ls, labels = some ls → k + rows.length ≤ ls.length) →
      (∀ j, j < rows.length → ∀ v ∈ S.vectors, v.name ≠ ModelC.point_name ((k + j : Nat) : Int)) →
      (∀ i j, i < j → j < rows.length →
        ModelC.point_name ((k + i : Nat) : Int) ≠ ModelC.point_name ((k + j : Nat) : Int)) →
      ∃ S1 w1, ModelC.encode_points E L bounds d labels rows (k : Int) (S, w) =
        .ok (S1, w1) := by
  induction rows with
  | nil => intro k S w _ _ _ _ _ _ _; exact ⟨S, w, rfl⟩
  | cons row rest ih =>
    intro k S w hS hT hrows hlook hlab hfresh hdist
    obtain ⟨sum, w2, hf, hs1, hs2⟩ := encode_features_returns_none E L S bounds row N vt hN hvt
      hlook d.toNat w (by omega) (hrows row (List.mem_cons_self _ _)) hbig
    have hins : SpaceC.insert_vector S { sum with name := ModelC.point_name (k : Int) } =
        (.ok (), { S with vectors := S.vectors ++
          [{ sum with name := ModelC.point_name (k : Int) }] }) := by
      apply insert_vector_of_checks
      · rw [hS]
        simp only [Vector.size, hs1]
      · rw [hT, ← hs2]
      · intro v hv1
        have := hfresh 0 (by simp) v hv1
        simpa using this
    have htag : ∃ tagged, ModelC.tag_point labels (k : Int)
        { sum with name := ModelC.point_name (k : Int) } = .ok tagged ∧
        tagged.name = ModelC.point_name (k : Int) := by
      cases labels with
      | none => exact ⟨_, rfl, rfl⟩
      | some ls =>
        have hl := hlab ls rfl
        simp only [List.length_cons] at hl
        have hkl : k < ls.length := by omega
        refine ⟨ModelC.add_tag { sum with name := ModelC.point_name (k : Int) } ls[k], ?_, ?_⟩
        · simp only [ModelC.tag_point, Int.toNat_ofNat, List.getElem?_eq_getElem hkl]
        · unfold ModelC.add_tag
          split <;> rfl
    obtain ⟨tagged, ht, htn⟩ := htag
    have hk : ((k : Int) + 1) = ((k + 1 : Nat) : Int) := by push_cast; rfl
    obtain ⟨S1, w1, hrest⟩ := ih (k + 1)
      { S with vectors := S.vectors ++ [tagged] } w2 hS hT
      (fun r hr => hrows r (List.mem_cons_of_mem _ hr))
      (by
        intro value
        obtain ⟨lv, a1, a2, a3, a4⟩ := hlook value
        exact ⟨lv, get_loop_append_left _ _ _ _ a1, a2, a3, a4⟩)
      (by
        intro ls hls
        have := hlab ls hls
        simp only [List.length_cons] at this
        omega)
      (by
        intro j hj v hv1
        have e : k + 1 + j = k + (j + 1) := by omega
        rw [e]
        rcases List.mem_append.mp hv1 with hv1 | hv1
        · exact hfresh (j + 1) (by simp; omega) v hv1
        · simp only [List.mem_singleton] at hv1
          subst hv1
          rw [htn]
          have := hdist 0 (j + 1) (by omega) (by simp; omega)
          simpa using this)
      (by
        intro i j hij hj
        have e1 : k + 1 + i = k + (i + 1) := by omega
        have e2 : k + 1 + j = k + (j + 1) := by omega
        rw [e1, e2]
        exact hdist (i + 1) (j + 1) (by omega) (by simp; omega))
    refine ⟨S1, w1, ?_⟩
    unfold ModelC.encode_points
    rw [hf]
    dsimp only
    rw [hins]
    dsimp only
    rw [ht]
    dsimp only
    rw [hk]
    exact hrest

/-- The call fit_mlmodel returns on every fresh model and every matrix of at
least three rows with d >= 1 features each, labels (if given) one per row with
two distinct values, when the names `level_<j>` and `point_<i>` the call writes
are pairwise distinct and size + d stays far from INT_MAX. -/
theorem fit_mlmodel_returns (E : Env) (w : World) (size L : Int) (vtype : String)
    (model : MLModel) (hcreate : ModelC.create_mlmodel size L vtype = .ok model)
    (points : List (List Rat)) (d : Int) (labels : Option (List String)) (seed : Int)
    (h3 : 3 ≤ points.length) (hd : 1 ≤ d) (hrows : ∀ row ∈ points, d.toNat ≤ row.length)
    (hbig : size + d ≤ 1000000000)
    (hlab : ∀ ls, labels = some ls → ls.length = points.length ∧ 2 ≤ ls.toFinset.card)
    (hlv : ∀ i j : Nat, i < j → j < L.toNat →
      ModelC.level_name (i : Int) ≠ ModelC.level_name (j : Int))
    (hpt : ∀ i j : Nat, i < j → j < points.length →
      ModelC.point_name (i : Int) ≠ ModelC.point_name (j : Int)) :
    ∃ fitted w1, ModelC.fit_mlmodel E w model points d labels seed = .ok (fitted, w1) := by
  obtain ⟨hsize, hL, hv, rfl⟩ := create_mlmodel_ok size L vtype model hcreate
  unfold ModelC.fit_mlmodel
  rw [if_neg (by omega)]
  have h2 : ¬ (labels.isSome ∧ (points.length : Int) ≠ (labels.getD []).length) := by
    rintro ⟨hs, hne⟩
    cases labels with
    | none => simp at hs
    | some ls =>
      apply hne
      simp only [Option.getD_some]
      exact_mod_cast (hlab ls rfl).1.symm
  rw [if_neg h2]
  dsimp only
  have hc3 : ¬ (labels.isSome ∧
      (((match labels with
          | some ls => ModelC.collect_classes ls []
          | none => ([] : List String)).length : Nat) : Int) < 2) := by
    rintro ⟨hs, hlt⟩
    cases labels with
    | none => simp at hs
    | some ls =>
      simp only [collect_classes_nil, first_occurrences_length] at hlt
      have := (hlab ls rfl).2
      omega
  rw [if_neg hc3, if_neg (by omega)]
  generalize (if seed ≠ -1 then srand w seed
    else srand (time_null E w).2 (time_null E w).1) = w0
  obtain ⟨bounds, hb⟩ := value_range_returns d points hrows none
  rw [hb]
  dsimp only
  have hsmall : ∀ x ∈ List.replicate size.toNat (if vtype = "bipolar" then (-1 : Int) else 0),
      x = 0 ∨ x = 1 ∨ x = -1 := by
    intro x hx
    rw [List.eq_of_mem_replicate hx]
    split_ifs
    · exact Or.inr (Or.inr rfl)
    · exact Or.inl rfl
  obtain ⟨S1, base1, w2, hcl⟩ := create_levels_returns E size vtype (Int.tdiv size 2)
    (Int.tdiv (Int.tdiv size 2) L) hsize hv L.toNat 0
    { vectors := [], size := size, vtype := vtype, tags := [] }
    (List.replicate size.toNat (if vtype = "bipolar" then (-1 : Int) else 0)) w0 rfl rfl
    (List.length_replicate _ _) hsmall (by simp)
    (by
      intro i j hij hj
      simp only [Nat.zero_add]
      exact hlv i j hij hj)
  have hcl0 : ModelC.create_levels E size vtype (Int.tdiv size 2)
      (Int.tdiv (Int.tdiv size 2) L) L.toNat 0
      (({ vectors := [], size := size, vtype := vtype, tags := [] },
        List.replicate size.toNat (if vtype = "bipolar" then (-1 : Int) else 0)), w0) =
      .ok ((S1, base1), w2) := by simpa using hcl
  rw [hcl0]
  dsimp only
  obtain ⟨lvs, hins, hll, -, hlvs, hpred⟩ :=
    create_levels_ok (fun x => x = 0 ∨ x = 1 ∨ x = -1) small_flip _ _ _ _ _ _ _ _ _ _ _ _ _ hcl
  obtain ⟨s1, s2, s3, -, -, -⟩ := insert_each_ok lvs _ _ hins
  simp only [List.nil_append] at s1
  have hlook : ∀ value : Rat, ∃ lv,
      GraphC.get_vector_from_space S1
        (ModelC.level_name (ModelC.level_of L bounds value)) = some lv ∧
      lv.vector.length = size.toNat ∧ lv.vtype = vtype ∧ ∀ x ∈ lv.vector, -1 ≤ x ∧ x ≤ 1 := by
    intro value
    obtain ⟨r1, r2⟩ := level_of_range L hL bounds value
    have hj : (ModelC.level_of L bounds value).toNat < lvs.length := by
      rw [hll]
      omega
    obtain ⟨a1, -, -, -⟩ := hlvs _ _ (List.getElem?_eq_getElem hj)
    have hname : (lvs[(ModelC.level_of L bounds value).toNat]).name =
        ModelC.level_name (ModelC.level_of L bounds value) := by
      rw [a1]
      congr 1
      simp only [Nat.zero_add]
      exact Int.toNat_of_nonneg r1
    obtain ⟨lv, hlv1⟩ := get_loop_some_of_name S1.vectors _ _
      (by rw [s1]; exact List.getElem_mem hj) hname
    obtain ⟨hm, -⟩ := get_loop_mem _ _ _ hlv1
    rw [s1] at hm
    obtain ⟨q, hq, hqv⟩ := List.getElem_of_mem hm
    obtain ⟨-, b2, -, b4⟩ := hlvs q lv (by rw [List.getElem?_eq_getElem hq, hqv])
    refine ⟨lv, hlv1, by rw [b4, List.length_replicate], b2, ?_⟩
    intro x hx
    rcases hpred hsmall lv hm x hx with h | h | h <;> rw [h] <;> decide
  obtain ⟨S2, w3, hep⟩ := encode_points_returns E L bounds d labels size.toNat vtype
    (by omega) hv hd (by omega) points 0 S1 w2
    (by rw [s2]; exact (Int.toNat_of_nonneg (show (0 : Int) ≤ size by omega)).symm) s3 hrows
    hlook
    (by
      intro ls hls
      have := (hlab ls hls).1
      omega)
    (by
      intro j _ v hv1
      rw [s1] at hv1
      obtain ⟨q, hq, hqv⟩ := List.getElem_of_mem hv1
      obtain ⟨b1, -, -, -⟩ := hlvs q v (by rw [List.getElem?_eq_getElem hq, hqv])
      rw [b1]
      exact (point_name_ne_level_name _ _).symm)
    (by
      intro i j hij hj
      simp only [Nat.zero_add]
      exact hpt i j hij hj)
  have hep0 : ModelC.encode_points E L bounds d labels points 0 (S1, w2) =
      .ok (S2, w3) := by simpa using hep
  rw [hep0]
  exact ⟨_, _, rfl⟩

/-! ## model.c: inputs on which predict_mlmodel returns -/

theorem point_index_is_point (v : Vector) (i : Int) (h : ModelC.point_index v = some i) :
    ModelC.is_point_name v.name = true ∧ ModelC.atoi (v.name.data.drop 6) = .ok i := by
  unfold ModelC.point_index at h
  by_cases hp : ModelC.is_point_name v.name = true
  · rw [if_pos hp] at h
    refine ⟨hp, ?_⟩
    cases ha : ModelC.atoi (v.name.data.drop 6) with
    | error f => rw [ha] at h; cases h
    | ok j =>
      rw [ha] at h
      simp only [Option.some.injEq] at h
      rw [h]
  · rw [if_neg hp] at h; cases h

theorem test_points_mem (test_indices : List Int) (vectors : List Vector) (v : Vector)
    (h : v ∈ ModelC.test_points test_indices vectors) :
    v ∈ vectors ∧ ModelC.is_point_name v.name = true := by
  unfold ModelC.test_points at h
  obtain ⟨h1, h2⟩ := List.mem_filter.mp h
  refine ⟨h1, ?_⟩
  cases hp : ModelC.point_index v with
  | none => rw [hp] at h2; cases h2
  | some i => exact (point_index_is_point v i hp).1

theorem training_points_mem (test_indices : List Int) (vectors : List Vector) (v : Vector)
    (h : v ∈ ModelC.training_points test_indices vectors) :
    v ∈ vectors ∧ ModelC.is_point_name v.name = true := by
  unfold ModelC.training_points at h
  obtain ⟨h1, h2⟩ := List.mem_filter.mp h
  refine ⟨h1, ?_⟩
  cases hp : ModelC.point_index v with
  | none => rw [hp] at h2; cases h2
  | some i => exact (point_index_is_point v i hp).1

/-- The loop over the space returns when atoi is defined on every point name
and no more vectors match a test index than `test_vectors` has cells. -/
theorem retrieve_returns (test_indices : List Int) (vectors : List Vector) :
    ∀ (tests trainings : List Vector),
      (∀ v ∈ vectors, ModelC.is_point_name v.name = true →
        ∃ i, ModelC.atoi (v.name.data.drop 6) = .ok i) →
      tests.length + (ModelC.test_points test_indices vectors).length ≤ test_indices.length →
      ∃ res, ModelC.retrieve test_indices vectors (tests, trainings) = .ok res := by
  induction vectors with
  | nil => intro tests trainings _ _; exact ⟨_, rfl⟩
  | cons v rest ih =>
    intro tests trainings hatoi hcount
    have hrest : ∀ u ∈ rest, ModelC.is_point_name u.name = true →
        ∃ i, ModelC.atoi (u.name.data.drop 6) = .ok i :=
      fun u hu => hatoi u (List.mem_cons_of_mem _ hu)
    unfold ModelC.retrieve
    by_cases hp : ModelC.is_point_name v.name = true
    · rw [if_pos hp]
      obtain ⟨i, hi⟩ := hatoi v (List.mem_cons_self _ _) hp
      rw [hi]
      dsimp only
      have hpi : ModelC.point_index v = some i := by
        unfold ModelC.point_index
        rw [if_pos hp, hi]
      by_cases hm : i ∈ test_indices
      · rw [if_pos hm]
        have htp : ModelC.test_points test_indices (v :: rest) =
            v :: ModelC.test_points test_indices rest := by
          unfold ModelC.test_points
          rw [List.filter_cons_of_pos]
          rw [hpi]
          simpa using hm
        rw [htp, List.length_cons] at hcount
        rw [if_pos (by omega)]
        exact ih _ _ hrest (by rw [List.length_append, List.length_singleton]; omega)
      · rw [if_neg hm]
        have htp : ModelC.test_points test_indices (v :: rest) =
            ModelC.test_points test_indices rest := by
          unfold ModelC.test_points
          rw [List.filter_cons_of_neg]
          rw [hpi]
          simpa using hm
        rw [htp] at hcount
        exact ih _ _ hrest hcount
    · rw [if_neg hp]
      have htp : ModelC.test_points test_indices (v :: rest) =
          ModelC.test_points test_indices rest := by
        unfold ModelC.test_points
        rw [List.filter_cons_of_neg]
        have : ModelC.point_index v = none := by
          unfold ModelC.point_index
          rw [if_neg hp]
        rw [this]
        simp
      rw [htp] at hcount
      exact ih _ _ hrest hcount

theorem class_sum_single (E : Env) (c : String) (vs : List Vector) (u : Vector) (w : World)
    (h : vs.filter (fun v => ModelC.has_tag v c) = [u]) :
    ModelC.class_sum E c vs (none, w) = .ok (some (ModelC.copy_vector u), w) := by
  induction vs with
  | nil => simp at h
  | cons v rest ih =>
    unfold ModelC.class_sum
    by_cases ht : ModelC.has_tag v c = true
    · rw [if_pos ht]
      rw [List.filter_cons_of_pos (by simpa using ht)] at h
      simp only [List.cons.injEq] at h
      obtain ⟨rfl, hrest⟩ := h
      dsimp only
      apply class_sum_untagged
      intro x hx
      by_contra hne
      have : x ∈ rest.filter (fun v => ModelC.has_tag v c) :=
        List.mem_filter.mpr ⟨hx, by simpa using hne⟩
      rw [hrest] at this
      simp at this
    · rw [if_neg ht]
      rw [List.filter_cons_of_neg (by simpa using ht)] at h
      exact ih h

theorem add_tag_fields (v : Vector) (t : String) :
    (ModelC.add_tag v t).vtype = v.vtype ∧ (ModelC.add_tag v t).name = v.name := by
  unfold ModelC.add_tag
  split <;> exact ⟨rfl, rfl⟩

/-- The loop that builds the class vectors returns when every class has exactly
one training vector tagged with it: the class vector is its copy. -/
theorem build_classes_returns (E : Env) (trainings : List Vector) (classes : List String) :
    ∀ (idx : Int) (cvs : List Vector) (w : World),
      (∀ c ∈ classes, ∃ u, trainings.filter (fun v => ModelC.has_tag v c) = [u]) →
      ∃ protos, ModelC.build_classes E trainings classes idx (cvs, w) =
          .ok (cvs ++ protos, w) ∧ protos.length = classes.length ∧
        ∀ p ∈ protos, ∃ u ∈ trainings, p.vector = u.vector ∧ p.vtype = u.vtype := by
  induction classes with
  | nil => intro idx cvs w _; exact ⟨[], by simp [ModelC.build_classes], rfl, by simp⟩
  | cons c rest ih =>
    intro idx cvs w hcls
    obtain ⟨u, hu⟩ := hcls c (List.mem_cons_self _ _)
    have hmem : u ∈ trainings := by
      have : u ∈ trainings.filter (fun v => ModelC.has_tag v c) := by rw [hu]; simp
      exact (List.mem_filter.mp this).1
    obtain ⟨protos, hrest, hlen, hall⟩ := ih (idx + 1)
      (cvs ++ [ModelC.add_tag { ModelC.copy_vector u with name := ModelC.class_name idx } c]) w
      (fun c1 hc1 => hcls c1 (List.mem_cons_of_mem _ hc1))
    refine ⟨ModelC.add_tag { ModelC.copy_vector u with name := ModelC.class_name idx } c ::
      protos, ?_, by simp [hlen], ?_⟩
    · unfold ModelC.build_classes
      rw [class_sum_single E c trainings u w hu]
      dsimp only
      rw [hrest]
      simp
    · intro p hp
      rcases List.mem_cons.mp hp with rfl | hp
      · exact ⟨u, hmem, by rw [add_tag_vector]; rfl, by rw [(add_tag_fields _ _).1]; rfl⟩
      · exact hall p hp

theorem signs_small (xs : List Int) (h : ∀ x ∈ xs, x = 1 ∨ x = -1) : small_elements xs := by
  intro x hx
  rcases h x hx with h | h <;> rw [h] <;> decide

theorem signs_sum_sq_pos (xs : List Int) (h : ∀ x ∈ xs, x = 1 ∨ x = -1) (hl : 0 < xs.length) :
    0 < sum_sq xs := by
  apply sum_sq_pos
  refine ⟨xs[0], List.getElem_mem hl, ?_⟩
  rcases h _ (List.getElem_mem hl) with h | h <;> rw [h] <;> decide

/-- The comparison loop of one test vector returns a class when the test vector
and the class vectors hold only -1 and 1 and there is a class. -/
theorem closest_returns (N : Nat) (hN : 0 < N) (vt : String) (t : Vector)
    (ht : t.vector.length = N ∧ t.vtype = vt ∧ ∀ x ∈ t.vector, x = 1 ∨ x = -1)
    (cls : List (String × Vector)) :
    ∀ (st : Option (String × DistValue)),
      (∀ e ∈ cls, e.2.vector.length = N ∧ e.2.vtype = vt ∧ ∀ x ∈ e.2.vector, x = 1 ∨ x = -1) →
      ∃ res, ModelC.closest t cls st = .ok res ∧ ((st ≠ none ∨ cls ≠ []) → res ≠ none) := by
  induction cls with
  | nil => intro st _; exact ⟨st, rfl, fun h => h.elim id (fun h => absurd rfl h)⟩
  | cons e rest ih =>
    intro st hall
    obtain ⟨c, v⟩ := e
    obtain ⟨v1, v2, v3⟩ := hall (c, v) (List.mem_cons_self _ _)
    have hd := vector_distance_cosine_ok t v
      (by simp only [Vector.size, ht.1]; exact_mod_cast v1.symm) (by rw [ht.2.1, v2])
      (signs_small _ ht.2.2) (signs_small _ v3)
    have hfin : (DistValue.cosine (dot t.vector v.vector) (sum_sq t.vector)
        (sum_sq v.vector)).finite = true := by
      simp only [DistValue.finite, decide_eq_true_eq]
      exact ⟨signs_sum_sq_pos _ ht.2.2 (by rw [ht.1]; exact hN),
        signs_sum_sq_pos _ v3 (by rw [v1]; exact hN)⟩
    unfold ModelC.closest
    rw [hd]
    dsimp only
    by_cases hn : ModelC.nearer (DistValue.cosine (dot t.vector v.vector) (sum_sq t.vector)
        (sum_sq v.vector)) st = true
    · rw [if_pos hn]
      obtain ⟨res, h1, h2⟩ := ih (some (c, _)) (fun e he => hall e (List.mem_cons_of_mem _ he))
      exact ⟨res, h1, fun _ => h2 (Or.inl (by simp))⟩
    · rw [if_neg hn]
      obtain ⟨res, h1, h2⟩ := ih st (fun e he => hall e (List.mem_cons_of_mem _ he))
      refine ⟨res, h1, fun _ => h2 (Or.inl ?_)⟩
      intro hst
      subst hst
      exact hn hfin

theorem predict_each_returns (N : Nat) (hN : 0 < N) (vt : String)
    (cls : List (String × Vector)) (hcls : cls ≠ [])
    (hall : ∀ e ∈ cls, e.2.vector.length = N ∧ e.2.vtype = vt ∧
      ∀ x ∈ e.2.vector, x = 1 ∨ x = -1)
    (tests : List Vector)
    (htests : ∀ t ∈ tests, t.vector.length = N ∧ t.vtype = vt ∧
      ∀ x ∈ t.vector, x = 1 ∨ x = -1) :
    ∃ predictions, ModelC.predict_each cls tests = .ok predictions := by
  induction tests with
  | nil => exact ⟨[], rfl⟩
  | cons t rest ih =>
    obtain ⟨res, h1, h2⟩ := closest_returns N hN vt t (htests t (List.mem_cons_self _ _)) cls
      none hall
    obtain ⟨preds, hp⟩ := ih (fun u hu => htests u (List.mem_cons_of_mem _ hu))
    cases res with
    | none => exact absurd rfl (h2 (Or.inr hcls))
    | some r =>
      obtain ⟨c, d⟩ := r
      exact ⟨c :: preds, by simp only [ModelC.predict_each, h1, hp]⟩

/-- The call predict_mlmodel returns on a space whose point vectors hold only
-1 and 1, when every test index names exactly one point and every class has
exactly one training point. -/
theorem predict_mlmodel_returns (E : Env) (w : World) (model : MLModel)
    (test_indices : List Int) (retraining_iterations : Int) (model_error_rate : Rat)
    (N : Nat) (hN : 0 < N) (vt : String) (h0 : test_indices ≠ [])
    (hatoi : ∀ v ∈ model.space.vectors, ModelC.is_point_name v.name = true →
      ∃ i, ModelC.atoi (v.name.data.drop 6) = .ok i)
    (hcount : (ModelC.test_points test_indices model.space.vectors).length =
      test_indices.length)
    (hcls : model.classes ≠ [])
    (hclass : ∀ c ∈ model.classes, ∃ u,
      (ModelC.training_points test_indices model.space.vectors).filter
        (fun v => ModelC.has_tag v c) = [u])
    (hvec : ∀ v ∈ model.space.vectors, ModelC.is_point_name v.name = true →
      v.vector.length = N ∧ v.vtype = vt ∧ ∀ x ∈ v.vector, x = 1 ∨ x = -1) :
    ∃ result w1, ModelC.predict_mlmodel E w model test_indices retraining_iterations
      model_error_rate = .ok (result, w1) := by
  obtain ⟨rr, hr⟩ := retrieve_returns test_indices model.space.vectors [] [] hatoi
    (by simp [hcount])
  have hrr := retrieve_ok test_indices model.space.vectors [] [] _ hr
  simp only [List.nil_append] at hrr
  subst hrr
  obtain ⟨protos, hb, hpl, hpp⟩ := build_classes_returns E
    (ModelC.training_points test_indices model.space.vectors) model.classes 0 [] w hclass
  simp only [List.nil_append] at hb
  obtain ⟨preds, hp⟩ := predict_each_returns N hN vt (model.classes.zip protos)
    (by
      intro hz
      have := congrArg List.length hz
      simp only [List.length_zip, hpl, min_self, List.length_nil] at this
      exact hcls (List.length_eq_zero.mp this))
    (by
      intro e he
      obtain ⟨u, hu, e1, e2⟩ := hpp e.2 (List.of_mem_zip he).2
      obtain ⟨m1, m2⟩ := training_points_mem _ _ _ hu
      obtain ⟨a1, a2, a3⟩ := hvec u m1 m2
      exact ⟨by rw [e1]; exact a1, by rw [e2]; exact a2, by rw [e1]; exact a3⟩)
    (ModelC.test_points test_indices model.space.vectors)
    (by
      intro t ht
      obtain ⟨m1, m2⟩ := test_points_mem _ _ _ ht
      exact hvec t m1 m2)
  refine ⟨{ predictions := preds, retraining_iterations := retraining_iterations,
            model_error_rate := model_error_rate }, w, ?_⟩
  unfold ModelC.predict_mlmodel
  rw [if_neg (by
    intro hl
    exact h0 (List.length_eq_zero.mp hl))]
  rw [hr]
  dsimp only
  rw [if_neg (by
    intro hne
    exact hne hcount)]
  rw [hb]
  dsimp only
  rw [hp]

/-! ## model.c: runs on the four rows -/

theorem create_fresh (N : Int) (hN : 10000 ≤ N) (vt : String)
    (hvt : vt = "binary" ∨ vt = "bipolar") :
    ModelC.create_mlmodel N 2 vt = .ok (fresh_model N vt) := by
  unfold ModelC.create_mlmodel SpaceC.create_space
  rw [if_neg (by omega), if_neg (by decide), if_neg (by
    rintro ⟨h1, h2⟩
    rcases hvt with h | h
    · exact h1 h
    · exact h2 h), if_neg (by omega)]
  rfl

theorem level_names_two (i j : Nat) (hij : i < j) (hj : j < (2 : Int).toNat) :
    ModelC.level_name (i : Int) ≠ ModelC.level_name (j : Int) := by
  have hj2 : j < 2 := hj
  interval_cases j
  · omega
  · interval_cases i
    decide

theorem point_names_four (i j : Nat) (hij : i < j) (hj : j < 4) :
    ModelC.point_name (i : Int) ≠ ModelC.point_name (j : Int) := by
  interval_cases j <;> interval_cases i <;> first | omega | decide

/-- On the four rows fit_mlmodel returns, for every stream, clock and seed. -/
theorem four_fit_returns (E : Env) (w : World) (N : Int) (hN : 10000 ≤ N)
    (hbig : N + 2 ≤ 1000000000) (vt : String) (hvt : vt = "binary" ∨ vt = "bipolar")
    (points : List (List Rat)) (d : Int) (hd : d = 1 ∨ d = 2) (h4 : points.length = 4)
    (hrows : ∀ row ∈ points, d.toNat ≤ row.length) (seed : Int) :
    ∃ fitted w1, ModelC.fit_mlmodel E w (fresh_model N vt) points d (some four_labels) seed =
      .ok (fitted, w1) := by
  apply fit_mlmodel_returns E w N 2 vt (fresh_model N vt) (create_fresh N hN vt hvt) points d
    (some four_labels) seed (by omega) (by omega) hrows (by omega)
  · intro ls hls
    cases hls
    exact ⟨by rw [h4]; rfl, by decide⟩
  · exact level_names_two
  · intro i j hij hj
    exact point_names_four i j hij (by omega)

theorem rolled_zero (u l : List Int) (hlen : u.length = l.length)
    (h : ∀ t, t < l.length → u[(t + 0) % l.length]? = l[t]?) : u = l := by
  apply List.ext_getElem? 
  intro t
  by_cases ht : t < l.length
  · have := h t ht
    rwa [Nat.add_zero, Nat.mod_eq_of_lt ht] at this
  · rw [List.getElem?_eq_none (by omega), List.getElem?_eq_none (by omega)]

/-- The space after fit_mlmodel on a fresh model and four rows of one feature:
two level vectors and four point vectors, each point vector holding the
elements of a level vector. -/
theorem four_fit_shape (P : Int → Prop) (hP : ∀ x, P x → P (x * -1)) (E : Env) (w w1 : World)
    (N : Int) (vt : String) (points : List (List Rat)) (h4 : points.length = 4) (seed : Int)
    (fitted : MLModel) (hP0 : P (if vt = "bipolar" then (-1 : Int) else 0))
    (hfit : ModelC.fit_mlmodel E w (fresh_model N vt) points 1 (some four_labels) seed =
      .ok (fitted, w1)) :
    ∃ l0 l1 p0 p1 p2 p3 : Vector, fitted.space.vectors = [l0, l1, p0, p1, p2, p3] ∧
      fitted.classes = ["a", "b"] ∧
      (l0.name = "level_0" ∧ l1.name = "level_1" ∧ p0.name = "point_0" ∧ p1.name = "point_1" ∧
        p2.name = "point_2" ∧ p3.name = "point_3") ∧
      (p0.tags = ["a"] ∧ p1.tags = ["b"] ∧ p2.tags = ["a"] ∧ p3.tags = ["b"]) ∧
      ([l0, l1, p0, p1, p2, p3].map Vector.name).Nodup ∧
      (∀ v ∈ [l0, l1, p0, p1, p2, p3],
        v.vector.length = N.toNat ∧ v.vtype = vt ∧ ∀ x ∈ v.vector, P x) ∧
      ∀ p ∈ [p0, p1, p2, p3], p.vector = l0.vector ∨ p.vector = l1.vector := by
  obtain ⟨bounds, lvs, pts, -, hfitted, -, -, hll, hpl, -, hnd, hlv, hpred, hpt⟩ :=
    fit_mlmodel_ok P hP E w w1 (fresh_model N vt) fitted points 1 (some four_labels) seed
      (by decide) hfit
  have hl2 : lvs.length = 2 := hll
  rw [h4] at hpl
  obtain ⟨l0, l1, rfl⟩ : ∃ a b, lvs = [a, b] := by
    match lvs, hl2 with
    | [a, b], _ => exact ⟨a, b, rfl⟩
  obtain ⟨p0, p1, p2, p3, rfl⟩ : ∃ a b c e, pts = [a, b, c, e] := by
    match pts, hpl with
    | [a, b, c, e], _ => exact ⟨a, b, c, e, rfl⟩
  have hrow : ∀ i, i < 4 → ∃ row, points[i]? = some row := by
    intro i hi
    exact ⟨points[i], List.getElem?_eq_getElem (by omega)⟩
  have hlpred := hpred hP0
  have hlvec : ∀ v ∈ [l0, l1], v.vector.length = N.toNat ∧ v.vtype = vt ∧
      ∀ x ∈ v.vector, P x := by
    intro v hv
    obtain ⟨q, hq, hqv⟩ := List.getElem_of_mem hv
    obtain ⟨-, b2, -, b4⟩ := hlv q v (by rw [List.getElem?_eq_getElem hq, hqv])
    exact ⟨b4, b2, hlpred v hv⟩
  have hpoint : ∀ (i : Nat) (p : Vector) (label : String), [p0, p1, p2, p3][i]? = some p →
      four_labels[i]? = some label →
      p.name = ModelC.point_name (i : Int) ∧ p.tags = [label] ∧ p.vtype = vt ∧
        (p.vector = l0.vector ∨ p.vector = l1.vector) := by
    intro i p label hp hlabel
    have hi : i < 4 := (List.getElem?_eq_some_iff.mp hp).1
    obtain ⟨row, hr⟩ := hrow i hi
    obtain ⟨p', e1, e2, -, e4, e5, -, rolled, r1, r2, r3⟩ := hpt i row hr
    rw [hp] at e1
    cases e1
    obtain ⟨label', g1, g2⟩ := e5 four_labels rfl
    rw [hlabel] at g1
    cases g1
    obtain ⟨u, rfl⟩ : ∃ u, rolled = [u] := by
      match rolled, r1 with
      | [u], _ => exact ⟨u, rfl⟩
    obtain ⟨value, lv, -, c2, c3, -, c5⟩ := r3 0 u rfl
    have hu : u = lv.vector := rolled_zero u lv.vector c3 c5
    have hmem := (get_loop_mem _ _ _ c2).1
    simp only [fresh_model, List.nil_append] at hmem
    refine ⟨e2, g2, e4, ?_⟩
    rw [r2, column_sums_single, hu]
    rcases List.mem_cons.mp hmem with h | h
    · exact Or.inl (by rw [h])
    · simp only [List.mem_singleton] at h
      exact Or.inr (by rw [h])
  obtain ⟨a1, a2, a3, a4⟩ := hpoint 0 p0 "a" rfl rfl
  obtain ⟨b1, b2, b3, b4⟩ := hpoint 1 p1 "b" rfl rfl
  obtain ⟨c1, c2, c3, c4⟩ := hpoint 2 p2 "a" rfl rfl
  obtain ⟨d1, d2, d3, d4⟩ := hpoint 3 p3 "b" rfl rfl
  obtain ⟨n0, -, -, -⟩ := hlv 0 l0 rfl
  obtain ⟨n1, -, -, -⟩ := hlv 1 l1 rfl
  have hvecs : ∀ p : Vector, p.vtype = vt → (p.vector = l0.vector ∨ p.vector = l1.vector) →
      p.vector.length = N.toNat ∧ p.vtype = vt ∧ ∀ x ∈ p.vector, P x := by
    intro p h1 h2
    rcases h2 with h | h <;> rw [h]
    · exact ⟨(hlvec l0 (by simp)).1, h1, (hlvec l0 (by simp)).2.2⟩
    · exact ⟨(hlvec l1 (by simp)).1, h1, (hlvec l1 (by simp)).2.2⟩
  refine ⟨l0, l1, p0, p1, p2, p3, ?_, ?_, ⟨n0, n1, a1, b1, c1, d1⟩, ⟨a2, b2, c2, d2⟩, ?_, ?_,
    ?_⟩
  · rw [hfitted]
    simp [fresh_model]
  · rw [hfitted]
    simp only [Option.map_some', Option.getD_some]
    decide
  · have := hnd (by simp [fresh_model])
    simpa [fresh_model] using this
  · intro v hv
    simp only [List.mem_cons, List.mem_singleton, List.not_mem_nil, or_false] at hv
    rcases hv with rfl | rfl | rfl | rfl | rfl | rfl
    · exact hlvec _ (by simp)
    · exact hlvec _ (by simp)
    · exact hvecs _ a3 a4
    · exact hvecs _ b3 b4
    · exact hvecs _ c3 c4
    · exact hvecs _ d3 d4
  · intro p hp
    simp only [List.mem_cons, List.mem_singleton, List.not_mem_nil, or_false] at hp
    rcases hp with rfl | rfl | rfl | rfl
    · exact a4
    · exact b4
    · exact c4
    · exact d4

theorem point_index_congr (u v : Vector) (h : u.name = v.name) :
    ModelC.point_index u = ModelC.point_index v := by
  unfold ModelC.point_index
  rw [h]

theorem point_index_named (v : Vector) (s : String) (r : Option Int) (h : v.name = s)
    (hr : ModelC.point_index (constant_vector 0 s 0) = r) : ModelC.point_index v = r := by
  rw [← hr]
  exact point_index_congr _ _ (by rw [h]; rfl)

/-- On the space fit_mlmodel leaves for the four rows, with the rows 2 and 3 as
test set: the test vectors are point_2 and point_3, the training vectors
point_0 and point_1. -/
theorem four_split (l0 l1 p0 p1 p2 p3 : Vector)
    (hn : l0.name = "level_0" ∧ l1.name = "level_1" ∧ p0.name = "point_0" ∧
      p1.name = "point_1" ∧ p2.name = "point_2" ∧ p3.name = "point_3") :
    ModelC.test_points [2, 3] [l0, l1, p0, p1, p2, p3] = [p2, p3] ∧
      ModelC.training_points [2, 3] [l0, l1, p0, p1, p2, p3] = [p0, p1] := by
  obtain ⟨n0, n1, m0, m1, m2, m3⟩ := hn
  have i0 := point_index_named l0 _ none n0 (by decide)
  have i1 := point_index_named l1 _ none n1 (by decide)
  have j0 := point_index_named p0 _ (some 0) m0 (by decide)
  have j1 := point_index_named p1 _ (some 1) m1 (by decide)
  have j2 := point_index_named p2 _ (some 2) m2 (by decide)
  have j3 := point_index_named p3 _ (some 3) m3 (by decide)
  constructor
  · simp [ModelC.test_points, List.filter, i0, i1, j0, j1, j2, j3]
  · simp [ModelC.training_points, List.filter, i0, i1, j0, j1, j2, j3]

/-- On the model fit_mlmodel returns for a fresh bipolar model and four rows of
one feature, predict_mlmodel with the rows 2 and 3 as test set returns. -/
theorem four_predict_returns (E : Env) (w w1 wp : World) (N : Int) (hN : 10000 ≤ N)
    (points : List (List Rat)) (h4 : points.length = 4) (seed : Int) (fitted : MLModel)
    (hfit : ModelC.fit_mlmodel E w (fresh_model N "bipolar") points 1 (some four_labels) seed =
      .ok (fitted, w1))
    (retraining_iterations : Int) (model_error_rate : Rat) :
    ∃ result w2, ModelC.predict_mlmodel E wp fitted [2, 3] retraining_iterations
      model_error_rate = .ok (result, w2) := by
  obtain ⟨l0, l1, p0, p1, p2, p3, hvs, hcl, hn, ⟨t0, t1, t2, t3⟩, -, hall, -⟩ :=
    four_fit_shape (fun x => x = 1 ∨ x = -1)
      (fun x hx => by rcases hx with h | h <;> rw [h] <;> decide)
      E w w1 N "bipolar" points h4 seed fitted (by simp) hfit
  obtain ⟨hs1, hs2⟩ := four_split l0 l1 p0 p1 p2 p3 hn
  obtain ⟨n0, n1, m0, m1, m2, m3⟩ := hn
  apply predict_mlmodel_returns E wp fitted [2, 3] retraining_iterations model_error_rate
    N.toNat (by omega) "bipolar" (by simp)
  · intro v hv hp
    rw [hvs] at hv
    simp only [List.mem_cons, List.mem_singleton, List.not_mem_nil, or_false] at hv
    rcases hv with rfl | rfl | rfl | rfl | rfl | rfl
    · rw [n0] at hp; exact absurd hp (by decide)
    · rw [n1] at hp; exact absurd hp (by decide)
    · exact ⟨0, (point_index_is_point _ 0 (point_index_named _ _ (some 0) m0 (by decide))).2⟩
    · exact ⟨1, (point_index_is_point _ 1 (point_index_named _ _ (some 1) m1 (by decide))).2⟩
    · exact ⟨2, (point_index_is_point _ 2 (point_index_named _ _ (some 2) m2 (by decide))).2⟩
    · exact ⟨3, (point_index_is_point _ 3 (point_index_named _ _ (some 3) m3 (by decide))).2⟩
  · rw [hvs, hs1]
    rfl
  · rw [hcl]
    simp
  · intro c hc
    rw [hcl] at hc
    rw [hvs, hs2]
    simp only [List.mem_cons, List.mem_singleton, List.not_mem_nil, or_false] at hc
    rcases hc with rfl | rfl
    · exact ⟨p0, by simp [List.filter, ModelC.has_tag, t0, t1]⟩
    · exact ⟨p1, by simp [List.filter, ModelC.has_tag, t0, t1]⟩
  · intro v hv _
    rw [hvs] at hv
    exact hall v hv

/-! ## model.c: the flips under a stream that repeats one value -/

theorem world_drawn_zero (w : World) : { w with rng_drawn := w.rng_drawn + 0 } = w := by
  cases w
  rfl

theorem list_set_same (l : List Int) (i : Nat) (h : i < l.length) : l.set i l[i] = l := by
  apply List.ext_getElem?
  intro j
  by_cases hj : i = j
  · subst hj
    rw [List.getElem?_set_self h, List.getElem?_eq_getElem h]
  · rw [List.getElem?_set_ne hj]

/-- When every draw selects the same index i, n flips leave the base vector as
it is for even n and change element i alone for odd n. -/
theorem flip_bits_constant (E : Env) (N : Nat) (i : Nat) (hi : i < N) (n : Nat) :
    ∀ (base : List Int) (w : World), base.length = N →
      (∀ x ∈ base, x = 0 ∨ x = 1 ∨ x = -1) →
      (∀ k, Int.tmod (E.stream w.rng_seed k : Int) (N : Int) = (i : Int)) →
      ModelC.flip_bits E (N : Int) n (base, w) =
        .ok (if n % 2 = 0 then base else base.set i (base.getD i 0 * -1),
          { w with rng_drawn := w.rng_drawn + n }) := by
  induction n with
  | zero =>
    intro base w _ _ _
    simp only [ModelC.flip_bits, Nat.zero_mod, if_true, world_drawn_zero]
  | succ n ih =>
    intro base w hlen hsmall hdraw
    have hib : i < base.length := by omega
    have hx := hsmall _ (List.getElem_mem hib)
    have hm : mul_int base[i] (-1) = .ok (base[i] * -1) := by
      unfold mul_int
      apply checked_of_in_int
      rcases hx with h | h | h <;> rw [h] <;> decide
    have hidx : (Int.tmod ((rand E w).1 : Int) (N : Int)).toNat = i := by
      have := hdraw w.rng_drawn
      simp only [rand]
      rw [this, Int.toNat_ofNat]
    unfold ModelC.flip_bits
    rw [if_neg (by omega)]
    dsimp only
    rw [hidx, List.getElem?_eq_getElem hib]
    dsimp only
    rw [hm]
    dsimp only
    rw [ih (base.set i (base[i] * -1)) (rand E w).2 (by rw [List.length_set]; exact hlen)
      (by
        intro z hz
        rcases List.mem_or_eq_of_mem_set hz with hz | hz
        · exact hsmall z hz
        · rw [hz]
          exact small_flip _ hx)
      (by simpa [rand] using hdraw)]
    have hgd : base.getD i 0 = base[i] := by
      rw [List.getD_eq_getElem?_getD, List.getElem?_eq_getElem hib, Option.getD_some]
    have hgd1 : (base.set i (base[i] * -1)).getD i 0 = base[i] * -1 := by
      rw [List.getD_eq_getElem?_getD, List.getElem?_set_self (by omega), Option.getD_some]
    have hw : ({ (rand E w).2 with rng_drawn := (rand E w).2.rng_drawn + n } : World) =
        { w with rng_drawn := w.rng_drawn + (n + 1) } := by
      simp only [rand, World.mk.injEq, true_and, and_true]
      omega
    rw [hw, hgd, hgd1]
    congr 2
    rcases Nat.mod_two_eq_zero_or_one n with h | h
    · have h1 : (n + 1) % 2 ≠ 0 := by omega
      rw [if_pos h, if_neg h1]
    · have h0 : n % 2 ≠ 0 := by omega
      have h1 : (n + 1) % 2 = 0 := by omega
      rw [if_neg h0, if_pos h1, List.set_set]
      have : base[i] * -1 * -1 = base[i] := by ring
      rw [this]
      exact list_set_same base i hib

/-- The two levels of a fresh bipolar model under a stream whose every value
is the seed of the generator and a clock that stands at t: the flips of level 0
use the seed of fit_mlmodel, those of level 1 the clock value create_vector
seeded the generator with. -/
theorem seeded_levels (t N seed : Nat) (hN : 10000 ≤ N) (hseed : seed < N) (ht : t < N)
    (size : Int) (hs : size = N) (change next_level : Int)
    (hchange : change.toNat % 2 = 0) (hnext : next_level.toNat % 2 = 1)
    (w : World) (hw : w.rng_seed = seed) :
    ∃ (r0 r1 : Vector) (b : List Int) (w2 : World),
      ModelC.create_levels (env_seeded t) size "bipolar" change next_level 2 0
        (({ vectors := [], size := size, vtype := "bipolar", tags := [] },
          List.replicate N (-1)), w) =
      .ok (({ vectors := [{ r0 with vector := List.replicate N (-1) },
                         { r1 with vector := (List.replicate N (-1)).set t 1 }],
              size := size, vtype := "bipolar", tags := [] }, b), w2) := by
  subst hs
  have hsmall : ∀ x ∈ List.replicate N (-1 : Int), x = 0 ∨ x = 1 ∨ x = -1 := by
    intro x hx
    rw [List.eq_of_mem_replicate hx]
    exact Or.inr (Or.inr rfl)
  have hf0 := flip_bits_constant (env_seeded t) N seed hseed change.toNat
    (List.replicate N (-1)) w (List.length_replicate _ _) hsmall
    (by
      intro k
      simp only [env_seeded, hw, Int.toNat_ofNat]
      exact Int.tmod_eq_of_lt (Int.ofNat_nonneg _) (by exact_mod_cast hseed))
  rw [if_pos hchange] at hf0
  obtain ⟨r0, wb, hc0, hname0, hvt0, -, -⟩ := create_vector_ok (env_seeded t)
    { w with rng_drawn := w.rng_drawn + change.toNat } (ModelC.level_name 0) (N : Int)
    "bipolar" (-1) false (by exact_mod_cast hN) (Or.inr rfl)
  obtain ⟨-, -, -, -, -, hwb⟩ := create_vector_inv _ _ _ _ _ _ _ hc0
  have hf1 := flip_bits_constant (env_seeded t) N t ht next_level.toNat
    (List.replicate N (-1)) wb (List.length_replicate _ _) hsmall
    (by
      intro k
      rw [hwb]
      simp only [env_seeded, Int.toNat_ofNat]
      exact Int.tmod_eq_of_lt (Int.ofNat_nonneg _) (by exact_mod_cast ht))
  rw [if_neg (by omega)] at hf1
  have hget : (List.replicate N (-1 : Int)).getD t 0 * -1 = 1 := by
    rw [List.getD_eq_getElem?_getD, List.getElem?_replicate, if_pos ht, Option.getD_some]
    rfl
  rw [hget] at hf1
  obtain ⟨r1, wd, hc1, hname1, hvt1, -, -⟩ := create_vector_ok (env_seeded t)
    { wb with rng_drawn := wb.rng_drawn + next_level.toNat } (ModelC.level_name 1) (N : Int)
    "bipolar" (-1) false (by exact_mod_cast hN) (Or.inr rfl)
  have hins0 : SpaceC.insert_vector
      { vectors := [], size := (N : Int), vtype := "bipolar", tags := [] }
      { r0 with vector := List.replicate N (-1) } =
      (.ok (), { vectors := [{ r0 with vector := List.replicate N (-1) }], size := (N : Int),
                 vtype := "bipolar", tags := [] }) := by
    apply insert_vector_of_checks
    · simp [Vector.size]
    · exact hvt0.symm
    · simp
  have hins1 : SpaceC.insert_vector
      { vectors := [{ r0 with vector := List.replicate N (-1) }], size := (N : Int),
        vtype := "bipolar", tags := [] }
      { r1 with vector := (List.replicate N (-1)).set t 1 } =
      (.ok (), { vectors := [{ r0 with vector := List.replicate N (-1) },
                             { r1 with vector := (List.replicate N (-1)).set t 1 }],
                 size := (N : Int), vtype := "bipolar", tags := [] }) := by
    apply insert_vector_of_checks
    · simp [Vector.size]
    · exact hvt1.symm
    · intro v hv
      simp only [List.mem_singleton] at hv
      subst hv
      rw [hname1]
      simp only [hname0]
      decide
  refine ⟨r0, r1, (List.replicate N (-1)).set t 1, wd, ?_⟩
  unfold ModelC.create_levels
  rw [if_pos rfl, hf0]
  dsimp only
  rw [hc0]
  dsimp only
  rw [hins0]
  dsimp only
  unfold ModelC.create_levels
  rw [if_neg (by decide), hf1]
  dsimp only
  have e1 : ((0 : Int) + 1) = 1 := rfl
  rw [e1, hc1]
  dsimp only
  rw [hins1]
  rfl

/-! ## model.c: the level vectors of the binary alphabet and of a seeded run -/

theorem four_points_rows : ∀ row ∈ four_points, (1 : Int).toNat ≤ row.length := by
  intro row hrow
  simp only [four_points, List.mem_cons, List.mem_singleton, List.not_mem_nil, or_false] at hrow
  rcases hrow with rfl | rfl | rfl | rfl <;> exact Nat.le_refl 1

theorem zeros_eq_replicate (xs : List Int) (n : Nat) (hl : xs.length = n)
    (h : ∀ x ∈ xs, x = 0) : xs = List.replicate n 0 :=
  List.eq_replicate_iff.mpr ⟨hl, h⟩

/-- On an array of zeros the flips change nothing: `0 * -1` is 0. -/
theorem zero_flips (E : Env) (N : Nat) (hN : 0 < N) (n : Nat) (w : World) :
    ∃ w2, ModelC.flip_bits E (N : Int) n (List.replicate N 0, w) =
      .ok (List.replicate N 0, w2) := by
  obtain ⟨b1, w2, h⟩ := flip_bits_returns E (N : Int) (by exact_mod_cast hN) n
    (List.replicate N 0) w (by simp)
    (fun x hx => Or.inl (List.eq_of_mem_replicate hx))
  obtain ⟨h1, h2⟩ := flip_bits_length (fun x => x = 0) (fun x hx => by rw [hx]; rfl) E _ _ _ _ _ _ h
  refine ⟨w2, ?_⟩
  rw [h, zeros_eq_replicate b1 N (by rw [h1, List.length_replicate])
    (h2 (fun x hx => List.eq_of_mem_replicate hx))]

/-- On a fresh binary model fit_mlmodel returns and leaves level vectors that
are all zero: level_0 and level_1 hold the same elements. -/
theorem binary_levels_same (E : Env) (w : World) (N : Nat) (hN : 10000 ≤ N)
    (hbig : N ≤ 999999998) (seed : Int) :
    ∃ fitted w1 l0 l1,
      ModelC.fit_mlmodel E w (fresh_model (N : Int) "binary") four_points 1 (some four_labels)
        seed = .ok (fitted, w1) ∧
      GraphC.get_vector_from_space fitted.space "level_0" = some l0 ∧
      GraphC.get_vector_from_space fitted.space "level_1" = some l1 ∧
      l0.vector = List.replicate N 0 ∧ l1.vector = List.replicate N 0 ∧
      l0.vtype = l1.vtype := by
  obtain ⟨fitted, w1, hfit⟩ := four_fit_returns E w (N : Int) (by exact_mod_cast hN)
    (by omega) "binary" (Or.inl rfl) four_points 1 (Or.inl rfl) rfl
    four_points_rows
    seed
  obtain ⟨l0, l1, p0, p1, p2, p3, hvs, -, ⟨n0, n1, -⟩, -, hnd, hall, -⟩ :=
    four_fit_shape (fun x => x = 0) (fun x hx => by rw [hx]; rfl) E w w1 (N : Int) "binary"
      four_points rfl seed fitted (by simp) hfit
  have g0 := get_loop_of_mem _ hnd l0 (by simp)
  have g1 := get_loop_of_mem _ hnd l1 (by simp)
  rw [n0] at g0
  rw [n1] at g1
  obtain ⟨a1, a2, a3⟩ := hall l0 (by simp)
  obtain ⟨b1, b2, b3⟩ := hall l1 (by simp)
  rw [Int.toNat_ofNat] at a1 b1
  refine ⟨fitted, w1, l0, l1, hfit, ?_, ?_, zeros_eq_replicate _ _ a1 a3,
    zeros_eq_replicate _ _ b1 b3, by rw [a2, b2]⟩
  · unfold GraphC.get_vector_from_space
    rw [hvs]
    exact g0
  · unfold GraphC.get_vector_from_space
    rw [hvs]
    exact g1

theorem hamming_same (A B : Vector) (hv : A.vector = B.vector) (ht : A.vtype = B.vtype) :
    SpaceC.vector_distance A B "hamming" = .ok (.hamming 0) := by
  unfold SpaceC.vector_distance
  rw [if_neg (by simp [Vector.size, hv]), if_neg (fun h => h ht), if_neg (by decide),
    if_pos rfl, hv, hamming_loop_self]

/-- Under a stream whose every value is the seed of the generator and a clock
that stands at t, fit_mlmodel with the seed `seed` leaves a level_1 that differs
from the base vector at the index t, the clock value. -/
theorem seeded_fit_level_one (t N seed : Nat) (hN : 10000 ≤ N) (hbig : N ≤ 999999998)
    (hseed : seed < N) (ht : t < N)
    (hchange : (Int.tdiv (N : Int) 2).toNat % 2 = 0)
    (hnext : (Int.tdiv (Int.tdiv (N : Int) 2) 2).toNat % 2 = 1) (w : World) :
    ∃ fitted w1 l1,
      ModelC.fit_mlmodel (env_seeded t) w (fresh_model (N : Int) "bipolar") four_points 1
        (some four_labels) (seed : Int) = .ok (fitted, w1) ∧
      GraphC.get_vector_from_space fitted.space "level_1" = some l1 ∧
      l1.vector = (List.replicate N (-1)).set t 1 := by
  obtain ⟨fitted, w1, hfit⟩ := four_fit_returns (env_seeded t) w (N : Int)
    (by exact_mod_cast hN) (by omega) "bipolar" (Or.inr rfl) four_points 1 (Or.inl rfl) rfl
    four_points_rows
    (seed : Int)
  obtain ⟨l0, l1, p0, p1, p2, p3, hvs, -, ⟨n0, n1, -⟩, -, hnd, -, -⟩ :=
    four_fit_shape (fun _ => True) (fun _ _ => trivial) (env_seeded t) w w1 (N : Int) "bipolar"
      four_points rfl (seed : Int) fitted trivial hfit
  obtain ⟨bounds, lvs, pts, -, hfitted, -, -, -, -, ⟨base1, w2, hcl⟩, -⟩ :=
    fit_mlmodel_ok (fun _ => True) (fun _ _ => trivial) (env_seeded t) w w1
      (fresh_model (N : Int) "bipolar") fitted four_points 1 (some four_labels) (seed : Int)
      (by decide) hfit
  have hseed1 : ((seed : Int) ≠ -1) := by omega
  obtain ⟨r0, r1, b, w3, hsl⟩ := seeded_levels t N seed hN hseed ht (N : Int) rfl
    (Int.tdiv (N : Int) 2) (Int.tdiv (Int.tdiv (N : Int) 2) 2) hchange hnext
    (srand w (seed : Int)) rfl
  simp only [fresh_model, Int.toNat_ofNat, if_pos hseed1, if_true, List.nil_append] at hcl
  have h2 : (2 : Int).toNat = 2 := rfl
  rw [h2, hsl] at hcl
  simp only [Except.ok.injEq, Prod.mk.injEq, Space.mk.injEq, and_true, true_and] at hcl
  obtain ⟨⟨hl, -⟩, -⟩ := hcl
  have hvs2 : fitted.space.vectors = lvs ++ pts := by
    rw [hfitted]
    simp [fresh_model]
  rw [hvs, ← hl] at hvs2
  simp only [List.cons_append, List.nil_append, List.cons.injEq] at hvs2
  have g1 := get_loop_of_mem _ hnd l1 (by simp)
  rw [n1] at g1
  refine ⟨fitted, w1, l1, hfit, ?_, by rw [hvs2.2.1]⟩
  unfold GraphC.get_vector_from_space
  rw [hvs]
  exact g1

theorem random_element_congr (E : Env) (vtype : String) (w w' w1 w1' : World) (x x' : Int)
    (hs : w.rng_seed = w'.rng_seed) (hd : w.rng_drawn = w'.rng_drawn)
    (h : random_element E vtype w = .ok (x, w1))
    (h' : random_element E vtype w' = .ok (x', w1')) :
    x = x' ∧ w1.rng_seed = w1'.rng_seed ∧ w1.rng_drawn = w1'.rng_drawn := by
  unfold random_element at h h'
  simp only [rand] at h h'
  have e : E.stream w.rng_seed w.rng_drawn = E.stream w'.rng_seed w'.rng_drawn := by
    rw [hs, hd]
  by_cases hb : vtype = "binary"
  · rw [if_pos hb] at h h'
    simp only [Except.ok.injEq, Prod.mk.injEq] at h h'
    rw [← h.1, ← h'.1, ← h.2, ← h'.2]
    exact ⟨by simp only [e], hs, by simp [hd]⟩
  · rw [if_neg hb] at h h'
    by_cases hp : vtype = "bipolar"
    · rw [if_pos hp] at h h'
      simp only [Except.ok.injEq, Prod.mk.injEq] at h h'
      rw [← h.1, ← h'.1, ← h.2, ← h'.2]
      exact ⟨by simp only [e], hs, by simp [hd]⟩
    · rw [if_neg hp] at h
      cases h

/-- The elements create_vector generates depend on the generator state only:
on the seed and on the number of values drawn since. -/
theorem fill_random_congr (E : Env) (vtype : String) (n : Nat) :
    ∀ (w w' wa wb : World) (xs ys : List Int), w.rng_seed = w'.rng_seed →
      w.rng_drawn = w'.rng_drawn → fill_random E vtype n w = .ok (xs, wa) →
      fill_random E vtype n w' = .ok (ys, wb) → xs = ys := by
  induction n with
  | zero =>
    intro w w' wa wb xs ys _ _ h h'
    simp only [fill_random, Except.ok.injEq, Prod.mk.injEq] at h h'
    rw [← h.1, ← h'.1]
  | succ n ih =>
    intro w w' wa wb xs ys hs hd h h'
    unfold fill_random at h h'
    cases hr : random_element E vtype w with
    | error f => rw [hr] at h; cases h
    | ok r =>
      obtain ⟨x, w1⟩ := r
      cases hr' : random_element E vtype w' with
      | error f => rw [hr'] at h'; cases h'
      | ok r' =>
        obtain ⟨x', w1'⟩ := r'
        rw [hr] at h
        rw [hr'] at h'
        dsimp only at h h'
        obtain ⟨e1, e2, e3⟩ := random_element_congr E vtype w w' w1 w1' x x' hs hd hr hr'
        cases hf : fill_random E vtype n w1 with
        | error f => rw [hf] at h; cases h
        | ok t =>
          obtain ⟨zs, w2⟩ := t
          cases hf' : fill_random E vtype n w1' with
          | error f => rw [hf'] at h'; cases h'
          | ok t' =>
            obtain ⟨zs', w2'⟩ := t'
            rw [hf] at h
            rw [hf'] at h'
            simp only [Except.ok.injEq, Prod.mk.injEq] at h h'
            rw [← h.1, ← h'.1, e1, ih w1 w1' w2 w2' zs zs' e2 e3 hf hf']

/-- Two calls of create_vector with seed -1 that read the same clock value
generate the same elements, whatever the generator held before. -/
theorem create_vector_same_clock (E : Env) (w w' wa wb : World) (name name' : String)
    (size : Int) (vtype : String) (r r' : Vector)
    (hc : E.clock w.clock_reads = E.clock w'.clock_reads)
    (h : create_vector E w name size vtype (-1) false = .ok (r, wa))
    (h' : create_vector E w' name' size vtype (-1) false = .ok (r', wb)) :
    r.vector = r'.vector := by
  unfold create_vector at h h'
  by_cases hs : size < 10000
  · rw [if_pos hs] at h; cases h
  rw [if_neg hs] at h h'
  dsimp only at h h'
  rw [if_neg (by decide)] at h h'
  cases hf : fill_random E vtype size.toNat (srand (time_null E w).2 (time_null E w).1) with
  | error f => rw [hf] at h; cases h
  | ok t =>
    obtain ⟨xs, w2⟩ := t
    cases hf' : fill_random E vtype size.toNat
        (srand (time_null E w').2 (time_null E w').1) with
    | error f => rw [hf'] at h'; cases h'
    | ok t' =>
      obtain ⟨ys, w2'⟩ := t'
      rw [hf] at h
      rw [hf'] at h'
      simp only [Except.ok.injEq, Prod.mk.injEq] at h h'
      rw [← h.1, ← h'.1]
      exact fill_random_congr E vtype _ _ _ _ _ _ _ (by simp [srand, time_null, hc])
        (by simp [srand]) hf hf'

theorem find_or_create_absent (E : Env) (w w1 : World) (g g1 : Graph) (name : String)
    (habs : GraphC.get_vector_from_space g.space name = none)
    (h : GraphC.find_or_create E w g name = .ok (g1, w1)) :
    ∃ node, create_vector E w name g.size g.vtype (-1) false = .ok (node, w1) ∧
      g1 = { g with space := { g.space with vectors := g.space.vectors ++ [node] },
                    nodes_counter := g.nodes_counter + 1 } := by
  unfold GraphC.find_or_create at h
  rw [habs] at h
  dsimp only at h
  cases hc : create_vector E w name g.size g.vtype (-1) false with
  | error f => rw [hc] at h; cases h
  | ok t =>
    obtain ⟨node, w2⟩ := t
    rw [hc] at h
    dsimp only at h
    cases hi : SpaceC.insert_vector g.space node with
    | mk out S1 =>
      cases out with
      | error f => rw [hi] at h; cases h
      | ok u =>
        rw [hi] at h
        simp only [Except.ok.injEq, Prod.mk.injEq] at h
        obtain ⟨-, -, -, hS⟩ := insert_vector_ok _ _ _ hi
        refine ⟨node, by rw [h.2], ?_⟩
        rw [← h.1, hS]

theorem add_edge_space (E : Env) (w w2 : World) (g g2 : Graph) (n1 n2 : String)
    (weight : Rat) (h : GraphC.add_edge E w g n1 n2 weight = .ok (g2, w2)) :
    ∃ ga wa gb, GraphC.find_or_create E w g n1 = .ok (ga, wa) ∧
      GraphC.find_or_create E wa ga n2 = .ok (gb, w2) ∧ g2.space = gb.space := by
  unfold GraphC.add_edge at h
  cases h1 : GraphC.find_or_create E w g n1 with
  | error f => rw [h1] at h; cases h
  | ok t =>
    obtain ⟨ga, wa⟩ := t
    rw [h1] at h
    dsimp only at h
    cases h2 : GraphC.find_or_create E wa ga n2 with
    | error f => rw [h2] at h; cases h
    | ok t2 =>
      obtain ⟨gb, wb⟩ := t2
      rw [h2] at h
      dsimp only at h
      refine ⟨ga, wa, gb, rfl, ?_, ?_⟩
      · split_ifs at h <;> simp only [Except.ok.injEq, Prod.mk.injEq] at h <;> rw [← h.2] <;>
          exact h2
      · split_ifs at h <;> simp only [Except.ok.injEq, Prod.mk.injEq] at h <;> rw [← h.1] <;>
          simp [GraphC.add_child, GraphC.add_weight, GraphC.Graph.set_node]

/-- The two nodes add_edge creates under one clock value hold the same
elements. -/
theorem add_edge_twins (E : Env) (w w2 : World) (g g2 : Graph) (n1 n2 : String) (weight : Rat)
    (hclock : E.clock w.clock_reads = E.clock (w.clock_reads + 1))
    (h1 : GraphC.get_vector_from_space g.space n1 = none)
    (h2 : GraphC.get_vector_from_space g.space n2 = none) (hne : n1 ≠ n2)
    (h : GraphC.add_edge E w g n1 n2 weight = .ok (g2, w2)) :
    ∃ a b, g2.space.vectors = g.space.vectors ++ [a, b] ∧
      GraphC.get_vector_from_space g2.space n1 = some a ∧
      GraphC.get_vector_from_space g2.space n2 = some b ∧
      a.name = n1 ∧ b.name = n2 ∧ a.vector = b.vector := by
  obtain ⟨ga, wa, gb, e1, e2, e3⟩ := add_edge_space E w w2 g g2 n1 n2 weight h
  obtain ⟨a, ca, rfl⟩ := find_or_create_absent E w wa g ga n1 h1 e1
  obtain ⟨-, an, -, -, -, hwa⟩ := create_vector_inv _ _ _ _ _ _ _ ca
  have h2a : GraphC.get_vector_from_space
      { g with space := { g.space with vectors := g.space.vectors ++ [a] },
               nodes_counter := g.nodes_counter + 1 }.space n2 = none := by
    unfold GraphC.get_vector_from_space at h2 ⊢
    rw [get_loop_none_iff] at h2 ⊢
    intro v hv
    rcases List.mem_append.mp hv with hv | hv
    · exact h2 v hv
    · simp only [List.mem_singleton] at hv
      rw [hv, an]
      exact hne
  obtain ⟨b, cb, rfl⟩ := find_or_create_absent E wa w2 _ gb n2 h2a e2
  obtain ⟨-, bn, -, -, -, -⟩ := create_vector_inv _ _ _ _ _ _ _ cb
  have hv := create_vector_same_clock E w wa wa w2 n1 n2 g.size g.vtype a b
    (by rw [hwa]; exact hclock) ca cb
  have hvec : g2.space.vectors = g.space.vectors ++ [a, b] := by
    rw [e3]
    simp
  have hn1 : GraphC.get_vector_from_space_loop g.space.vectors n1 = none := h1
  have hn2 : GraphC.get_vector_from_space_loop g.space.vectors n2 = none := h2
  refine ⟨a, b, hvec, ?_, ?_, an, bn, hv⟩
  · unfold GraphC.get_vector_from_space
    rw [hvec]
    have : g.space.vectors ++ [a, b] = (g.space.vectors ++ [a]) ++ [b] := by simp
    rw [this]
    exact get_loop_append_left _ _ _ _ (get_loop_append_new _ _ _ hn1 an)
  · unfold GraphC.get_vector_from_space
    rw [hvec]
    have : g.space.vectors ++ [a, b] = (g.space.vectors ++ [a]) ++ [b] := by simp
    rw [this]
    apply get_loop_append_new _ _ _ _ bn
    exact h2a

/-! ## space.c: the name of a result, and the example program -/

theorem fill_random_signs (E : Env) (n : Nat) :
    ∀ (w w1 : World) (xs : List Int), fill_random E "bipolar" n w = .ok (xs, w1) →
      ∀ x ∈ xs, x = 1 ∨ x = -1 := by
  induction n with
  | zero =>
    intro w w1 xs h
    simp only [fill_random, Except.ok.injEq, Prod.mk.injEq] at h
    rw [← h.1]
    simp
  | succ n ih =>
    intro w w1 xs h
    unfold fill_random at h
    cases hr : random_element E "bipolar" w with
    | error f => rw [hr] at h; cases h
    | ok r =>
      obtain ⟨x, w2⟩ := r
      rw [hr] at h
      dsimp only at h
      cases hf : fill_random E "bipolar" n w2 with
      | error f => rw [hf] at h; cases h
      | ok t =>
        obtain ⟨zs, w3⟩ := t
        rw [hf] at h
        simp only [Except.ok.injEq, Prod.mk.injEq] at h
        rw [← h.1]
        intro y hy
        rcases List.mem_cons.mp hy with rfl | hy
        · unfold random_element at hr
          rw [if_neg (by decide), if_pos rfl] at hr
          simp only [Except.ok.injEq, Prod.mk.injEq] at hr
          rw [← hr.1]
          split_ifs
          · exact Or.inr rfl
          · exact Or.inl rfl
        · exact ih w2 w3 zs hf y hy

theorem create_vector_signs (E : Env) (w w1 : World) (name : String) (size seed : Int)
    (warning : Bool) (r : Vector)
    (h : create_vector E w name size "bipolar" seed warning = .ok (r, w1)) :
    ∀ x ∈ r.vector, x = 1 ∨ x = -1 := by
  unfold create_vector at h
  by_cases hs : size < 10000
  · rw [if_pos hs] at h; cases h
  rw [if_neg hs] at h
  dsimp only at h
  generalize (if seed ≠ -1 then srand w seed
    else srand (time_null E w).2 (time_null E w).1) = w0 at h
  cases hf : fill_random E "bipolar" size.toNat w0 with
  | error f => rw [hf] at h; cases h
  | ok t =>
    obtain ⟨xs, w2⟩ := t
    rw [hf] at h
    simp only [Except.ok.injEq, Prod.mk.injEq] at h
    rw [← h.1]
    exact fill_random_signs E _ _ _ _ hf

/-- The result of an operator of space.c is created under the name of the first
operand and has its size and alphabet. -/
theorem space_result_fields (op : Int → Int → Except Fault Int) (E : Env) (w w1 : World)
    (v1 v2 r : Vector)
    (h : (if v1.size ≠ v2.size then
        (.error (.exit "Vectors must have the same size") : Except Fault (Vector × World))
      else
        match create_vector E w v1.name v1.size v1.vtype (-1) false with
        | .error f => .error f
        | .ok (result, w1) =>
          match elementwise op v1.vector v2.vector with
          | .error f => .error f
          | .ok elems => .ok ({ result with vector := elems }, w1)) = .ok (r, w1)) :
    r.name = v1.name ∧ r.vtype = v1.vtype ∧ r.size = v1.size := by
  by_cases hs : v1.size ≠ v2.size
  · rw [if_pos hs] at h; cases h
  rw [if_neg hs] at h
  cases hc : create_vector E w v1.name v1.size v1.vtype (-1) false with
  | error f => rw [hc] at h; cases h
  | ok t =>
    obtain ⟨result, w2⟩ := t
    rw [hc] at h
    dsimp only at h
    cases he : elementwise op v1.vector v2.vector with
    | error f => rw [he] at h; cases h
    | ok elems =>
      rw [he] at h
      simp only [Except.ok.injEq, Prod.mk.injEq] at h
      obtain ⟨hn, ht⟩ := create_vector_fields _ _ _ _ _ _ _ _ _ hc
      have hl := elementwise_length op v1.vector v2.vector elems
        (length_eq_of_size_eq v1 v2 (not_not.mp hs)) he
      rw [← h.1]
      exact ⟨hn, ht, by simp only [Vector.size, hl]⟩

/-- With a vector of the name, size and alphabet of `v1`, the second of the two
insertions exits on the name. -/
theorem insert_same_name (S S1 : Space) (v1 r : Vector) (hn : r.name = v1.name)
    (ht : r.vtype = v1.vtype) (hs : r.size = v1.size) :
    (SpaceC.insert_vector S v1 = (.ok (), S1) →
      SpaceC.insert_vector S1 r = (.error (.exit "Vector already in space"), S1)) ∧
    (SpaceC.insert_vector S r = (.ok (), S1) →
      SpaceC.insert_vector S1 v1 = (.error (.exit "Vector already in space"), S1)) := by
  constructor
  · intro h
    obtain ⟨a1, a2, -, a4⟩ := insert_vector_ok _ _ _ h
    apply insert_vector_duplicate
    · rw [a4, hs]; exact a1
    · rw [a4, ht]; exact a2
    · exact ⟨v1, by rw [a4]; simp, hn.symm⟩
  · intro h
    obtain ⟨a1, a2, -, a4⟩ := insert_vector_ok _ _ _ h
    apply insert_vector_duplicate
    · rw [a4, ← hs]; exact a1
    · rw [a4, ← ht]; exact a2
    · exact ⟨r, by rw [a4]; simp, hn⟩

/-- The example program of space.c ends in the third insert_vector at every
dimension the library accepts: the bound vector carries the name of vec1. -/
theorem main_sized_exits (size : Int) (hsize : 10000 ≤ size) (E : Env) (w : World) :
    SpaceC.main_sized size E w = .error (.exit "Vector already in space") := by
  obtain ⟨vec1, w1, h1, n1, t1, s1, -⟩ :=
    create_vector_ok E w "Vector1" size "bipolar" 1 false hsize (Or.inr rfl)
  obtain ⟨vec2, w2, h2, n2, t2, s2, -⟩ :=
    create_vector_ok E w1 "Vector2" size "bipolar" 2 false hsize (Or.inr rfl)
  have e1 := create_vector_signs _ _ _ _ _ _ _ _ h1
  have e2 := create_vector_signs _ _ _ _ _ _ _ _ h2
  have hd := vector_distance_cosine_ok vec1 vec2 (by rw [s1, s2]) (by rw [t1, t2])
    (signs_small _ e1) (signs_small _ e2)
  have hlen : vec1.vector.length = vec2.vector.length :=
    length_eq_of_size_eq vec1 vec2 (by rw [s1, s2])
  obtain ⟨cs, hcs, hcl, -⟩ := elementwise_mul_bipolar vec1.vector vec2.vector hlen e1 e2
  obtain ⟨bound, w3, hb, bv, bt, bn⟩ := space_bind_ok E w2 vec1 vec2 cs (by rw [s1]; exact hsize)
    (by rw [s1, s2]) (by rw [t1]; exact Or.inr rfl) hcs
  have hnorm : SpaceC.normalize_vector bound =
      .ok { bound with vector := bound.vector.map fun x =>
              if x > 0 then 1 else if bound.vtype = "binary" then 0 else -1 } := by
    unfold SpaceC.normalize_vector
    rw [if_neg (by rw [bt, t1]; decide)]
  have hi1 : SpaceC.insert_vector { vectors := [], size := size, vtype := "bipolar", tags := [] }
      vec1 = (.ok (), { vectors := [vec1], size := size, vtype := "bipolar", tags := [] }) :=
    insert_vector_of_checks _ _ s1.symm t1.symm (by simp)
  have hi2 : SpaceC.insert_vector
      { vectors := [vec1], size := size, vtype := "bipolar", tags := [] } vec2 =
      (.ok (), { vectors := [vec1, vec2], size := size, vtype := "bipolar", tags := [] }) :=
    insert_vector_of_checks _ _ s2.symm t2.symm (by
      intro v hv
      simp only [List.mem_singleton] at hv
      rw [hv, n1, n2]
      decide)
  have hi3 : SpaceC.insert_vector
      { vectors := [vec1, vec2], size := size, vtype := "bipolar", tags := [] }
      { bound with vector := bound.vector.map fun x =>
          if x > 0 then 1 else if bound.vtype = "binary" then 0 else -1 } =
      (.error (.exit "Vector already in space"),
        { vectors := [vec1, vec2], size := size, vtype := "bipolar", tags := [] }) := by
    apply insert_vector_duplicate
    · simp only [Vector.size, List.length_map, bv, hcl]
      exact s1.symm
    · exact (bt.trans t1).symm
    · exact ⟨vec1, by simp, bn.symm⟩
  unfold SpaceC.main_sized
  rw [h1]
  dsimp only
  rw [h2]
  dsimp only
  rw [hd]
  dsimp only
  rw [hb]
  dsimp only
  rw [hnorm]
  dsimp only
  unfold SpaceC.create_space
  rw [if_neg (by omega)]
  dsimp only
  simp only [SpaceC.insert_each, hi1, hi2, hi3]

/-- The example program of space.c ends in the third insert_vector. -/
theorem main_exits (E : Env) (w : World) :
    SpaceC.main E w = .error (.exit "Vector already in space") :=
  main_sized_exits 10000 (le_refl _) E w

/-! ## The level codebook: the flips of a level, and the chain of the levels -/

theorem draws_succ (E : Env) (size seed : Int) (drawn n : Nat) :
    ModelC.draws E size seed drawn (n + 1) =
      (Int.tmod ((E.stream seed drawn : Nat) : Int) size).toNat ::
        ModelC.draws E size seed (drawn + 1) n := by
  unfold ModelC.draws
  rw [List.range_succ_eq_map, List.map_cons, List.map_map]
  simp only [Nat.add_zero, List.cons.injEq, true_and]
  apply List.map_congr_left
  intro m _
  simp only [Function.comp, Nat.succ_eq_add_one]
  rw [Nat.add_assoc, Nat.add_comm 1 m]

theorem draws_length (E : Env) (size seed : Int) (drawn n : Nat) :
    (ModelC.draws E size seed drawn n).length = n := by
  unfold ModelC.draws
  rw [List.length_map, List.length_range]

/-- The flips of flip_bits that return are the flips at the drawn indices. -/
theorem flip_bits_flips (E : Env) (size : Int) (n : Nat) :
    ∀ (base base1 : List Int) (w w1 : World),
      ModelC.flip_bits E size n (base, w) = .ok (base1, w1) →
      base1 = ModelC.flips (ModelC.draws E size w.rng_seed w.rng_drawn n) base ∧
        w1 = { w with rng_drawn := w.rng_drawn + n } := by
  induction n with
  | zero =>
    intro base base1 w w1 h
    simp only [ModelC.flip_bits, Except.ok.injEq, Prod.mk.injEq] at h
    rw [← h.1, ← h.2]
    exact ⟨rfl, rfl⟩
  | succ n ih =>
    intro base base1 w w1 h
    unfold ModelC.flip_bits at h
    by_cases hs : size = 0
    · rw [if_pos hs] at h; cases h
    · rw [if_neg hs] at h
      dsimp only at h
      cases hg : base[(Int.tmod ((rand E w).1 : Int) size).toNat]? with
      | none => rw [hg] at h; cases h
      | some x =>
        rw [hg] at h
        dsimp only at h
        cases hm : mul_int x (-1) with
        | error f => rw [hm] at h; cases h
        | ok y =>
          rw [hm] at h
          dsimp only at h
          obtain ⟨i1, i2⟩ := ih _ _ _ _ h
          have hy : y = x * -1 := (checked_eq_ok _ _ hm).1
          have hx : base.getD (Int.tmod ((rand E w).1 : Int) size).toNat 0 = x := by
            rw [List.getD_eq_getElem?_getD, hg]
            rfl
          refine ⟨?_, ?_⟩
          · rw [i1, draws_succ]
            simp only [ModelC.flips, List.foldl_cons, ModelC.flip_at, rand, hy]
            simp only [rand] at hx
            rw [hx]
          · rw [i2]
            simp only [rand, World.mk.injEq, true_and, and_true]
            omega

theorem flip_at_length (i : Nat) (b : List Int) : (ModelC.flip_at i b).length = b.length := by
  unfold ModelC.flip_at
  rw [List.length_set]

theorem flips_length (I : List Nat) : ∀ b : List Int, (ModelC.flips I b).length = b.length := by
  induction I with
  | nil => intro b; rfl
  | cons i I ih =>
    intro b
    simp only [ModelC.flips, List.foldl_cons]
    exact (ih _).trans (flip_at_length i b)

theorem flips_cons (i : Nat) (I : List Nat) (b : List Int) :
    ModelC.flips (i :: I) b = ModelC.flips I (ModelC.flip_at i b) := rfl

theorem flip_at_get (i k : Nat) (b : List Int) :
    (ModelC.flip_at i b)[k]? = if i = k then b[k]?.map (fun x => x * -1) else b[k]? := by
  unfold ModelC.flip_at
  by_cases h : i = k
  · subst h
    rw [if_pos rfl]
    by_cases hl : i < b.length
    · rw [List.getElem?_set_self hl, List.getElem?_eq_getElem hl, List.getD_eq_getElem?_getD,
        List.getElem?_eq_getElem hl]
      rfl
    · rw [List.set_eq_of_length_le (by omega), List.getElem?_eq_none (by omega)]
      rfl
  · rw [if_neg h, List.getElem?_set_ne h]

/-- Element k after the flips at the indices I: multiplied by -1 once for
every occurrence of k in I. -/
theorem flips_get (I : List Nat) :
    ∀ (b : List Int) (k : Nat),
      (ModelC.flips I b)[k]? = b[k]?.map (fun x => x * (-1) ^ I.count k) := by
  induction I with
  | nil =>
    intro b k
    cases h : b[k]? with
    | none => simp [ModelC.flips, h]
    | some x => simp [ModelC.flips, h]
  | cons i I ih =>
    intro b k
    rw [flips_cons, ih, flip_at_get]
    by_cases h : i = k
    · subst h
      rw [if_pos rfl, List.count_cons_self]
      cases hb : b[i]? with
      | none => rfl
      | some x =>
        simp only [Option.map_some', Option.some.injEq]
        rw [pow_succ]
        ring
    · rw [if_neg h, List.count_cons_of_ne (fun e => h e.symm)]

/-- Flipping at the same indices twice restores the array. -/
theorem flips_twice (I : List Nat) (b : List Int) : ModelC.flips I (ModelC.flips I b) = b := by
  apply List.ext_getElem?
  intro k
  rw [flips_get, flips_get]
  cases hb : b[k]? with
  | none => rfl
  | some x =>
    simp only [Option.map_some', Option.some.injEq]
    rw [mul_assoc, ← pow_add, ← two_mul, pow_mul]
    simp

theorem hamming_loop_count (as bs : List Int) (count : Int) :
    hamming_loop as bs count = count + hamming_loop as bs 0 := by
  induction as generalizing bs count with
  | nil => simp [hamming_loop]
  | cons a as ih =>
    cases bs with
    | nil => simp [hamming_loop]
    | cons b bs =>
      simp only [hamming_loop]
      rw [ih bs (if a ≠ b then count + 1 else count), ih bs (if a ≠ b then 0 + 1 else 0)]
      by_cases h : a = b
      · simp [h]
      · simp only [ne_eq, h, not_false_eq_true, if_true]
        omega

/-- The triangle inequality of the hamming count on arrays of one length. -/
theorem hamming_loop_triangle (as : List Int) :
    ∀ bs cs : List Int, as.length = bs.length → bs.length = cs.length →
      hamming_loop as cs 0 ≤ hamming_loop as bs 0 + hamming_loop bs cs 0 := by
  induction as with
  | nil => intro bs cs h1 h2; cases bs <;> cases cs <;> simp [hamming_loop] at *
  | cons a as ih =>
    intro bs cs h1 h2
    cases bs with
    | nil => cases h1
    | cons b bs =>
      cases cs with
      | nil => cases h2
      | cons c cs =>
        simp only [hamming_loop]
        rw [hamming_loop_count as cs, hamming_loop_count as bs, hamming_loop_count bs cs]
        have := ih bs cs (by simpa using h1) (by simpa using h2)
        by_cases hab : a = b <;> by_cases hbc : b = c <;> by_cases hac : a = c <;>
          simp only [ne_eq, hab, hbc, hac, not_true_eq_false, not_false_eq_true, if_true,
            if_false] <;> omega

theorem hamming_flip_at (b : List Int) :
    ∀ i : Nat, hamming_loop b (ModelC.flip_at i b) 0 ≤ 1 := by
  induction b with
  | nil => intro i; simp [ModelC.flip_at, hamming_loop]
  | cons x xs ih =>
    intro i
    cases i with
    | zero =>
      simp only [ModelC.flip_at, List.set_cons_zero, hamming_loop]
      rw [hamming_loop_self]
      split_ifs <;> omega
    | succ j =>
      have h := ih j
      simp only [ModelC.flip_at, List.set_cons_succ, hamming_loop, List.getD_cons_succ,
        ne_eq, not_true_eq_false, if_false] at h ⊢
      exact h

/-- The flips at n indices change at most n elements. -/
theorem hamming_flips (I : List Nat) :
    ∀ b : List Int, hamming_loop b (ModelC.flips I b) 0 ≤ I.length := by
  induction I with
  | nil => intro b; simp [ModelC.flips, hamming_loop_self]
  | cons i I ih =>
    intro b
    rw [flips_cons]
    have h1 := hamming_flip_at b i
    have h2 := ih (ModelC.flip_at i b)
    have h3 := hamming_loop_triangle b (ModelC.flip_at i b) (ModelC.flips I (ModelC.flip_at i b))
      (flip_at_length i b).symm (flips_length I _).symm
    simp only [List.length_cons]
    push_cast
    omega

/-- Every vector of a run of insert_vector calls that all return is the one its
name looks up afterwards. -/
theorem insert_each_lookup (hs : List Vector) :
    ∀ (S S1 : Space), SpaceC.insert_each S hs = (.ok (), S1) →
      ∀ (j : Nat) (v : Vector), hs[j]? = some v →
        GraphC.get_vector_from_space_loop (S.vectors ++ hs) v.name = some v := by
  induction hs with
  | nil => intro S S1 _ j v hj; cases hj
  | cons vec rest ih =>
    intro S S1 h j v hj
    unfold SpaceC.insert_each at h
    cases hi : SpaceC.insert_vector S vec with
    | mk out S2 =>
      cases out with
      | error f => rw [hi] at h; cases h
      | ok u =>
        rw [hi] at h
        dsimp only at h
        obtain ⟨-, -, hn, hS2⟩ := insert_vector_ok S S2 vec hi
        have happ : S.vectors ++ vec :: rest = S2.vectors ++ rest := by
          rw [hS2]
          simp
        rw [happ]
        cases j with
        | zero =>
          simp only [List.getElem?_cons_zero, Option.some.injEq] at hj
          subst hj
          apply get_loop_append_left
          rw [hS2]
          exact get_loop_append_new _ _ _ ((get_loop_none_iff _ _).mpr hn) rfl
        | succ j =>
          simp only [List.getElem?_cons_succ] at hj
          exact ih S2 S1 h j v hj

/-- The chain of the levels of a level loop that returns: the first level holds
the base vector after the flips at the indices drawn from the generator as the
loop found it, and every later level holds the level before it after the flips
at the indices drawn from the generator as create_vector left it, seeded with
the clock value and `size` values drawn. -/
theorem create_levels_chain (E : Env) (size : Int) (vtype : String) (change next_level : Int)
    (fuel : Nat) :
    ∀ (k : Nat) (S S1 : Space) (base base1 : List Int) (w w1 : World),
      ModelC.create_levels E size vtype change next_level fuel (k : Int) ((S, base), w) =
        .ok ((S1, base1), w1) →
      ∃ lvs : List Vector, SpaceC.insert_each S lvs = (.ok (), S1) ∧ lvs.length = fuel ∧
        (0 < fuel → 10000 ≤ size) ∧
        (∀ v, lvs[0]? = some v →
          v.vector = ModelC.flips (ModelC.draws E size w.rng_seed w.rng_drawn
            (if (k : Int) = 0 then change else next_level).toNat) base) ∧
        ∀ (j : Nat) (a b : Vector), lvs[j]? = some a → lvs[j + 1]? = some b →
          b.vector = ModelC.flips (ModelC.draws E size (E.clock (w.clock_reads + j))
            size.toNat next_level.toNat) a.vector := by
  induction fuel with
  | zero =>
    intro k S S1 base base1 w w1 h
    simp only [ModelC.create_levels, Except.ok.injEq, Prod.mk.injEq] at h
    obtain ⟨⟨rfl, rfl⟩, -⟩ := h
    exact ⟨[], rfl, rfl, fun h0 => absurd h0 (by decide), by simp, by simp⟩
  | succ n ih =>
    intro k S S1 base base1 w w1 h
    unfold ModelC.create_levels at h
    cases hf : ModelC.flip_bits E size
        (if (k : Int) = 0 then change else next_level).toNat (base, w) with
    | error f => rw [hf] at h; cases h
    | ok r =>
      obtain ⟨b1, w2⟩ := r
      rw [hf] at h
      dsimp only at h
      cases hc : create_vector E w2 (ModelC.level_name (k : Int)) size vtype (-1) false with
      | error f => rw [hc] at h; cases h
      | ok cr =>
        obtain ⟨lv, w3⟩ := cr
        rw [hc] at h
        dsimp only at h
        cases hi : SpaceC.insert_vector S { lv with vector := b1 } with
        | mk out S2 =>
          cases out with
          | error f => rw [hi] at h; cases h
          | ok u =>
            rw [hi] at h
            dsimp only at h
            have hk : ((k : Int) + 1) = ((k + 1 : Nat) : Int) := by push_cast; rfl
            rw [hk] at h
            obtain ⟨rest, r1, r2, -, r3, r4⟩ := ih _ _ _ _ _ _ _ h
            obtain ⟨f1, f2⟩ := flip_bits_flips _ _ _ _ _ _ _ hf
            obtain ⟨c1, -, -, -, -, c6⟩ := create_vector_inv _ _ _ _ _ _ _ hc
            have hk1 : ¬ (((k + 1 : Nat) : Int) = 0) := by omega
            rw [if_neg hk1, c6] at r3
            rw [f2] at r3
            simp only at r3
            refine ⟨{ lv with vector := b1 } :: rest, ?_, by rw [List.length_cons, r2],
              fun _ => c1, ?_, ?_⟩
            · unfold SpaceC.insert_each
              rw [hi]
              exact r1
            · intro v hv
              simp only [List.getElem?_cons_zero, Option.some.injEq] at hv
              rw [← hv]
              exact f1
            · intro j a b ha hb
              cases j with
              | zero =>
                simp only [List.getElem?_cons_zero, Option.some.injEq] at ha
                simp only [List.getElem?_cons_succ, zero_add] at hb
                rw [← ha]
                exact r3 b hb
              | succ j =>
                simp only [List.getElem?_cons_succ] at ha hb
                have := r4 j a b ha hb
                rw [c6, f2] at this
                simp only at this
                rw [this]
                congr 3
                omega

/-- The levels fit_mlmodel leaves in the space: one per level, each the vector
its name `level_<j>` looks up, and each after the first the level before it
after the flips at the indices drawn from the generator seeded with the clock
value create_vector read. -/
theorem fit_levels (E : Env) (w w1 : World) (model fitted : MLModel)
    (points : List (List Rat)) (d : Int) (labels : Option (List String)) (seed : Int)
    (hd : 0 < d.toNat)
    (h : ModelC.fit_mlmodel E w model points d labels seed = .ok (fitted, w1)) :
    ∃ (lvs : List Vector) (c0 : Nat), w.clock_reads ≤ c0 ∧ lvs.length = model.levels.toNat ∧
      (0 < model.levels.toNat → 10000 ≤ model.size) ∧
      (∀ (j : Nat) (v : Vector), lvs[j]? = some v →
        GraphC.get_vector_from_space fitted.space (ModelC.level_name (j : Int)) = some v ∧
          v.vtype = model.vtype ∧ v.vector.length = model.size.toNat) ∧
      ∀ (j : Nat) (a b : Vector), lvs[j]? = some a → lvs[j + 1]? = some b →
        b.vector = ModelC.flips (ModelC.draws E model.size (E.clock (c0 + j)) model.size.toNat
          (Int.tdiv (Int.tdiv model.size 2) model.levels).toNat) a.vector := by
  obtain ⟨bounds, lvs, pts, -, hfitted, -, -, hll, -, ⟨base1, w2, hcl⟩, -, hlv, -⟩ :=
    fit_mlmodel_ok (fun _ => True) (fun _ _ => trivial) E w w1 model fitted points d labels seed
      hd h
  have hcl0 : ModelC.create_levels E model.size model.vtype (Int.tdiv model.size 2)
      (Int.tdiv (Int.tdiv model.size 2) model.levels) model.levels.toNat ((0 : Nat) : Int)
      ((model.space, List.replicate model.size.toNat
        (if model.vtype = "bipolar" then (-1 : Int) else 0)),
        (if seed ≠ -1 then srand w seed
          else srand (time_null E w).2 (time_null E w).1)) =
      .ok (({ model.space with vectors := model.space.vectors ++ lvs }, base1), w2) := hcl
  obtain ⟨lvs1, k1, k2, k3, -, k5⟩ := create_levels_chain _ _ _ _ _ _ _ _ _ _ _ _ _ hcl0
  obtain ⟨s1, -⟩ := insert_each_ok lvs1 _ _ k1
  have hsame : lvs1 = lvs := (List.append_cancel_left s1).symm
  subst hsame
  refine ⟨lvs1, (if seed ≠ -1 then srand w seed
      else srand (time_null E w).2 (time_null E w).1).clock_reads, ?_, hll, k3, ?_, k5⟩
  · by_cases hs : seed ≠ -1
    · rw [if_pos hs]
      exact Nat.le_refl _
    · rw [if_neg hs]
      simp only [srand, time_null]
      omega
  · intro j v hj
    obtain ⟨a1, a2, -, a4⟩ := hlv j v hj
    refine ⟨?_, a2, a4⟩
    unfold GraphC.get_vector_from_space
    rw [hfitted]
    simp only
    apply get_loop_append_left
    rw [← a1]
    exact insert_each_lookup lvs1 _ _ k1 j v hj

/-- The hamming count between level 0 and level m of a chain of levels where
each level is the one before it after at most n flips. -/
theorem hamming_chain (lvs : List Vector) (N n : Nat)
    (hlen : ∀ (j : Nat) (v : Vector), lvs[j]? = some v → v.vector.length = N)
    (hstep : ∀ (j : Nat) (a b : Vector), lvs[j]? = some a → lvs[j + 1]? = some b →
      hamming_loop a.vector b.vector 0 ≤ n) :
    ∀ (m : Nat) (a b : Vector), lvs[0]? = some a → lvs[m]? = some b →
      hamming_loop a.vector b.vector 0 ≤ (m : Int) * n := by
  intro m
  induction m with
  | zero =>
    intro a b ha hb
    rw [ha] at hb
    obtain rfl := Option.some.inj hb
    rw [hamming_loop_self]
    simp
  | succ m ih =>
    intro a b ha hb
    have hm : m < lvs.length := by
      have := (List.getElem?_eq_some_iff.mp hb).1
      omega
    have hc : lvs[m]? = some lvs[m] := List.getElem?_eq_getElem hm
    have h1 := ih a lvs[m] ha hc
    have h2 := hstep m lvs[m] b hc hb
    have h3 := hamming_loop_triangle a.vector lvs[m].vector b.vector
      ((hlen 0 a ha).trans (hlen m _ hc).symm) ((hlen m _ hc).trans (hlen (m + 1) b hb).symm)
    push_cast
    linarith

theorem hamming_distance_ok (A B : Vector) (hl : A.vector.length = B.vector.length)
    (ht : A.vtype = B.vtype) :
    SpaceC.vector_distance A B "hamming" =
      .ok (.hamming (hamming_loop A.vector B.vector 0)) := by
  unfold SpaceC.vector_distance
  rw [if_neg (by simp [Vector.size, hl]), if_neg (fun h => h ht), if_neg (by decide),
    if_pos rfl]

theorem create_level_model (N L : Int) (hN : 10000 ≤ N) (hL : 2 ≤ L) (vt : String)
    (hvt : vt = "binary" ∨ vt = "bipolar") :
    ModelC.create_mlmodel N L vt = .ok (level_model N L vt) := by
  unfold ModelC.create_mlmodel SpaceC.create_space
  rw [if_neg (by omega), if_neg (by omega), if_neg (by
    rintro ⟨h1, h2⟩
    rcases hvt with h | h
    · exact h1 h
    · exact h2 h), if_neg (by omega)]
  rfl

theorem three_level_names (i j : Nat) (hij : i < j) (hj : j < 3) :
    ModelC.level_name (i : Int) ≠ ModelC.level_name (j : Int) := by
  interval_cases j <;> interval_cases i <;> first | omega | decide

/-- On the four rows fit_mlmodel returns for the model of three levels, for
every stream, clock and seed. -/
theorem three_level_fit_returns (E : Env) (w : World) (N : Int) (hN : 10000 ≤ N)
    (hbig : N + 1 ≤ 1000000000) (vt : String) (hvt : vt = "binary" ∨ vt = "bipolar")
    (seed : Int) :
    ∃ fitted w1, ModelC.fit_mlmodel E w (level_model N 3 vt) four_points 1 (some four_labels)
      seed = .ok (fitted, w1) := by
  apply fit_mlmodel_returns E w N 3 vt (level_model N 3 vt)
    (create_level_model N 3 hN (by decide) vt hvt) four_points 1 (some four_labels) seed
    (by decide) (by decide) four_points_rows hbig
  · intro ls hls
    obtain rfl := Option.some.inj hls
    exact ⟨rfl, by decide⟩
  · intro i j hij hj
    exact three_level_names i j hij hj
  · intro i j hij hj
    exact point_names_four i j hij hj

/-- With a vector of the name, size and alphabet of `v1`: once one of the two
is in the space, the insertion of the other exits on the name, also after
further insertions. -/
theorem insert_same_name_later (S S1 S2 : Space) (more : List Vector) (v1 r : Vector)
    (hn : r.name = v1.name) (ht : r.vtype = v1.vtype) (hs : r.size = v1.size)
    (h1 : SpaceC.insert_vector S v1 = (.ok (), S1))
    (h2 : SpaceC.insert_each S1 more = (.ok (), S2)) :
    SpaceC.insert_vector S2 r = (.error (.exit "Vector already in space"), S2) := by
  obtain ⟨a1, a2, -, a4⟩ := insert_vector_ok _ _ _ h1
  obtain ⟨b1, b2, b3, -⟩ := insert_each_ok more _ _ h2
  apply insert_vector_duplicate
  · rw [b2, a4, hs]
    exact a1
  · rw [b3, a4, ht]
    exact a2
  · refine ⟨v1, ?_, hn.symm⟩
    rw [b1, a4]
    simp

theorem minus_ones_elements : ∀ x ∈ minus_ones.vector, x = 1 ∨ x = -1 := by
  intro x hx
  simp only [minus_ones, List.mem_replicate] at hx
  exact Or.inr hx.2

/-- The call bind_vectors of space.c returns on the all-ones and the
all-minus-ones vector. -/
theorem bind_ones_minus_ones (E : Env) (w : World) :
    ∃ r w1, SpaceC.bind_vectors E w ones minus_ones = .ok (r, w1) := by
  obtain ⟨cs, hcs, -⟩ := elementwise_mul_bipolar ones.vector minus_ones.vector
    (length_eq_of_size_eq ones minus_ones (by rw [ones_size, minus_ones_size]))
    ones_elements minus_ones_elements
  obtain ⟨r, w1, hr, -⟩ := space_bind_ok E w ones minus_ones cs (by rw [ones_size])
    (by rw [ones_size, minus_ones_size]) (Or.inr rfl) hcs
  exact ⟨r, w1, hr⟩

/-- The call add_edge returns for the edge from A to B on an unweighted graph
with an empty space. -/
theorem add_edge_ab_returns (N : Nat) (hN : 10000 ≤ N) (w : World) (g : Graph) (d : Bool)
    (hg : graph_shape N g d []) :
    ∃ g1 w1, GraphC.add_edge env0 w g "A" "B" (-1) = .ok (g1, w1) := by
  obtain ⟨g1, h, -⟩ := add_edges_ab N hN w g d hg
  unfold GraphC.add_edges at h
  rw [if_neg (by rw [hg.2.2.2.1]; simp), if_neg (by simp [edge_ab])] at h
  cases ha : GraphC.add_edge env0 w g "A" "B" (-1) with
  | error f =>
    simp only [edge_ab] at h
    rw [ha] at h
    cases h
  | ok st => exact ⟨st.1, st.2, rfl⟩

/-! ## parser.c: percentage_split -/

theorem unique_labels_eq (ls : List String) :
    ∀ acc : List String, ParserC.unique_labels ls acc = ModelC.collect_classes ls acc := by
  induction ls with
  | nil => intro acc; rfl
  | cons l rest ih =>
    intro acc
    unfold ParserC.unique_labels ModelC.collect_classes
    by_cases h : l ∈ acc
    · rw [if_pos h, if_pos h, ih]
    · rw [if_neg h, if_neg h, ih]

/-- The unique labels percentage_split collects are the distinct labels. -/
theorem unique_labels_card (ls : List String) :
    (ParserC.unique_labels ls []).length = ls.toFinset.card := by
  rw [unique_labels_eq, collect_classes_nil, first_occurrences_length]

theorem unique_labels_mem (ls : List String) :
    ∀ u ∈ ParserC.unique_labels ls [], u ∈ ls := by
  intro u hu
  rw [unique_labels_eq, collect_classes_nil] at hu
  exact (first_occurrences_mem ls u).mp hu

theorem label_count_bounds (label : String) (ls : List String) :
    0 ≤ ParserC.label_count label ls ∧ ParserC.label_count label ls ≤ ls.length ∧
      (label ∈ ls → 0 < ParserC.label_count label ls) := by
  induction ls with
  | nil => simp [ParserC.label_count]
  | cons l rest ih =>
    obtain ⟨h1, h2, h3⟩ := ih
    unfold ParserC.label_count
    by_cases h : l = label
    · rw [if_pos h]
      refine ⟨by omega, by rw [List.length_cons]; push_cast; omega, fun _ => by omega⟩
    · rw [if_neg h]
      refine ⟨h1, by rw [List.length_cons]; push_cast; omega, ?_⟩
      intro hm
      rcases List.mem_cons.mp hm with hm | hm
      · exact absurd hm.symm h
      · exact h3 hm

theorem label_indices_spec (label : String) (ls : List String) :
    ∀ j : Int, ((ParserC.label_indices label ls j).length : Int) = ParserC.label_count label ls ∧
      ∀ x ∈ ParserC.label_indices label ls j, j ≤ x ∧ x < j + ls.length := by
  induction ls with
  | nil => intro j; simp [ParserC.label_indices, ParserC.label_count]
  | cons l rest ih =>
    intro j
    obtain ⟨h1, h2⟩ := ih (j + 1)
    unfold ParserC.label_indices ParserC.label_count
    by_cases h : l = label
    · rw [if_pos h, if_pos h]
      refine ⟨by rw [List.length_cons]; push_cast; omega, ?_⟩
      intro x hx
      rw [List.length_cons]
      push_cast
      rcases List.mem_cons.mp hx with hx | hx
      · omega
      · have := h2 x hx
        omega
    · rw [if_neg h, if_neg h]
      refine ⟨h1, ?_⟩
      intro x hx
      rw [List.length_cons]
      push_cast
      have := h2 x hx
      omega

/-- The conversion `(int)(percentage * label_count / 100.0)` is defined for a
percentage in (0, 100] and a count that is an int, and lies between 0 and the
count. -/
theorem to_int_fraction (p : Rat) (c : Int) (hp0 : 0 < p) (hp : p ≤ 100) (hc0 : 0 ≤ c)
    (hc : c ≤ INT_MAX) :
    ∃ n, ParserC.to_int (p * (c : Rat) / 100) = .ok n ∧ 0 ≤ n ∧ n ≤ c := by
  have hq0 : (0 : Rat) ≤ p * (c : Rat) / 100 := by
    have : (0 : Rat) ≤ (c : Rat) := by exact_mod_cast hc0
    positivity
  have hqc : p * (c : Rat) / 100 ≤ (c : Rat) := by
    have : (0 : Rat) ≤ (c : Rat) := by exact_mod_cast hc0
    rw [div_le_iff₀ (by norm_num)]
    nlinarith
  have hnum : 0 ≤ (p * (c : Rat) / 100).num := Rat.num_nonneg.mpr hq0
  have hfl : Int.tdiv (p * (c : Rat) / 100).num (p * (c : Rat) / 100).den =
      ⌊p * (c : Rat) / 100⌋ := by
    rw [Int.tdiv_eq_ediv hnum (by exact_mod_cast Nat.zero_le _), Rat.floor_def]
  have h0 : 0 ≤ ⌊p * (c : Rat) / 100⌋ := Int.floor_nonneg.mpr hq0
  have h1 : ⌊p * (c : Rat) / 100⌋ ≤ c := by
    have := Int.floor_le_floor hqc
    rwa [Int.floor_intCast] at this
  refine ⟨⌊p * (c : Rat) / 100⌋, ?_, h0, h1⟩
  unfold ParserC.to_int
  rw [hfl]
  apply checked_of_in_int
  unfold in_int INT_MIN
  unfold INT_MAX at hc ⊢
  constructor <;> omega

/-- The draws for one label return; the selection stays free of duplicates and
gains only indices of the label. -/
theorem select_loop_ok (E : Env) (indices : List Int) (count : Int) (hc : 0 < count)
    (hlen : (indices.length : Int) = count) (k : Nat) :
    ∀ (sel : List Int) (w : World),
      ∃ sel1 w1, ParserC.select_loop E indices count k (sel, w) = .ok (sel1, w1) ∧
        (sel.Nodup → sel1.Nodup) ∧ (∀ x ∈ sel1, x ∈ sel ∨ x ∈ indices) ∧
        sel1.length ≤ sel.length + k := by
  induction k with
  | zero => intro sel w; exact ⟨sel, w, rfl, fun h => h, fun x hx => Or.inl hx, Nat.le_refl _⟩
  | succ k ih =>
    intro sel w
    have hlt : (Int.tmod ((rand E w).1 : Int) count).toNat < indices.length := by
      have h1 := Int.tmod_nonneg count (Int.ofNat_nonneg (rand E w).1)
      have h2 := Int.tmod_lt_of_pos ((rand E w).1 : Int) hc
      omega
    unfold ParserC.select_loop
    rw [if_neg (by omega), List.getElem?_eq_getElem hlt]
    dsimp only
    by_cases hm : indices[(Int.tmod ((rand E w).1 : Int) count).toNat] ∈ sel
    · rw [if_pos hm]
      obtain ⟨sel1, w1, e, a1, a2, a3⟩ := ih sel (rand E w).2
      exact ⟨sel1, w1, e, a1, a2, by omega⟩
    · rw [if_neg hm]
      obtain ⟨sel1, w1, e, a1, a2, a3⟩ :=
        ih (sel ++ [indices[(Int.tmod ((rand E w).1 : Int) count).toNat]]) (rand E w).2
      refine ⟨sel1, w1, e, ?_, ?_, ?_⟩
      · intro hnd
        apply a1
        rw [List.nodup_append]
        refine ⟨hnd, List.nodup_singleton _, ?_⟩
        intro a ha hb
        rw [List.mem_singleton] at hb
        subst hb
        exact hm ha
      · intro x hx
        rcases a2 x hx with h | h
        · rcases List.mem_append.mp h with h | h
          · exact Or.inl h
          · rw [List.mem_singleton] at h
            rw [h]
            exact Or.inr (List.getElem_mem _)
        · exact Or.inr h
      · rw [List.length_append, List.length_singleton] at a3
        omega

/-- The loop over the unique labels returns; the selection stays free of
duplicates and gains only indices of the label array. -/
theorem select_classes_ok (E : Env) (labels : List String) (p : Rat) (hp0 : 0 < p)
    (hp : p ≤ 100) (hmax : (labels.length : Int) ≤ INT_MAX) (us : List String) :
    (∀ u ∈ us, u ∈ labels) → ∀ (sel : List Int) (w : World),
      ∃ sel1 w1, ParserC.select_classes E labels p us (sel, w) = .ok (sel1, w1) ∧
        (sel.Nodup → sel1.Nodup) ∧
        ∀ x ∈ sel1, x ∈ sel ∨ (0 ≤ x ∧ x < labels.length) := by
  induction us with
  | nil => intro _ sel w; exact ⟨sel, w, rfl, fun h => h, fun x hx => Or.inl hx⟩
  | cons u rest ih =>
    intro hus sel w
    obtain ⟨c0, c1, c2⟩ := label_count_bounds u labels
    have hpos := c2 (hus u (List.mem_cons_self _ _))
    obtain ⟨n, hn, -⟩ := to_int_fraction p (ParserC.label_count u labels) hp0 hp c0 (by omega)
    obtain ⟨i1, i2⟩ := label_indices_spec u labels 0
    obtain ⟨sel1, w1, e1, a1, a2, -⟩ := select_loop_ok E (ParserC.label_indices u labels 0)
      (ParserC.label_count u labels) hpos i1 n.toNat sel w
    obtain ⟨sel2, w2, e2, b1, b2⟩ := ih (fun v hv => hus v (List.mem_cons_of_mem _ hv)) sel1 w1
    refine ⟨sel2, w2, ?_, fun h => b1 (a1 h), ?_⟩
    · unfold ParserC.select_classes
      rw [hn]
      dsimp only
      rw [e1]
      exact e2
    · intro x hx
      rcases b2 x hx with h | h
      · rcases a2 x h with h | h
        · exact Or.inl h
        · have := i2 x h
          exact Or.inr ⟨this.1, by omega⟩
      · exact Or.inr h

theorem perm_set_head (y x : Int) :
    ∀ (t : List Int) (k : Nat), t[k]? = some y → (y :: t.set k x).Perm (x :: t) := by
  intro t
  induction t with
  | nil => intro k h; simp at h
  | cons b t ih =>
    intro k h
    cases k with
    | zero =>
      simp only [List.getElem?_cons_zero, Option.some.injEq] at h
      subst h
      simp only [List.set_cons_zero]
      exact List.Perm.swap _ _ _
    | succ k =>
      simp only [List.getElem?_cons_succ] at h
      simp only [List.set_cons_succ]
      exact (List.Perm.swap b y _).trans (((ih k h).cons b).trans (List.Perm.swap x b t))

/-- The exchange of two elements of an array rearranges it. -/
theorem perm_swap_set (l : List Int) :
    ∀ (i j : Nat) (x y : Int), i < j → l[i]? = some x → l[j]? = some y →
      ((l.set i y).set j x).Perm l := by
  induction l with
  | nil => intro i j x y _ h; simp at h
  | cons a t ih =>
    intro i j x y hij hx hy
    obtain ⟨k, rfl⟩ : ∃ k, j = k + 1 := ⟨j - 1, by omega⟩
    cases i with
    | zero =>
      simp only [List.getElem?_cons_zero, Option.some.injEq] at hx
      simp only [List.getElem?_cons_succ] at hy
      subst hx
      simp only [List.set_cons_zero, List.set_cons_succ]
      exact perm_set_head y a t k hy
    | succ i =>
      simp only [List.getElem?_cons_succ] at hx hy
      simp only [List.set_cons_succ]
      exact (ih i k x y (by omega) hx hy).cons a

/-- One comparison of the sort on two positions of the array. -/
theorem compare_swap_ok (i j : Nat) (l : List Int) (hij : i < j) (hj : j < l.length) :
    ∃ l1, ParserC.compare_swap i j l = .ok l1 ∧ l1.length = l.length ∧ l1.Perm l ∧
      (∀ k, k ≠ i → k ≠ j → l1[k]? = l[k]?) ∧
      ∃ x y a b, l[i]? = some x ∧ l[j]? = some y ∧ l1[i]? = some a ∧ l1[j]? = some b ∧
        a ≤ b ∧ a ≤ x ∧ ((a = x ∧ b = y) ∨ (a = y ∧ b = x)) := by
  have hi : i < l.length := by omega
  have gx : l[i]? = some l[i] := List.getElem?_eq_getElem hi
  have gy : l[j]? = some l[j] := List.getElem?_eq_getElem hj
  unfold ParserC.compare_swap
  rw [gx, gy]
  dsimp only
  by_cases hgt : l[i] > l[j]
  · rw [if_pos hgt]
    refine ⟨_, rfl, by simp, perm_swap_set l i j _ _ hij gx gy, ?_, ?_⟩
    · intro k hki hkj
      rw [List.getElem?_set_ne (fun e => hkj e.symm), List.getElem?_set_ne (fun e => hki e.symm)]
    · refine ⟨l[i], l[j], l[j], l[i], rfl, rfl, ?_, ?_, by omega, by omega, Or.inr ⟨rfl, rfl⟩⟩
      · rw [List.getElem?_set_ne (by omega), List.getElem?_set_self hi]
      · rw [List.getElem?_set_self (by rw [List.length_set]; exact hj)]
  · rw [if_neg hgt]
    exact ⟨l, rfl, rfl, List.Perm.refl _, fun _ _ _ => rfl,
      l[i], l[j], l[i], l[j], rfl, rfl, gx, gy, by omega, le_refl _, Or.inl ⟨rfl, rfl⟩⟩

/-- The inner loop of the sort from position j on: position i ends with the
least element of the positions from i on, the positions before i are
untouched. -/
theorem sort_inner_ok (i : Nat) (fuel : Nat) :
    ∀ (j : Nat) (l : List Int), i < j → j + fuel = l.length →
      (∀ (k : Nat) (x y : Int), i < k → k < j → l[i]? = some x → l[k]? = some y → x ≤ y) →
      ∃ l1, ParserC.sort_inner i fuel j l = .ok l1 ∧ l1.length = l.length ∧ l1.Perm l ∧
        (∀ k, k < i → l1[k]? = l[k]?) ∧
        (∀ (k : Nat) (y : Int), i ≤ k → l1[k]? = some y → ∃ k1, i ≤ k1 ∧ l[k1]? = some y) ∧
        (∀ (k : Nat) (x y : Int), i < k → l1[i]? = some x → l1[k]? = some y → x ≤ y) := by
  induction fuel with
  | zero =>
    intro j l hij hjl hpre
    refine ⟨l, rfl, rfl, List.Perm.refl _, fun _ _ => rfl, fun k y hk hy => ⟨k, hk, hy⟩, ?_⟩
    intro k x y hik hx hy
    have hk : k < l.length := (List.getElem?_eq_some_iff.mp hy).1
    exact hpre k x y hik (by omega) hx hy
  | succ fuel ih =>
    intro j l hij hjl hpre
    obtain ⟨l1, e1, len1, p1, same1, x, y, a, b, gx, gy, ga, gb, hab, hax, hcase⟩ :=
      compare_swap_ok i j l hij (by omega)
    have hpre1 : ∀ (k : Nat) (x1 y1 : Int), i < k → k < j + 1 → l1[i]? = some x1 →
        l1[k]? = some y1 →
        x1 ≤ y1 := by
      intro k x1 y1 hik hkj hx1 hy1
      rw [ga] at hx1
      obtain rfl := Option.some.inj hx1
      by_cases hk : k = j
      · subst hk
        rw [gb] at hy1
        obtain rfl := Option.some.inj hy1
        exact hab
      · rw [same1 k (by omega) hk] at hy1
        exact le_trans hax (hpre k x y1 hik (by omega) gx hy1)
    obtain ⟨l2, e2, len2, p2, same2, from2, least2⟩ :=
      ih (j + 1) l1 (by omega) (by omega) hpre1
    refine ⟨l2, ?_, len2.trans len1, p2.trans p1, ?_, ?_, least2⟩
    · unfold ParserC.sort_inner
      rw [e1]
      exact e2
    · intro k hk
      rw [same2 k hk, same1 k (by omega) (by omega)]
    · intro k z hk hz
      obtain ⟨k1, hk1, hz1⟩ := from2 k z hk hz
      by_cases h1 : k1 = i
      · subst h1
        rw [ga] at hz1
        obtain rfl := Option.some.inj hz1
        rcases hcase with ⟨h, -⟩ | ⟨h, -⟩
        · exact ⟨k1, le_refl _, by rw [h]; exact gx⟩
        · exact ⟨j, by omega, by rw [h]; exact gy⟩
      · by_cases h2 : k1 = j
        · subst h2
          rw [gb] at hz1
          obtain rfl := Option.some.inj hz1
          rcases hcase with ⟨-, h⟩ | ⟨-, h⟩
          · exact ⟨k1, by omega, by rw [h]; exact gy⟩
          · exact ⟨i, le_refl _, by rw [h]; exact gx⟩
        · exact ⟨k1, hk1, by rw [← same1 k1 h1 h2]; exact hz1⟩

/-- The outer loop of the sort from position i on, the positions before i
holding, in order, elements that no later position undercuts. -/
theorem sort_outer_ok (fuel : Nat) :
    ∀ (i : Nat) (l : List Int), i + fuel = l.length - 1 →
      (∀ (a b : Nat) (x y : Int), a < i → a < b → l[a]? = some x → l[b]? = some y → x ≤ y) →
      ∃ l1, ParserC.sort_outer fuel i l = .ok l1 ∧ l1.length = l.length ∧ l1.Perm l ∧
        ∀ (a b : Nat) (x y : Int), a < b → l1[a]? = some x → l1[b]? = some y → x ≤ y := by
  induction fuel with
  | zero =>
    intro i l hi hpre
    refine ⟨l, rfl, rfl, List.Perm.refl _, ?_⟩
    intro a b x y hab hx hy
    have hb : b < l.length := (List.getElem?_eq_some_iff.mp hy).1
    exact hpre a b x y (by omega) hab hx hy
  | succ fuel ih =>
    intro i l hi hpre
    obtain ⟨l1, e1, len1, p1, same1, from1, least1⟩ :=
      sort_inner_ok i (l.length - (i + 1)) (i + 1) l (by omega) (by omega)
        (fun k x y h1 h2 _ _ => by omega)
    have hpre1 : ∀ (a b : Nat) (x y : Int), a < i + 1 → a < b → l1[a]? = some x → l1[b]? = some y →
        x ≤ y := by
      intro a b x y ha hab hx hy
      by_cases hai : a = i
      · subst hai
        exact least1 b x y hab hx hy
      · have hlt : a < i := by omega
        rw [same1 a hlt] at hx
        by_cases hbi : b < i
        · rw [same1 b hbi] at hy
          exact hpre a b x y hlt hab hx hy
        · obtain ⟨k1, hk1, hy1⟩ := from1 b y (by omega) hy
          exact hpre a k1 x y hlt (by omega) hx hy1
    obtain ⟨l2, e2, len2, p2, sorted2⟩ := ih (i + 1) l1 (by omega) hpre1
    refine ⟨l2, ?_, len2.trans len1, p2.trans p1, sorted2⟩
    unfold ParserC.sort_outer
    rw [e1]
    exact e2

/-- The sort of percentage_split returns the selection rearranged into
ascending order. -/
theorem sort_selection_ok (l : List Int) :
    ∃ l1, ParserC.sort_selection l = .ok l1 ∧ l1.Perm l ∧ l1.Pairwise (fun x y => x ≤ y) := by
  obtain ⟨l1, e, -, p, hs⟩ := sort_outer_ok (l.length - 1) 0 l (by omega)
    (fun a b x y h => absurd h (Nat.not_lt_zero a))
  refine ⟨l1, e, p, ?_⟩
  rw [List.pairwise_iff_getElem]
  intro a b ha hb hab
  exact hs a b _ _ hab (List.getElem?_eq_getElem ha) (List.getElem?_eq_getElem hb)

/-- Ascending and free of duplicates is strictly ascending. -/
theorem strict_of_nodup (l : List Int) (hs : l.Pairwise (fun x y => x ≤ y)) (hn : l.Nodup) :
    l.Pairwise (fun x y => x < y) := by
  induction l with
  | nil => exact List.Pairwise.nil
  | cons a t ih =>
    rw [List.pairwise_cons] at hs ⊢
    rw [List.nodup_cons] at hn
    refine ⟨?_, ih hs.2 hn.2⟩
    intro b hb
    have h1 := hs.1 b hb
    have h2 : a ≠ b := fun e => hn.1 (e ▸ hb)
    omega

/-- What percentage_split returns on a percentage in (0, 100], a seed that is
not negative and at least two unique labels. -/
theorem percentage_split_ok (E : Env) (w : World) (labels : List String) (p : Rat) (seed : Int)
    (hp0 : 0 < p) (hp : p ≤ 100) (hseed : 0 ≤ seed)
    (hu : 2 ≤ (ParserC.unique_labels labels []).length)
    (hmax : (labels.length : Int) ≤ INT_MAX) :
    ∃ (selection : List Int) (split : Split) (w1 : World),
      ParserC.select_classes E labels p (ParserC.unique_labels labels []) ([], srand w seed) =
        .ok (selection, w1) ∧
      ParserC.percentage_split E w labels p seed = .ok (split, w1) ∧
      split.selection.Pairwise (fun x y => x < y) ∧
      (∀ x ∈ split.selection, 0 ≤ x ∧ x < labels.length) ∧
      split.selection.Perm selection ∧
      split.num_selected_indices = split.selection.length := by
  obtain ⟨sel, w1, e1, nd, rng⟩ := select_classes_ok E labels p hp0 hp hmax
    (ParserC.unique_labels labels []) (unique_labels_mem labels) [] (srand w seed)
  obtain ⟨sorted, e2, perm, asc⟩ := sort_selection_ok sel
  have hnd : sorted.Nodup := perm.nodup_iff.mpr (nd List.nodup_nil)
  refine ⟨sel, { selection := sorted, num_selected_indices := sel.length }, w1, e1, ?_,
    strict_of_nodup sorted asc hnd, ?_, perm, ?_⟩
  · unfold ParserC.percentage_split
    rw [if_neg (by rw [not_or, not_le, not_lt]; exact ⟨hp0, hp⟩), if_neg (by omega),
      if_neg (by omega), e1]
    dsimp only
    rw [e2]
  · intro x hx
    rcases rng x (perm.subset hx) with h | h
    · cases h
    · exact h
  · show ((sel.length : Nat) : Int) = ((sorted.length : Nat) : Int)
    rw [perm.length_eq]

/-- The exits of percentage_split. -/
theorem percentage_split_exits (E : Env) (w : World) (labels : List String) (p : Rat)
    (seed : Int)
    (h : p ≤ 0 ∨ p > 100 ∨ seed < 0 ∨ (ParserC.unique_labels labels []).length < 2) :
    ∃ msg, ParserC.percentage_split E w labels p seed = .error (.exit msg) := by
  unfold ParserC.percentage_split
  by_cases h1 : p ≤ 0 ∨ p > 100
  · rw [if_pos h1]
    exact ⟨_, rfl⟩
  rw [if_neg h1]
  by_cases h2 : seed < 0
  · rw [if_pos h2]
    exact ⟨_, rfl⟩
  rw [if_neg h2]
  have h3 : ((ParserC.unique_labels labels []).length : Int) < 2 := by
    rcases h with h | h | h | h
    · exact absurd (Or.inl h) h1
    · exact absurd (Or.inr h) h1
    · exact absurd h h2
    · exact_mod_cast h
  rw [if_pos h3]
  exact ⟨_, rfl⟩

/-! ## model.c: the order of the predictions -/

theorem retrieve_congr (a b : List Int) (hm : ∀ x, x ∈ a ↔ x ∈ b) (hl : a.length = b.length)
    (vs : List Vector) :
    ∀ st : List Vector × List Vector, ModelC.retrieve a vs st = ModelC.retrieve b vs st := by
  induction vs with
  | nil => intro st; rfl
  | cons v rest ih =>
    intro st
    obtain ⟨tv, tr⟩ := st
    unfold ModelC.retrieve
    simp only [hm, hl, ih]

/-- The call predict_mlmodel reads the test indices only as a set and a count:
a rearrangement of them changes nothing of what it returns. -/
theorem predict_mlmodel_perm (E : Env) (w : World) (model : MLModel) (a b : List Int)
    (retraining_iterations : Int) (model_error_rate : Rat) (h : a.Perm b) :
    ModelC.predict_mlmodel E w model a retraining_iterations model_error_rate =
      ModelC.predict_mlmodel E w model b retraining_iterations model_error_rate := by
  unfold ModelC.predict_mlmodel
  rw [retrieve_congr a b (fun x => h.mem_iff) h.length_eq, h.length_eq]

theorem dot_set_left (l : List Int) :
    ∀ (m : List Int) (k : Nat) (x : Int), k < l.length →
      dot (l.set k x) m = dot l m + (x - l.getD k 0) * m.getD k 0 := by
  induction l with
  | nil => intro m k x hk; simp at hk
  | cons a l ih =>
    intro m k x hk
    cases m with
    | nil => cases k <;> simp [dot]
    | cons b m =>
      cases k with
      | zero =>
        simp only [List.set_cons_zero, dot, List.getD_cons_zero]
        ring
      | succ k =>
        simp only [List.set_cons_succ, dot, List.getD_cons_succ]
        rw [ih m k x (by simpa using hk)]
        ring

theorem sum_sq_signs (xs : List Int) (h : ∀ x ∈ xs, x = 1 ∨ x = -1) :
    sum_sq xs = xs.length := by
  induction xs with
  | nil => rfl
  | cons a as ih =>
    simp only [sum_sq, List.length_cons]
    rw [ih (fun x hx => h x (List.mem_cons_of_mem _ hx))]
    rcases h a (List.mem_cons_self _ _) with ha | ha <;> rw [ha] <;> push_cast <;> ring

theorem flipped_signs (N t : Nat) :
    ∀ x ∈ (List.replicate N (-1 : Int)).set t 1, x = 1 ∨ x = -1 := by
  intro x hx
  rcases List.mem_or_eq_of_mem_set hx with h | h
  · exact Or.inr (List.eq_of_mem_replicate h)
  · exact Or.inl h

theorem replicate_signs (N : Nat) : ∀ x ∈ List.replicate N (-1 : Int), x = 1 ∨ x = -1 :=
  fun _ hx => Or.inr (List.eq_of_mem_replicate hx)

/-- The sums of the cosine loop on the all-minus-one array and the array that
differs from it in one element. -/
theorem flipped_sums (N t : Nat) (ht : t < N) :
    dot (List.replicate N (-1)) (List.replicate N (-1)) = N ∧
    dot ((List.replicate N (-1)).set t 1) (List.replicate N (-1)) = (N : Int) - 2 ∧
    dot (List.replicate N (-1)) ((List.replicate N (-1)).set t 1) = (N : Int) - 2 ∧
    dot ((List.replicate N (-1)).set t 1) ((List.replicate N (-1)).set t 1) = N ∧
    sum_sq (List.replicate N (-1)) = N ∧
    sum_sq ((List.replicate N (-1)).set t 1) = N := by
  have h1 : dot (List.replicate N (-1)) (List.replicate N (-1)) = N := by
    rw [dot_replicate]
    ring
  have h2 : dot ((List.replicate N (-1)).set t 1) (List.replicate N (-1)) = (N : Int) - 2 := by
    rw [dot_set_left _ _ _ _ (by rw [List.length_replicate]; exact ht), h1]
    simp only [List.getD_eq_getElem?_getD, List.getElem?_replicate, if_pos ht,
      Option.getD_some]
    ring
  have h5 : sum_sq (List.replicate N (-1 : Int)) = N := by
    rw [sum_sq_signs _ (replicate_signs N), List.length_replicate]
  have h6 : sum_sq ((List.replicate N (-1 : Int)).set t 1) = N := by
    rw [sum_sq_signs _ (flipped_signs N t), List.length_set, List.length_replicate]
  exact ⟨h1, h2, by rw [dot_comm]; exact h2, by rw [dot_self]; exact h6, h5, h6⟩

theorem cosine_of_vectors (A B : Vector) (va vb : List Int) (ha : A.vector = va)
    (hb : B.vector = vb) (hl : va.length = vb.length) (ht : A.vtype = B.vtype)
    (sa : ∀ x ∈ va, x = 1 ∨ x = -1) (sb : ∀ x ∈ vb, x = 1 ∨ x = -1) :
    SpaceC.vector_distance A B "cosine" = .ok (.cosine (dot va vb) (sum_sq va) (sum_sq vb)) := by
  rw [vector_distance_cosine_ok A B (by simp only [Vector.size, ha, hb, hl]) ht
    (by rw [ha]; exact signs_small _ sa) (by rw [hb]; exact signs_small _ sb), ha, hb]

theorem below_far_near (N : Int) (hN : 2 ≤ N) :
    (DistValue.cosine (N - 2) N N).below (DistValue.cosine N N N) = false := by
  simp only [DistValue.below]
  rw [if_neg (by omega), if_pos (by omega), if_neg (by omega)]
  rw [decide_eq_false_iff_not, not_lt]
  have h1 : (N - 2) * (N - 2) ≤ N * N := by nlinarith
  have h2 : 0 ≤ N * N := by nlinarith
  nlinarith

theorem below_near_far (N : Int) (hN : 2 ≤ N) :
    (DistValue.cosine N N N).below (DistValue.cosine (N - 2) N N) = true := by
  simp only [DistValue.below]
  rw [if_neg (by omega), if_pos (by omega), if_neg (by omega)]
  rw [decide_eq_true_iff]
  have h1 : (N - 2) * (N - 2) < N * N := by nlinarith
  have h2 : 0 < N * N := by nlinarith
  nlinarith

theorem cosine_finite_pos (p N : Int) (hN : 0 < N) : (DistValue.cosine p N N).finite = true := by
  simp only [DistValue.finite, decide_eq_true_eq]
  exact ⟨hN, hN⟩

/-- The predictions for the rows 2 and 3 on a space of two levels and four
points where the points 0 and 2 hold the all-minus-one array and the points 1
and 3 the array that differs from it in one element: a for point_2 and b for
point_3. -/
theorem predict_four (E : Env) (w : World) (model : MLModel) (l0 l1 p0 p1 p2 p3 : Vector)
    (N t : Nat) (hN : 2 ≤ N) (ht : t < N) (retraining_iterations : Int)
    (model_error_rate : Rat)
    (hvs : model.space.vectors = [l0, l1, p0, p1, p2, p3]) (hcl : model.classes = ["a", "b"])
    (hn : l0.name = "level_0" ∧ l1.name = "level_1" ∧ p0.name = "point_0" ∧
      p1.name = "point_1" ∧ p2.name = "point_2" ∧ p3.name = "point_3")
    (htags : p0.tags = ["a"] ∧ p1.tags = ["b"])
    (hvt : p0.vtype = "bipolar" ∧ p1.vtype = "bipolar" ∧ p2.vtype = "bipolar" ∧
      p3.vtype = "bipolar")
    (h0 : p0.vector = List.replicate N (-1)) (h1 : p1.vector = (List.replicate N (-1)).set t 1)
    (h2 : p2.vector = List.replicate N (-1))
    (h3 : p3.vector = (List.replicate N (-1)).set t 1) :
    ModelC.predict_mlmodel E w model [2, 3] retraining_iterations model_error_rate =
      .ok ({ predictions := ["a", "b"], retraining_iterations := retraining_iterations,
             model_error_rate := model_error_rate }, w) := by
  obtain ⟨hs1, hs2⟩ := four_split l0 l1 p0 p1 p2 p3 hn
  obtain ⟨n0, n1, m0, m1, m2, m3⟩ := hn
  obtain ⟨t0, t1⟩ := htags
  obtain ⟨y0, y1, y2, y3⟩ := hvt
  obtain ⟨rr, hr⟩ := retrieve_returns [2, 3] model.space.vectors [] [] (by
      intro v hv hp
      rw [hvs] at hv
      simp only [List.mem_cons, List.mem_singleton, List.not_mem_nil, or_false] at hv
      rcases hv with rfl | rfl | rfl | rfl | rfl | rfl
      · rw [n0] at hp; exact absurd hp (by decide)
      · rw [n1] at hp; exact absurd hp (by decide)
      · exact ⟨0, (point_index_is_point _ 0 (point_index_named _ _ (some 0) m0 (by decide))).2⟩
      · exact ⟨1, (point_index_is_point _ 1 (point_index_named _ _ (some 1) m1 (by decide))).2⟩
      · exact ⟨2, (point_index_is_point _ 2 (point_index_named _ _ (some 2) m2 (by decide))).2⟩
      · exact ⟨3, (point_index_is_point _ 3 (point_index_named _ _ (some 3) m3 (by decide))).2⟩)
    (by rw [hvs, hs1]; exact Nat.le_refl _)
  have hrr := retrieve_ok [2, 3] model.space.vectors [] [] _ hr
  rw [hvs, hs1, hs2] at hrr
  simp only [List.nil_append] at hrr
  subst hrr
  have ca : ModelC.class_sum E "a" [p0, p1] (none, w) = .ok (some (ModelC.copy_vector p0), w) :=
    class_sum_single E "a" [p0, p1] p0 w (by simp [List.filter, ModelC.has_tag, t0, t1])
  have cb : ModelC.class_sum E "b" [p0, p1] (none, w) = .ok (some (ModelC.copy_vector p1), w) :=
    class_sum_single E "b" [p0, p1] p1 w (by simp [List.filter, ModelC.has_tag, t0, t1])
  have hlen : (List.replicate N (-1 : Int)).length =
      ((List.replicate N (-1 : Int)).set t 1).length := by rw [List.length_set]
  obtain ⟨s1, s2, s3, s4, s5, s6⟩ := flipped_sums N t ht
  have hNi : (2 : Int) ≤ (N : Int) := by exact_mod_cast hN
  have d2a : SpaceC.vector_distance p2
      (ModelC.add_tag { ModelC.copy_vector p0 with name := ModelC.class_name 0 } "a") "cosine" =
      .ok (.cosine N N N) := by
    rw [cosine_of_vectors p2 _ (List.replicate N (-1)) (List.replicate N (-1)) h2
      (by rw [add_tag_vector]; exact h0) rfl (by rw [(add_tag_fields _ _).1, y2]; exact y0.symm)
      (replicate_signs N) (replicate_signs N), s1, s5]
  have d2b : SpaceC.vector_distance p2
      (ModelC.add_tag { ModelC.copy_vector p1 with name := ModelC.class_name (0 + 1) } "b")
        "cosine" = .ok (.cosine ((N : Int) - 2) N N) := by
    rw [cosine_of_vectors p2 _ (List.replicate N (-1)) ((List.replicate N (-1)).set t 1) h2
      (by rw [add_tag_vector]; exact h1) hlen (by rw [(add_tag_fields _ _).1, y2]; exact y1.symm)
      (replicate_signs N) (flipped_signs N t), s3, s5, s6]
  have d3a : SpaceC.vector_distance p3
      (ModelC.add_tag { ModelC.copy_vector p0 with name := ModelC.class_name 0 } "a") "cosine" =
      .ok (.cosine ((N : Int) - 2) N N) := by
    rw [cosine_of_vectors p3 _ ((List.replicate N (-1)).set t 1) (List.replicate N (-1)) h3
      (by rw [add_tag_vector]; exact h0) hlen.symm
      (by rw [(add_tag_fields _ _).1, y3]; exact y0.symm)
      (flipped_signs N t) (replicate_signs N), s2, s5, s6]
  have d3b : SpaceC.vector_distance p3
      (ModelC.add_tag { ModelC.copy_vector p1 with name := ModelC.class_name (0 + 1) } "b")
        "cosine" = .ok (.cosine N N N) := by
    rw [cosine_of_vectors p3 _ ((List.replicate N (-1)).set t 1)
      ((List.replicate N (-1)).set t 1) h3
      (by rw [add_tag_vector]; exact h1) rfl (by rw [(add_tag_fields _ _).1, y3]; exact y1.symm)
      (flipped_signs N t) (flipped_signs N t), s4, s6]
  unfold ModelC.predict_mlmodel
  rw [if_neg (by decide), hr]
  dsimp only
  rw [if_neg (fun h => h rfl), hcl]
  simp only [ModelC.build_classes, ca, cb, List.nil_append, List.cons_append, List.zip_cons_cons,
    List.zip_nil_right, ModelC.predict_each, ModelC.closest, d2a, d2b, d3a, d3b, ModelC.nearer,
    cosine_finite_pos _ _ (show (0 : Int) < (N : Int) by omega), below_far_near _ hNi,
    below_near_far _ hNi, if_true, if_false, Bool.false_eq_true]

theorem four_points_range : ModelC.value_range 1 four_points none = .ok (some (0, 2)) := by
  simp [four_points, ModelC.value_range, ModelC.value_range_row, ModelC.widen]
  norm_num

/-- Under a stream whose every value is the seed of the generator and a clock
that stands at t, fit_mlmodel on the four rows leaves two levels and four
points: the points 0 and 2, of value min_value, hold the elements of level_0,
the all-minus-one array, and the points 1 and 3, of value max_value, hold the
elements of level_1, which differs from it at the index t. -/
theorem seeded_four_shape (t N seed : Nat) (hN : 10000 ≤ N) (hbig : N ≤ 999999998)
    (hseed : seed < N) (ht : t < N)
    (hchange : (Int.tdiv (N : Int) 2).toNat % 2 = 0)
    (hnext : (Int.tdiv (Int.tdiv (N : Int) 2) 2).toNat % 2 = 1) (w : World) :
    ∃ (fitted : MLModel) (w1 : World) (l0 l1 p0 p1 p2 p3 : Vector),
      ModelC.fit_mlmodel (env_seeded t) w (fresh_model (N : Int) "bipolar") four_points 1
        (some four_labels) (seed : Int) = .ok (fitted, w1) ∧
      fitted.space.vectors = [l0, l1, p0, p1, p2, p3] ∧ fitted.classes = ["a", "b"] ∧
      (l0.name = "level_0" ∧ l1.name = "level_1" ∧ p0.name = "point_0" ∧ p1.name = "point_1" ∧
        p2.name = "point_2" ∧ p3.name = "point_3") ∧
      (p0.tags = ["a"] ∧ p1.tags = ["b"] ∧ p2.tags = ["a"] ∧ p3.tags = ["b"]) ∧
      (p0.vtype = "bipolar" ∧ p1.vtype = "bipolar" ∧ p2.vtype = "bipolar" ∧
        p3.vtype = "bipolar") ∧
      p0.vector = List.replicate N (-1) ∧ p1.vector = (List.replicate N (-1)).set t 1 ∧
      p2.vector = List.replicate N (-1) ∧ p3.vector = (List.replicate N (-1)).set t 1 := by
  obtain ⟨fitted, w1, hfit⟩ := four_fit_returns (env_seeded t) w (N : Int)
    (by exact_mod_cast hN) (by omega) "bipolar" (Or.inr rfl) four_points 1 (Or.inl rfl) rfl
    four_points_rows
    (seed : Int)
  obtain ⟨l0, l1, p0, p1, p2, p3, hvs, hcls, hnames, htags, hnd, hall, -⟩ :=
    four_fit_shape (fun _ => True) (fun _ _ => trivial) (env_seeded t) w w1 (N : Int) "bipolar"
      four_points rfl (seed : Int) fitted trivial hfit
  obtain ⟨bounds, lvs, pts, hb, hfitted, -, -, -, -, ⟨base1, w2, hcl⟩, -, -, -, hpt⟩ :=
    fit_mlmodel_ok (fun _ => True) (fun _ _ => trivial) (env_seeded t) w w1
      (fresh_model (N : Int) "bipolar") fitted four_points 1 (some four_labels) (seed : Int)
      (by decide) hfit
  have hseed1 : ((seed : Int) ≠ -1) := by omega
  obtain ⟨r0, r1, b, w3, hsl⟩ := seeded_levels t N seed hN hseed ht (N : Int) rfl
    (Int.tdiv (N : Int) 2) (Int.tdiv (Int.tdiv (N : Int) 2) 2) hchange hnext
    (srand w (seed : Int)) rfl
  simp only [fresh_model, Int.toNat_ofNat, if_pos hseed1, if_true, List.nil_append] at hcl
  have h2 : (2 : Int).toNat = 2 := rfl
  rw [h2, hsl] at hcl
  simp only [Except.ok.injEq, Prod.mk.injEq, Space.mk.injEq, and_true, true_and] at hcl
  obtain ⟨⟨hl, -⟩, -⟩ := hcl
  have hvs2 : fitted.space.vectors = lvs ++ pts := by
    rw [hfitted]
    simp [fresh_model]
  rw [hvs, ← hl] at hvs2
  simp only [List.cons_append, List.nil_append, List.cons.injEq] at hvs2
  obtain ⟨e0, e1, hpts⟩ := hvs2
  have hbounds : bounds = some (0, 2) := by
    rw [four_points_range] at hb
    exact (Except.ok.inj hb).symm
  obtain ⟨n0, n1, m0, m1, m2, m3⟩ := hnames
  have g0 : GraphC.get_vector_from_space_loop [l0, l1] "level_0" = some l0 := by
    simp [GraphC.get_vector_from_space_loop, n0]
  have g1 : GraphC.get_vector_from_space_loop [l0, l1] "level_1" = some l1 := by
    simp [GraphC.get_vector_from_space_loop, n0, n1]
  have hv0 : l0.vector = List.replicate N (-1) := by rw [e0]
  have hv1 : l1.vector = (List.replicate N (-1)).set t 1 := by rw [e1]
  have hlow : ∀ (i : Nat) (p : Vector), four_points[i]? = some [0] →
      [p0, p1, p2, p3][i]? = some p → p.vector = l0.vector := by
    intro i p hrow hp
    obtain ⟨p1, a1, -, -, -, -, -, rolled, r1, r2, r3⟩ := hpt i [0] hrow
    rw [← hpts, hp] at a1
    obtain rfl := Option.some.inj a1
    obtain ⟨u, rfl⟩ : ∃ u, rolled = [u] := by
      match rolled, r1 with
      | [u], _ => exact ⟨u, rfl⟩
    obtain ⟨value, lv, c1, c2, c3, -, c5⟩ := r3 0 u rfl
    obtain rfl : (0 : Rat) = value := Option.some.inj c1
    rw [hbounds, level_of_min] at c2
    simp only [fresh_model, List.nil_append] at c2
    rw [← hl] at c2
    have hname : ModelC.level_name 0 = "level_0" := by decide
    rw [hname, ← e0, ← e1, g0] at c2
    obtain rfl := Option.some.inj c2
    rw [r2, column_sums_single, rolled_zero u _ c3 c5]
  have hhigh : ∀ (i : Nat) (p : Vector), four_points[i]? = some [2] →
      [p0, p1, p2, p3][i]? = some p → p.vector = l1.vector := by
    intro i p hrow hp
    obtain ⟨p1, a1, -, -, -, -, -, rolled, r1, r2, r3⟩ := hpt i [2] hrow
    rw [← hpts, hp] at a1
    obtain rfl := Option.some.inj a1
    obtain ⟨u, rfl⟩ : ∃ u, rolled = [u] := by
      match rolled, r1 with
      | [u], _ => exact ⟨u, rfl⟩
    obtain ⟨value, lv, c1, c2, c3, -, c5⟩ := r3 0 u rfl
    obtain rfl : (2 : Rat) = value := Option.some.inj c1
    rw [hbounds, level_of_max _ _ _ (by norm_num)] at c2
    simp only [fresh_model, List.nil_append] at c2
    rw [← hl] at c2
    have hname : ModelC.level_name (2 - 1) = "level_1" := by decide
    rw [hname, ← e0, ← e1, g1] at c2
    obtain rfl := Option.some.inj c2
    rw [r2, column_sums_single, rolled_zero u _ c3 c5]
  refine ⟨fitted, w1, l0, l1, p0, p1, p2, p3, hfit, hvs, hcls,
    ⟨n0, n1, m0, m1, m2, m3⟩, htags,
    ⟨(hall p0 (by simp)).2.1, (hall p1 (by simp)).2.1, (hall p2 (by simp)).2.1,
      (hall p3 (by simp)).2.1⟩, ?_, ?_, ?_, ?_⟩
  · rw [hlow 0 p0 rfl rfl, hv0]
  · rw [hhigh 1 p1 rfl rfl, hv1]
  · rw [hlow 2 p2 rfl rfl, hv0]
  · rw [hhigh 3 p3 rfl rfl, hv1]

theorem to_int_half : ParserC.to_int (50 * ((4 : Int) : Rat) / 100) = .ok 2 := by
  have h : (50 * ((4 : Int) : Rat) / 100) = 2 := by norm_num
  rw [h]
  rfl

/-- The run of percentage_split on the eight labels with percentage 50 and seed
0 under the stream 5, 9, 13, 17, ...: one index per class. -/
theorem eight_split :
    ParserC.percentage_split env_stride world0 eight_labels 50 0 =
      .ok ({ selection := [1, 5], num_selected_indices := 2 },
        { rng_seed := 0, rng_drawn := 4, clock_reads := 0 }) := by
  have hu : ParserC.unique_labels eight_labels [] = ["x", "y"] := by decide
  have hx : ParserC.label_count "x" eight_labels = 4 := by decide
  have hy : ParserC.label_count "y" eight_labels = 4 := by decide
  have ix : ParserC.label_indices "x" eight_labels 0 = [0, 1, 2, 3] := by decide
  have iy : ParserC.label_indices "y" eight_labels 0 = [4, 5, 6, 7] := by decide
  have sx : ParserC.select_loop env_stride [0, 1, 2, 3] 4 2 ([], srand world0 0) =
      .ok ([1], { rng_seed := 0, rng_drawn := 2, clock_reads := 0 }) := by rfl
  have sy : ParserC.select_loop env_stride [4, 5, 6, 7] 4 2
      ([1], { rng_seed := 0, rng_drawn := 2, clock_reads := 0 }) =
      .ok ([1, 5], { rng_seed := 0, rng_drawn := 4, clock_reads := 0 }) := by rfl
  have hsort : ParserC.sort_selection [1, 5] = .ok [1, 5] := by rfl
  have h2 : (2 : Int).toNat = 2 := rfl
  unfold ParserC.percentage_split
  rw [if_neg (by norm_num), if_neg (by decide), hu, if_neg (by decide)]
  simp only [ParserC.select_classes, hx, hy, ix, iy, to_int_half, h2, sx, sy, hsort]
  rfl

/-! ## The doubles of the cosine formula at an exact tie -/

section

set_option maxRecDepth 100000

/-- In double arithmetic the cosine formula gives 0 on the sums 10001, 10001,
10001 of two equal vectors of 10001 elements 1 or -1. -/
theorem cosine_double_single : cosine_double 10001 10001 10001 = some ⟨0, 0⟩ := by decide

/-- In double arithmetic the cosine formula gives -2^-52 on the sums 30003,
10001, 90009 of such a vector and its threefold. -/
theorem cosine_double_threefold :
    cosine_double 30003 10001 90009 = some ⟨-2 ^ 52, -104⟩ := by decide

/-- In double arithmetic the cosine formula gives -2^-52 on the sums 10004,
10004, 10004 of two equal vectors of 10004 elements 1 or -1. -/
theorem cosine_double_equal_vectors :
    cosine_double 10004 10004 10004 = some ⟨-2 ^ 52, -104⟩ := by decide

theorem double_lt_zero : Double.lt ⟨-2 ^ 52, -104⟩ ⟨0, 0⟩ = true := by decide

end

/-- Over exact real arithmetic the cosine formula gives 0 on the sums of a
vector with a non-zero element and its k-fold, k > 0. -/
theorem cosine_real_multiple (k N : Int) (hk : 0 < k) (hN : 0 < N) :
    (DistValue.cosine (k * N) N (k * k * N)).IsReal 0 := by
  have hNr : (0 : ℝ) < (N : ℝ) := by exact_mod_cast hN
  have hkr : (0 : ℝ) < (k : ℝ) := by exact_mod_cast hk
  have hs : Real.sqrt ((k * k * N : Int) : ℝ) = (k : ℝ) * Real.sqrt (N : ℝ) := by
    push_cast
    rw [Real.sqrt_mul (mul_nonneg hkr.le hkr.le), Real.sqrt_mul_self hkr.le]
  have hprod : Real.sqrt (N : ℝ) * Real.sqrt ((k * k * N : Int) : ℝ) = (k : ℝ) * (N : ℝ) := by
    rw [hs]
    have := Real.mul_self_sqrt hNr.le
    calc Real.sqrt (N : ℝ) * ((k : ℝ) * Real.sqrt (N : ℝ))
        = (k : ℝ) * (Real.sqrt (N : ℝ) * Real.sqrt (N : ℝ)) := by ring
      _ = (k : ℝ) * (N : ℝ) := by rw [this]
  refine ⟨?_, ?_⟩
  · rw [hprod]
    exact ne_of_gt (mul_pos hkr hNr)
  · rw [hprod]
    push_cast
    rw [div_self (ne_of_gt (mul_pos hkr hNr))]
    ring

/-! ## model.c: a run where two classes are equally near -/

theorem point_names_five (i j : Nat) (hij : i < j) (hj : j < 5) :
    ModelC.point_name (i : Int) ≠ ModelC.point_name (j : Int) := by
  interval_cases j <;> interval_cases i <;> first | omega | decide

theorem five_points_rows : ∀ row ∈ five_points, (1 : Int).toNat ≤ row.length := by
  intro row hrow
  simp only [five_points, List.mem_cons, List.mem_singleton, List.not_mem_nil, or_false] at hrow
  rcases hrow with rfl | rfl | rfl | rfl | rfl <;> exact Nat.le_refl 1

theorem five_points_range : ModelC.value_range 1 five_points none = .ok (some (0, 0)) := by
  simp [five_points, ModelC.value_range, ModelC.value_range_row, ModelC.widen]

/-- On the five rows fit_mlmodel returns, for every stream, clock and seed. -/
theorem five_fit_returns (E : Env) (w : World) (N : Int) (hN : 10000 ≤ N)
    (hbig : N + 1 ≤ 1000000000) (seed : Int) :
    ∃ fitted w1, ModelC.fit_mlmodel E w (fresh_model N "bipolar") five_points 1
      (some five_labels) seed = .ok (fitted, w1) := by
  apply fit_mlmodel_returns E w N 2 "bipolar" (fresh_model N "bipolar")
    (create_fresh N hN "bipolar" (Or.inr rfl)) five_points 1 (some five_labels) seed
    (by decide) (by decide) five_points_rows hbig
  · intro ls hls
    obtain rfl := Option.some.inj hls
    exact ⟨rfl, by decide⟩
  · exact level_names_two
  · intro i j hij hj
    exact point_names_five i j hij hj

/-- The space after fit_mlmodel on a fresh bipolar model and the five rows: two
level vectors and five point vectors, every point vector holding the elements
of level_0, all of them 1 or -1. -/
theorem five_fit_shape (E : Env) (w w1 : World) (N : Nat) (seed : Int) (fitted : MLModel)
    (hfit : ModelC.fit_mlmodel E w (fresh_model (N : Int) "bipolar") five_points 1
      (some five_labels) seed = .ok (fitted, w1)) :
    ∃ (l0 l1 p0 p1 p2 p3 p4 : Vector) (v : List Int),
      fitted.space.vectors = [l0, l1, p0, p1, p2, p3, p4] ∧
      fitted.classes = ["a", "b"] ∧
      (l0.name = "level_0" ∧ l1.name = "level_1" ∧ p0.name = "point_0" ∧ p1.name = "point_1" ∧
        p2.name = "point_2" ∧ p3.name = "point_3" ∧ p4.name = "point_4") ∧
      (p0.tags = ["a"] ∧ p1.tags = ["b"] ∧ p2.tags = ["b"] ∧ p3.tags = ["b"] ∧
        p4.tags = ["a"]) ∧
      (∀ p ∈ [p0, p1, p2, p3, p4], p.vtype = "bipolar" ∧ p.vector = v) ∧
      v.length = N ∧ ∀ x ∈ v, x = 1 ∨ x = -1 := by
  obtain ⟨bounds, lvs, pts, hb, hfitted, -, -, hll, hpl, -, -, hlv, hpred, hpt⟩ :=
    fit_mlmodel_ok (fun x => x = 1 ∨ x = -1)
      (fun x hx => by rcases hx with h | h <;> rw [h] <;> decide) E w w1
      (fresh_model (N : Int) "bipolar") fitted five_points 1 (some five_labels) seed
      (by decide) hfit
  have hl2 : lvs.length = 2 := hll
  have hp5 : pts.length = 5 := hpl
  obtain ⟨l0, l1, rfl⟩ : ∃ a b, lvs = [a, b] := by
    match lvs, hl2 with
    | [a, b], _ => exact ⟨a, b, rfl⟩
  obtain ⟨p0, p1, p2, p3, p4, rfl⟩ : ∃ a b c e f, pts = [a, b, c, e, f] := by
    match pts, hp5 with
    | [a, b, c, e, f], _ => exact ⟨a, b, c, e, f, rfl⟩
  have hbounds : bounds = some (0, 0) := by
    rw [five_points_range] at hb
    exact (Except.ok.inj hb).symm
  obtain ⟨n0, -, -, k0⟩ := hlv 0 l0 rfl
  obtain ⟨n1, -, -, -⟩ := hlv 1 l1 rfl
  have hname0 : ModelC.level_name ((0 : Nat) : Int) = "level_0" := by decide
  have hname1 : ModelC.level_name ((1 : Nat) : Int) = "level_1" := by decide
  have hsigns : ∀ x ∈ l0.vector, x = 1 ∨ x = -1 :=
    hpred (by simp [fresh_model]) l0 (by simp)
  have hpoint : ∀ (i : Nat) (p : Vector) (label : String),
      [p0, p1, p2, p3, p4][i]? = some p → five_labels[i]? = some label →
      p.name = ModelC.point_name (i : Int) ∧ p.tags = [label] ∧ p.vtype = "bipolar" ∧
        p.vector = l0.vector := by
    intro i p label hp hlabel
    have hi : i < 5 := (List.getElem?_eq_some_iff.mp hp).1
    have hrow : five_points[i]? = some [0] := by
      interval_cases i <;> rfl
    obtain ⟨q, e1, e2, -, e4, e5, -, rolled, r1, r2, r3⟩ := hpt i [0] hrow
    rw [hp] at e1
    obtain rfl := Option.some.inj e1
    obtain ⟨label1, g1, g2⟩ := e5 five_labels rfl
    rw [hlabel] at g1
    obtain rfl := Option.some.inj g1
    obtain ⟨u, rfl⟩ : ∃ u, rolled = [u] := by
      match rolled, r1 with
      | [u], _ => exact ⟨u, rfl⟩
    obtain ⟨value, lv, c1, c2, c3, -, c5⟩ := r3 0 u rfl
    obtain rfl : (0 : Rat) = value := Option.some.inj c1
    rw [hbounds, level_of_min] at c2
    simp only [fresh_model, List.nil_append, GraphC.get_vector_from_space_loop] at c2
    rw [if_pos (by rw [n0]; rfl)] at c2
    obtain rfl := Option.some.inj c2
    refine ⟨e2, g2, e4, ?_⟩
    rw [r2, column_sums_single, rolled_zero u _ c3 c5]
  obtain ⟨a1, a2, a3, a4⟩ := hpoint 0 p0 "a" rfl rfl
  obtain ⟨b1, b2, b3, b4⟩ := hpoint 1 p1 "b" rfl rfl
  obtain ⟨c1, c2, c3, c4⟩ := hpoint 2 p2 "b" rfl rfl
  obtain ⟨d1, d2, d3, d4⟩ := hpoint 3 p3 "b" rfl rfl
  obtain ⟨f1, f2, f3, f4⟩ := hpoint 4 p4 "a" rfl rfl
  refine ⟨l0, l1, p0, p1, p2, p3, p4, l0.vector, ?_, ?_,
    ⟨n0.trans hname0, n1.trans hname1, a1.trans (by decide), b1.trans (by decide),
      c1.trans (by decide), d1.trans (by decide), f1.trans (by decide)⟩,
    ⟨a2, b2, c2, d2, f2⟩, ?_, ?_, hsigns⟩
  · rw [hfitted]
    simp [fresh_model]
  · rw [hfitted]
    simp only [Option.map_some', Option.getD_some]
    decide
  · intro p hp
    simp only [List.mem_cons, List.mem_singleton, List.not_mem_nil, or_false] at hp
    rcases hp with rfl | rfl | rfl | rfl | rfl
    · exact ⟨a3, a4⟩
    · exact ⟨b3, b4⟩
    · exact ⟨c3, c4⟩
    · exact ⟨d3, d4⟩
    · exact ⟨f3, f4⟩
  · rw [k0]
    simp [fresh_model]

theorem dot_threefold (v : List Int) :
    dot v (List.zipWith (· + ·) (List.zipWith (· + ·) v v) v) = 3 * sum_sq v ∧
    sum_sq (List.zipWith (· + ·) (List.zipWith (· + ·) v v) v) = 3 * 3 * sum_sq v := by
  induction v with
  | nil => exact ⟨rfl, rfl⟩
  | cons a v ih =>
    simp only [List.zipWith_cons_cons, dot, sum_sq, ih.1, ih.2]
    constructor <;> ring

theorem threefold_small (v : List Int) (h : ∀ x ∈ v, x = 1 ∨ x = -1) :
    (∀ x ∈ List.zipWith (· + ·) v v, -2 ≤ x ∧ x ≤ 2) ∧
    ∀ x ∈ List.zipWith (· + ·) (List.zipWith (· + ·) v v) v, -3 ≤ x ∧ x ≤ 3 := by
  induction v with
  | nil => simp
  | cons a v ih =>
    obtain ⟨i1, i2⟩ := ih (fun x hx => h x (List.mem_cons_of_mem _ hx))
    have ha := h a (List.mem_cons_self _ _)
    simp only [List.zipWith_cons_cons, List.mem_cons]
    constructor
    · rintro x (rfl | hx)
      · rcases ha with ha | ha <;> rw [ha] <;> decide
      · exact i1 x hx
    · rintro x (rfl | hx)
      · rcases ha with ha | ha <;> rw [ha] <;> decide
      · exact i2 x hx

/-- The element loop of bundle_vectors returns the element-wise sum on arrays of
one length whose sums fit in an int. -/
theorem elementwise_add_zip (as bs : List Int) (A B : Int) (hl : as.length = bs.length)
    (ha : ∀ x ∈ as, -A ≤ x ∧ x ≤ A) (hb : ∀ x ∈ bs, -B ≤ x ∧ x ≤ B) (hAB : A + B ≤ INT_MAX) :
    elementwise add_int as bs = .ok (List.zipWith (· + ·) as bs) := by
  obtain ⟨cs, hcs, -⟩ := elementwise_add_returns as bs A B hl ha hb hAB
  rw [hcs, elementwise_add_ok as bs cs hcs]

theorem below_equal_multiple (N : Int) (hN : 0 < N) :
    (DistValue.cosine (3 * N) N (3 * 3 * N)).below (DistValue.cosine N N N) = false := by
  simp only [DistValue.below]
  rw [if_neg (by omega), if_pos (by omega), if_neg (by omega)]
  rw [decide_eq_false_iff_not, not_lt]
  exact le_of_eq (by ring)

/-- On the space fit_mlmodel leaves for the five rows, with the row 4 as test
set: the test vector is point_4, the training vectors are the other four. -/
theorem five_split (l0 l1 p0 p1 p2 p3 p4 : Vector)
    (hn : l0.name = "level_0" ∧ l1.name = "level_1" ∧ p0.name = "point_0" ∧
      p1.name = "point_1" ∧ p2.name = "point_2" ∧ p3.name = "point_3" ∧ p4.name = "point_4") :
    ModelC.test_points [4] [l0, l1, p0, p1, p2, p3, p4] = [p4] ∧
      ModelC.training_points [4] [l0, l1, p0, p1, p2, p3, p4] = [p0, p1, p2, p3] ∧
      ∀ v ∈ [l0, l1, p0, p1, p2, p3, p4], ModelC.is_point_name v.name = true →
        ∃ i, ModelC.atoi (v.name.data.drop 6) = .ok i := by
  obtain ⟨n0, n1, m0, m1, m2, m3, m4⟩ := hn
  have i0 := point_index_named l0 _ none n0 (by decide)
  have i1 := point_index_named l1 _ none n1 (by decide)
  have j0 := point_index_named p0 _ (some 0) m0 (by decide)
  have j1 := point_index_named p1 _ (some 1) m1 (by decide)
  have j2 := point_index_named p2 _ (some 2) m2 (by decide)
  have j3 := point_index_named p3 _ (some 3) m3 (by decide)
  have j4 := point_index_named p4 _ (some 4) m4 (by decide)
  refine ⟨?_, ?_, ?_⟩
  · simp [ModelC.test_points, List.filter, i0, i1, j0, j1, j2, j3, j4]
  · simp [ModelC.training_points, List.filter, i0, i1, j0, j1, j2, j3, j4]
  · intro v hv hp
    simp only [List.mem_cons, List.mem_singleton, List.not_mem_nil, or_false] at hv
    rcases hv with rfl | rfl | rfl | rfl | rfl | rfl | rfl
    · rw [n0] at hp; exact absurd hp (by decide)
    · rw [n1] at hp; exact absurd hp (by decide)
    · exact ⟨0, (point_index_is_point _ 0 j0).2⟩
    · exact ⟨1, (point_index_is_point _ 1 j1).2⟩
    · exact ⟨2, (point_index_is_point _ 2 j2).2⟩
    · exact ⟨3, (point_index_is_point _ 3 j3).2⟩
    · exact ⟨4, (point_index_is_point _ 4 j4).2⟩

/-- The prediction for the row 4 on a space of two levels and five points that
all hold the same array v of N elements 1 or -1, the points 0 and 4 tagged a and
the points 1, 2 and 3 tagged b: the class vector of a is v, the class vector of
b is v + v + v, the cosine loop returns the sums (N, N, N) and (3N, N, 9N), and
with the distances read as exact reals, which are equal, the first class a is
the prediction. -/
theorem five_predict (E : Env) (w : World) (model : MLModel)
    (l0 l1 p0 p1 p2 p3 p4 : Vector) (v : List Int) (N : Nat) (hN : 10000 ≤ N)
    (retraining_iterations : Int) (model_error_rate : Rat)
    (hvs : model.space.vectors = [l0, l1, p0, p1, p2, p3, p4])
    (hcl : model.classes = ["a", "b"])
    (hn : l0.name = "level_0" ∧ l1.name = "level_1" ∧ p0.name = "point_0" ∧
      p1.name = "point_1" ∧ p2.name = "point_2" ∧ p3.name = "point_3" ∧ p4.name = "point_4")
    (htags : p0.tags = ["a"] ∧ p1.tags = ["b"] ∧ p2.tags = ["b"] ∧ p3.tags = ["b"] ∧
      p4.tags = ["a"])
    (hall : ∀ p ∈ [p0, p1, p2, p3, p4], p.vtype = "bipolar" ∧ p.vector = v)
    (hlen : v.length = N) (hsigns : ∀ x ∈ v, x = 1 ∨ x = -1) :
    ∃ (pa pb : Vector) (w2 : World),
      ModelC.test_points [4] model.space.vectors = [p4] ∧
      ModelC.build_classes E (ModelC.training_points [4] model.space.vectors) model.classes 0
        ([], w) = .ok ([pa, pb], w2) ∧
      pa.vector = v ∧ pb.vector = List.zipWith (· + ·) (List.zipWith (· + ·) v v) v ∧
      SpaceC.vector_distance p4 pa "cosine" = .ok (.cosine N N N) ∧
      SpaceC.vector_distance p4 pb "cosine" = .ok (.cosine (3 * N) N (3 * 3 * N)) ∧
      ModelC.predict_mlmodel E w model [4] retraining_iterations model_error_rate =
        .ok ({ predictions := ["a"], retraining_iterations := retraining_iterations,
               model_error_rate := model_error_rate }, w2) := by
  obtain ⟨hs1, hs2, hatoi⟩ := five_split l0 l1 p0 p1 p2 p3 p4 hn
  obtain ⟨t0, t1, t2, t3, -⟩ := htags
  obtain ⟨y0, v0⟩ := hall p0 (by simp)
  obtain ⟨y1, v1⟩ := hall p1 (by simp)
  obtain ⟨y2, v2⟩ := hall p2 (by simp)
  obtain ⟨y3, v3⟩ := hall p3 (by simp)
  obtain ⟨y4, v4⟩ := hall p4 (by simp)
  obtain ⟨rr, hr⟩ := retrieve_returns [4] model.space.vectors [] []
    (by rw [hvs]; exact hatoi) (by rw [hvs, hs1]; exact Nat.le_refl _)
  have hrr := retrieve_ok [4] model.space.vectors [] [] _ hr
  rw [hvs, hs1, hs2] at hrr
  simp only [List.nil_append] at hrr
  subst hrr
  have hsmall := signs_small v hsigns
  obtain ⟨sm2, sm3⟩ := threefold_small v hsigns
  have hbound1 : ∀ x ∈ v, -(1 : Int) ≤ x ∧ x ≤ 1 := by
    intro x hx
    rcases hsigns x hx with h | h <;> rw [h] <;> decide
  -- the bundles of the class b
  have hsize1 : (10000 : Int) ≤ p1.size := by
    simp only [Vector.size, v1, hlen]
    exact_mod_cast hN
  obtain ⟨s1, w1, hb1, hs1v, hs1t, -⟩ := arithmetic_bundle_ok E w p1 p2
    (List.zipWith (· + ·) v v) hsize1 (by simp only [Vector.size, v1, v2])
    (by rw [y1, y2]) (Or.inr y1)
    (by rw [v1, v2]; exact elementwise_add_zip v v 1 1 rfl hbound1 hbound1 (by decide))
  have hsize2 : (10000 : Int) ≤ s1.size := by
    simp only [Vector.size, hs1v, List.length_zipWith, min_self, hlen]
    exact_mod_cast hN
  obtain ⟨s2, w2, hb2, hs2v, hs2t, -⟩ := arithmetic_bundle_ok E w1 s1 p3
    (List.zipWith (· + ·) (List.zipWith (· + ·) v v) v) hsize2
    (by simp only [Vector.size, hs1v, v3, List.length_zipWith, min_self])
    (by rw [hs1t, y1, y3]) (Or.inr (hs1t.trans y1))
    (by
      rw [hs1v, v3]
      exact elementwise_add_zip _ v 2 1 (by simp) sm2 hbound1 (by decide))
  have ha0 : ModelC.has_tag p0 "b" = false := by simp [ModelC.has_tag, t0]
  have ha1 : ModelC.has_tag p1 "b" = true := by simp [ModelC.has_tag, t1]
  have ha2 : ModelC.has_tag p2 "b" = true := by simp [ModelC.has_tag, t2]
  have ha3 : ModelC.has_tag p3 "b" = true := by simp [ModelC.has_tag, t3]
  have ca : ModelC.class_sum E "a" [p0, p1, p2, p3] (none, w) =
      .ok (some (ModelC.copy_vector p0), w) :=
    class_sum_single E "a" [p0, p1, p2, p3] p0 w
      (by simp [List.filter, ModelC.has_tag, t0, t1, t2, t3])
  have cb : ModelC.class_sum E "b" [p0, p1, p2, p3] (none, w) = .ok (some s2, w2) := by
    simp only [ModelC.class_sum, ha0, ha1, ha2, ha3, ModelC.copy_vector, hb1, hb2, if_true,
      Bool.false_eq_true, if_false]
  have hbuild : ModelC.build_classes E [p0, p1, p2, p3] ["a", "b"] 0 ([], w) =
      .ok ([ModelC.add_tag { ModelC.copy_vector p0 with name := ModelC.class_name 0 } "a",
            ModelC.add_tag { s2 with name := ModelC.class_name (0 + 1) } "b"], w2) := by
    simp only [ModelC.build_classes, ca, cb, List.nil_append, List.cons_append]
  obtain ⟨k1, k2⟩ := dot_threefold v
  have hss : sum_sq v = (N : Int) := by rw [sum_sq_signs v hsigns, hlen]
  have hNpos : (0 : Int) < (N : Int) := by exact_mod_cast (show 0 < N by omega)
  have da : SpaceC.vector_distance p4
      (ModelC.add_tag { ModelC.copy_vector p0 with name := ModelC.class_name 0 } "a") "cosine" =
      .ok (.cosine N N N) := by
    rw [cosine_of_vectors p4 _ v v v4 (by rw [add_tag_vector]; exact v0) rfl
      (by rw [(add_tag_fields _ _).1, y4]; exact y0.symm) hsigns hsigns, dot_self, hss]
  have db : SpaceC.vector_distance p4
      (ModelC.add_tag { s2 with name := ModelC.class_name (0 + 1) } "b") "cosine" =
      .ok (.cosine (3 * N) N (3 * 3 * N)) := by
    rw [vector_distance_cosine_ok p4 _
      (by simp only [Vector.size, add_tag_vector, v4, hs2v, List.length_zipWith, min_self])
      (by rw [(add_tag_fields _ _).1, y4]; exact (hs2t.trans (hs1t.trans y1)).symm)
      (by rw [v4]; exact hsmall)
      (by
        rw [add_tag_vector]
        simp only [hs2v]
        intro x hx
        have := sm3 x hx
        unfold SQRT_INT_MAX
        omega)]
    simp only [add_tag_vector, v4, hs2v, k1, k2, hss]
  refine ⟨_, _, w2, by rw [hvs, hs1], by rw [hvs, hs2, hcl]; exact hbuild,
    by rw [add_tag_vector]; exact v0, by rw [add_tag_vector]; exact hs2v, da, db, ?_⟩
  unfold ModelC.predict_mlmodel
  rw [if_neg (by decide), hr]
  dsimp only
  rw [if_neg (fun h => h rfl), hcl, hbuild]
  simp only [List.zip_cons_cons, List.zip_nil_right, ModelC.predict_each, ModelC.closest, da, db,
    ModelC.nearer, cosine_finite_pos _ _ hNpos, below_equal_multiple _ hNpos, if_true, if_false,
    Bool.false_eq_true]

/-! ## parser.c: the file with the column that ends the feature names -/

theorem strtod_cells :
    ParserC.strtod "0.1".data = (1 / 10, []) ∧ ParserC.strtod "0.2".data = (2 / 10, []) ∧
    ParserC.strtod "0.9".data = (9 / 10, []) ∧ ParserC.strtod "0.8".data = (8 / 10, []) := by
  refine ⟨?_, ?_, ?_, ?_⟩ <;>
    simp [ParserC.strtod, ParserC.decimal_part, ParserC.exponent_part, ParserC.digits_nat,
      ModelC.is_space, List.dropWhile, List.takeWhile]

/-- The run of load_dataset on the file whose header has the `#` column: the
cells of the matrix are what strtod returns for them. -/
theorem sentinel_loads :
    ParserC.load_dataset (some sentinel_file) "\t" =
      .ok { samples := ["A", "B"], features := ["f1", "f2"],
            content := [[(ParserC.strtod "0.1".data).1, (ParserC.strtod "0.2".data).1],
                        [(ParserC.strtod "0.9".data).1, (ParserC.strtod "0.8".data).1]],
            classes := [some "x", some "y"], num_samples := 2, num_features := 2 } := by
  rfl

/-! ## The claims -/

/-- C1: for bipolar vectors H and K of the same dimension with every element in
{-1,+1}, bind_vectors(bind_vectors(H,K),K) returns a vector whose elements are
those of H, in arithmetic.c and in space.c. -/
theorem bind_bind_self_inverse (E : Env) (w : World) (H K : Vector)
    (hdim : 10000 ≤ H.size) (hsize : H.size = K.size)
    (hH : H.vtype = "bipolar") (hK : K.vtype = "bipolar")
    (hHe : ∀ x ∈ H.vector, x = 1 ∨ x = -1) (hKe : ∀ x ∈ K.vector, x = 1 ∨ x = -1) :
    (∃ R w1 R2 w2, ArithmeticC.bind_vectors E w H K = .ok (R, w1) ∧
        ArithmeticC.bind_vectors E w1 R K = .ok (R2, w2) ∧ R2.vector = H.vector) ∧
    (∃ R w1 R2 w2, SpaceC.bind_vectors E w H K = .ok (R, w1) ∧
        SpaceC.bind_vectors E w1 R K = .ok (R2, w2) ∧ R2.vector = H.vector) := by
  have hlen : H.vector.length = K.vector.length := by
    have := hsize; simp only [Vector.size] at this; exact_mod_cast this
  obtain ⟨cs, h1, h2, h3⟩ := elementwise_mul_bipolar H.vector K.vector hlen hHe hKe
  constructor
  · obtain ⟨R, w1, hR, hRv, hRt, -⟩ :=
      arithmetic_bind_ok E w H K cs hdim hsize (hH.trans hK.symm) (Or.inr hH) h1
    have hRs : R.size = H.size := by simp only [Vector.size, hRv, h2]
    obtain ⟨R2, w2, hR2, hR2v, -, -⟩ :=
      arithmetic_bind_ok E w1 R K H.vector (hRs ▸ hdim) (hRs.trans hsize)
        ((hRt.trans hH).trans hK.symm) (Or.inr (hRt.trans hH)) (hRv ▸ h3)
    exact ⟨R, w1, R2, w2, hR, hR2, hR2v⟩
  · obtain ⟨R, w1, hR, hRv, hRt, -⟩ :=
      space_bind_ok E w H K cs hdim hsize (Or.inr hH) h1
    have hRs : R.size = H.size := by simp only [Vector.size, hRv, h2]
    obtain ⟨R2, w2, hR2, hR2v, -, -⟩ :=
      space_bind_ok E w1 R K H.vector (hRs ▸ hdim) (hRs.trans hsize)
        (Or.inr (hRt.trans hH)) (hRv ▸ h3)
    exact ⟨R, w1, R2, w2, hR, hR2, hR2v⟩

/-- C1 at the all-ones bipolar vector of dimension 10000, bound with itself. -/
theorem bind_bind_self_inverse_witness :
    (10000 ≤ ones.size ∧ ones.size = ones.size ∧ ones.vtype = "bipolar") ∧
    ((∃ R w1 R2 w2, ArithmeticC.bind_vectors env0 world0 ones ones = .ok (R, w1) ∧
        ArithmeticC.bind_vectors env0 w1 R ones = .ok (R2, w2) ∧ R2.vector = ones.vector) ∧
     (∃ R w1 R2 w2, SpaceC.bind_vectors env0 world0 ones ones = .ok (R, w1) ∧
        SpaceC.bind_vectors env0 w1 R ones = .ok (R2, w2) ∧ R2.vector = ones.vector)) :=
  ⟨⟨by rw [ones_size], rfl, rfl⟩,
   bind_bind_self_inverse env0 world0 ones ones (by rw [ones_size]) rfl rfl rfl
     ones_elements ones_elements⟩

/-- C2, the code at a negative rotation: permute_vector(H, -1) on a vector of
dimension 10000 computes the index (0 + -1) % 10000 = -1 in its first iteration
and writes outside the array, in space.c and in arithmetic.c, so no result is
defined. -/
theorem permute_negative_out_of_bounds :
    SpaceC.permute_vector ones (-1) = .error (.undefined "write outside the array") ∧
    ArithmeticC.permute_vector env0 world0 ones (-1) =
      .error (.undefined "write outside the array") :=
  ⟨space_permute_negative ones (-1) (by decide) (by rw [ones_size]; decide) (by decide),
   arithmetic_permute_negative env0 world0 ones (-1) (by rw [ones_size]) (Or.inr rfl)
     (by decide) (by rw [ones_size]; decide) (by decide)⟩

/-- C3: for 0 ≤ k with i + k representable for every index i, permute_vector
(in space.c and in arithmetic.c) writes every index of the result exactly once,
puts H[i] at index (i + k) mod dim, and the result has the size and alphabet of
H.  The definition of arithmetic.c first creates its result, which needs a
dimension of at least 10000 and one of the two alphabets. -/
theorem permute_is_rotation (E : Env) (w : World) (H : Vector) (k : Int) (hk : 0 ≤ k)
    (hov : ∀ i : Int, 0 ≤ i → i < H.size → in_int (i + k)) :
    (∃ temp log R, SpaceC.permute_run H k = .ok (temp, log) ∧
        log.Perm (List.range H.vector.length) ∧
        SpaceC.permute_vector H k = .ok R ∧ R.size = H.size ∧ R.vtype = H.vtype ∧
        R.name = H.name ∧
        ∀ i : Nat, (i : Int) < H.size →
          R.vector[(((i : Int) + k) % H.size).toNat]? = H.vector[i]?) ∧
    (10000 ≤ H.size → (H.vtype = "binary" ∨ H.vtype = "bipolar") →
      ∃ result buf log w1 R,
        ArithmeticC.permute_run E w H k = .ok ((result, buf, log), w1) ∧
        log.Perm (List.range H.vector.length) ∧
        ArithmeticC.permute_vector E w H k = .ok (R, w1) ∧ R.size = H.size ∧
        R.vtype = H.vtype ∧
        ∀ i : Nat, (i : Int) < H.size →
          R.vector[(((i : Int) + k) % H.size).toNat]? = H.vector[i]?) := by
  obtain ⟨K, rfl⟩ := Int.eq_ofNat_of_zero_le hk
  have hov1 : ∀ i : Nat, i < H.vector.length → in_int ((i : Int) + (K : Int)) := by
    intro i hi
    exact hov i (Int.ofNat_nonneg i) (by simp only [Vector.size]; exact_mod_cast hi)
  have hidx : ∀ i : Nat, (((i : Int) + (K : Int)) % H.size).toNat = (i + K) % H.vector.length := by
    intro i
    have : ((i : Int) + (K : Int)) % H.size = (((i + K) % H.vector.length : Nat) : Int) := by
      simp only [Vector.size]; push_cast; rfl
    rw [this, Int.toNat_ofNat]
  have htoNat : H.size.toNat = H.vector.length := by simp [Vector.size]
  constructor
  · obtain ⟨buf, log, xs, hrun, hperm, hcol, hxlen, hxs⟩ :=
      permute_full H.vector K hov1 (List.replicate H.vector.length none) (by simp)
    have hrun1 : SpaceC.permute_run H (K : Int) = .ok (buf, log) := by
      simp only [SpaceC.permute_run, htoNat, hrun]
    refine ⟨buf, log, { H with vector := xs }, hrun1, hperm, ?_, ?_, rfl, rfl, ?_⟩
    · simp only [SpaceC.permute_vector, hrun1, hcol]
    · simp only [Vector.size, hxlen]
    · intro i hi
      rw [hidx i]
      exact hxs i (by simp only [Vector.size] at hi; exact_mod_cast hi)
  · intro hdim hv
    obtain ⟨r, w1, hr, -, hrt, hrs, -⟩ :=
      create_vector_ok E w "PermuteResult" H.size H.vtype (-1) false hdim hv
    have hrlen : (r.vector.map some).length = H.vector.length := by
      simp only [Vector.size] at hrs
      rw [List.length_map]; exact_mod_cast hrs
    obtain ⟨buf, log, xs, hrun, hperm, hcol, hxlen, hxs⟩ :=
      permute_full H.vector K hov1 (r.vector.map some) hrlen
    have hrun1 : ArithmeticC.permute_run E w H (K : Int) = .ok ((r, buf, log), w1) := by
      unfold ArithmeticC.permute_run
      rw [hr, htoNat]
      simp only [hrun]
    refine ⟨r, buf, log, w1, { r with vector := xs }, hrun1, hperm, ?_, ?_, hrt, ?_⟩
    · unfold ArithmeticC.permute_vector
      rw [hrun1]
      simp only [hcol]
    · simp only [Vector.size, hxlen]
    · intro i hi
      rw [hidx i]
      exact hxs i (by simp only [Vector.size] at hi; exact_mod_cast hi)

/-- C3 at the all-ones vector of dimension 10000 rotated by 2. -/
theorem permute_is_rotation_witness :
    ((0 : Int) ≤ 2 ∧ 10000 ≤ ones.size ∧ ones.vtype = "bipolar") ∧
    (∃ temp log R, SpaceC.permute_run ones 2 = .ok (temp, log) ∧
        log.Perm (List.range ones.vector.length) ∧
        SpaceC.permute_vector ones 2 = .ok R ∧ R.size = ones.size ∧ R.vtype = ones.vtype ∧
        R.name = ones.name ∧
        ∀ i : Nat, (i : Int) < ones.size →
          R.vector[(((i : Int) + 2) % ones.size).toNat]? = ones.vector[i]?) ∧
    (∃ result buf log w1 R,
        ArithmeticC.permute_run env0 world0 ones 2 = .ok ((result, buf, log), w1) ∧
        log.Perm (List.range ones.vector.length) ∧
        ArithmeticC.permute_vector env0 world0 ones 2 = .ok (R, w1) ∧ R.size = ones.size ∧
        R.vtype = ones.vtype ∧
        ∀ i : Nat, (i : Int) < ones.size →
          R.vector[(((i : Int) + 2) % ones.size).toNat]? = ones.vector[i]?) :=
  have hov : ∀ i : Int, 0 ≤ i → i < ones.size → in_int (i + 2) := by
    intro i h0 h1
    rw [ones_size] at h1
    unfold in_int INT_MIN INT_MAX
    omega
  ⟨⟨by decide, by rw [ones_size], rfl⟩,
   (permute_is_rotation env0 world0 ones 2 (by decide) hov).1,
   (permute_is_rotation env0 world0 ones 2 (by decide) hov).2 (by rw [ones_size])
     (Or.inr rfl)⟩

/-- C4: on a binary or bipolar vector with arbitrary integer elements
normalize_vector returns; every element > 0 becomes 1 and every other element
becomes 0 (binary) or -1 (bipolar), so the result is alphabet-valid; size, name
and alphabet are unchanged.  On any other alphabet string it fails. -/
theorem normalize_vector_spec (vec : Vector) :
    ((vec.vtype = "binary" ∨ vec.vtype = "bipolar") →
      ∃ R, SpaceC.normalize_vector vec = .ok R ∧
        R.size = vec.size ∧ R.name = vec.name ∧ R.vtype = vec.vtype ∧
        (∀ (i : Nat) (x : Int), vec.vector[i]? = some x →
          (0 < x → R.vector[i]? = some 1) ∧
          (x ≤ 0 → vec.vtype = "binary" → R.vector[i]? = some 0) ∧
          (x ≤ 0 → vec.vtype = "bipolar" → R.vector[i]? = some (-1))) ∧
        (vec.vtype = "binary" → ∀ y ∈ R.vector, y = 0 ∨ y = 1) ∧
        (vec.vtype = "bipolar" → ∀ y ∈ R.vector, y = -1 ∨ y = 1)) ∧
    (vec.vtype ≠ "binary" → vec.vtype ≠ "bipolar" →
      ∃ msg, SpaceC.normalize_vector vec = .error (.exit msg)) := by
  constructor
  · intro hv
    refine ⟨{ vec with vector := vec.vector.map (fun x =>
        if x > 0 then 1 else if vec.vtype = "binary" then 0 else -1) }, ?_, ?_, rfl, rfl, ?_, ?_, ?_⟩
    · unfold SpaceC.normalize_vector
      rw [if_neg]
      rintro ⟨h1, h2⟩
      rcases hv with hv | hv
      · exact h1 hv
      · exact h2 hv
    · simp only [Vector.size, List.length_map]
    · intro i x hx
      simp only [List.getElem?_map, hx, Option.map_some']
      refine ⟨fun h => ?_, fun h hb => ?_, fun h hb => ?_⟩
      · rw [if_pos h]
      · rw [if_neg (by omega), if_pos hb]
      · have hnb : vec.vtype ≠ "binary" := by rw [hb]; decide
        rw [if_neg (by omega), if_neg hnb]
    · intro hb y hy
      obtain ⟨x, -, rfl⟩ := List.mem_map.mp hy
      by_cases hx : x > 0
      · right; simp only [if_pos hx]
      · left; simp only [if_neg hx, if_pos hb]
    · intro hb y hy
      have hnb : vec.vtype ≠ "binary" := by rw [hb]; decide
      obtain ⟨x, -, rfl⟩ := List.mem_map.mp hy
      by_cases hx : x > 0
      · right; simp only [if_pos hx]
      · left; simp only [if_neg hx, if_neg hnb]
  · intro h1 h2
    exact ⟨_, by unfold SpaceC.normalize_vector; rw [if_pos ⟨h1, h2⟩]⟩

/-- C4 at the all-ones bipolar vector of dimension 10000 and at a vector whose
alphabet string is "ternary". -/
theorem normalize_vector_spec_witness :
    (∃ R, SpaceC.normalize_vector ones = .ok R ∧
        R.size = ones.size ∧ R.name = ones.name ∧ R.vtype = ones.vtype ∧
        (∀ (i : Nat) (x : Int), ones.vector[i]? = some x →
          (0 < x → R.vector[i]? = some 1) ∧
          (x ≤ 0 → ones.vtype = "binary" → R.vector[i]? = some 0) ∧
          (x ≤ 0 → ones.vtype = "bipolar" → R.vector[i]? = some (-1))) ∧
        (ones.vtype = "binary" → ∀ y ∈ R.vector, y = 0 ∨ y = 1) ∧
        (ones.vtype = "bipolar" → ∀ y ∈ R.vector, y = -1 ∨ y = 1)) ∧
    (∃ msg, SpaceC.normalize_vector ternary_ones = .error (.exit msg)) :=
  ⟨(normalize_vector_spec ones).1 (Or.inr rfl),
   (normalize_vector_spec ternary_ones).2 (by decide) (by decide)⟩

/-- C5, as stated, fails at the all-zero binary vector Z of dimension 10000:
vector_distance(Z,Z,"cosine") does not return the real 0, its divisor is 0. -/
theorem cosine_self_fails_at_zeros :
    ¬ ∃ d, SpaceC.vector_distance zeros zeros "cosine" = .ok d ∧ d.IsReal 0 := by
  rintro ⟨d, hd, hr⟩
  rw [zeros_cosine] at hd
  cases hd
  exact cosine_zero_not_real 0 0 0 hr

/-- C5, amended: over exact real arithmetic vector_distance(H,H,"cosine") returns
0 for every vector H that has a non-zero element and whose squares fit in an
int, and vector_distance(A,B,"cosine") and vector_distance(B,A,"cosine") return
the same real, or both none, for every pair A, B. -/
theorem cosine_self_and_symmetry (H A B : Vector) (hnz : ∃ x ∈ H.vector, x ≠ 0)
    (hsm : small_elements H.vector) :
    (∃ d, SpaceC.vector_distance H H "cosine" = .ok d ∧ d.IsReal 0) ∧
    (∀ r : ℝ, (∃ d, SpaceC.vector_distance A B "cosine" = .ok d ∧ d.IsReal r) ↔
      (∃ d, SpaceC.vector_distance B A "cosine" = .ok d ∧ d.IsReal r)) := by
  constructor
  · refine ⟨_, vector_distance_cosine_ok H H rfl rfl hsm hsm, ?_⟩
    rw [dot_self]
    exact cosine_real_self _ (sum_sq_pos H.vector hnz)
  · have key : ∀ (X Y : Vector) (r : ℝ),
        (∃ d, SpaceC.vector_distance X Y "cosine" = .ok d ∧ d.IsReal r) →
        (∃ d, SpaceC.vector_distance Y X "cosine" = .ok d ∧ d.IsReal r) := by
      rintro X Y r ⟨dv, hd, hr⟩
      obtain ⟨d, na, nb, rfl⟩ := vector_distance_cosine_shape X Y dv hd
      exact ⟨_, vector_distance_cosine_swap X Y d na nb hd, cosine_IsReal_swap d na nb r hr⟩
    exact fun r => ⟨key A B r, key B A r⟩

/-- C5, amended, at the all-ones bipolar vector and the pair (all ones, all
minus ones) of dimension 10000. -/
theorem cosine_self_and_symmetry_witness :
    ((∃ x ∈ ones.vector, x ≠ 0) ∧ small_elements ones.vector) ∧
    (∃ d, SpaceC.vector_distance ones ones "cosine" = .ok d ∧ d.IsReal 0) ∧
    (∀ r : ℝ, (∃ d, SpaceC.vector_distance ones minus_ones "cosine" = .ok d ∧ d.IsReal r) ↔
      (∃ d, SpaceC.vector_distance minus_ones ones "cosine" = .ok d ∧ d.IsReal r)) :=
  ⟨⟨ones_nonzero, small_ones⟩,
   cosine_self_and_symmetry ones ones minus_ones ones_nonzero small_ones⟩

/-- C6, as stated, fails at the all-zero binary vector Z of dimension 10000:
vector_distance(Z,Z,"cosine") divides 0 by sqrt 0 * sqrt 0 = 0 and returns no
real. -/
theorem cosine_divides_by_zero_at_zeros :
    ¬ ∃ d r, SpaceC.vector_distance zeros zeros "cosine" = .ok d ∧ d.IsReal r ∧ 0 ≤ r := by
  rintro ⟨d, r, hd, hr, -⟩
  rw [zeros_cosine] at hd
  cases hd
  exact cosine_zero_not_real 0 0 r hr

/-- C6, amended: for vectors A, B of equal dimension and alphabet, hamming
returns an integer in [0,dim] whatever the elements; when the elements are
small enough for their products and differences to fit in an int, euclidean and
cosine return their sums, and over exact real arithmetic on these sums the
euclidean value is a non-negative real, the cosine value is a real in [0,2] when
both vectors have a non-zero element, and when either vector is all-zero the
cosine divisor is 0 and no real is returned. -/
theorem vector_distance_ranges (A B : Vector) (hs : A.size = B.size)
    (ht : A.vtype = B.vtype) :
    (∃ c : Int, SpaceC.vector_distance A B "hamming" = .ok (.hamming c) ∧
        0 ≤ c ∧ c ≤ A.size ∧ (DistValue.hamming c).IsReal (c : ℝ) ∧ (0 : ℝ) ≤ (c : ℝ)) ∧
    (small_elements A.vector → small_elements B.vector →
      (∃ s : Int, SpaceC.vector_distance A B "euclidean" = .ok (.euclidean s) ∧
        ∃ r : ℝ, (DistValue.euclidean s).IsReal r ∧ 0 ≤ r) ∧
      (∃ d na nb : Int, SpaceC.vector_distance A B "cosine" = .ok (.cosine d na nb) ∧
        ((∃ x ∈ A.vector, x ≠ 0) → (∃ y ∈ B.vector, y ≠ 0) →
          ∃ r : ℝ, (DistValue.cosine d na nb).IsReal r ∧ 0 ≤ r ∧ r ≤ 2) ∧
        ((∀ x ∈ A.vector, x = 0) ∨ (∀ y ∈ B.vector, y = 0) →
          Real.sqrt na * Real.sqrt nb = 0 ∧
          ¬ ∃ r : ℝ, (DistValue.cosine d na nb).IsReal r))) := by
  have hlen := length_eq_of_size_eq A B hs
  refine ⟨⟨hamming_loop A.vector B.vector 0, ?_, ?_, ?_, rfl, ?_⟩, fun ha hb => ⟨?_, ?_⟩⟩
  · unfold SpaceC.vector_distance
    rw [if_neg (fun h => h hs), if_neg (fun h => h ht), if_neg (by decide), if_pos rfl]
  · exact (hamming_loop_bounds A.vector B.vector 0).1
  · have := (hamming_loop_bounds A.vector B.vector 0).2
    simp only [Vector.size]
    omega
  · exact_mod_cast (hamming_loop_bounds A.vector B.vector 0).1
  · obtain ⟨s, hsum, -⟩ := euclidean_loop_ok A.vector B.vector ha hb 0
    refine ⟨s, ?_, Real.sqrt s, rfl, Real.sqrt_nonneg _⟩
    unfold SpaceC.vector_distance
    rw [if_neg (fun h => h hs), if_neg (fun h => h ht), if_neg (by decide),
      if_neg (by decide), if_pos rfl, hsum]
  · refine ⟨_, _, _, vector_distance_cosine_ok A B hs ht ha hb, ?_, ?_⟩
    · intro hA hB
      obtain ⟨h1, h2, h3⟩ := cosine_real_bounds (dot A.vector B.vector) (sum_sq A.vector)
        (sum_sq B.vector) (sum_sq_pos _ hA) (sum_sq_pos _ hB) (dot_sq_le _ _ hlen)
      exact ⟨_, ⟨h1, rfl⟩, h2, h3⟩
    · intro hz
      have hzero : Real.sqrt (sum_sq A.vector) * Real.sqrt (sum_sq B.vector) = 0 := by
        rcases hz with hz | hz
        · rw [sum_sq_eq_zero _ hz]; simp
        · rw [sum_sq_eq_zero _ hz]; simp
      refine ⟨hzero, ?_⟩
      rintro ⟨r, hr, -⟩
      exact hr hzero

/-- C6, amended, at the pair (all ones, all minus ones) of bipolar vectors of
dimension 10000, over exact real arithmetic. -/
theorem vector_distance_ranges_witness :
    (ones.size = minus_ones.size ∧ ones.vtype = minus_ones.vtype) ∧
    (∃ c : Int, SpaceC.vector_distance ones minus_ones "hamming" = .ok (.hamming c) ∧
        0 ≤ c ∧ c ≤ ones.size ∧ (DistValue.hamming c).IsReal (c : ℝ) ∧ (0 : ℝ) ≤ (c : ℝ)) ∧
    (∃ s : Int, SpaceC.vector_distance ones minus_ones "euclidean" = .ok (.euclidean s) ∧
        ∃ r : ℝ, (DistValue.euclidean s).IsReal r ∧ 0 ≤ r) ∧
    (∃ d na nb : Int, SpaceC.vector_distance ones minus_ones "cosine" = .ok (.cosine d na nb) ∧
        ∃ r : ℝ, (DistValue.cosine d na nb).IsReal r ∧ 0 ≤ r ∧ r ≤ 2) :=
  have hs : ones.size = minus_ones.size := by rw [ones_size, minus_ones_size]
  have h := vector_distance_ranges ones minus_ones hs rfl
  have h2 := h.2 small_ones small_minus_ones
  ⟨⟨hs, rfl⟩, h.1, h2.1,
   h2.2.elim fun d hd => hd.elim fun na hna => hna.elim fun nb hnb =>
     ⟨d, na, nb, hnb.1, hnb.2.1 ones_nonzero minus_ones_nonzero⟩⟩

/-- C7, the code at operands of different alphabets: in space.c bind_vectors,
bundle_vectors and subtract_vectors return a vector for the bipolar all-ones
vector and the binary all-ones vector of dimension 10000 (only the dimensions
are compared), where the definitions of arithmetic.c exit. -/
theorem space_ops_accept_mixed_alphabets :
    ones.vtype ≠ binary_ones.vtype ∧
    (∃ R w1, SpaceC.bind_vectors env0 world0 ones binary_ones = .ok (R, w1)) ∧
    (∃ R w1, SpaceC.bundle_vectors env0 world0 ones binary_ones = .ok (R, w1)) ∧
    (∃ R w1, SpaceC.subtract_vectors env0 world0 ones binary_ones = .ok (R, w1)) ∧
    (∃ msg, ArithmeticC.bind_vectors env0 world0 ones binary_ones = .error (.exit msg)) :=
  ⟨by decide,
   (space_ops_ignore_second_alphabet env0 world0 ones binary_ones (by rw [ones_size])
      (by rw [ones_size, binary_ones_size]) (Or.inr rfl) small_ones small_binary_ones).1,
   (space_ops_ignore_second_alphabet env0 world0 ones binary_ones (by rw [ones_size])
      (by rw [ones_size, binary_ones_size]) (Or.inr rfl) small_ones small_binary_ones).2.1,
   (space_ops_ignore_second_alphabet env0 world0 ones binary_ones (by rw [ones_size])
      (by rw [ones_size, binary_ones_size]) (Or.inr rfl) small_ones small_binary_ones).2.2,
   ((operand_checks env0 world0 ones binary_ones "cosine").1 (Or.inr (by decide))).1⟩

/-- C8: insert_vector(S,H) fails if and only if H.size differs from S.size, or
the alphabet of H differs from that of S, or S already holds a vector named
H.name; every failure is a fatal exit and leaves S unchanged. -/
theorem insert_vector_fails_iff (S : Space) (H : Vector) :
    ((∃ f, (SpaceC.insert_vector S H).1 = .error f) ↔
      (H.size ≠ S.size ∨ H.vtype ≠ S.vtype ∨ ∃ v ∈ S.vectors, v.name = H.name)) ∧
    (∀ f, (SpaceC.insert_vector S H).1 = .error f →
      (∃ msg, f = .exit msg) ∧ (SpaceC.insert_vector S H).2 = S) := by
  unfold SpaceC.insert_vector
  by_cases hs : S.size ≠ H.size
  · rw [if_pos hs]
    exact ⟨⟨fun _ => Or.inl (fun h => hs h.symm), fun _ => ⟨_, rfl⟩⟩,
      fun f hf => ⟨⟨_, (Except.error.inj hf).symm⟩, rfl⟩⟩
  · rw [if_neg hs]
    by_cases ht : S.vtype ≠ H.vtype
    · rw [if_pos ht]
      exact ⟨⟨fun _ => Or.inr (Or.inl (fun h => ht h.symm)), fun _ => ⟨_, rfl⟩⟩,
        fun f hf => ⟨⟨_, (Except.error.inj hf).symm⟩, rfl⟩⟩
    · rw [if_neg ht]
      by_cases hn : SpaceC.name_in S.vectors H.name = true
      · rw [if_pos hn]
        exact ⟨⟨fun _ => Or.inr (Or.inr ((name_in_iff _ _).mp hn)), fun _ => ⟨_, rfl⟩⟩,
          fun f hf => ⟨⟨_, (Except.error.inj hf).symm⟩, rfl⟩⟩
      · rw [if_neg hn]
        refine ⟨⟨fun h => ?_, fun h => ?_⟩, fun f hf => ?_⟩
        · obtain ⟨f, hf⟩ := h
          cases hf
        · rcases h with h | h | h
          · exact absurd (not_not.mp hs).symm h
          · exact absurd (not_not.mp ht).symm h
          · exact absurd ((name_in_iff _ _).mpr h) hn
        · cases hf

/-- C8 at the space that holds the all-ones vector, inserting it again. -/
theorem insert_vector_fails_iff_witness :
    (∃ v ∈ space_with_ones.vectors, v.name = ones.name) ∧
    (∃ f, (SpaceC.insert_vector space_with_ones ones).1 = .error f ∧
      (∃ msg, f = .exit msg) ∧ (SpaceC.insert_vector space_with_ones ones).2 = space_with_ones) :=
  have hdup : ∃ v ∈ space_with_ones.vectors, v.name = ones.name :=
    ⟨ones, by simp [space_with_ones], rfl⟩
  have hfail := (insert_vector_fails_iff space_with_ones ones).1.mpr (Or.inr (Or.inr hdup))
  ⟨hdup, hfail.elim fun f hf =>
    ⟨f, hf, (insert_vector_fails_iff space_with_ones ones).2 f hf⟩⟩

/-- C9: after the calls insert_vector(S,h) for the vectors h of a list hs on a
space made by create_space have all returned, a further call insert_vector(S,H)
that returns grows vector_count by exactly 1, puts H last and keeps every
earlier entry at its position, so that the vectors are those inserted, in
insertion order; get_vector_from_space returns H for H.name, every inserted
vector for its name, and NULL for every name that was not inserted. -/
theorem insert_vector_appends (size : Int) (vtype : String) (S0 S S1 : Space)
    (hs : List Vector) (H : Vector)
    (h0 : SpaceC.create_space size vtype = .ok S0)
    (h1 : SpaceC.insert_each S0 hs = (.ok (), S))
    (h2 : SpaceC.insert_vector S H = (.ok (), S1)) :
    S1.vector_count = S.vector_count + 1 ∧
    S1.vectors.getLast? = some H ∧
    (∀ i, i < S.vectors.length → S1.vectors[i]? = S.vectors[i]?) ∧
    S1.vectors = hs ++ [H] ∧
    GraphC.get_vector_from_space S1 H.name = some H ∧
    (∀ v ∈ hs, GraphC.get_vector_from_space S1 v.name = some v) ∧
    (∀ name, (∀ v ∈ hs ++ [H], v.name ≠ name) →
      GraphC.get_vector_from_space S1 name = none) := by
  obtain ⟨rfl, -⟩ := create_space_ok size vtype S0 h0
  obtain ⟨e1, -, -, -, -, e6⟩ := insert_each_ok hs _ S h1
  simp only [List.nil_append] at e1
  obtain ⟨-, -, k3, rfl⟩ := insert_vector_ok S S1 H h2
  have hnd : ((S.vectors ++ [H]).map Vector.name).Nodup := by
    simp only [List.map_append, List.map_cons, List.map_nil]
    rw [List.nodup_append]
    refine ⟨e6 (by simp), by simp, ?_⟩
    intro a ha hb
    rw [List.mem_singleton] at hb
    obtain ⟨v, hv, rfl⟩ := List.mem_map.mp ha
    exact k3 v hv hb
  refine ⟨?_, ?_, ?_, ?_, ?_, ?_, ?_⟩
  · simp only [Space.vector_count, List.length_append, List.length_singleton]
    push_cast
    rfl
  · simp
  · intro i hi
    simp only [List.getElem?_append_left hi]
  · simp only [e1]
  · exact get_loop_of_mem _ hnd H (by simp)
  · intro v hv
    exact get_loop_of_mem _ hnd v (by simp [e1, hv])
  · intro name hname
    exact (get_loop_none_iff _ _).mpr (by simpa only [e1] using hname)

/-- C9 at the empty bipolar space of dimension 10000, after inserting the
all-ones vector, inserting the all-minus-ones vector. -/
theorem insert_vector_appends_witness :
    (SpaceC.create_space 10000 "bipolar" = .ok empty_space ∧
      SpaceC.insert_each empty_space [ones] = (.ok (), space_with_ones)) ∧
    ∃ S1, SpaceC.insert_vector space_with_ones minus_ones = (.ok (), S1) ∧
      S1.vector_count = space_with_ones.vector_count + 1 ∧
      S1.vectors.getLast? = some minus_ones ∧
      (∀ i, i < space_with_ones.vectors.length → S1.vectors[i]? = space_with_ones.vectors[i]?) ∧
      S1.vectors = [ones] ++ [minus_ones] ∧
      GraphC.get_vector_from_space S1 minus_ones.name = some minus_ones ∧
      (∀ v ∈ [ones], GraphC.get_vector_from_space S1 v.name = some v) ∧
      (∀ name, (∀ v ∈ [ones] ++ [minus_ones], v.name ≠ name) →
        GraphC.get_vector_from_space S1 name = none) :=
  ⟨⟨create_empty_space, insert_each_ones⟩, _, insert_minus_ones,
   insert_vector_appends 10000 "bipolar" empty_space space_with_ones _ [ones] minus_ones
     create_empty_space insert_each_ones insert_minus_ones⟩

/-- C10: in every space reached from create_space by calls of insert_vector
that all returned, every contained vector has the size and the alphabet of the
space, the names of the contained vectors are pairwise distinct, and the size
of the space is at least 10000. -/
theorem space_invariants (size : Int) (vtype : String) (S0 S : Space) (hs : List Vector)
    (h0 : SpaceC.create_space size vtype = .ok S0)
    (h1 : SpaceC.insert_each S0 hs = (.ok (), S)) :
    (∀ v ∈ S.vectors, v.size = S.size ∧ v.vtype = S.vtype) ∧
    S.vectors.Pairwise (fun a b => a.name ≠ b.name) ∧
    10000 ≤ S.size := by
  obtain ⟨rfl, hsize⟩ := create_space_ok size vtype S0 h0
  obtain ⟨e1, e2, e3, -, e5, e6⟩ := insert_each_ok hs _ S h1
  simp only [List.nil_append] at e1
  refine ⟨?_, ?_, ?_⟩
  · intro v hv
    rw [e1] at hv
    rw [e2, e3]
    exact e5 v hv
  · have := e6 (by simp)
    exact (List.pairwise_map.mp this)
  · rw [e2]
    exact hsize

/-- C10 at the space reached by inserting the all-ones vector into the empty
bipolar space of dimension 10000. -/
theorem space_invariants_witness :
    (SpaceC.create_space 10000 "bipolar" = .ok empty_space ∧
      SpaceC.insert_each empty_space [ones] = (.ok (), space_with_ones)) ∧
    (∀ v ∈ space_with_ones.vectors, v.size = space_with_ones.size ∧
      v.vtype = space_with_ones.vtype) ∧
    space_with_ones.vectors.Pairwise (fun a b => a.name ≠ b.name) ∧
    10000 ≤ space_with_ones.size :=
  ⟨⟨create_empty_space, insert_each_ones⟩,
   space_invariants 10000 "bipolar" empty_space space_with_ones [ones]
     create_empty_space insert_each_ones⟩

/-- C11, the code on a directed graph: after create_graph(10000, directed,
unweighted) and fit_graph on the single edge from A to B, the space holds A, B
and `__graph__`, yet edge_exists(A,B,w,t) stores no distance and returns
neither true nor false, whatever the weight and the threshold: the rotation of
the probe by -1 writes at index (0 + -1) % 10000 = -1, outside [0,dim). -/
theorem edge_exists_directed_out_of_bounds :
    ∃ g0 w0 g1 w1,
      GraphC.create_graph env0 world0 10000 true false (-1) = .ok (g0, w0) ∧
      GraphC.fit_graph fmt0 env0 w0 g0 [edge_ab] = .ok (g1, w1) ∧
      g1.directed = true ∧
      ∀ (w : World) (weight threshold : Rat),
        GraphC.edge_exists fmt0 env0 w g1 "A" "B" weight threshold =
          .error (.undefined "write outside the array") := by
  obtain ⟨g0, w0, g1, w1, hc, hf, hg, -⟩ :=
    create_and_fit_ab 10000 (le_refl _) world0 10000 rfl true
  simp only [↓reduceIte] at hg
  exact ⟨g0, w0, g1, w1, hc, hf, hg.2.2.1, fun w weight threshold =>
    edge_exists_directed_ab 10000 (le_refl _) w g1 4 (by omega) weight threshold hg⟩

/-- C12, the code on a fresh directed graph fitted on the single edge from A to
B, when every rand() draw is odd: every element of `__graph__` is 4, while the
sum over the nodes of bind(n, node_memory(n)) is 1 * 1 + 1 * 2 = 3 at every
element.  The surplus is the random content create_vector gave `__graph__`
before the loop added the first term. -/
theorem graph_vector_has_extra_term :
    ∃ g0 w0 g1 w1 gv,
      GraphC.create_graph env0 world0 10000 true false (-1) = .ok (g0, w0) ∧
      GraphC.fit_graph fmt0 env0 w0 g0 [edge_ab] = .ok (g1, w1) ∧
      GraphC.get_vector_from_space g1.space "__graph__" = some gv ∧
      gv.vector = List.replicate 10000 4 ∧
      GraphC.bind_sum g1 g1.space.vectors = List.replicate 10000 3 := by
  obtain ⟨g0, w0, g1, w1, hc, hf, hg, -, -, mA, mB⟩ :=
    create_and_fit_ab 10000 (le_refl _) world0 10000 rfl true
  simp only [↓reduceIte] at hg mB
  refine ⟨g0, w0, g1, w1, constant_vector 10000 "__graph__" 4, hc, hf, ?_, ?_, ?_⟩
  · exact get_graph_vector 10000 g1.space 4 (by rw [hg.2.2.2.2])
  · exact constant_vector_vector 10000 "__graph__" 4
  · rw [bind_sum_ab 10000 g1 true 4 2 1 hg mA mB]
    norm_num

/-- C13, the code on the directed graph of the single edge from A to B, when
every rand() draw is odd: build_node_memory gives B, which has no neighbour,
the memory with every element 1, not 0, and gives A, whose only neighbour B is
the all-ones vector, the memory with every element 2, not 1.  The memory starts
from the random content of create_vector, not from zero. -/
theorem node_memory_starts_from_random_content :
    ∃ g0 w0 g1 w1 gA wA gB wB,
      GraphC.create_graph env0 world0 10000 true false (-1) = .ok (g0, w0) ∧
      GraphC.add_edges env0 [edge_ab] (g0, w0) = .ok (g1, w1) ∧
      (g1.nodes "B").children = [] ∧ (g1.nodes "A").children = ["B"] ∧
      GraphC.get_vector_from_space g1.space "B" = some (constant_vector 10000 "B" 1) ∧
      GraphC.build_node_memory fmt0 env0 w1 g1 "B" = .ok (gB, wB) ∧
      (gB.nodes "B").memory = some (constant_vector 10000 "NodeMemory" 1) ∧
      GraphC.build_node_memory fmt0 env0 w1 g1 "A" = .ok (gA, wA) ∧
      (gA.nodes "A").memory = some (constant_vector 10000 "NodeMemory" 2) := by
  obtain ⟨g0, w0, hc, hg0, hn0, -⟩ := create_graph_env0 10000 (le_refl _) world0 10000 rfl true
  obtain ⟨g1, he, hg1, cA, cB, -, -⟩ := add_edges_ab 10000 (le_refl _) w0 g0 true hg0
  rw [hn0] at cA cB
  simp only [List.nil_append, ↓reduceIte] at cA cB
  obtain ⟨⟨gA, eA, mA⟩, ⟨gB, eB, mB⟩⟩ :=
    build_node_memory_ab 10000 (le_refl _) (after_create 10000 (after_create 10000 w0)) g1 hg1
      cA cB
  exact ⟨g0, w0, g1, _, gA, _, gB, _, hc, he, cB, cA,
    (get_ab 10000 g1.space [] (by rw [hg1.2.2.2.2])).2, eB, mB, eA, mA⟩

/-- C14, the code on the directed graph of the single edge from A to B: the
contribution of the neighbour B to the memory of A is the stored vector of B
itself, no permutation is applied when node memories are built, and the
permutation of edge_exists, permute_vector(.,-1), applied to that contribution
writes outside the array instead of giving it back. -/
theorem encode_applies_no_permutation :
    ∃ g0 w0 g1 w1,
      GraphC.create_graph env0 world0 10000 true false (-1) = .ok (g0, w0) ∧
      GraphC.add_edges env0 [edge_ab] (g0, w0) = .ok (g1, w1) ∧
      g1.directed = true ∧
      GraphC.get_vector_from_space g1.space "B" = some (constant_vector 10000 "B" 1) ∧
      (∀ w : World, GraphC.neighbor_contribution fmt0 env0 w g1 "A" "B" =
        .ok (constant_vector 10000 "B" 1, w)) ∧
      SpaceC.permute_vector (constant_vector 10000 "B" 1) (-1) =
        .error (.undefined "write outside the array") := by
  obtain ⟨g0, w0, hc, hg0, -, -⟩ := create_graph_env0 10000 (le_refl _) world0 10000 rfl true
  obtain ⟨g1, he, hg1, -⟩ := add_edges_ab 10000 (le_refl _) w0 g0 true hg0
  refine ⟨g0, w0, g1, _, hc, he, hg1.2.2.1,
    (get_ab 10000 g1.space [] (by rw [hg1.2.2.2.2])).2,
    fun w => neighbor_contribution_ab 10000 w g1 true [] hg1, ?_⟩
  exact space_permute_negative (constant_vector 10000 "B" 1) (-1) (by decide)
    (by rw [constant_vector_size]; decide) (by decide)

/-- C15, as stated, fails at u = X = the all-ones vector and M = the vector with
every element INT_MAX = 2147483647, of dimension 10000: bind(u,M) returns M's
elements and bundle(bind(u,M), X) adds 1 to INT_MAX, a signed overflow, with
the operators of arithmetic.c and with those of space.c. -/
theorem unbind_overflows_at_int_max :
    (∃ uM w1,
      ArithmeticC.bind_vectors env0 world0 (constant_vector 10000 "u" 1)
        (constant_vector 10000 "M" 2147483647) = .ok (uM, w1) ∧
      ArithmeticC.bundle_vectors env0 w1 uM (constant_vector 10000 "X" 1) =
        .error (.undefined "signed integer overflow")) ∧
    (∃ uM w1,
      SpaceC.bind_vectors env0 world0 (constant_vector 10000 "u" 1)
        (constant_vector 10000 "M" 2147483647) = .ok (uM, w1) ∧
      SpaceC.bundle_vectors env0 w1 uM (constant_vector 10000 "X" 1) =
        .error (.undefined "signed integer overflow")) := by
  have h1 : in_int (1 * 2147483647) := by decide
  have h2 : ¬ in_int (1 * 2147483647 + 1) := by decide
  exact ⟨⟨_, _, arithmetic_bind_constant 10000 (le_refl _) world0 "u" "M" 1 2147483647 h1,
      (bundle_constant_overflow 10000 (le_refl _) _ "BindResult" "X" _ 1 h2).1⟩,
    ⟨_, _, bind_constant 10000 (le_refl _) world0 "u" "M" 1 2147483647 h1,
      (bundle_constant_overflow 10000 (le_refl _) _ "u" "X" _ 1 h2).2⟩⟩

/-- C15, amended: for a bipolar vector u of dimension at least 10000 with every
element in {-1,+1} and bipolar-tagged vectors M, X of the same dimension whose
elements are ints of absolute value at most 2^30 - 1 (so that no sum
overflows), bind(u, bundle(bind(u,M), X)) and bundle(M, bind(u,X)) both return
and are equal element by element, with the operators of arithmetic.c and with
those of space.c. -/
theorem unbind_superposition (E : Env) (w : World) (u M X : Vector)
    (hdim : 10000 ≤ u.size) (hM : M.size = u.size) (hX : X.size = u.size)
    (hut : u.vtype = "bipolar") (hMt : M.vtype = "bipolar") (hXt : X.vtype = "bipolar")
    (hu : ∀ x ∈ u.vector, x = 1 ∨ x = -1)
    (hMb : half_elements M.vector) (hXb : half_elements X.vector) :
    (∃ uM w1 S w2 L w3 uX w4 R w5,
      ArithmeticC.bind_vectors E w u M = .ok (uM, w1) ∧
      ArithmeticC.bundle_vectors E w1 uM X = .ok (S, w2) ∧
      ArithmeticC.bind_vectors E w2 u S = .ok (L, w3) ∧
      ArithmeticC.bind_vectors E w3 u X = .ok (uX, w4) ∧
      ArithmeticC.bundle_vectors E w4 M uX = .ok (R, w5) ∧ L.vector = R.vector) ∧
    (∃ uM w1 S w2 L w3 uX w4 R w5,
      SpaceC.bind_vectors E w u M = .ok (uM, w1) ∧
      SpaceC.bundle_vectors E w1 uM X = .ok (S, w2) ∧
      SpaceC.bind_vectors E w2 u S = .ok (L, w3) ∧
      SpaceC.bind_vectors E w3 u X = .ok (uX, w4) ∧
      SpaceC.bundle_vectors E w4 M uX = .ok (R, w5) ∧ L.vector = R.vector) := by
  have lenM : M.vector.length = u.vector.length := length_eq_of_size_eq M u hM
  have lenX : X.vector.length = u.vector.length := length_eq_of_size_eq X u hX
  obtain ⟨um, s, l, ux, r, e1, e2, e3, e4, e5, e6, e7, e8, e9⟩ :=
    unbind_elementwise u.vector M.vector X.vector lenM lenX hu hMb hXb
  have sz : ∀ (v : Vector) (cs : List Int), v.vector = cs → cs.length = u.vector.length →
      v.size = u.size := by
    intro v cs hv hl
    simp only [Vector.size, hv, hl]
  have hMdim : 10000 ≤ M.size := hM ▸ hdim
  constructor
  · obtain ⟨uM, w1, b1, v1, t1, -⟩ :=
      arithmetic_bind_ok E w u M um hdim hM.symm (hut.trans hMt.symm) (Or.inr hut) e1
    have s1 := sz uM um v1 e7
    obtain ⟨S, w2, b2, v2, t2, -⟩ :=
      arithmetic_bundle_ok E w1 uM X s (s1 ▸ hdim) (s1.trans hX.symm)
        ((t1.trans hut).trans hXt.symm) (Or.inr (t1.trans hut)) (v1 ▸ e2)
    have s2 := sz S s v2 e8
    obtain ⟨L, w3, b3, v3, -, -⟩ :=
      arithmetic_bind_ok E w2 u S l hdim s2.symm (hut.trans ((t2.trans t1).trans hut).symm)
        (Or.inr hut) (v2 ▸ e3)
    obtain ⟨uX, w4, b4, v4, t4, -⟩ :=
      arithmetic_bind_ok E w3 u X ux hdim hX.symm (hut.trans hXt.symm) (Or.inr hut) e4
    have s4 := sz uX ux v4 e9
    obtain ⟨R, w5, b5, v5, -, -⟩ :=
      arithmetic_bundle_ok E w4 M uX r hMdim (hM.trans s4.symm)
        (hMt.trans (t4.trans hut).symm) (Or.inr hMt) (v4 ▸ e5)
    exact ⟨uM, w1, S, w2, L, w3, uX, w4, R, w5, b1, b2, b3, b4, b5, by rw [v3, v5, e6]⟩
  · obtain ⟨uM, w1, b1, v1, t1, -⟩ :=
      space_bind_ok E w u M um hdim hM.symm (Or.inr hut) e1
    have s1 := sz uM um v1 e7
    obtain ⟨S, w2, b2, v2, t2, -⟩ :=
      space_bundle_ok E w1 uM X s (s1 ▸ hdim) (s1.trans hX.symm)
        (Or.inr (t1.trans hut)) (v1 ▸ e2)
    have s2 := sz S s v2 e8
    obtain ⟨L, w3, b3, v3, -, -⟩ :=
      space_bind_ok E w2 u S l hdim s2.symm (Or.inr hut) (v2 ▸ e3)
    obtain ⟨uX, w4, b4, v4, t4, -⟩ :=
      space_bind_ok E w3 u X ux hdim hX.symm (Or.inr hut) e4
    have s4 := sz uX ux v4 e9
    obtain ⟨R, w5, b5, v5, -, -⟩ :=
      space_bundle_ok E w4 M uX r hMdim (hM.trans s4.symm) (Or.inr hMt) (v4 ▸ e5)
    exact ⟨uM, w1, S, w2, L, w3, uX, w4, R, w5, b1, b2, b3, b4, b5, by rw [v3, v5, e6]⟩

/-- C15, amended, at u = all minus ones, M = all twos, X = all threes, bipolar
tagged vectors of dimension 10000. -/
theorem unbind_superposition_witness :
    (10000 ≤ (constant_vector 10000 "u" (-1)).size ∧
      (constant_vector 10000 "M" 2).size = (constant_vector 10000 "u" (-1)).size ∧
      (constant_vector 10000 "X" 3).size = (constant_vector 10000 "u" (-1)).size ∧
      (∀ x ∈ (constant_vector 10000 "u" (-1)).vector, x = 1 ∨ x = -1) ∧
      half_elements (constant_vector 10000 "M" 2).vector ∧
      half_elements (constant_vector 10000 "X" 3).vector) ∧
    ((∃ uM w1 S w2 L w3 uX w4 R w5,
      ArithmeticC.bind_vectors env0 world0 (constant_vector 10000 "u" (-1))
        (constant_vector 10000 "M" 2) = .ok (uM, w1) ∧
      ArithmeticC.bundle_vectors env0 w1 uM (constant_vector 10000 "X" 3) = .ok (S, w2) ∧
      ArithmeticC.bind_vectors env0 w2 (constant_vector 10000 "u" (-1)) S = .ok (L, w3) ∧
      ArithmeticC.bind_vectors env0 w3 (constant_vector 10000 "u" (-1))
        (constant_vector 10000 "X" 3) = .ok (uX, w4) ∧
      ArithmeticC.bundle_vectors env0 w4 (constant_vector 10000 "M" 2) uX = .ok (R, w5) ∧
      L.vector = R.vector) ∧
    (∃ uM w1 S w2 L w3 uX w4 R w5,
      SpaceC.bind_vectors env0 world0 (constant_vector 10000 "u" (-1))
        (constant_vector 10000 "M" 2) = .ok (uM, w1) ∧
      SpaceC.bundle_vectors env0 w1 uM (constant_vector 10000 "X" 3) = .ok (S, w2) ∧
      SpaceC.bind_vectors env0 w2 (constant_vector 10000 "u" (-1)) S = .ok (L, w3) ∧
      SpaceC.bind_vectors env0 w3 (constant_vector 10000 "u" (-1))
        (constant_vector 10000 "X" 3) = .ok (uX, w4) ∧
      SpaceC.bundle_vectors env0 w4 (constant_vector 10000 "M" 2) uX = .ok (R, w5) ∧
      L.vector = R.vector)) := by
  have hu : ∀ x ∈ (constant_vector 10000 "u" (-1)).vector, x = 1 ∨ x = -1 := by
    intro x hx
    rw [constant_vector_vector] at hx
    exact Or.inr (List.eq_of_mem_replicate hx)
  have hdim : (10000 : Int) ≤ (constant_vector 10000 "u" (-1)).size := by
    rw [constant_vector_size]; decide
  have hM : (constant_vector 10000 "M" 2).size = (constant_vector 10000 "u" (-1)).size := by
    rw [constant_vector_size, constant_vector_size]
  have hX : (constant_vector 10000 "X" 3).size = (constant_vector 10000 "u" (-1)).size := by
    rw [constant_vector_size, constant_vector_size]
  have hMb := half_constant 10000 "M" 2 (by decide)
  have hXb := half_constant 10000 "X" 3 (by decide)
  exact ⟨⟨hdim, hM, hX, hu, hMb, hXb⟩,
    unbind_superposition env0 world0 (constant_vector 10000 "u" (-1))
      (constant_vector 10000 "M" 2) (constant_vector 10000 "X" 3) hdim hM hX rfl rfl rfl hu
      hMb hXb⟩

/-- C16, the code on a directed graph: after create_graph(10000, directed,
unweighted) and fit_graph on the single edge from A to B the space holds
`__graph__`, A and B and the graph is unweighted, so none of the listed
conditions holds, yet edge_exists(A,B,w,t) returns neither true nor false (the
write outside the array of its rotation by -1); the query (A,D) for the absent
node D is a fatal exit, not a false result. -/
theorem edge_exists_no_result_with_prerequisites :
    ∃ g0 w0 g1 w1,
      GraphC.create_graph env0 world0 10000 true false (-1) = .ok (g0, w0) ∧
      GraphC.fit_graph fmt0 env0 w0 g0 [edge_ab] = .ok (g1, w1) ∧
      GraphC.get_vector_from_space g1.space "__graph__" =
        some (constant_vector 10000 "__graph__" 4) ∧
      GraphC.get_vector_from_space g1.space "A" = some (constant_vector 10000 "A" 1) ∧
      GraphC.get_vector_from_space g1.space "B" = some (constant_vector 10000 "B" 1) ∧
      g1.weighted = false ∧
      (∀ (w : World) (weight threshold : Rat),
        GraphC.edge_exists fmt0 env0 w g1 "A" "B" weight threshold =
          .error (.undefined "write outside the array")) ∧
      (∀ (w : World) (weight threshold : Rat),
        GraphC.edge_exists fmt0 env0 w g1 "A" "D" weight threshold =
          .error (.exit "Nodes are not in the space")) := by
  obtain ⟨g0, w0, g1, w1, hc, hf, hg, -⟩ :=
    create_and_fit_ab 10000 (le_refl _) world0 10000 rfl true
  simp only [↓reduceIte] at hg
  have hvs : g1.space.vectors = [constant_vector 10000 "A" 1, constant_vector 10000 "B" 1,
      constant_vector 10000 "__graph__" 4] := by rw [hg.2.2.2.2]
  exact ⟨g0, w0, g1, w1, hc, hf, get_graph_vector 10000 g1.space 4 hvs,
    (get_ab 10000 g1.space _ hvs).1, (get_ab 10000 g1.space _ hvs).2, hg.2.2.2.1,
    fun w weight threshold =>
      edge_exists_directed_ab 10000 (le_refl _) w g1 4 (by omega) weight threshold hg,
    fun w weight threshold => edge_exists_absent 10000 w g1 true 4 weight threshold hg⟩

/-- C17: the space of the graph create_graph returns holds no vector named
`__graph__`, and after a call of fit_graph on that graph has returned, the
space holds exactly one vector named `__graph__`, which has the size and the
alphabet of the graph. -/
theorem graph_vector_unique (E : Env) (w w0 : World) (size : Int) (directed weighted : Bool)
    (seed : Int) (g0 : Graph)
    (hc : GraphC.create_graph E w size directed weighted seed = .ok (g0, w0)) :
    GraphC.get_vector_from_space g0.space "__graph__" = none ∧
    (g0.space.vectors.filter (fun v => decide (v.name = "__graph__"))).length = 0 ∧
    ∀ (fmt : Rat → String) (edges : List Edge) (g1 : Graph) (w1 : World),
      GraphC.fit_graph fmt E w0 g0 edges = .ok (g1, w1) →
      ∃ gv, g1.space.vectors.filter (fun v => decide (v.name = "__graph__")) = [gv] ∧
        GraphC.get_vector_from_space g1.space "__graph__" = some gv ∧
        gv.size = g1.size ∧ gv.vtype = g1.vtype := by
  obtain ⟨hv0, hs0, ht0⟩ := create_graph_ok E w w0 size directed weighted seed g0 hc
  refine ⟨?_, ?_, ?_⟩
  · unfold GraphC.get_vector_from_space
    rw [hv0]
    rfl
  · rw [hv0]
    rfl
  · intro fmt edges g1 w1 hf
    obtain ⟨g3, gv, hgr, hname, hins, e1, e2, -, -⟩ := fit_graph_ok fmt E w0 w1 g0 g1 edges hf
    obtain ⟨hsz, hvt, hfresh, hS1⟩ := insert_vector_ok _ _ _ hins
    obtain ⟨a1, a2, -, -, vs, hvs⟩ := hgr
    obtain ⟨-, b2, b3, -⟩ := insert_each_ok vs _ _ hvs
    have hvec : g1.space.vectors = g3.space.vectors ++ [gv] := by rw [hS1]
    have hnone : g3.space.vectors.filter (fun v => decide (v.name = "__graph__")) = [] := by
      rw [List.filter_eq_nil_iff]
      intro v hv
      simpa using fun h => hfresh v hv (h.trans hname.symm)
    refine ⟨gv, ?_, ?_, ?_, ?_⟩
    · rw [hvec, List.filter_append, hnone]
      simp [hname]
    · unfold GraphC.get_vector_from_space
      rw [hvec]
      have hnotin : GraphC.get_vector_from_space_loop g3.space.vectors "__graph__" = none :=
        (get_loop_none_iff _ _).mpr (fun v hv h => hfresh v hv (h.trans hname.symm))
      exact get_loop_append_new _ _ _ hnotin hname
    · rw [← hsz, b2, hs0, e1, a1]
    · rw [← hvt, b3, ht0, e2, a2]

/-- C17 at create_graph(10000, undirected, unweighted) and fit_graph on the
single edge from A to B, when every rand() draw is odd. -/
theorem graph_vector_unique_witness :
    ∃ g0 w0 g1 w1,
      GraphC.create_graph env0 world0 10000 false false (-1) = .ok (g0, w0) ∧
      GraphC.fit_graph fmt0 env0 w0 g0 [edge_ab] = .ok (g1, w1) ∧
      GraphC.get_vector_from_space g0.space "__graph__" = none ∧
      (g0.space.vectors.filter (fun v => decide (v.name = "__graph__"))).length = 0 ∧
      ∃ gv, g1.space.vectors.filter (fun v => decide (v.name = "__graph__")) = [gv] ∧
        GraphC.get_vector_from_space g1.space "__graph__" = some gv ∧
        gv.size = g1.size ∧ gv.vtype = g1.vtype := by
  obtain ⟨g0, w0, g1, w1, hc, hf, -⟩ :=
    create_and_fit_ab 10000 (le_refl _) world0 10000 rfl false
  have h := graph_vector_unique env0 world0 w0 10000 false false (-1) g0 hc
  exact ⟨g0, w0, g1, w1, hc, hf, h.1, h.2.1, h.2.2 fmt0 [edge_ab] g1 w1 hf⟩

/-- C18: for a non-empty edge list E and a threshold t, when every query of
edge_exists on the edges of E returns, error_rate returns
(fp_count + fn_count) / |E|; the false positives it lists are the edges of E
answered true with has_child(u,v) false, the false negatives those answered
false with has_child(u,v) true, each list in the order of E; no edge is in both
lists, and the returned rate lies in [0,1]. -/
theorem error_rate_partition (fmt : Rat → String) (E : Env) (w w1 : World) (g : Graph)
    (edges : List Edge) (threshold : Rat) (founds : List Bool) (hne : edges ≠ [])
    (h : GraphC.edge_answers fmt E g threshold edges w = .ok (founds, w1)) :
    ∃ report r, GraphC.error_rate fmt E w g edges threshold = .ok (report, w1) ∧
      report.false_positives = GraphC.misjudged g true edges founds ∧
      report.false_negatives = GraphC.misjudged g false edges founds ∧
      report.rate = some r ∧
      r = ((report.false_positives.length + report.false_negatives.length : Nat) : Rat) /
        (edges.length : Rat) ∧
      (∀ e ∈ report.false_positives, e ∉ report.false_negatives) ∧ 0 ≤ r ∧ r ≤ 1 := by
  have hlen : edges.length ≠ 0 := fun h0 => hne (List.length_eq_zero.mp h0)
  have hpos : (0 : Rat) < (edges.length : Rat) := by
    exact_mod_cast Nat.pos_of_ne_zero hlen
  refine ⟨_, _, error_rate_of_answers fmt E w w1 g edges threshold founds h, rfl, rfl,
    if_neg hlen, rfl, ?_, ?_, ?_⟩
  · intro e hp hn
    have h1 := (misjudged_mem g true edges founds e hp).2
    have h2 := (misjudged_mem g false edges founds e hn).2
    rw [h1] at h2
    exact absurd h2 (by decide)
  · exact div_nonneg (Nat.cast_nonneg _) (le_of_lt hpos)
  · rw [div_le_one hpos]
    exact_mod_cast misjudged_length g edges founds

/-- C18 on the undirected graph fitted on the single edge from A to B, for the
edge list of that edge and the threshold 1/2: the query returns true, both
lists are empty and the rate is 0. -/
theorem error_rate_partition_witness :
    ∃ g0 w0 g1 w1 w2,
      GraphC.create_graph env0 world0 10000 false false (-1) = .ok (g0, w0) ∧
      GraphC.fit_graph fmt0 env0 w0 g0 [edge_ab] = .ok (g1, w1) ∧
      [edge_ab] ≠ [] ∧
      GraphC.edge_answers fmt0 env0 g1 (1 / 2) [edge_ab] w1 = .ok ([true], w2) ∧
      ∃ report r, GraphC.error_rate fmt0 env0 w1 g1 [edge_ab] (1 / 2) = .ok (report, w2) ∧
        report.false_positives = GraphC.misjudged g1 true [edge_ab] [true] ∧
        report.false_negatives = GraphC.misjudged g1 false [edge_ab] [true] ∧
        report.rate = some r ∧
        r = ((report.false_positives.length + report.false_negatives.length : Nat) : Rat) /
          (([edge_ab] : List Edge).length : Rat) ∧
        (∀ e ∈ report.false_positives, e ∉ report.false_negatives) ∧ 0 ≤ r ∧ r ≤ 1 := by
  obtain ⟨g0, w0, g1, w1, hc, hf, hg, -⟩ :=
    create_and_fit_ab 10000 (le_refl _) world0 10000 rfl false
  simp only [Bool.false_eq_true, ↓reduceIte] at hg
  have ha : GraphC.edge_answers fmt0 env0 g1 (1 / 2) [edge_ab] w1 =
      .ok ([true], after_create 10000 w1) := by
    rw [edge_answers_undirected_ab 10000 (le_refl _) w1 g1 (1 / 2) hg]
    norm_num
  exact ⟨g0, w0, g1, w1, _, hc, hf, by simp, ha,
    error_rate_partition fmt0 env0 w1 _ g1 [edge_ab] (1 / 2) [true] (by simp) ha⟩

/-- C19, the code on the undirected graph fitted on the single edge from A to
B, with the threshold 0: error_rate reports the edge (A,B) as a false negative
and the iteration is accepted, yet the two loops of error_mitigation over the
false positives and the false negatives leave the memory of A as it was, every
element 2; with the contribution of B (every element 1) added it would be 3 at
every element. -/
theorem error_mitigation_adjusts_nothing :
    ∃ g0 w0 g1 w1 report w2,
      GraphC.create_graph env0 world0 10000 false false (-1) = .ok (g0, w0) ∧
      GraphC.fit_graph fmt0 env0 w0 g0 [edge_ab] = .ok (g1, w1) ∧
      GraphC.error_rate fmt0 env0 w1 g1 [edge_ab] 0 = .ok (report, w2) ∧
      report.false_positives = [] ∧ report.false_negatives = [edge_ab] ∧
      GraphC.improves (some (-1)) report.rate = true ∧
      GraphC.get_vector_from_space g1.space "B" = some (constant_vector 10000 "B" 1) ∧
      (g1.nodes "A").memory = some (constant_vector 10000 "NodeMemory" 2) ∧
      ((GraphC.adjust_node_memories g1 report.false_positives
        report.false_negatives).nodes "A").memory =
          some (constant_vector 10000 "NodeMemory" 2) := by
  obtain ⟨g0, w0, g1, w1, hc, hf, hg, cA, -, mA, -⟩ :=
    create_and_fit_ab 10000 (le_refl _) world0 10000 rfl false
  simp only [Bool.false_eq_true, ↓reduceIte] at hg
  have ha : GraphC.edge_answers fmt0 env0 g1 0 [edge_ab] w1 =
      .ok ([false], after_create 10000 w1) := by
    rw [edge_answers_undirected_ab 10000 (le_refl _) w1 g1 0 hg]
    norm_num
  have hchild : GraphC.has_child g1 "A" "B" = true := by
    rw [has_child_of_children g1 "A" "B" _ cA]
    decide
  have hr := error_rate_of_answers fmt0 env0 w1 _ g1 [edge_ab] 0 [false] ha
  have hvs : g1.space.vectors = [constant_vector 10000 "A" 1, constant_vector 10000 "B" 1,
      constant_vector 10000 "__graph__" 2] := by rw [hg.2.2.2.2]
  have e1 : edge_ab.node1_name = "A" := rfl
  have e2 : edge_ab.node2_name = "B" := rfl
  refine ⟨g0, w0, g1, w1, _, _, hc, hf, hr, ?_, ?_, improves_first _,
    (get_ab 10000 g1.space _ hvs).2, mA, ?_⟩
  · simp [GraphC.misjudged, e1, e2, hchild]
  · simp [GraphC.misjudged, e1, e2, hchild]
  · rw [adjust_node_memories_eq]
    exact mA

/-- C20, the code on the undirected graph fitted on the single edge from A to
B, with prev_error_rate = -1: for every max_iter >= 1 and every threshold
error_mitigation does not return; error_rate returns, the iteration is
accepted, and fit_graph, run on the fitted graph again, creates a second
vector named `__graph__` for a space that already holds one, so insert_vector
exits.  With max_iter <= 0 the call returns at once and leaves the graph as it
was. -/
theorem error_mitigation_does_not_return :
    ∃ g0 w0 g1 w1,
      GraphC.create_graph env0 world0 10000 false false (-1) = .ok (g0, w0) ∧
      GraphC.fit_graph fmt0 env0 w0 g0 [edge_ab] = .ok (g1, w1) ∧
      (∀ (n : Nat) (threshold : Rat),
        GraphC.error_mitigation fmt0 env0 w1 g1 [edge_ab] threshold ((n : Int) + 1)
          (some (-1)) = .error (.exit "Vector already in space")) ∧
      GraphC.fit_graph fmt0 env0 w1 g1 [edge_ab] = .error (.exit "Vector already in space") ∧
      (∀ (n : Nat) (threshold : Rat),
        GraphC.error_mitigation fmt0 env0 w1 g1 [edge_ab] threshold (-(n : Int))
          (some (-1)) = .ok (g1, w1)) := by
  obtain ⟨g0, w0, g1, w1, hc, hf, hg, cA, cB, -⟩ :=
    create_and_fit_ab 10000 (le_refl _) world0 10000 rfl false
  simp only [Bool.false_eq_true, ↓reduceIte] at hg cB
  refine ⟨g0, w0, g1, w1, hc, hf, ?_, fit_graph_again 10000 (le_refl _) w1 g1 hg cA cB, ?_⟩
  · intro n threshold
    exact error_mitigation_again 10000 (le_refl _) w1 g1 threshold n hg cA cB
  · intro n threshold
    unfold GraphC.error_mitigation
    rw [if_pos (by omega)]


/-- C21, as stated, fails on the model fitted on a fresh bipolar model of size
10001 with two levels and the five rows (0) labelled a, b, b, b, a, with the
row 4 as test set: the classes are a, b, the class vector of a holds the
elements of point_0 and that of b the sum of point_1, point_2 and point_3, three
times the elements of the test vector; the cosine loop returns the sums
(10001, 10001, 10001) for a and (30003, 10001, 90009) for b, whose exact
distances are both 0, so that a, the first of the two classes, is due, and a is
what the prediction loop keeps when the distances are read as exact reals.  In
double arithmetic the formula gives 0 for a and -2^-52 for b: the test
`distance < closest_dist` of the prediction loop holds at b, and the program
returns b. -/
theorem predict_tie_in_doubles :
    ∃ (fitted : MLModel) (w1 : World) (t pa pb : Vector) (w2 : World),
      ModelC.fit_mlmodel env0 world0 (fresh_model 10001 "bipolar") five_points 1
        (some five_labels) 7 = .ok (fitted, w1) ∧
      fitted.classes = ["a", "b"] ∧
      ModelC.test_points [4] fitted.space.vectors = [t] ∧
      ModelC.build_classes env0 (ModelC.training_points [4] fitted.space.vectors)
        fitted.classes 0 ([], w1) = .ok ([pa, pb], w2) ∧
      SpaceC.vector_distance t pa "cosine" = .ok (.cosine 10001 10001 10001) ∧
      SpaceC.vector_distance t pb "cosine" = .ok (.cosine 30003 10001 90009) ∧
      (DistValue.cosine 10001 10001 10001).IsReal 0 ∧
      (DistValue.cosine 30003 10001 90009).IsReal 0 ∧
      ModelC.predict_mlmodel env0 w1 fitted [4] 0 0 =
        .ok ({ predictions := ["a"], retraining_iterations := 0, model_error_rate := 0 }, w2) ∧
      cosine_double 10001 10001 10001 = some ⟨0, 0⟩ ∧
      cosine_double 30003 10001 90009 = some ⟨-2 ^ 52, -104⟩ ∧
      Double.lt ⟨-2 ^ 52, -104⟩ ⟨0, 0⟩ = true := by
  obtain ⟨fitted, w1, hfit⟩ := five_fit_returns env0 world0 10001 (by decide) (by decide) 7
  obtain ⟨l0, l1, p0, p1, p2, p3, p4, v, hvs, hcl, hn, htags, hall, hlen, hsigns⟩ :=
    five_fit_shape env0 world0 w1 10001 7 fitted hfit
  obtain ⟨pa, pb, w2, h1, h2, -, -, h5, h6, h7⟩ :=
    five_predict env0 w1 fitted l0 l1 p0 p1 p2 p3 p4 v 10001 (by decide) 0 0 hvs hcl hn htags
      hall hlen hsigns
  exact ⟨fitted, w1, p4, pa, pb, w2, hfit, hcl, h1, h2, h5, h6,
    cosine_real_multiple 1 10001 (by decide) (by decide),
    cosine_real_multiple 3 10001 (by decide) (by decide), h7,
    cosine_double_single, cosine_double_threefold, double_lt_zero⟩

/-- C21, amended: over exact real arithmetic, every cosine distance read as the
exact real of the sums the cosine loop returns: when fit_mlmodel with the labels
`labels` has returned the model and predict_mlmodel on that model returns, the
classes of the model are the distinct labels in the order of their first
occurrence, each class has a prototype whose elements are the element-wise sum
of the non-test points tagged with the class, and each predicted label is a
class of the model whose prototype has a cosine distance to the test vector
that is at most the distance of every class and strictly less than the distance
of every class before it in model.classes; a class whose distance is no number
(a quotient by zero) is never picked and takes no part in the comparison. -/
theorem predict_picks_first_nearest_class (E : Env) (w w1 wp w2 : World)
    (model0 model : MLModel) (points : List (List Rat)) (d : Int) (labels : List String)
    (seed : Int) (test_indices : List Int) (retraining_iterations : Int)
    (model_error_rate : Rat) (result : ModelC.Prediction)
    (hfit : ModelC.fit_mlmodel E w model0 points d (some labels) seed = .ok (model, w1))
    (hpred : ModelC.predict_mlmodel E wp model test_indices retraining_iterations
      model_error_rate = .ok (result, w2)) :
    model.classes = ModelC.first_occurrences labels ∧
    test_indices ≠ [] ∧
    (ModelC.test_points test_indices model.space.vectors).length = test_indices.length ∧
    result.predictions.length = test_indices.length ∧
    ∃ protos : List Vector, protos.length = model.classes.length ∧
      (∀ (j : Nat) (c : String), model.classes[j]? = some c →
        ∃ p : Vector, protos[j]? = some p ∧
          (ModelC.training_points test_indices model.space.vectors).filter
            (fun v => ModelC.has_tag v c) ≠ [] ∧
          p.vector = ModelC.column_sums
            (((ModelC.training_points test_indices model.space.vectors).filter
              (fun v => ModelC.has_tag v c)).map Vector.vector)) ∧
      ∀ (i : Nat) (label : String), result.predictions[i]? = some label →
        ∃ (t : Vector) (jc : Nat) (p : Vector) (dist : DistValue) (r : ℝ),
          (ModelC.test_points test_indices model.space.vectors)[i]? = some t ∧
          model.classes[jc]? = some label ∧ protos[jc]? = some p ∧
          SpaceC.vector_distance t p "cosine" = .ok dist ∧ dist.IsReal r ∧
          ∀ (j : Nat) (pj : Vector) (dj : DistValue) (rj : ℝ), protos[j]? = some pj →
            SpaceC.vector_distance t pj "cosine" = .ok dj → dj.IsReal rj →
            r ≤ rj ∧ (j < jc → r < rj) :=
  ⟨fit_mlmodel_classes E w w1 model0 model points d labels seed hfit,
    predict_mlmodel_ok E wp w2 model test_indices retraining_iterations model_error_rate
      result hpred⟩

/-- C21, amended, on a fresh bipolar model of size 10000 with two levels, fitted with
seed 7 on the four rows (0), (2), (0), (2) labelled a, b, a, b, and the rows 2
and 3 as test set, when every rand() draw is 1 and the clock stands at 0. -/
theorem predict_picks_first_nearest_class_witness :
    ∃ model w1 result w2,
      ModelC.fit_mlmodel env0 world0 (fresh_model 10000 "bipolar") four_points 1
        (some four_labels) 7 = .ok (model, w1) ∧
      ModelC.predict_mlmodel env0 w1 model [2, 3] 0 0 = .ok (result, w2) ∧
      model.classes = ModelC.first_occurrences four_labels ∧
      ([2, 3] : List Int) ≠ [] ∧
      (ModelC.test_points [2, 3] model.space.vectors).length = ([2, 3] : List Int).length ∧
      result.predictions.length = ([2, 3] : List Int).length ∧
      ∃ protos : List Vector, protos.length = model.classes.length ∧
        (∀ (j : Nat) (c : String), model.classes[j]? = some c →
          ∃ p : Vector, protos[j]? = some p ∧
            (ModelC.training_points [2, 3] model.space.vectors).filter
              (fun v => ModelC.has_tag v c) ≠ [] ∧
            p.vector = ModelC.column_sums
              (((ModelC.training_points [2, 3] model.space.vectors).filter
                (fun v => ModelC.has_tag v c)).map Vector.vector)) ∧
        ∀ (i : Nat) (label : String), result.predictions[i]? = some label →
          ∃ (t : Vector) (jc : Nat) (p : Vector) (dist : DistValue) (r : ℝ),
            (ModelC.test_points [2, 3] model.space.vectors)[i]? = some t ∧
            model.classes[jc]? = some label ∧ protos[jc]? = some p ∧
            SpaceC.vector_distance t p "cosine" = .ok dist ∧ dist.IsReal r ∧
            ∀ (j : Nat) (pj : Vector) (dj : DistValue) (rj : ℝ), protos[j]? = some pj →
              SpaceC.vector_distance t pj "cosine" = .ok dj → dj.IsReal rj →
              r ≤ rj ∧ (j < jc → r < rj) := by
  obtain ⟨model, w1, hfit⟩ := four_fit_returns env0 world0 10000 (le_refl _) (by decide)
    "bipolar" (Or.inr rfl) four_points 1 (Or.inl rfl) rfl four_points_rows 7
  obtain ⟨result, w2, hpred⟩ := four_predict_returns env0 world0 w1 w1 10000 (le_refl _)
    four_points rfl 7 model hfit 0 0
  exact ⟨model, w1, result, w2, hfit, hpred,
    predict_picks_first_nearest_class env0 world0 w1 w1 w2 (fresh_model 10000 "bipolar") model
      four_points 1 four_labels 7 [2, 3] 0 0 result hfit hpred⟩

/-- C23, as stated, fails at L = 2 and the matrix with the rows (0), (3/2), (2):
min_v = 0, max_v = 2, gap = 1, and for x = 3/2 the selected index is 0 although
neither l = 0 nor l = 1 satisfies min_v + (l-1)*gap <= x < min_v + l*gap. -/
theorem level_of_without_position :
    ModelC.value_range 1 [[0], [3 / 2], [2]] none = .ok (some (0, 2)) ∧
    ModelC.level_of 2 (some (0, 2)) (3 / 2) = 0 ∧
    ¬ ((0 : Rat) + ((0 : Int) - 1) * ((2 - 0) / (2 : Int)) ≤ 3 / 2 ∧
        (3 / 2 : Rat) < 0 + (0 : Int) * ((2 - 0) / (2 : Int))) ∧
    ¬ ((0 : Rat) + ((1 : Int) - 1) * ((2 - 0) / (2 : Int)) ≤ 3 / 2 ∧
        (3 / 2 : Rat) < 0 + (1 : Int) * ((2 - 0) / (2 : Int))) := by
  refine ⟨?_, ?_, ?_, ?_⟩
  · simp [ModelC.value_range, ModelC.value_range_row, ModelC.widen]
    norm_num
  · have h := level_of_top 2 0 2 (3 / 2) (le_refl _) (by norm_num) (by norm_num) (by norm_num)
    exact h.1
  · norm_num
  · norm_num

/-- C23, amended: over exact arithmetic, for min_v < max_v, L >= 2 and
gap = (max_v - min_v)/L, the selected level index is 0 for x = min_v and L-1 for
x = max_v; for min_v < x < min_v + (L-1)*gap it is the unique l with
min_v + (l-1)*gap <= x < min_v + l*gap, and that l lies in [1,L-1]. -/
theorem level_of_positions (L : Int) (mn mx x : Rat) (hL : 2 ≤ L) (hlt : mn < mx) :
    ModelC.level_of L (some (mn, mx)) mn = 0 ∧
    ModelC.level_of L (some (mn, mx)) mx = L - 1 ∧
    (mn < x → x < mn + ((L : Rat) - 1) * ((mx - mn) / L) →
      1 ≤ ModelC.level_of L (some (mn, mx)) x ∧ ModelC.level_of L (some (mn, mx)) x ≤ L - 1 ∧
      (mn + ((ModelC.level_of L (some (mn, mx)) x : Rat) - 1) * ((mx - mn) / L) ≤ x ∧
        x < mn + (ModelC.level_of L (some (mn, mx)) x : Rat) * ((mx - mn) / L)) ∧
      ∀ q : Int, (mn + ((q : Rat) - 1) * ((mx - mn) / L) ≤ x ∧
          x < mn + (q : Rat) * ((mx - mn) / L)) →
        q = ModelC.level_of L (some (mn, mx)) x) := by
  refine ⟨level_of_min L mn mx, level_of_max L mn mx hlt, ?_⟩
  intro h1 h2
  obtain ⟨a1, a2, a3, a4⟩ := level_of_inner L mn mx x hL hlt h1 h2
  refine ⟨a1, a2, ⟨a3, a4⟩, ?_⟩
  intro q hq
  exact level_bounds_unique mn ((mx - mn) / L) x (gap_facts L mn mx hL hlt).1 _ q
    ⟨a3, a4⟩ hq

/-- C23, amended, at L = 2, min_v = 0, max_v = 2 and x = 1/2: the selected
index is 1. -/
theorem level_of_positions_witness :
    (2 : Int) ≤ 2 ∧ (0 : Rat) < 2 ∧ ModelC.level_of 2 (some (0, 2)) 0 = 0 ∧
    ModelC.level_of 2 (some (0, 2)) 2 = 2 - 1 ∧
    1 ≤ ModelC.level_of 2 (some (0, 2)) (1 / 2) ∧
    ModelC.level_of 2 (some (0, 2)) (1 / 2) ≤ 2 - 1 := by
  have h := level_of_positions 2 0 2 (1 / 2) (le_refl _) (by norm_num)
  obtain ⟨a1, a2, a3⟩ := h
  obtain ⟨b1, b2, -⟩ := a3 (by norm_num) (by norm_num)
  exact ⟨le_refl _, by norm_num, a1, a2, b1, b2⟩

/-- C24, the code at L = 2 and the matrix with the rows (0), (1/2), (3/2), (2):
min_v = 0, max_v = 2, gap = 1; the values 1/2 <= 3/2 lie in [min_v, max_v], yet
the level index selected for 1/2 is 1 and the one selected for 3/2 is 0: no
position of the search holds 3/2 and `level_count` keeps its initial 0. -/
theorem level_of_not_monotone :
    ModelC.value_range 1 inner_points none = .ok (some (0, 2)) ∧
    ((0 : Rat) ≤ 1 / 2 ∧ (1 / 2 : Rat) ≤ 3 / 2 ∧ (3 / 2 : Rat) ≤ 2) ∧
    ModelC.level_of 2 (some (0, 2)) (1 / 2) = 1 ∧
    ModelC.level_of 2 (some (0, 2)) (3 / 2) = 0 ∧
    ¬ (ModelC.level_of 2 (some (0, 2)) (1 / 2) ≤ ModelC.level_of 2 (some (0, 2)) (3 / 2)) := by
  have h1 : ModelC.level_of 2 (some (0, 2)) (1 / 2) = 1 := by
    obtain ⟨a1, a2, -⟩ := level_of_inner 2 0 2 (1 / 2) (le_refl _) (by norm_num)
      (by norm_num) (by norm_num)
    omega
  have h2 : ModelC.level_of 2 (some (0, 2)) (3 / 2) = 0 :=
    (level_of_top 2 0 2 (3 / 2) (le_refl _) (by norm_num) (by norm_num) (by norm_num)).1
  refine ⟨?_, by norm_num, h1, h2, by rw [h1, h2]; decide⟩
  simp [inner_points, ModelC.value_range, ModelC.value_range_row, ModelC.widen]
  norm_num

/-- C25, the code on a fresh binary model of size 10000 with two levels, for
every stream, clock and seed: fit_mlmodel on the four rows returns, the base
vector is all zero and a flip `base_vector[index] *= -1` leaves a zero as it
is, so level_0 and level_1 hold the same elements and their Hamming distance is
0, outside [0.45*10000, 0.55*10000] = [4500, 5500]. -/
theorem binary_levels_coincide (E : Env) (w : World) (seed : Int) :
    ∃ fitted w1 l0 l1,
      ModelC.create_mlmodel 10000 2 "binary" = .ok (fresh_model 10000 "binary") ∧
      ModelC.fit_mlmodel E w (fresh_model 10000 "binary") four_points 1 (some four_labels)
        seed = .ok (fitted, w1) ∧
      GraphC.get_vector_from_space fitted.space "level_0" = some l0 ∧
      GraphC.get_vector_from_space fitted.space "level_1" = some l1 ∧
      SpaceC.vector_distance l0 l1 "hamming" = .ok (.hamming 0) ∧
      ¬ ((45 / 100 : Rat) * 10000 ≤ ((0 : Int) : Rat)) := by
  obtain ⟨fitted, w1, l0, l1, hfit, g0, g1, v0, v1, ht⟩ :=
    binary_levels_same E w 10000 (le_refl _) (by decide) seed
  exact ⟨fitted, w1, l0, l1, create_fresh 10000 (le_refl _) "binary" (Or.inl rfl), hfit, g0, g1,
    hamming_same l0 l1 (by rw [v0, v1]) ht, by norm_num⟩

/-- C26, the code on a fresh binary model of size 10002 with two levels, seed 7,
when every rand() draw is 1: the 10002/2 = 5001 draws of level 0 all select the
index 1, an odd number of times, yet the flips leave the array of zeros as it
is (one flip does, and so do the 5001), and the level_0 of the fitted model is
the initial base vector, every element 0. -/
theorem binary_flips_change_nothing :
    ∃ fitted w1 l0 w2 w3,
      ModelC.fit_mlmodel env0 world0 (fresh_model 10002 "binary") four_points 1
        (some four_labels) 7 = .ok (fitted, w1) ∧
      GraphC.get_vector_from_space fitted.space "level_0" = some l0 ∧
      l0.vector = List.replicate 10002 0 ∧
      Int.tdiv 10002 2 = 5001 ∧
      (∀ k : Nat, Int.tmod (env0.stream 7 k : Int) 10002 = 1) ∧
      ModelC.flip_bits env0 10002 1 (List.replicate 10002 0, srand world0 7) =
        .ok (List.replicate 10002 0, w2) ∧
      ModelC.flip_bits env0 10002 5001 (List.replicate 10002 0, srand world0 7) =
        .ok (List.replicate 10002 0, w3) := by
  obtain ⟨fitted, w1, l0, l1, hfit, g0, -, v0, -, -⟩ :=
    binary_levels_same env0 world0 10002 (by decide) (by decide) 7
  obtain ⟨w2, h2⟩ := zero_flips env0 10002 (by decide) 1 (srand world0 7)
  obtain ⟨w3, h3⟩ := zero_flips env0 10002 (by decide) 5001 (srand world0 7)
  have hdraw : ∀ k : Nat, Int.tmod (env0.stream 7 k : Int) 10002 = 1 := by
    intro k
    show Int.tmod ((1 : Nat) : Int) 10002 = 1
    decide
  exact ⟨fitted, w1, l0, w2, w3, hfit, g0, v0, by decide, hdraw, h2, h3⟩

/-- C27: fit_mlmodel exits when num_points < 3, when labels are given and
num_labels differs from num_points, and when labels are given and hold fewer
than two distinct values; create_mlmodel exits when size < 10000, when
levels < 2, and when the alphabet is neither binary nor bipolar. -/
theorem fit_and_create_failures (E : Env) (w : World) (model : MLModel)
    (points : List (List Rat)) (num_features : Int) (labels : Option (List String))
    (seed size levels : Int) (vtype : String) :
    (((points.length : Int) < 3 ∨ (∃ ls, labels = some ls ∧ ls.length ≠ points.length) ∨
        (∃ ls, labels = some ls ∧ ls.toFinset.card < 2)) →
      ∃ msg, ModelC.fit_mlmodel E w model points num_features labels seed =
        .error (.exit msg)) ∧
    ((size < 10000 ∨ levels < 2 ∨ (vtype ≠ "binary" ∧ vtype ≠ "bipolar")) →
      ∃ msg, ModelC.create_mlmodel size levels vtype = .error (.exit msg)) :=
  ⟨fit_mlmodel_checks E w model points num_features labels seed,
    create_mlmodel_checks size levels vtype⟩

/-- C27 at fit_mlmodel on four rows with the three labels a, b, a, and at
create_mlmodel(9999, 2, bipolar). -/
theorem fit_and_create_failures_witness :
    (∃ msg, ModelC.fit_mlmodel env0 world0 (fresh_model 10000 "bipolar") four_points 1
      (some ["a", "b", "a"]) 7 = .error (.exit msg)) ∧
    (∃ msg, ModelC.create_mlmodel 9999 2 "bipolar" = .error (.exit msg)) :=
  ⟨(fit_and_create_failures env0 world0 (fresh_model 10000 "bipolar") four_points 1
      (some ["a", "b", "a"]) 7 9999 2 "bipolar").1
      (Or.inr (Or.inl ⟨_, rfl, by decide⟩)),
    (fit_and_create_failures env0 world0 (fresh_model 10000 "bipolar") four_points 1
      (some ["a", "b", "a"]) 7 9999 2 "bipolar").2 (Or.inl (by decide))⟩

/-- C28: predict_mlmodel does not return when the test index set is empty;
when some test index is the index of no point of the space, the point indices
of the space being pairwise distinct (as on a model fit_mlmodel was never
called on, whose space is empty, and on the points point_0, point_1, ... of a
fitted model); and when some class of the model has no vector tagged with it
among the non-test points. -/
theorem predict_failures (E : Env) (w : World) (model : MLModel) (test_indices : List Int)
    (retraining_iterations : Int) (model_error_rate : Rat) :
    (test_indices = [] →
      ∃ f, ModelC.predict_mlmodel E w model test_indices retraining_iterations
        model_error_rate = .error f) ∧
    ((model.space.vectors.filterMap ModelC.point_index).Nodup →
      (∃ t ∈ test_indices, ∀ v ∈ model.space.vectors, ModelC.point_index v ≠ some t) →
      ∃ f, ModelC.predict_mlmodel E w model test_indices retraining_iterations
        model_error_rate = .error f) ∧
    ((∃ c ∈ model.classes,
        ∀ v ∈ ModelC.training_points test_indices model.space.vectors,
          ModelC.has_tag v c = false) →
      ∃ f, ModelC.predict_mlmodel E w model test_indices retraining_iterations
        model_error_rate = .error f) :=
  ⟨fun h => predict_mlmodel_fails E w model test_indices retraining_iterations
      model_error_rate (Or.inl h),
    fun h1 h2 => predict_mlmodel_fails E w model test_indices retraining_iterations
      model_error_rate (Or.inr (Or.inl ⟨h1, h2⟩)),
    fun h => predict_mlmodel_fails E w model test_indices retraining_iterations
      model_error_rate (Or.inr (Or.inr h))⟩

/-- C28 on the model create_mlmodel(10000, 2, bipolar) returns, on which
fit_mlmodel was never called, with the test index 0. -/
theorem predict_failures_witness :
    ModelC.create_mlmodel 10000 2 "bipolar" = .ok (fresh_model 10000 "bipolar") ∧
    ∃ f, ModelC.predict_mlmodel env0 world0 (fresh_model 10000 "bipolar") [0] 0 0 =
      .error f :=
  ⟨create_fresh 10000 (le_refl _) "bipolar" (Or.inr rfl),
    (predict_failures env0 world0 (fresh_model 10000 "bipolar") [0] 0 0).2.1
      (by simp [fresh_model]) ⟨0, by simp, by simp [fresh_model]⟩⟩

/-- C29, the code on a fresh bipolar model of size 10000 with two levels fitted
on the four rows, for every stream, clock and seed: predict_mlmodel with the
rows 2 and 3 as test set, called with 7 behind `retraining_iterations`, returns
and leaves 7 there, not 0; the function has no assignment to
`*retraining_iterations`. -/
theorem predict_keeps_retraining_iterations (E : Env) (w : World) (seed : Int) :
    ∃ fitted w1 result w2,
      ModelC.fit_mlmodel E w (fresh_model 10000 "bipolar") four_points 1 (some four_labels)
        seed = .ok (fitted, w1) ∧
      ModelC.predict_mlmodel E w1 fitted [2, 3] 7 0 = .ok (result, w2) ∧
      result.retraining_iterations = 7 ∧ result.retraining_iterations ≠ 0 := by
  obtain ⟨fitted, w1, hfit⟩ := four_fit_returns E w 10000 (le_refl _) (by decide)
    "bipolar" (Or.inr rfl) four_points 1 (Or.inl rfl) rfl four_points_rows seed
  obtain ⟨result, w2, hpred⟩ := four_predict_returns E w w1 w1 10000 (le_refl _)
    four_points rfl seed fitted hfit 7 0
  have h := (predict_mlmodel_outputs E w1 w2 fitted [2, 3] 7 0 result hpred).1
  exact ⟨fitted, w1, result, w2, hfit, hpred, h, by rw [h]; decide⟩

/-- C30, the code on two runs of fit_mlmodel with the same seed 7 on fresh
bipolar models of size 10004 with two levels and the same four rows and labels,
under a stream whose every value is the seed of the generator, the clock
standing at 0 in one run and at 1 in the other: create_vector, called for
level_0 with seed -1, seeds the generator with the clock value, so the flips of
level_1 follow the clock, and element 0 of level_1 is 1 in the first run and
-1 in the second. -/
theorem levels_follow_the_clock :
    ∃ fa wa fb wb la lb,
      (7 : Int) ≠ -1 ∧
      ModelC.fit_mlmodel (env_seeded 0) world0 (fresh_model 10004 "bipolar") four_points 1
        (some four_labels) 7 = .ok (fa, wa) ∧
      ModelC.fit_mlmodel (env_seeded 1) world0 (fresh_model 10004 "bipolar") four_points 1
        (some four_labels) 7 = .ok (fb, wb) ∧
      GraphC.get_vector_from_space fa.space "level_1" = some la ∧
      GraphC.get_vector_from_space fb.space "level_1" = some lb ∧
      la.vector[0]? = some 1 ∧ lb.vector[0]? = some (-1) ∧ la.vector ≠ lb.vector := by
  obtain ⟨fa, wa, la, hfa, ga, va⟩ := seeded_fit_level_one 0 10004 7 (by decide) (by decide)
    (by decide) (by decide) (by decide) (by decide) world0
  obtain ⟨fb, wb, lb, hfb, gb, vb⟩ := seeded_fit_level_one 1 10004 7 (by decide) (by decide)
    (by decide) (by decide) (by decide) (by decide) world0
  have ha : la.vector[0]? = some 1 := by
    rw [va, List.getElem?_set_self (by rw [List.length_replicate]; decide)]
  have hb : lb.vector[0]? = some (-1) := by
    rw [vb, List.getElem?_set_ne (by decide), List.getElem?_replicate, if_pos (by decide)]
  refine ⟨fa, wa, fb, wb, la, lb, by decide, hfa, hfb, ga, gb, ha, hb, ?_⟩
  intro h
  rw [h, hb] at ha
  cases ha

/-- C31, the code on the labels x, x, x, x, y, y, y, y with percentage 50 and
seed 0, under the stream 5, 9, 13, 17, ...: the input is valid, each class
occurs 4 times and (int)(50 * 4 / 100.0) = 2 indices per class are due, but
every draw `rand() % 4` is 1, the second draw of each class repeats the first
and is dropped, and the call returns one index per class, [1, 5]. -/
theorem percentage_split_drops_repeated_draws :
    ∃ w1, ParserC.percentage_split env_stride world0 eight_labels 50 0 =
        .ok ({ selection := [1, 5], num_selected_indices := 2 }, w1) ∧
      ((0 : Rat) < 50 ∧ (50 : Rat) ≤ 100 ∧ (0 : Int) ≤ 0 ∧ 2 ≤ eight_labels.toFinset.card) ∧
      ParserC.label_count "x" eight_labels = 4 ∧ ParserC.label_count "y" eight_labels = 4 ∧
      ParserC.to_int (50 * ((4 : Int) : Rat) / 100) = .ok 2 ∧
      ([1, 5] : List Int).length < 2 + 2 :=
  ⟨_, eight_split, ⟨by norm_num, by norm_num, le_refl _, by decide⟩, by decide, by decide,
    to_int_half, by decide⟩

/-- C32: on a percentage in (0, 100], a seed that is not negative and labels of
at least two distinct values (their number an int), percentage_split returns;
the returned array is strictly ascending, every index lies in [0, num_labels),
the array is a rearrangement of the indices selected before the sort, and
`*num_selected_indices` is its length.  On a percentage <= 0 or > 100, a
negative seed or fewer than two distinct labels the call exits. -/
theorem percentage_split_sorted (E : Env) (w : World) (labels : List String) (p : Rat)
    (seed : Int) :
    (0 < p → p ≤ 100 → 0 ≤ seed → 2 ≤ labels.toFinset.card →
      (labels.length : Int) ≤ INT_MAX →
      ∃ (selection : List Int) (split : Split) (w1 : World),
        ParserC.select_classes E labels p (ParserC.unique_labels labels [])
          ([], srand w seed) = .ok (selection, w1) ∧
        ParserC.percentage_split E w labels p seed = .ok (split, w1) ∧
        split.selection.Pairwise (fun x y => x < y) ∧
        (∀ x ∈ split.selection, 0 ≤ x ∧ x < labels.length) ∧
        split.selection.Perm selection ∧
        split.num_selected_indices = split.selection.length) ∧
    ((p ≤ 0 ∨ p > 100 ∨ seed < 0 ∨ labels.toFinset.card < 2) →
      ∃ msg, ParserC.percentage_split E w labels p seed = .error (.exit msg)) := by
  constructor
  · intro hp0 hp hseed hu hmax
    exact percentage_split_ok E w labels p seed hp0 hp hseed
      (by rw [unique_labels_card]; exact hu) hmax
  · intro h
    apply percentage_split_exits
    rw [unique_labels_card]
    exact h

/-- C32 at the labels x, x, x, x, y, y, y, y with percentage 50 and seed 0,
under the stream 5, 9, 13, 17, ... -/
theorem percentage_split_sorted_witness :
    ((0 : Rat) < 50 ∧ (50 : Rat) ≤ 100 ∧ (0 : Int) ≤ 0 ∧ 2 ≤ eight_labels.toFinset.card) ∧
    ∃ (selection : List Int) (split : Split) (w1 : World),
      ParserC.select_classes env_stride eight_labels 50 (ParserC.unique_labels eight_labels [])
        ([], srand world0 0) = .ok (selection, w1) ∧
      ParserC.percentage_split env_stride world0 eight_labels 50 0 = .ok (split, w1) ∧
      split.selection.Pairwise (fun x y => x < y) ∧
      (∀ x ∈ split.selection, 0 ≤ x ∧ x < eight_labels.length) ∧
      split.selection.Perm selection ∧
      split.num_selected_indices = split.selection.length :=
  ⟨⟨by norm_num, by norm_num, le_refl _, by decide⟩,
    (percentage_split_sorted env_stride world0 eight_labels 50 0).1 (by norm_num)
      (by norm_num) (le_refl _) (by decide) (by decide)⟩

/-- C33, as stated, fails: on the file with the header line id, f1, f2, class
and the rows A 0.1 0.2 x and B 0.9 0.8 y, separated by tabs, the header loop
takes every column after the first as a feature, up to a column `#` the header
does not have, so the features are f1, f2, class and num_features is 3; in the
row A the third value x is given to strtod, which converts nothing, and the
call exits with the numbers-only message for line 1 instead of returning. -/
theorem load_dataset_reads_class_as_feature :
    ParserC.read_header "\t".data "id\tf1\tf2\tclass\n".data = ["f1", "f2", "class"] ∧
    ParserC.load_dataset (some sample_file) "\t" =
      .error (.exit "The input dataset must contain numbers only! Error at line 1") :=
  ⟨by decide, by rfl⟩

/-- C33, amended: load_dataset with a tab separator on the file with the header
line id, f1, f2, #, class, where the column `#` ends the feature names, and the
rows A 0.1 0.2 x and B 0.9 0.8 y returns samples = [A, B], features = [f1, f2],
num_features = 2, the matrix [[0.1, 0.2], [0.9, 0.8]] and classes = [x, y]. -/
theorem load_dataset_with_sentinel :
    ParserC.read_header "\t".data "id\tf1\tf2\t#\tclass\n".data = ["f1", "f2"] ∧
    ParserC.load_dataset (some sentinel_file) "\t" =
      .ok { samples := ["A", "B"], features := ["f1", "f2"],
            content := [[1 / 10, 2 / 10], [9 / 10, 8 / 10]],
            classes := [some "x", some "y"], num_samples := 2, num_features := 2 } := by
  refine ⟨by decide, ?_⟩
  rw [sentinel_loads]
  simp only [strtod_cells.1, strtod_cells.2.1, strtod_cells.2.2.1, strtod_cells.2.2.2]

/-- C34, the code on the model fitted on a fresh bipolar model of size 10004
with two levels, the four rows and labels a, b, a, b and seed 7, under the
stream whose every value is the seed of the generator and the clock that stands
at 1: predict_mlmodel collects the test vectors in the order of the space, so
the test indices [3, 2] give the same predictions a, b as [2, 3]; with [2, 3]
the class b at position 1 is the one of point_3, with [3, 2] position 0, the
place of point_3, holds the class a of point_2. -/
theorem predictions_follow_space_order :
    ∃ fitted w1 ra wa rb wb,
      ModelC.fit_mlmodel (env_seeded 1) world0 (fresh_model 10004 "bipolar") four_points 1
        (some four_labels) 7 = .ok (fitted, w1) ∧
      ModelC.predict_mlmodel (env_seeded 1) w1 fitted [2, 3] 0 0 = .ok (ra, wa) ∧
      ModelC.predict_mlmodel (env_seeded 1) w1 fitted [3, 2] 0 0 = .ok (rb, wb) ∧
      ra.predictions = ["a", "b"] ∧ rb.predictions = ["a", "b"] ∧
      ra.predictions[1]? = some "b" ∧ rb.predictions[0]? = some "a" := by
  obtain ⟨fitted, w1, l0, l1, p0, p1, p2, p3, hfit, hvs, hcl, hn, ⟨t0, t1, -⟩, hvt, h0, h1, h2,
      h3⟩ := seeded_four_shape 1 10004 7 (by decide) (by decide) (by decide) (by decide)
    (by decide) (by decide) world0
  have ha := predict_four (env_seeded 1) w1 fitted l0 l1 p0 p1 p2 p3 10004 1 (by decide)
    (by decide) 0 0 hvs hcl hn ⟨t0, t1⟩ hvt h0 h1 h2 h3
  have hb := (predict_mlmodel_perm (env_seeded 1) w1 fitted [3, 2] [2, 3] 0 0
    (List.Perm.swap 2 3 [])).trans ha
  exact ⟨fitted, w1, _, _, _, _, hfit, ha, hb, rfl, rfl, rfl, rfl⟩

/-- C35: with the generator a deterministic stream and the clock an input, a
fit_mlmodel call that returns under a clock that reads the same value t at
every reading from the start of the call on leaves level_(i+2) element-wise
equal to level_i for every i with i + 2 < levels: create_vector, called for
each level with seed -1, seeds the generator with t and draws `size` values, so
level_(i+1) is level_i after the flips at the indices drawn from that state and
level_(i+2) is level_(i+1) after the flips at the same indices. -/
theorem levels_repeat_under_constant_clock (E : Env) (w w1 : World) (model fitted : MLModel)
    (points : List (List Rat)) (d : Int) (labels : Option (List String)) (seed t : Int)
    (hclock : ∀ k, w.clock_reads ≤ k → E.clock k = t) (hd : 1 ≤ d)
    (hfit : ModelC.fit_mlmodel E w model points d labels seed = .ok (fitted, w1))
    (i : Nat) (hi : (i : Int) + 2 < model.levels) :
    ∃ a m b : Vector,
      GraphC.get_vector_from_space fitted.space (ModelC.level_name (i : Int)) = some a ∧
      GraphC.get_vector_from_space fitted.space (ModelC.level_name ((i + 1 : Nat) : Int)) =
        some m ∧
      GraphC.get_vector_from_space fitted.space (ModelC.level_name ((i + 2 : Nat) : Int)) =
        some b ∧
      m.vector = ModelC.flips (ModelC.draws E model.size t model.size.toNat
        (Int.tdiv (Int.tdiv model.size 2) model.levels).toNat) a.vector ∧
      b.vector = ModelC.flips (ModelC.draws E model.size t model.size.toNat
        (Int.tdiv (Int.tdiv model.size 2) model.levels).toNat) m.vector ∧
      b.vector = a.vector := by
  obtain ⟨lvs, c0, hc0, hlen, -, hlook, hchain⟩ :=
    fit_levels E w w1 model fitted points d labels seed (by omega) hfit
  have hl : i + 2 < lvs.length := by omega
  have ga : lvs[i]? = some lvs[i] := List.getElem?_eq_getElem (by omega)
  have gm : lvs[i + 1]? = some lvs[i + 1] := List.getElem?_eq_getElem (by omega)
  have gb : lvs[i + 1 + 1]? = some lvs[i + 2] := List.getElem?_eq_getElem hl
  have e1 := hchain i _ _ ga gm
  have e2 := hchain (i + 1) _ _ gm gb
  rw [hclock _ (by omega)] at e1 e2
  refine ⟨lvs[i], lvs[i + 1], lvs[i + 2], (hlook i _ ga).1, (hlook (i + 1) _ gm).1,
    (hlook (i + 2) _ gb).1, e1, e2, ?_⟩
  rw [e2, e1, flips_twice]

/-- C35 at the bipolar model of size 10000 with three levels, the four rows
and labels, seed 7, under the stream whose every value is the seed of the
generator and the clock that stands at 5. -/
theorem levels_repeat_under_constant_clock_witness :
    ∃ fitted w1 a b,
      ModelC.fit_mlmodel (env_seeded 5) world0 (level_model 10000 3 "bipolar") four_points 1
        (some four_labels) 7 = .ok (fitted, w1) ∧
      GraphC.get_vector_from_space fitted.space (ModelC.level_name ((0 : Nat) : Int)) = some a ∧
      GraphC.get_vector_from_space fitted.space (ModelC.level_name ((0 + 2 : Nat) : Int)) =
        some b ∧
      b.vector = a.vector := by
  obtain ⟨fitted, w1, hfit⟩ := three_level_fit_returns (env_seeded 5) world0 10000 (le_refl _)
    (by decide) "bipolar" (Or.inr rfl) 7
  obtain ⟨a, m, b, ha, -, hb, -, -, hab⟩ :=
    levels_repeat_under_constant_clock (env_seeded 5) world0 w1 (level_model 10000 3 "bipolar")
      fitted four_points 1 (some four_labels) 7 5 (fun _ _ => rfl) (by decide) hfit 0
      (by decide)
  exact ⟨fitted, w1, a, b, hfit, ha, hb, hab⟩

/-- C36: with the generator a deterministic stream and the clock an input, an
add_edge call that returns and creates its two nodes, both absent before and of
different names, while the clock reads the same value at the two readings,
leaves two node vectors with the same elements, whatever the seed of the graph:
both are created with seed -1, which seeds the generator from the clock. -/
theorem add_edge_new_nodes_identical (E : Env) (w w2 : World) (g g2 : Graph) (n1 n2 : String)
    (weight : Rat)
    (hclock : E.clock w.clock_reads = E.clock (w.clock_reads + 1))
    (h1 : GraphC.get_vector_from_space g.space n1 = none)
    (h2 : GraphC.get_vector_from_space g.space n2 = none) (hne : n1 ≠ n2)
    (h : GraphC.add_edge E w g n1 n2 weight = .ok (g2, w2)) :
    ∃ a b, GraphC.get_vector_from_space g2.space n1 = some a ∧
      GraphC.get_vector_from_space g2.space n2 = some b ∧
      g2.space.vectors = g.space.vectors ++ [a, b] ∧ a.vector = b.vector := by
  obtain ⟨a, b, hv, ha, hb, -, -, hab⟩ := add_edge_twins E w w2 g g2 n1 n2 weight hclock h1 h2
    hne h
  exact ⟨a, b, ha, hb, hv, hab⟩

/-- C36 at the edge from A to B on the empty unweighted graph of dimension
10000 whose seed field is 7, under the clock that stands at 0. -/
theorem add_edge_new_nodes_identical_witness :
    ∃ g2 w2 a b,
      GraphC.add_edge env0 world0 { graph0 10000 false with seed := 7 } "A" "B" (-1) =
        .ok (g2, w2) ∧
      GraphC.get_vector_from_space g2.space "A" = some a ∧
      GraphC.get_vector_from_space g2.space "B" = some b ∧ a.vector = b.vector := by
  obtain ⟨g2, w2, h⟩ := add_edge_ab_returns 10000 (le_refl _) world0
    { graph0 10000 false with seed := 7 } false ⟨rfl, rfl, rfl, rfl, rfl⟩
  obtain ⟨a, b, ha, hb, -, hab⟩ :=
    add_edge_new_nodes_identical env0 world0 w2 { graph0 10000 false with seed := 7 } g2
      "A" "B" (-1) rfl rfl rfl (by decide) h
  exact ⟨g2, w2, a, b, h, ha, hb, hab⟩

/-- C37: after a fit_mlmodel call that returns, for either alphabet, every
number of levels L, every size and every stream, the hamming distance of
level_i and level_(i+1) is at most (size/2)/L in the integer division of C, for
every i with i + 1 < L, and the hamming distance of level_0 and level_(L-1) is
at most (L-1) times that. -/
theorem consecutive_levels_are_close (E : Env) (w w1 : World) (model fitted : MLModel)
    (points : List (List Rat)) (d : Int) (labels : Option (List String)) (seed : Int)
    (hd : 1 ≤ d)
    (hfit : ModelC.fit_mlmodel E w model points d labels seed = .ok (fitted, w1)) :
    (∀ i : Nat, (i : Int) + 1 < model.levels →
      ∃ (a b : Vector) (c : Int),
        GraphC.get_vector_from_space fitted.space (ModelC.level_name (i : Int)) = some a ∧
        GraphC.get_vector_from_space fitted.space (ModelC.level_name ((i + 1 : Nat) : Int)) =
          some b ∧
        SpaceC.vector_distance a b "hamming" = .ok (.hamming c) ∧
        c ≤ Int.tdiv (Int.tdiv model.size 2) model.levels) ∧
    (2 ≤ model.levels →
      ∃ (a b : Vector) (c : Int),
        GraphC.get_vector_from_space fitted.space (ModelC.level_name ((0 : Nat) : Int)) =
          some a ∧
        GraphC.get_vector_from_space fitted.space
          (ModelC.level_name ((model.levels.toNat - 1 : Nat) : Int)) = some b ∧
        ((model.levels.toNat - 1 : Nat) : Int) = model.levels - 1 ∧
        SpaceC.vector_distance a b "hamming" = .ok (.hamming c) ∧
        c ≤ (model.levels - 1) * Int.tdiv (Int.tdiv model.size 2) model.levels) := by
  obtain ⟨lvs, c0, -, hlen, hsize, hlook, hchain⟩ :=
    fit_levels E w w1 model fitted points d labels seed (by omega) hfit
  have hstep : ∀ (j : Nat) (a b : Vector), lvs[j]? = some a → lvs[j + 1]? = some b →
      hamming_loop a.vector b.vector 0 ≤
        ((Int.tdiv (Int.tdiv model.size 2) model.levels).toNat : Nat) := by
    intro j a b ha hb
    rw [hchain j a b ha hb]
    have := hamming_flips (ModelC.draws E model.size (E.clock (c0 + j)) model.size.toNat
      (Int.tdiv (Int.tdiv model.size 2) model.levels).toNat) a.vector
    rw [draws_length] at this
    exact this
  have hnext : 0 < model.levels →
      (((Int.tdiv (Int.tdiv model.size 2) model.levels).toNat : Nat) : Int) =
        Int.tdiv (Int.tdiv model.size 2) model.levels := by
    intro hL
    have h1 := hsize (by omega)
    exact Int.toNat_of_nonneg
      (Int.tdiv_nonneg (Int.tdiv_nonneg (by omega) (by decide)) (by omega))
  constructor
  · intro i hi
    have ga : lvs[i]? = some lvs[i] := List.getElem?_eq_getElem (by omega)
    have gb : lvs[i + 1]? = some lvs[i + 1] := List.getElem?_eq_getElem (by omega)
    obtain ⟨a1, a2, a3⟩ := hlook i _ ga
    obtain ⟨b1, b2, b3⟩ := hlook (i + 1) _ gb
    have hL : 0 < model.levels := by omega
    exact ⟨lvs[i], lvs[i + 1], hamming_loop lvs[i].vector lvs[i + 1].vector 0, a1, b1,
      hamming_distance_ok _ _ (a3.trans b3.symm) (a2.trans b2.symm),
      (hstep i _ _ ga gb).trans (le_of_eq (hnext hL))⟩
  · intro hL
    have h0 : 0 < lvs.length := by omega
    have hm : model.levels.toNat - 1 < lvs.length := by omega
    have ga : lvs[0]? = some lvs[0] := List.getElem?_eq_getElem h0
    have gb : lvs[model.levels.toNat - 1]? = some lvs[model.levels.toNat - 1] :=
      List.getElem?_eq_getElem hm
    obtain ⟨a1, a2, a3⟩ := hlook 0 _ ga
    obtain ⟨b1, b2, b3⟩ := hlook (model.levels.toNat - 1) _ gb
    have hcast : ((model.levels.toNat - 1 : Nat) : Int) = model.levels - 1 := by omega
    refine ⟨lvs[0], lvs[model.levels.toNat - 1],
      hamming_loop lvs[0].vector lvs[model.levels.toNat - 1].vector 0, a1, b1, hcast,
      hamming_distance_ok _ _ (a3.trans b3.symm) (a2.trans b2.symm), ?_⟩
    have := hamming_chain lvs model.size.toNat
      (Int.tdiv (Int.tdiv model.size 2) model.levels).toNat
      (fun j v hj => (hlook j v hj).2.2) hstep (model.levels.toNat - 1) _ _ ga gb
    rw [hnext (by omega), hcast] at this
    exact this

/-- C37 at the bipolar model of size 10000 with three levels, the four rows
and labels and seed 7, under the stream whose every value is the seed of the
generator: the bound on level_0 and level_1. -/
theorem consecutive_levels_are_close_witness :
    ∃ fitted w1 a b c,
      ModelC.fit_mlmodel (env_seeded 5) world0 (level_model 10000 3 "bipolar") four_points 1
        (some four_labels) 7 = .ok (fitted, w1) ∧
      GraphC.get_vector_from_space fitted.space (ModelC.level_name ((0 : Nat) : Int)) = some a ∧
      GraphC.get_vector_from_space fitted.space (ModelC.level_name ((0 + 1 : Nat) : Int)) =
        some b ∧
      SpaceC.vector_distance a b "hamming" = .ok (.hamming c) ∧
      c ≤ Int.tdiv (Int.tdiv (level_model 10000 3 "bipolar").size 2)
        (level_model 10000 3 "bipolar").levels := by
  obtain ⟨fitted, w1, hfit⟩ := three_level_fit_returns (env_seeded 5) world0 10000 (le_refl _)
    (by decide) "bipolar" (Or.inr rfl) 7
  obtain ⟨a, b, c, ha, hb, hc, hle⟩ :=
    (consecutive_levels_are_close (env_seeded 5) world0 w1 (level_model 10000 3 "bipolar")
      fitted four_points 1 (some four_labels) 7 (by decide) hfit).1 0 (by decide)
  exact ⟨fitted, w1, a, b, c, hfit, ha, hb, hc, hle⟩

/-- C38: in space.c the vector bind_vectors, bundle_vectors or subtract_vectors
returns carries the name of the first operand, so once one of the first operand
and the result is in a space, the insertion of the other exits with the
duplicate-name message, also after further insertions; and the example program
`main` of space.c, which inserts vec1, vec2 and the vector bound from them,
exits in the third insertion for every stream and clock and returns no space
at all. -/
theorem space_results_carry_the_first_name (E : Env) (w w1 : World) (v1 v2 r : Vector)
    (hop : SpaceC.bind_vectors E w v1 v2 = .ok (r, w1) ∨
      SpaceC.bundle_vectors E w v1 v2 = .ok (r, w1) ∨
      SpaceC.subtract_vectors E w v1 v2 = .ok (r, w1)) :
    r.name = v1.name ∧
    (∀ (S S1 S2 : Space) (more : List Vector), SpaceC.insert_vector S v1 = (.ok (), S1) →
      SpaceC.insert_each S1 more = (.ok (), S2) →
      SpaceC.insert_vector S2 r = (.error (.exit "Vector already in space"), S2)) ∧
    (∀ (S S1 S2 : Space) (more : List Vector), SpaceC.insert_vector S r = (.ok (), S1) →
      SpaceC.insert_each S1 more = (.ok (), S2) →
      SpaceC.insert_vector S2 v1 = (.error (.exit "Vector already in space"), S2)) ∧
    ∀ (E0 : Env) (w0 : World),
      SpaceC.main E0 w0 = .error (.exit "Vector already in space") := by
  have hf : r.name = v1.name ∧ r.vtype = v1.vtype ∧ r.size = v1.size := by
    rcases hop with h | h | h
    · exact space_result_fields mul_int E w w1 v1 v2 r h
    · exact space_result_fields add_int E w w1 v1 v2 r h
    · exact space_result_fields sub_int E w w1 v1 v2 r h
  obtain ⟨hn, ht, hs⟩ := hf
  refine ⟨hn, ?_, ?_, main_exits⟩
  · intro S S1 S2 more h1 h2
    exact insert_same_name_later S S1 S2 more v1 r hn ht hs h1 h2
  · intro S S1 S2 more h1 h2
    exact insert_same_name_later S S1 S2 more r v1 hn.symm ht.symm hs.symm h1 h2

/-- C38 at the vector bound from the all-ones and the all-minus-ones vector of
dimension 10000: it has the name of the all-ones vector and is refused by the
space that holds the all-ones vector. -/
theorem space_results_carry_the_first_name_witness :
    ∃ r w1, SpaceC.bind_vectors env0 world0 ones minus_ones = .ok (r, w1) ∧
      r.name = ones.name ∧
      SpaceC.insert_vector space_with_ones r =
        (.error (.exit "Vector already in space"), space_with_ones) := by
  obtain ⟨r, w1, hr⟩ := bind_ones_minus_ones env0 world0
  have h := space_results_carry_the_first_name env0 world0 w1 ones minus_ones r (Or.inl hr)
  exact ⟨r, w1, hr, h.1, h.2.1 empty_space space_with_ones space_with_ones [] insert_ones rfl⟩

end Hdlib
